import Mathlib

/-! # Pedersen verifiable secret sharing: a verification development

A shallow embedding of the Go packages `big` (the big-integer facade over the
OpenSSL BIGNUM backend) and `pedersen` (group validation, polynomials,
chunking and padding, split, verify, combine), followed by theorems about them.

Conventions of the embedding:

* a `*big.Int` is an `Int`; a nullable `*big.Int` stored in a struct or slice is
  an `Option Int`;
* a byte is a `Fin 256`, a byte slice a `List Byte`;
* a Go function returning `(T, error)` returns `Except Err T`; run-time panics
  and the exhaustion of the random tape are further constructors of `Err`;
* randomness is an explicit tape of raw outcomes, threaded through the code;
  the goroutines of `Split` find the outcomes for a chunk at the position of
  the tape that belongs to the chunk;
* the goroutines of an `errgroup` are all run, one per range: a panic in any
  of them ends the program, otherwise the error is that of the lowest failing
  range.
-/

/-- A byte. -/
abbrev Byte := Fin 256

/-- Backend operations that can fail (the argument of `newOpenSSLError`). -/
inductive BackendOp
  | BN_div
  | BN_mod
  | BN_mod_mul
  | BN_mod_exp
  | BN_mod_exp_mont
  | BN_mod_inverse
  | BN_rand_range
  | BN_MONT_CTX_set
  deriving DecidableEq, Repr

/-- Errors and abnormal terminations of the embedded code. -/
inductive Err
  | ErrNilPrime
  | ErrInvalidPrimeSize
  | ErrInvalidPrime
  | ErrNilGenerator
  | ErrInvalidGenerator
  | ErrInvalidOptions
  | ErrInvalidThreshold
  | ErrEmptySecret
  | ErrInsufficientAbscissae
  | ErrNilAbscissa
  | ErrNilShares
  | ErrNilShare
  | ErrNilCommitment
  | ErrInsufficientSharesParts
  | ErrInsufficientCommitments
  | ErrWrongSharesLen
  | ErrWrongSecretPart
  /-- An error reported by the OpenSSL backend. -/
  | backend (op : BackendOp)
  /-- Go run-time panic: index or slice bounds out of range. -/
  | panicIndexOutOfRange
  /-- Go run-time panic: nil pointer dereference. -/
  | panicNilDereference
  /-- Go run-time panic: integer divide by zero. -/
  | panicDivideByZero
  /-- The random tape of the model holds no further outcome. -/
  | tapeExhausted
  /-- A loop of the model ran out of fuel (the source would not terminate). -/
  | fuelExhausted
  deriving DecidableEq, Repr

/-- Whether an abnormal termination is a run-time panic of Go. A panic ends
the program in whichever goroutine it happens; an error is a value that the
function returns. -/
def Err.isPanic : Err → Bool
  | .panicIndexOutOfRange => true
  | .panicNilDereference => true
  | .panicDivideByZero => true
  | _ => false

deriving instance DecidableEq for Except

namespace big

/-- Big-endian value of a byte slice, as computed by `BN_bin2bn`. -/
def bytesToNat (buf : List Byte) : Nat :=
  buf.foldl (fun acc b => acc * 256 + b.val) 0

/-- Worker of `natToBytes`: peels base-256 digits, least significant first,
consing them onto the accumulator. -/
def natToBytesAux : Nat → Nat → List Byte → List Byte
  | 0, _, acc => acc
  | fuel + 1, n, acc =>
    if n = 0 then acc
    else natToBytesAux fuel (n / 256) (⟨n % 256, Nat.mod_lt n (by decide)⟩ :: acc)

/-- Minimal big-endian bytes of a natural number, as written by `BN_bn2bin`
into a buffer of `BN_num_bytes` bytes: the empty slice for 0. -/
def natToBytes (n : Nat) : List Byte := natToBytesAux n n []

/-- Worker of `bitLen`. -/
def bitLenAux : Nat → Nat → Nat
  | 0, _ => 0
  | fuel + 1, n => if n = 0 then 0 else bitLenAux fuel (n / 2) + 1

/-- Number of significant bits of a natural number (`BN_num_bits`). -/
def bitLen (n : Nat) : Nat := bitLenAux n n

/-- BitLen returns the length of the absolute value of z in bits. -/
def BitLen (z : Int) : Nat := bitLen z.natAbs

/-- BytesLen returns the size of z in bytes (`BN_num_bytes`). -/
def BytesLen (z : Int) : Nat := (BitLen z + 7) / 8

/-- SetBytes interprets buf as a big-endian unsigned integer. The source takes
the address of `buf[0]`, which panics on an empty slice. -/
def SetBytes (buf : List Byte) : Except Err Int :=
  match buf with
  | [] => .error Err.panicIndexOutOfRange
  | _ :: _ => .ok (bytesToNat buf : Nat)

/-- Bytes returns the absolute value of z as a big-endian byte slice. -/
def Bytes (z : Int) : List Byte := natToBytes z.natAbs

/-- SetUInt64 sets z to the value of x. -/
def SetUInt64 (x : Nat) : Int := (x : Int)

/-- Uint64 returns `BN_get_word`: the magnitude of z when it fits 64 bits, all
ones otherwise. -/
def Uint64 (z : Int) : Nat := if z.natAbs < 2 ^ 64 then z.natAbs else 2 ^ 64 - 1

/-- Lsh shifts x left by n bits (`BN_lshift` keeps the sign). -/
def Lsh (x : Int) (n : Nat) : Int := x * 2 ^ n

/-- Rsh shifts x right by n bits (`BN_rshift` shifts the magnitude). -/
def Rsh (x : Int) (n : Nat) : Int := x.tdiv (2 ^ n)

/-- Bitwise or of two bytes. -/
def byteOr (a b : Byte) : Byte :=
  ⟨(a.val ||| b.val) % 256, Nat.mod_lt _ (by decide)⟩

/-- Bitwise and of two bytes. -/
def byteAnd (a b : Byte) : Byte :=
  ⟨(a.val &&& b.val) % 256, Nat.mod_lt _ (by decide)⟩

/-- Or sets z = x | y, byte by byte on the big-endian magnitudes, the shorter
operand aligned to the right. -/
def Or (x y : Int) : Except Err Int :=
  let max := if BytesLen x < BytesLen y then y else x
  let min := if BytesLen x < BytesLen y then x else y
  let maxLen := BytesLen max
  let minLen := BytesLen min
  let minBytes := Bytes min
  let maxBytes := Bytes max
  let offset := maxLen - minLen
  let zBytes := maxBytes.take offset ++ List.zipWith byteOr minBytes (maxBytes.drop offset)
  SetBytes zBytes

/-- And sets z = x & y, byte by byte on the big-endian magnitudes; the leading
`offset` bytes of the result stay zero. -/
def And (x y : Int) : Except Err Int :=
  let max := if BytesLen x < BytesLen y then y else x
  let min := if BytesLen x < BytesLen y then x else y
  let maxLen := BytesLen max
  let minLen := BytesLen min
  let minBytes := Bytes min
  let maxBytes := Bytes max
  let offset := maxLen - minLen
  let zBytes := List.replicate offset (0 : Byte) ++
    List.zipWith byteAnd minBytes (maxBytes.drop offset)
  SetBytes zBytes

/-- Cmp compares z and x and returns -1, 0 or +1. -/
def Cmp (z x : Int) : Int := if z < x then -1 else if z = x then 0 else 1

/-- ConstantTimeEq compares the big-endian magnitudes of z and x with
`subtle.ConstantTimeCompare`, which is 1 exactly on equal slices. -/
def ConstantTimeEq (z x : Int) : Bool := decide (Bytes z = Bytes x)

/-- Mod sets z to x%y (`BN_mod`: the remainder takes the sign of x); the
backend reports an error for y = 0. -/
def Mod (x y : Int) : Except Err Int :=
  if y = 0 then .error (Err.backend BackendOp.BN_mod) else .ok (x.tmod y)

/-- Div sets z to the quotient x/y truncated towards zero (`BN_div`). -/
def Div (x y : Int) : Except Err Int :=
  if y = 0 then .error (Err.backend BackendOp.BN_div) else .ok (x.tdiv y)

/-- ModMul computes the nonnegative remainder of x*y modulo m (`BN_mod_mul`). -/
def ModMul (x y m : Int) : Except Err Int :=
  if m = 0 then .error (Err.backend BackendOp.BN_mod_mul) else .ok ((x * y) % m)

/-- Square-and-multiply worker: `powModAux fuel b e m` is `b ^ e % m` once
`fuel` covers the bits of `e`. -/
def powModAux : Nat → Nat → Nat → Nat → Nat
  | 0, _, _, m => 1 % m
  | fuel + 1, b, e, m =>
    if e = 0 then 1 % m
    else
      let h := powModAux fuel b (e / 2) m
      let sq := h * h % m
      if e % 2 = 1 then sq * b % m else sq

/-- Modular exponentiation on naturals. -/
def powMod (b e m : Nat) : Nat := powModAux e b e m

/-- Value computed by the backend's modular exponentiation: the base is first
reduced to its nonnegative residue, the exponent enters by its magnitude (the
backend reads the exponent's bits and never its sign), the modulus by its
magnitude. -/
def modExpValue (x y m : Int) : Int :=
  (powMod (x % m).natAbs y.natAbs m.natAbs : Nat)

/-- ModExp computes x to the y-th power modulo m (`BN_mod_exp`). For the
exponent 0 the backend returns 1 before it looks at the modulus (0 when the
modulus is 1 or -1), so also for the modulus 0, which it refuses for every
other exponent. -/
def ModExp (x y m : Int) : Except Err Int :=
  if m = 0 then
    if y = 0 then .ok 1 else .error (Err.backend BackendOp.BN_mod_exp)
  else .ok (modExpValue x y m)

/-- ModExpMont computes x to the y-th power modulo m with Montgomery
multiplication (`BN_mod_exp_mont`), which refuses an even modulus. -/
def ModExpMont (x y m : Int) : Except Err Int :=
  if m % 2 = 0 then .error (Err.backend BackendOp.BN_mod_exp_mont)
  else .ok (modExpValue x y m)

/-- Extended Euclid worker on naturals: the invariant is `r0 ≡ s0 * g` and
`r1 ≡ s1 * g` modulo `n`; it returns the last nonzero remainder with its
coefficient. -/
def invAux : Nat → Int → Int → Int → Int → Int → Int × Int
  | 0, _, r0, _, s0, _ => (r0, s0)
  | fuel + 1, n, r0, r1, s0, s1 =>
    if r1 = 0 then (r0, s0)
    else invAux fuel n r1 (r0 % r1) s1 ((s0 - (r0 / r1) * s1) % n)

/-- ModInverse sets z to the multiplicative inverse of g in the ring of
integers modulo n, in `[0, |n|)`; the backend reports an error when there is
none, and for a modulus of magnitude at most one. -/
def ModInverse (g n : Int) : Except Err Int :=
  if n.natAbs ≤ 1 then .error (Err.backend BackendOp.BN_mod_inverse)
  else
    let m : Int := n.natAbs
    let r := invAux (m.toNat + 1) m m (g % m) 0 1
    if r.1 = 1 then .ok r.2 else .error (Err.backend BackendOp.BN_mod_inverse)

/-- ProbablyPrime tests whether z is prime (`BN_check_prime`); the
probabilistic test, whose error rate is at most 2^-128, is idealised as exact
primality. Numbers below 2, negative ones included, are not prime. -/
def ProbablyPrime (z : Int) : Bool := decide (Nat.Prime z.toNat)

/-- The random tape: the raw outcomes the backend generator will produce. -/
abbrev Tape := List Nat

/-- RandRange generates a number z in the range 0 <= z < max
(`BN_rand_range`): the next raw outcome of the tape reduced into the range.
The backend reports an error for max <= 0. -/
def RandRange (max : Int) (tape : Tape) : Except Err (Int × Tape) :=
  if max ≤ 0 then .error (Err.backend BackendOp.BN_rand_range)
  else
    match tape with
    | [] => .error Err.tapeExhausted
    | r :: rest => .ok (((r : Int) % max), rest)

end big

namespace pedersen

open big

/-- Size in bytes of the trailer that records the leading zeros of a chunk. -/
def zerosInfoSizeBytes : Nat := 4

/-- Go slice expression `s[lo:hi]`, which panics unless `lo <= hi <= len(s)`. -/
def goSlice {α : Type} (s : List α) (lo hi : Nat) : Except Err (List α) :=
  if lo ≤ hi ∧ hi ≤ s.length then .ok ((s.take hi).drop lo)
  else .error Err.panicIndexOutOfRange

/-- Number of leading zero bytes of the buffer. -/
def leadingZeros : List Byte → Nat
  | [] => 0
  | n :: rest => if n = 0 then leadingZeros rest + 1 else 0

/-- Maps a byte slice to the integer that holds its big-endian value in the
high bits and its count of leading zero bytes in the low 32 bits. -/
def bigIntPadding (buff : List Byte) : Except Err Int := do
  let zerosCount := leadingZeros buff
  let zeros := SetUInt64 zerosCount
  let n ← SetBytes buff
  -- append leading zeros info to n
  let n := Lsh n (zerosInfoSizeBytes * 8)
  if zerosCount > 0 then
    Or n zeros
  else
    pure n

/-- Inverse of `bigIntPadding`: reads the count of leading zeros from the low
32 bits, cuts the trailer and emits the zeros followed by the bytes of the
remaining value. -/
def bigIntUnpadding (n : Int) : Except Err (List Byte) := do
  -- extract leading zeros info from trailing bytes
  let mask := SetUInt64 0x00000000FFFFFFFF
  let mask ← And n mask
  let zeros := Uint64 mask
  -- cut trailer
  let n := Rsh n (zerosInfoSizeBytes * 8)
  let res := List.replicate zeros (0 : Byte)
  let nBytes := Bytes n
  pure (res ++ nBytes)

/-- Chunk length used by `splitSecret`: the whole bytes of the bit length of
max, less the trailer, and 1 when nothing is left. -/
def partLenOf (max : Int) : Nat :=
  let partLen : Int := ((BitLen max / 8 : Nat) : Int) - (zerosInfoSizeBytes : Int)
  if partLen ≤ 0 then 1 else partLen.toNat

/-- Number of chunks of a value of the given length. -/
def partCountOf (valueLen partLen : Nat) : Nat :=
  let partCount := valueLen / partLen
  if partCount * partLen < valueLen then partCount + 1 else partCount

/-- The loop of `splitSecret`: pads chunks `i`, `i+1`, ... (`count` of them). -/
def splitSecretLoop (value : List Byte) (partLen : Nat) : Nat → Nat → Except Err (List Int)
  | 0, _ => .ok []
  | count + 1, i => do
    let end0 := (i + 1) * partLen
    let end1 := if end0 > value.length then value.length else end0
    let valuePart ← goSlice value (i * partLen) end1
    let n ← bigIntPadding valuePart
    let rest ← splitSecretLoop value partLen count (i + 1)
    pure (n :: rest)

/-- Cuts the value into chunks of `partLen` bytes and pads each of them. -/
def splitSecret (value : List Byte) (max : Int) : Except Err (List Int) :=
  let valueLen := value.length
  -- ensure every chunk value is smaller than max
  let partLen := partLenOf max
  let partCount := partCountOf valueLen partLen
  splitSecretLoop value partLen partCount 0

end pedersen

namespace pedersen

open big

/-- The final loop of `Combine`: unpads every value in order and appends the
bytes to the result. -/
def unpadLoop : List Int → List Byte → Except Err (List Byte)
  | [], res => .ok res
  | v :: vs, res => do
    let chunk ← bigIntUnpadding v
    unpadLoop vs (res ++ chunk)

end pedersen

namespace pedersen

open big

/-! ## Go idioms -/

/-- Dereference of a possibly nil pointer. -/
def deref {α : Type} : Option α → Except Err α
  | some a => .ok a
  | none => .error Err.panicNilDereference

/-- Go index expression `s[i]`, which panics outside the slice. -/
def goIndex {α : Type} (s : List α) (i : Nat) : Except Err α :=
  match s.get? i with
  | some a => .ok a
  | none => .error Err.panicIndexOutOfRange

/-- Runs a fallible body over a list, in order, stopping at the first error. -/
def mapE {α β : Type} (f : α → Except Err β) : List α → Except Err (List β)
  | [] => .ok []
  | a :: rest => do
    let b ← f a
    let bs ← mapE f rest
    pure (b :: bs)

/-- Runs a fallible body that consumes randomness over a list, in order,
threading the tape. -/
def mapTape {α β : Type} (f : α → Tape → Except Err (β × Tape)) :
    List α → Tape → Except Err (List β × Tape)
  | [], tape => .ok ([], tape)
  | a :: rest, tape => do
    let (b, tape) ← f a tape
    let (bs, tape) ← mapTape f rest tape
    pure (b :: bs, tape)

/-- The first panic among the outcomes of the workers, in the order of their
ranges. -/
def firstPanic {β : Type} : List (Except Err β) → Option Err
  | [] => none
  | .ok _ :: rest => firstPanic rest
  | .error e :: rest => if e.isPanic then some e else firstPanic rest

/-- The goroutines of an `errgroup.Group`, one per range, followed by its
`Wait`. Every goroutine is started and none is cancelled when another one
fails, so every range is worked on. A panic in any goroutine ends the program.
Otherwise `Wait` returns the first error that a goroutine returned (the model
takes the one of the lowest range), and without any failure the results of all
the workers are there. -/
def groupWait {α β : Type} (worker : α → Except Err β) (ranges : List α) :
    Except Err (List β) :=
  match firstPanic (ranges.map worker) with
  | some e => .error e
  | none => mapE worker ranges

/-! ## group.go -/

/-- Minimum bit length of the prime P. -/
def minPrimeBitLen : Nat := 64

/-- Group represents a cyclic group: primes P and Q with p = mq+1 and two
generators G and H; each field is a possibly nil `*big.Int`. -/
structure Group where
  P : Option Int
  Q : Option Int
  G : Option Int
  H : Option Int
  deriving DecidableEq, Repr

/-- Checks that P and Q are set, that P has at least 64 bits, that both are
probable primes and that Q divides P - 1. -/
def Group.validatePrimes (g : Group) : Except Err Unit :=
  match g.P, g.Q with
  | none, _ => .error Err.ErrNilPrime
  | _, none => .error Err.ErrNilPrime
  | some P, some Q =>
    if BitLen P < minPrimeBitLen then .error Err.ErrInvalidPrimeSize
    -- check that p and q are primes s.t. p=mq+1 where m is an integer
    else if !ProbablyPrime P then .error Err.ErrInvalidPrime
    else if !ProbablyPrime Q then .error Err.ErrInvalidPrime
    else do
      let pMinus := P - 1
      let pMinus ← Mod pMinus Q
      let zero := SetUInt64 0
      -- not safe prime
      if Cmp pMinus zero ≠ 0 then .error Err.ErrInvalidPrime
      else pure ()

/-- Checks that the generator is set and that generator^((p-1)/q) mod p != 1
and generator^q mod p = 1. -/
def Group.validateGenerator (g : Group) (generator : Option Int) : Except Err Unit :=
  match generator with
  | none => .error Err.ErrNilGenerator
  | some gen => do
    let P ← deref g.P
    let Q ← deref g.Q
    let exp := P - 1
    let exp ← Div exp Q
    let expected ← ModExp gen exp P
    -- g^((p-1)/q) mod p != 1
    if Cmp expected 1 = 0 then .error Err.ErrInvalidGenerator
    else do
      -- g^q mod p = 1
      let expected ← ModExp gen Q P
      if Cmp expected 1 ≠ 0 then .error Err.ErrInvalidGenerator
      else pure ()

/-- Validates the primes, then G, then H. -/
def Group.validate (g : Group) : Except Err Unit := do
  g.validatePrimes
  g.validateGenerator g.G
  g.validateGenerator g.H

/-! ## polynomial.go -/

/-- A polynomial: its coefficients, lowest degree first, and its order. -/
structure polynomial where
  coefficients : List (Option Int)
  order : Int
  deriving DecidableEq, Repr

/-- Draws a random number: the source sets bg to max - min, overwrites it with
`RandRange(max)` and adds min. -/
def genRandNum (min max : Int) (tape : Tape) : Except Err (Int × Tape) := do
  let bg := max
  let _bg := bg - min
  let (bg, tape) ← RandRange max tape
  let bg := bg + min
  pure (bg, tape)

/-- The resampling loop of `randInts`: draws again while the sample is already
in the check map. The fuel bounds the number of iterations of the model. -/
def resampleLoop (min max : Int) (checkMap : List Int) :
    Nat → Int → Tape → Except Err (Int × Tape)
  | 0, _, _ => .error Err.tapeExhausted
  | fuel + 1, val, tape =>
    if ¬ (val ∈ checkMap) then .ok (val, tape)
    else do
      let (val, tape) ← genRandNum min max tape
      resampleLoop min max checkMap fuel val tape

/-- The loop of `randInts` over the `n` slots of the slice. -/
def randIntsLoop (min max : Int) (distinct : Bool) :
    Nat → List Int → Tape → Except Err (List Int × Tape)
  | 0, _, tape => .ok ([], tape)
  | n + 1, checkMap, tape => do
    let (val, tape) ← genRandNum min max tape
    if distinct then
      let (val, tape) ← resampleLoop min max checkMap (tape.length + 1) val tape
      let (rest, tape) ← randIntsLoop min max distinct n (val :: checkMap) tape
      pure (val :: rest, tape)
    else
      let (rest, tape) ← randIntsLoop min max distinct n checkMap tape
      pure (val :: rest, tape)

/-- Fills a slice of length `n` with random numbers, pairwise distinct when
asked so. -/
def randInts (n : Nat) (min max : Int) (distinct : Bool) (tape : Tape) :
    Except Err (List Int × Tape) :=
  randIntsLoop min max distinct n [] tape

/-- Builds a polynomial of the given degree: coefficient 0 is the intercept
when there is one and random otherwise (an error of that draw is dropped and
leaves the coefficient nil), the others are random in `[0, order)`. -/
def newPolynomial (intercept : Option Int) (degree : Int) (order : Int) (tape : Tape) :
    Except Err (polynomial × Tape) :=
  let min := SetUInt64 0
  let (c0, tape) :=
    match intercept with
    | none =>
      match genRandNum min order tape with
      | .ok (c, tape) => (some c, tape)
      | .error _ => (none, tape)
    | some intercept => (some intercept, tape)
  if degree < 0 then .error Err.panicIndexOutOfRange
  else do
    let (rest, tape) ← randInts degree.toNat min order false tape
    pure ({ coefficients := c0 :: rest.map some, order := order }, tape)

/-- The loop of `evaluate`: Horner steps over the remaining coefficients, from
the highest one down. -/
def hornerLoop (x : Int) : List (Option Int) → Int → Except Err Int
  | [], out => .ok out
  | c :: rest, out => do
    let c ← deref c
    hornerLoop x rest (out * x + c)

/-- Evaluates the polynomial at x: coefficient 0 when x is 0, otherwise the
Horner sum reduced once by the order at the end. -/
def polynomial.evaluate (p : polynomial) (x : Int) : Except Err Int := do
  let zero := SetUInt64 0
  if Cmp x zero = 0 then
    let c0 ← goIndex p.coefficients 0
    deref c0
  else
    match p.coefficients.reverse with
    | [] => .error Err.panicIndexOutOfRange
    | top :: rest => do
      let out ← deref top
      let out ← hornerLoop x rest out
      Mod out p.order

/-- The inner loop of `interpolatePolynomial` for the basis of sample `j`. -/
def basisLoop (x order xj : Int) (j : Nat) : List (Nat × Int) → Int → Except Err Int
  | [], basis => .ok basis
  | (k, xk) :: rest, basis =>
    if j = k then basisLoop x order xj j rest basis
    else do
      let num := xk - x
      let denom := xk - xj
      let denom ← ModInverse denom order
      let num := num * denom
      let basis := basis * num
      let basis ← Mod basis order
      basisLoop x order xj j rest basis

/-- The outer loop of `interpolatePolynomial`. -/
def interpolateLoop (xSamples ySamples : List Int) (x order : Int) :
    List (Nat × Int) → Int → Except Err Int
  | [], result => .ok result
  | (j, xj) :: rest, result => do
    let basis ← basisLoop x order xj j xSamples.enum 1
    let yj ← goIndex ySamples j
    let basis := basis * yj
    interpolateLoop xSamples ySamples x order rest (result + basis)

/-- Lagrange interpolation at x modulo the order. -/
def interpolatePolynomial (xSamples ySamples : List Int) (x order : Int) : Except Err Int := do
  let result ← interpolateLoop xSamples ySamples x order xSamples.enum 0
  Mod result order

/-! ## secretpart.go -/

/-- SecretPart represents a secret part associated to a shareholder. -/
structure SecretPart where
  SShare : Option Int
  TShare : Option Int
  deriving DecidableEq, Repr

/-- The zero value `SecretPart{}`. -/
def SecretPart.empty : SecretPart := { SShare := none, TShare := none }

/-- Shares represents the shares obtained from splitting a secret. -/
structure Shares where
  Abscissae : List (Option Int)
  Parts : List (List SecretPart)
  Commitments : List (List (Option Int))
  deriving DecidableEq, Repr

/-! ## pedersen.go -/

/-- Minimum threshold of a scheme. -/
def minThreshold : Int := 2

/-- A Pedersen struct used for splitting, reconstructing, and verifying
secrets. -/
structure Pedersen where
  group : Group
  threshold : Int
  parts : Int
  concLimit : Int
  deriving DecidableEq, Repr

/-- Checks the (threshold, parts) scheme. -/
def Pedersen.validate (p : Pedersen) : Except Err Unit :=
  if p.threshold < minThreshold then .error Err.ErrInvalidThreshold
  else if p.parts < p.threshold then .error Err.ErrInsufficientSharesParts
  else .ok ()

/-- GetConcLimit returns the maximum number of concurrent operations. -/
def Pedersen.GetConcLimit (p : Pedersen) : Int := p.concLimit

/-- Caps the concurrency limit by the number of work items. -/
def Pedersen.adjustConcLimit (p : Pedersen) (num : Int) : Int :=
  let concLimit := p.GetConcLimit
  if concLimit > num then num else concLimit

/-- A range of indices `[start, end)`. -/
structure chunkRange where
  start : Int
  stop : Int
  deriving DecidableEq, Repr

/-- The loop of `balanceIndices`; the fuel bounds the iterations of the model. -/
def balanceLoop (length chunkSize : Int) : Nat → Int → Except Err (List chunkRange)
  | 0, start => if start < length then .error Err.fuelExhausted else .ok []
  | fuel + 1, start =>
    if start < length then do
      let stop := start + chunkSize
      let stop := if stop > length then length else stop
      let rest ← balanceLoop length chunkSize fuel (start + chunkSize)
      pure ({ start := start, stop := stop } :: rest)
    else .ok []

/-- Cuts `[0, length)` into ranges of `ceil(length/numChunks)` indices; the
integer division panics for zero `numChunks`. The arithmetic is that of the
integers: this is `balanceIndices` as `Split`, `Combine` and `VerifyShares`
call it, on the length of a slice and a worker count, whose sum does not
overflow the `int` of Go. `balanceIndices64` is the function on every `int`. -/
def Pedersen.balanceIndices (_p : Pedersen) (length numChunks : Int) :
    Except Err (List chunkRange) :=
  if numChunks = 0 then .error Err.panicDivideByZero
  else
    let chunkSize := (length + numChunks - 1).tdiv numChunks
    balanceLoop length chunkSize length.toNat 0

/-- The value that the `int` of Go holds after an arithmetic operation with
the exact result `z`, on a 64-bit platform: the result wraps around into
`[-2^63, 2^63)`. -/
def wrapInt (z : Int) : Int := (z + 2 ^ 63) % 2 ^ 64 - 2 ^ 63

/-- The loop of `balanceIndices` with the arithmetic of the 64-bit `int`; the
fuel bounds the iterations of the model. -/
def balanceLoop64 (length chunkSize : Int) : Nat → Int → Except Err (List chunkRange)
  | 0, start => if start < length then .error Err.fuelExhausted else .ok []
  | fuel + 1, start =>
    if start < length then do
      let stop := wrapInt (start + chunkSize)
      let stop := if stop > length then length else stop
      let rest ← balanceLoop64 length chunkSize fuel (wrapInt (start + chunkSize))
      pure ({ start := start, stop := stop } :: rest)
    else .ok []

/-- The function `balanceIndices` on two values of the 64-bit `int` of Go:
the sum `length + numChunks - 1`, the quotient and the steps of the loop wrap
around. The loop gets `length` iterations, which is as many as there are
indices to put into non-empty ranges; a loop that needs more does not return
in the model, `fuelExhausted`. -/
def Pedersen.balanceIndices64 (_p : Pedersen) (length numChunks : Int) :
    Except Err (List chunkRange) :=
  if numChunks = 0 then .error Err.panicDivideByZero
  else
    let chunkSize := wrapInt ((wrapInt (wrapInt (length + numChunks) - 1)).tdiv numChunks)
    balanceLoop64 length chunkSize length.toNat 0

/-- Sets a Montgomery context for the modulus (`BN_MONT_CTX_set`), which the
backend refuses for an even modulus. -/
def montSet (m : Int) : Except Err Unit :=
  if m % 2 = 0 then .error (Err.backend BackendOp.BN_MONT_CTX_set) else .ok ()

/-- The Pedersen commitment g^s * h^t mod p. -/
def Pedersen.commit (p : Pedersen) (s t : Int) : Except Err Int := do
  let G ← deref p.group.G
  let H ← deref p.group.H
  let P ← deref p.group.P
  let gs ← ModExpMont G s P
  let ht ← ModExpMont H t P
  ModMul gs ht P

end pedersen

namespace pedersen

open big

/-! ## split.go -/

/-- Result of splitting one chunk. -/
structure splitValue where
  index : Nat
  secretParts : List SecretPart
  secretComm : List (Option Int)
  deriving DecidableEq, Repr

/-- Splits one chunk: draws the polynomials F (intercept: the chunk) and K
(random intercept), evaluates both at every abscissa and commits to every pair
of coefficients. -/
def Pedersen.split (p : Pedersen) (index : Nat) (secret : Int) (abscissae : List (Option Int))
    (tape : Tape) : Except Err (splitValue × Tape) := do
  let Q ← deref p.group.Q
  let (F, tape) ← newPolynomial (some secret) (p.threshold - 1) Q tape
  let (K, tape) ← newPolynomial none (p.threshold - 1) Q tape
  let secretParts ← mapE (fun i => do
    let xi ← goIndex abscissae i
    let xi ← deref xi
    let s ← F.evaluate xi
    let t ← K.evaluate xi
    pure ({ SShare := some s, TShare := some t } : SecretPart)) (List.range p.parts.toNat)
  let commitments ← mapE (fun i => do
    let fi ← goIndex F.coefficients i
    let fi ← deref fi
    let ki ← goIndex K.coefficients i
    let ki ← deref ki
    let commitment ← p.commit fi ki
    pure (some commitment)) (List.range p.threshold.toNat)
  pure ({ index := index, secretParts := secretParts, secretComm := commitments }, tape)

/-- The body of one worker of `Split` over its chunk range: the chunks
`secrets` start at index `start`. -/
def Pedersen.splitWorker (p : Pedersen) (abscissae : List (Option Int)) (start : Nat)
    (secrets : List Int) (tape : Tape) : Except Err (List splitValue × Tape) := do
  let P ← deref p.group.P
  let Q ← deref p.group.Q
  montSet P
  mapTape (fun (e : Nat × Int) tape => do
    let (idx, secret) := e
    if Cmp secret Q > 0 then .error Err.ErrInvalidPrimeSize
    else p.split (start + idx) secret abscissae tape) secrets.enum tape

/-- The number of outcomes of the random generator that splitting one chunk
consumes: `threshold - 1` coefficients of F and `threshold` coefficients of
K. -/
def Pedersen.drawsPerChunk (p : Pedersen) : Nat :=
  2 * p.threshold.toNat - 1

/-- One goroutine of `Split` on its range of chunks. The goroutines draw from
one generator: in the model the outcomes for chunk `j` are those from position
`drawsPerChunk * j` of the tape on, whichever goroutine works on the chunk,
which is where a single worker over all the chunks finds them. -/
def Pedersen.splitRange (p : Pedersen) (abscissae : List (Option Int)) (splitted : List Int)
    (tape : Tape) (chunk : chunkRange) : Except Err (List splitValue) := do
  let secrets ← goSlice splitted chunk.start.toNat chunk.stop.toNat
  let (vals, _) ← p.splitWorker abscissae chunk.start.toNat secrets
    (tape.drop (p.drawsPerChunk * chunk.start.toNat))
  pure vals

/-- The workers of `Split` over the chunk ranges, and their results in the
order of the chunks. -/
def Pedersen.splitRanges (p : Pedersen) (abscissae : List (Option Int)) (splitted : List Int)
    (ranges : List chunkRange) (tape : Tape) : Except Err (List splitValue) := do
  let results ← groupWait (p.splitRange abscissae splitted tape) ranges
  pure results.flatten

/-- The writes of one result into the preallocated matrices of `Split`:
`parts[shareIdx][result.index] = result.secretParts[shareIdx]` for every
shareholder and `commitments[result.index] = result.secretComm`. -/
def writeResult (acc : List (List SecretPart) × List (List (Option Int))) (result : splitValue) :
    List (List SecretPart) × List (List (Option Int)) :=
  (acc.1.enum.map (fun (e : Nat × List SecretPart) =>
      e.2.set result.index ((result.secretParts.get? e.1).getD SecretPart.empty)),
    acc.2.set result.index result.secretComm)

/-- The abscissae `Split` works with: drawn at random, pairwise distinct, from
`[1, Q)` as `randInts` understands it when the caller gives nil, and the list of
the caller otherwise, which must hold at least `parts` entries. -/
def Pedersen.splitAbscissae (p : Pedersen) (abscissae : Option (List (Option Int)))
    (tape : Tape) : Except Err (List (Option Int) × Tape) :=
  match abscissae with
  | none => do
    let Q ← deref p.group.Q
    let (xs, tape) ← randInts p.parts.toNat 1 Q true tape
    pure (xs.map some, tape)
  | some abscissae =>
    if (abscissae.length : Int) < p.parts then .error Err.ErrInsufficientAbscissae
    else .ok (abscissae, tape)

/-- Everything `Split` does after its check of the secret: the abscissae are
those of the caller or drawn at random, the chunks are split range by range and
the results written into the preallocated matrices. -/
def Pedersen.splitCore (p : Pedersen) (secret : List Byte) (abscissae : Option (List (Option Int)))
    (tape : Tape) : Except Err Shares := do
  let (abscissae, tape) ← p.splitAbscissae abscissae tape
  -- split secret into many byte slices and process them
  let Q ← deref p.group.Q
  let splitted ← splitSecret secret Q
  let splittedLen := splitted.length
  let concLimit := p.adjustConcLimit splittedLen
  let chunksIndex ← p.balanceIndices splittedLen concLimit
  let parts := List.replicate p.parts.toNat (List.replicate splittedLen SecretPart.empty)
  let commitments : List (List (Option Int)) := List.replicate splittedLen []
  let results ← p.splitRanges abscissae splitted chunksIndex tape
  let (parts, commitments) := results.foldl writeResult (parts, commitments)
  pure { Abscissae := abscissae, Parts := parts, Commitments := commitments }

/-- Split takes a secret and generates a `parts` number of shares, `threshold`
of which are required to reconstruct the secret. If abscissae is nil, random
abscissae are generated. The result is the pair `(shares, err)` of the source. -/
def Pedersen.Split (p : Pedersen) (secret : List Byte) (abscissae : Option (List (Option Int)))
    (tape : Tape) : Option Shares × Option Err :=
  if secret.length = 0 then (none, some Err.ErrEmptySecret)
  else
    match p.splitCore secret abscissae tape with
    | .error err => (none, some err)
    | .ok shares => (some shares, none)

/-! ## verify.go -/

/-- The checks of `validateShares` on chunk `partIdx`, shareholder by
shareholder; returns the number of non-empty parts. -/
def countParts (s : Shares) (partsCount partIdx : Nat) : List Nat → Nat → Except Err Nat
  | [], parts => .ok parts
  | i :: rest, parts => do
    let row ← goIndex s.Parts i
    if row.length ≠ partsCount then .error Err.ErrWrongSharesLen
    else do
      let part ← goIndex row partIdx
      if SecretPart.empty = part then countParts s partsCount partIdx rest parts
      else if part.SShare = none ∨ part.TShare = none then .error Err.ErrNilShare
      else countParts s partsCount partIdx rest (parts + 1)

/-- The checks of `validateShares` on chunk `partIdx`. -/
def Pedersen.validateChunk (p : Pedersen) (s : Shares) (partsCount partIdx : Nat) :
    Except Err Unit := do
  let comms ← goIndex s.Commitments partIdx
  if (comms.length : Int) ≠ p.threshold then .error Err.ErrInsufficientCommitments
  else do
    let parts ← countParts s partsCount partIdx (List.range p.parts.toNat) 0
    if (parts : Int) < p.threshold then .error Err.ErrInsufficientSharesParts
    else do
      let _ ← mapE (fun i => do
        let c ← goIndex comms i
        if c = none then .error Err.ErrNilCommitment else pure ()) (List.range p.threshold.toNat)
      pure ()

/-- The function validateShares validates if the provided shares have a
correct shape. -/
def Pedersen.validateShares (p : Pedersen) (s : Option Shares) : Except Err Unit :=
  match s with
  | none => .error Err.ErrNilShares
  | some s =>
    if (s.Abscissae.length : Int) ≠ p.parts then .error Err.ErrInsufficientAbscissae
    else if (s.Parts.length : Int) ≠ p.parts then .error Err.ErrInsufficientSharesParts
    else do
      let _ ← mapE (fun i => do
        let a ← goIndex s.Abscissae i
        if a = none then .error Err.ErrNilAbscissa else pure ()) (List.range p.parts.toNat)
      let row0 ← goIndex s.Parts 0
      let partsCount := row0.length
      if s.Commitments.length ≠ partsCount then .error Err.ErrWrongSharesLen
      else do
        let _ ← mapE (fun partIdx => p.validateChunk s partsCount partIdx) (List.range partsCount)
        pure ()

/-- The loop of `vandermondeAbscissa`: appends the next power of the abscissa
modulo Q, `count` times. -/
def vandermondeLoop (abscissa Q : Int) : Nat → Int → Except Err (List Int)
  | 0, _ => .ok []
  | count + 1, prev => do
    let a ← ModMul prev abscissa Q
    let rest ← vandermondeLoop abscissa Q count a
    pure (a :: rest)

/-- The powers `1, x, x^2, ..., x^(threshold-1)` of the abscissa modulo Q. -/
def Pedersen.vandermondeAbscissa (p : Pedersen) (abscissa : Int) : Except Err (List Int) :=
  if p.threshold ≤ 0 then .error Err.panicIndexOutOfRange
  else do
    let Q ← deref p.group.Q
    let rest ← vandermondeLoop abscissa Q (p.threshold.toNat - 1) 1
    pure (1 :: rest)

/-- The loop of `verifyWithContext` that multiplies the commitments raised to
the powers of the abscissa. -/
def rhsLoop (P : Int) (commitments : List (Option Int)) (vandermondeAbscissa : List Int) :
    List Nat → Int → Except Err Int
  | [], rhs => .ok rhs
  | j :: rest, rhs => do
    let cj ← goIndex commitments j
    let cj ← deref cj
    let vj ← goIndex vandermondeAbscissa j
    let term ← ModExpMont cj vj P
    let rhs ← ModMul rhs term P
    rhsLoop P commitments vandermondeAbscissa rest rhs

/-- Verifies one part against the commitments of its chunk. -/
def Pedersen.verifyWithContext (p : Pedersen) (vandermondeAbscissa : List Int) (part : SecretPart)
    (commitments : List (Option Int)) : Except Err Unit :=
  match part.SShare, part.TShare with
  | none, _ => .error Err.ErrNilShare
  | _, none => .error Err.ErrNilShare
  | some sShare, some tShare =>
    if (commitments.length : Int) ≠ p.threshold then .error Err.ErrInsufficientCommitments
    else do
      let P ← deref p.group.P
      let c0 ← goIndex commitments 0
      let rhs ← deref c0
      -- rhs = c_0 * c_1^x * ... * c_j^{x^j}
      let rhs ← rhsLoop P commitments vandermondeAbscissa
        ((List.range p.threshold.toNat).drop 1) rhs
      let lhs ← p.commit sShare tShare
      let equals := ConstantTimeEq lhs rhs
      if !equals then .error Err.ErrWrongSecretPart
      else pure ()

/-- Verify verifies if the provided secret part is valid, according to the
provided abscissa value and commitments vector. -/
def Pedersen.Verify (p : Pedersen) (abscissa : Option Int) (part : SecretPart)
    (commitments : List (Option Int)) : Except Err Unit :=
  match abscissa with
  | none => .error Err.ErrNilAbscissa
  | some abscissa => do
    let P ← deref p.group.P
    montSet P
    let vandermondeAbscissa ← p.vandermondeAbscissa abscissa
    p.verifyWithContext vandermondeAbscissa part commitments

/-- The work of `VerifyShares` on shareholder `idx`. -/
def Pedersen.verifyShareholder (p : Pedersen) (s : Shares) (partsCount : Nat) (idx : Nat) :
    Except Err Unit := do
  -- compute Vandermonde abscissa
  let abscissa ← goIndex s.Abscissae idx
  let abscissa ← deref abscissa
  let vandermondeAbscissa ← p.vandermondeAbscissa abscissa
  let _ ← mapE (fun partIndex => do
    let row ← goIndex s.Parts idx
    let part ← goIndex row partIndex
    if SecretPart.empty = part then pure ()
    else do
      let comms ← goIndex s.Commitments partIndex
      p.verifyWithContext vandermondeAbscissa part comms) (List.range partsCount)
  pure ()

/-- The indices `start, start+1, ..., stop-1` of a range. -/
def chunkRange.indices (chunk : chunkRange) : List Nat :=
  (List.range (chunk.stop.toNat - chunk.start.toNat)).map (fun k => chunk.start.toNat + k)

/-- The body of one worker of `VerifyShares` over its range of shareholders. -/
def Pedersen.verifyWorker (p : Pedersen) (s : Shares) (partsCount : Nat) (chunk : chunkRange) :
    Except Err Unit := do
  let P ← deref p.group.P
  montSet P
  let _ ← mapE (fun idx => p.verifyShareholder s partsCount idx) chunk.indices
  pure ()

/-- VerifyShares verifies if every secret part is valid. -/
def Pedersen.VerifyShares (p : Pedersen) (s : Option Shares) : Except Err Unit := do
  p.validateShares s
  let s ← deref s
  let row0 ← goIndex s.Parts 0
  let partsCount := row0.length
  let concLimit := p.adjustConcLimit partsCount
  let chunksIndex ← p.balanceIndices p.parts concLimit
  let _ ← groupWait (fun chunk => p.verifyWorker s partsCount chunk) chunksIndex
  pure ()

/-! ## combine.go -/

/-- Result of combining one chunk. -/
structure combineValue where
  index : Nat
  value : Int
  deriving DecidableEq, Repr

/-- The loop of `combine` that collects the samples of the non-empty parts:
the ordinates are the SShare pointers, the abscissae stay possibly nil. -/
def collectSamples (abscissae : List (Option Int)) :
    List (Nat × SecretPart) → Except Err (List (Option Int) × List (Option Int))
  | [] => .ok ([], [])
  | (idx, part) :: rest =>
    if SecretPart.empty = part then collectSamples abscissae rest
    else do
      let x ← goIndex abscissae idx
      let (xs, ys) ← collectSamples abscissae rest
      pure (x :: xs, part.SShare :: ys)

/-- Combines the parts of one chunk: interpolates at 0 the samples of the
non-empty parts. -/
def Pedersen.combine (p : Pedersen) (index : Nat) (abscissae : List (Option Int))
    (parts : List SecretPart) : Except Err combineValue := do
  let (xSamples, ySamples) ← collectSamples abscissae parts.enum
  let zero := SetUInt64 0
  let Q ← deref p.group.Q
  let xSamples ← mapE deref xSamples
  let ySamples ← mapE deref ySamples
  let secret ← interpolatePolynomial xSamples ySamples zero Q
  pure { index := index, value := secret }

/-- The body of one worker of `Combine` over its chunk range. -/
def Pedersen.combineWorker (p : Pedersen) (shares : Shares) (chunk : chunkRange) :
    Except Err (List combineValue) :=
  mapE (fun idx => do
    let parts ← mapE (fun shareIdx => do
      let row ← goIndex shares.Parts shareIdx
      goIndex row idx) (List.range p.parts.toNat)
    p.combine idx shares.Abscissae parts) chunk.indices

/-- Combine combines the secret shares into the original secret. -/
def Pedersen.Combine (p : Pedersen) (shares : Option Shares) : Except Err (List Byte) := do
  p.validateShares shares
  let shares ← deref shares
  let row0 ← goIndex shares.Parts 0
  let splittedLen := row0.length
  let concLimit := p.adjustConcLimit splittedLen
  let chunksIndex ← p.balanceIndices splittedLen concLimit
  let results ← groupWait (fun chunk => p.combineWorker shares chunk) chunksIndex
  let values := results.flatten.map (fun v => v.value)
  unpadLoop values []

end pedersen

namespace pedersen

/-- The Schnorr group of the test-suite (`getTestSchnorrGroup`). -/
def testGroup : Group :=
  { P := some 17634709279010524619
    Q := some 8817354639505262309
    G := some 8414335786771157015
    H := some 15078279289296123424 }

end pedersen

namespace pedersen

/-- A (3, 2) scheme over the group of the test-suite. -/
def testPedersen : Pedersen :=
  { group := testGroup, threshold := 2, parts := 3, concLimit := 4 }

/-- A five-byte secret with a leading zero byte; it makes two chunks. -/
def testSecret : List Byte := [0, 1, 2, 3, 4]

/-- Outcomes of the random generator for the examples: the second draw
collides with the first one and is drawn again. -/
def testTape : big.Tape := [5, 5, 7, 8, 9, 10, 11, 12, 13, 14]

/-- What `Split` returns for `testSecret` with random abscissae drawn from
`testTape`. -/
def testShares : Shares :=
  { Abscissae := [some 6, some 8, some 9]
    Parts := [[⟨some 1108101562423, some 76⟩, ⟨some 3315714752584, some 97⟩],
              [⟨some 1108101562441, some 98⟩, ⟨some 3315714752608, some 125⟩],
              [⟨some 1108101562450, some 109⟩, ⟨some 3315714752620, some 139⟩]]
    Commitments := [[some 16042819420122053143, some 13770292334187234029],
                    [some 13009962040883416538, some 7338666233300091230]] }

/-- Abscissae of a caller that repeat, include 0 and are more than `parts`. -/
def repeatedAbscissae : List (Option Int) := [some 0, some 0, some 7, some 7]

/-- What `Split` returns for `testSecret` with `repeatedAbscissae`. -/
def repeatedShares : Shares :=
  { Abscissae := [some 0, some 0, some 7, some 7]
    Parts := [[⟨some 1108101562369, some 10⟩, ⟨some 3315714752512, some 13⟩],
              [⟨some 1108101562369, some 10⟩, ⟨some 3315714752512, some 13⟩],
              [⟨some 1108101562432, some 87⟩, ⟨some 3315714752596, some 111⟩]]
    Commitments := [[some 16042819420122053143, some 13770292334187234029],
                    [some 13009962040883416538, some 7338666233300091230]] }

/-- The shares `testShares` after emptying one part of every chunk: two
non-empty parts, the threshold, are left in each. -/
def testSharesEmptied : Shares :=
  { Abscissae := [some 6, some 8, some 9]
    Parts := [[SecretPart.empty, ⟨some 3315714752584, some 97⟩],
              [⟨some 1108101562441, some 98⟩, ⟨some 3315714752608, some 125⟩],
              [⟨some 1108101562450, some 109⟩, SecretPart.empty]]
    Commitments := [[some 16042819420122053143, some 13770292334187234029],
                    [some 13009962040883416538, some 7338666233300091230]] }

/-- A group whose Q has 64 bits, a multiple of 8: P = 44 Q + 1 has 70 bits, Q
is the P of the test-suite group, G = 2^44 mod P and H = 3^44 mod P. -/
def alignedGroup : Group :=
  { P := some 775927208276463083237
    Q := some 17634709279010524619
    G := some 17592186044416
    H := some 208843693907148149644 }

/-- A (3, 2) scheme over `alignedGroup`. -/
def alignedPedersen : Pedersen :=
  { group := alignedGroup, threshold := 2, parts := 3, concLimit := 4 }

/-- A secret of four bytes, the chunk length of `alignedGroup`, all of them
255. -/
def alignedSecret : List Byte := [255, 255, 255, 255]

/-- Abscissae of a caller with a negative entry. -/
def negativeAbscissae : List (Option Int) := [some (-1), some 2, some 3]

/-- What `Split` returns for `testSecret` with `negativeAbscissae`. -/
def negativeShares : Shares :=
  { Abscissae := [some (-1), some 2, some 3]
    Parts := [[⟨some 1108101562360, some (-1)⟩, ⟨some 3315714752500, some (-1)⟩],
              [⟨some 1108101562387, some 32⟩, ⟨some 3315714752536, some 41⟩],
              [⟨some 1108101562396, some 43⟩, ⟨some 3315714752548, some 55⟩]]
    Commitments := [[some 16042819420122053143, some 13770292334187234029],
                    [some 13009962040883416538, some 7338666233300091230]] }

end pedersen

namespace pedersen

open big

/-! ## Specification helpers -/

/-- Value of a padded chunk: its big-endian value above a 32-bit trailer that
holds its count of leading zero bytes. -/
def padValue (c : List Byte) : Nat := bytesToNat c * 2 ^ 32 + leadingZeros c

/-- Chunk `i` of a value cut into pieces of `pl` bytes. -/
def chunkAt (v : List Byte) (pl i : Nat) : List Byte := (v.take ((i + 1) * pl)).drop (i * pl)

/-- The chunks `i`, `i+1`, ... (`count` of them). -/
def chunksFrom (v : List Byte) (pl : Nat) : Nat → Nat → List (List Byte)
  | 0, _ => []
  | count + 1, i => chunkAt v pl i :: chunksFrom v pl count (i + 1)

/-- The chunks of a value, as `splitSecret` cuts them. -/
def chunksOf (v : List Byte) (max : Int) : List (List Byte) :=
  chunksFrom v (partLenOf max) (partCountOf v.length (partLenOf max)) 0

end pedersen

namespace pedersen

/-- Ranges that follow one another from `a` and end at `L`. -/
inductive Consecutive (L : Int) : Int → List chunkRange → Prop
  | nil : Consecutive L L []
  | cons (r : chunkRange) (rest : List chunkRange) :
      0 ≤ r.start → r.start < r.stop → r.stop ≤ L → Consecutive L r.stop rest →
      Consecutive L r.start (r :: rest)

end pedersen

namespace pedersen

/-- The sum of `c_i * x^i` over the coefficients, lowest degree first. -/
def hornerSum (x : Int) : List Int → Int
  | [] => 0
  | c :: rest => c + x * hornerSum x rest

/-- The value `evaluate` returns for the coefficients `cs`: coefficient 0 at
x = 0, otherwise the sum reduced by the order with the sign of the sum. -/
def evalValue (cs : List Int) (order x : Int) : Int :=
  if x = 0 then cs.headD 0 else (hornerSum x cs).tmod order

end pedersen

namespace pedersen

open big

/-- The value `commit` returns: g^s * h^t mod p. -/
def commitValue (G H P s t : Int) : Int := (modExpValue G s P * modExpValue H t P) % P

/-- The abscissa of shareholder `i`, when there is one. -/
def abscissaAt (abscissae : List (Option Int)) (i : Nat) : Int :=
  match abscissae.get? i with
  | some (some x) => x
  | _ => 0

/-- The part of a shareholder with abscissa x for the polynomials F and K. -/
def partOf (F K : List Int) (Q x : Int) : SecretPart :=
  { SShare := some (evalValue F Q x), TShare := some (evalValue K Q x) }

/-- The commitments to the coefficients of F and K. -/
def commitmentsOf (G H P : Int) (F K : List Int) (t : Nat) : List (Option Int) :=
  (List.range t).map (fun k => some (commitValue G H P (F.getD k 0) (K.getD k 0)))

/-- The result `split` returns for chunk `idx` drawn with F and K. -/
def splitValueOf (G H P Q : Int) (abscissae : List (Option Int)) (n t idx : Nat)
    (F K : List Int) : splitValue :=
  { index := idx
    secretParts := (List.range n).map (fun i => partOf F K Q (abscissaAt abscissae i))
    secretComm := commitmentsOf G H P F K t }

end pedersen

namespace pedersen

open big

/-- What validation establishes about a group. -/
structure GroupFacts (g : Group) (P Q G H : Int) : Prop where
  eq : g = { P := some P, Q := some Q, G := some G, H := some H }
  primeP : Nat.Prime P.toNat
  primeQ : Nat.Prime Q.toNat
  bits : minPrimeBitLen ≤ BitLen P
  dvd : (P - 1).tmod Q = 0
  genG1 : modExpValue G ((P - 1).tdiv Q) P ≠ 1
  genG2 : modExpValue G Q P = 1
  genH1 : modExpValue H ((P - 1).tdiv Q) P ≠ 1
  genH2 : modExpValue H Q P = 1

end pedersen

namespace pedersen

/-- The part of shareholder `i` for chunk `j`, the empty part outside the
matrix. -/
def Shares.partAt (s : Shares) (i j : Nat) : SecretPart :=
  ((s.Parts.get? i).bind (fun row => row.get? j)).getD SecretPart.empty

/-- The shareholders whose part for chunk `j` is not empty. -/
def Shares.holders (s : Shares) (j : Nat) : List Nat :=
  (List.range s.Parts.length).filter (fun i => decide (s.partAt i j ≠ SecretPart.empty))

/-- Number of non-empty parts of chunk `j`. -/
def Shares.nonEmptyCount (s : Shares) (j : Nat) : Nat := (s.holders j).length

/-- The shape `validateShares` accepts: `n` non-nil abscissae, `n` rows of `m`
parts that are empty or complete, `m` rows of `t` non-nil commitments, and at
least `t` non-empty parts in every chunk. -/
def Shares.wellShaped (s : Shares) (n t m : Nat) : Prop :=
  s.Abscissae.length = n ∧ (∀ a ∈ s.Abscissae, a ≠ none) ∧
  s.Parts.length = n ∧
  (∀ row ∈ s.Parts, row.length = m ∧
    ∀ part ∈ row, part = SecretPart.empty ∨ (part.SShare ≠ none ∧ part.TShare ≠ none)) ∧
  s.Commitments.length = m ∧
  (∀ row ∈ s.Commitments, row.length = t ∧ ∀ c ∈ row, c ≠ none) ∧
  (∀ j, j < m → t ≤ s.nonEmptyCount j)

/-- The shares `s2` are the shares `s` with some parts replaced by the empty
part: same abscissae, same commitments, same shape of the matrix of parts. -/
def Shares.emptiedFrom (s s2 : Shares) : Prop :=
  s2.Abscissae = s.Abscissae ∧ s2.Commitments = s.Commitments ∧
  List.Forall₂ (fun row row2 =>
    List.Forall₂ (fun part part2 => part2 = part ∨ part2 = SecretPart.empty) row row2)
    s.Parts s2.Parts

end pedersen

namespace pedersen

/-- Commitment `j` of a row of commitments, 0 where there is none. -/
def commAt (comms : List (Option Int)) (j : Nat) : Int := (comms.getD j none).getD 0

/-- The powers `x^0, x^1, ..., x^(t-1)` of an abscissa that `vandermondeAbscissa`
returns: the first is 1, the others are reduced modulo Q. -/
def vandermondeOf (x Q : Int) (t : Nat) : List Int :=
  1 :: (List.range (t - 1)).map (fun k => x ^ (k + 1) % Q)

/-- The right-hand side of the verification equation, in the integers modulo
P: `c_0 * c_1^(v_1) * ... * c_(t-1)^(v_(t-1))`. -/
def rhsValue (Pn : Nat) (comms : List (Option Int)) (vand : List Int) (t : Nat) : ZMod Pn :=
  ((commAt comms 0 : Int) : ZMod Pn) *
    (((List.range t).drop 1).map
      (fun j => ((commAt comms j : Int) : ZMod Pn) ^ (vand.getD j 0).natAbs)).prod

/-- The left-hand side of the verification equation, in the integers modulo
P: `g^|s| * h^|t|`. -/
def lhsValue (Pn : Nat) (G H : Int) (part : SecretPart) : ZMod Pn :=
  ((G : Int) : ZMod Pn) ^ (part.SShare.getD 0).natAbs *
    ((H : Int) : ZMod Pn) ^ (part.TShare.getD 0).natAbs

/-- The shares with the part of shareholder `i` for chunk `j` replaced. -/
def Shares.setPart (s : Shares) (i j : Nat) (part : SecretPart) : Shares :=
  { s with Parts := s.Parts.set i ((s.Parts.getD i []).set j part) }

/-- The product `c_0^(x^0) * c_1^(x^1) * ... * c_(t-1)^(x^(t-1))` of the
commitments of a chunk raised to the powers of an abscissa, over the integers. -/
def commitmentProduct (comms : List (Option Int)) (x : Int) (t : Nat) : Int :=
  ((List.range t).map (fun k => commAt comms k ^ (x.toNat ^ k))).prod

/-- The part of shareholder `i` for chunk `j` is empty or satisfies the
verification equation modulo P. -/
def Shares.partVerifies (s : Shares) (Pn : Nat) (Q G H : Int) (t i j : Nat) : Prop :=
  s.partAt i j = SecretPart.empty ∨
  lhsValue Pn G H (s.partAt i j) =
    rhsValue Pn (s.Commitments.getD j []) (vandermondeOf (abscissaAt s.Abscissae i) Q t) t

end pedersen

namespace pedersen

/-- The shares `testShares` with the SShare of shareholder 0 for chunk 0
replaced by its opposite. -/
def negatedShares : Shares :=
  testShares.setPart 0 0 { SShare := some (-1108101562423), TShare := some 76 }

end pedersen

namespace pedersen

open big

/-! ## group.go: generation -/

/-- The loop of `getGenerator`: draws g in `genRandNum(2, p-1)`, replaces it by
g^exp mod p and returns it unless it is 1. Every round consumes one outcome
of the tape, which bounds the number of rounds of the model. -/
def getGeneratorLoop (pMinus exp p : Int) : Nat → Tape → Except Err (Int × Tape)
  | 0, _ => .error Err.fuelExhausted
  | fuel + 1, tape => do
    let (g, tape) ← genRandNum (SetUInt64 2) pMinus tape
    let g ← ModExpMont g exp p
    if Cmp g 1 ≠ 0 then pure (g, tape)
    else getGeneratorLoop pMinus exp p fuel tape

/-- Draws a generator of the subgroup of order q of the integers modulo p. -/
def getGenerator (p q : Int) (tape : Tape) : Except Err (Int × Tape) := do
  montSet p
  let pMinus := p - 1
  let exp ← Div pMinus q
  getGeneratorLoop pMinus exp p (tape.length + 1) tape

/-- Generates a new Schnorr group of the given bits size. The backend's prime
generator (`BN_generate_prime_ex`) is the argument `GeneratePrime`, called
with the size and the safe-prime flag. -/
def NewSchnorrGroup (GeneratePrime : Int → Bool → Except Err Int) (bits : Int) (tape : Tape) :
    Except Err (Group × Tape) :=
  if bits < (minPrimeBitLen : Int) then .error Err.ErrInvalidPrimeSize
  else do
    -- Generate a large prime of size 'bits'
    let p ← GeneratePrime bits true
    -- Calculate the safe prime q=(p-1)/2 of order 'bits'
    let q := p - 1
    -- divide by 2
    let q := Rsh q 1
    let (g, tape) ← getGenerator p q tape
    let (h, tape) ← getGenerator p q tape
    pure ({ P := some p, Q := some q, G := some g, H := some h }, tape)

/-! ## pedersen.go: construction -/

/-- Size of the primes of the group that `NewPedersen` generates when none is
provided. -/
def defaultGroupPrimeBitLen : Int := 128

/-- The Pedersen struct while `NewPedersen` builds it: its group pointer may
still be nil. -/
structure pedersenDraft where
  group : Option Group
  threshold : Int
  parts : Int
  concLimit : Int
  deriving DecidableEq, Repr

/-- An option for configuring a Pedersen struct (the type `Option` of the
source): `CyclicGroup` sets the cyclic group to be used, `ConcLimit` the
maximum number of concurrent operations. -/
inductive Opt
  | CyclicGroup (group : Option Group)
  | ConcLimit (concLimit : Int)
  deriving DecidableEq, Repr

/-- Applies an option to the struct under construction. `ConcLimit` with a
number below 1 sets the limit to the default, the number of CPUs. -/
def Opt.apply (defaultConcLimit : Int) (o : Opt) (p : pedersenDraft) : pedersenDraft :=
  match o with
  | .CyclicGroup group => { p with group := group }
  | .ConcLimit concLimit =>
    let concLimit := if concLimit < 1 then defaultConcLimit else concLimit
    { p with concLimit := concLimit }

/-- The struct of `NewPedersen` after the default options and the options of
the caller, in this order. -/
def configure (defaultConcLimit : Int) (parts threshold : Int) (options : List Opt) :
    pedersenDraft :=
  let defaultPedersenOptions := [Opt.ConcLimit defaultConcLimit]
  let p : pedersenDraft := { group := none, threshold := threshold, parts := parts, concLimit := 0 }
  let p := defaultPedersenOptions.foldl (fun p o => o.apply defaultConcLimit p) p
  -- override default options
  options.foldl (fun p o => o.apply defaultConcLimit p) p

/-- The group of `NewPedersen`: the one of the options, validated, or a newly
generated one. -/
def resolveGroup (GeneratePrime : Int → Bool → Except Err Int) (group : Option Group)
    (tape : Tape) : Except Err (Group × Tape) :=
  match group with
  | some group => do
    group.validate
    pure (group, tape)
  | none => NewSchnorrGroup GeneratePrime defaultGroupPrimeBitLen tape

/-- NewPedersen creates a new Pedersen struct with the provided
(threshold, parts) scheme. A new randomly generated cyclic group is used if
none is provided. `defaultConcLimit` is `runtime.NumCPU()`. -/
def NewPedersen (defaultConcLimit : Int) (GeneratePrime : Int → Bool → Except Err Int)
    (parts threshold : Int) (options : List Opt) (tape : Tape) : Except Err (Pedersen × Tape) := do
  let d := configure defaultConcLimit parts threshold options
  let (group, tape) ← resolveGroup GeneratePrime d.group tape
  let p : Pedersen :=
    { group := group, threshold := d.threshold, parts := d.parts, concLimit := d.concLimit }
  p.validate
  pure (p, tape)

/-- GetThreshold returns the threshold of the Pedersen struct. -/
def Pedersen.GetThreshold (p : Pedersen) : Int := p.threshold

/-- GetParts returns the parts of the Pedersen struct. -/
def Pedersen.GetParts (p : Pedersen) : Int := p.parts

/-- GetGroup returns the cyclic group of the Pedersen struct. -/
def Pedersen.GetGroup (p : Pedersen) : Group := p.group

/-! ## Specification helpers for the shape and the verification of shares -/

/-- The shape rules of `validateShares` other than the count of non-empty
parts in every chunk. -/
def Shares.shaped (s : Shares) (n t m : Nat) : Prop :=
  s.Abscissae.length = n ∧ (∀ a ∈ s.Abscissae, a ≠ none) ∧
  s.Parts.length = n ∧
  (∀ row ∈ s.Parts, row.length = m ∧
    ∀ part ∈ row, part = SecretPart.empty ∨ (part.SShare ≠ none ∧ part.TShare ≠ none)) ∧
  s.Commitments.length = m ∧
  (∀ row ∈ s.Commitments, row.length = t ∧ ∀ c ∈ row, c ≠ none)

/-- The left-hand side of the verification equation as `commit` computes it,
over the integers: the exponents enter by their magnitude. -/
def verifyLhs (G H s t : Int) : Int := G ^ s.natAbs * H ^ t.natAbs

/-- The right-hand side of the verification equation as `verifyWithContext`
computes it, over the integers: the powers of the abscissa are reduced modulo
Q before they are used as exponents. -/
def verifyRhs (comms : List (Option Int)) (x Q : Int) (t : Nat) : Int :=
  ((List.range t).map (fun k => commAt comms k ^ (x ^ k % Q).natAbs)).prod

/-- The shares with commitment `k` of chunk `j` replaced. -/
def Shares.setCommitment (s : Shares) (j k : Nat) (c : Option Int) : Shares :=
  { s with Commitments := s.Commitments.set j ((s.Commitments.getD j []).set k c) }

/-- The number c with bit `b` of its magnitude flipped. -/
def flipBit (c : Int) (b : Nat) : Int :=
  if c < 0 then -((c.natAbs ^^^ 2 ^ b : Nat) : Int) else ((c.natAbs ^^^ 2 ^ b : Nat) : Int)

/-- The exponent that `verifyWithContext` gives commitment `k` for the
abscissa x: 1 for the first commitment, the power x^k reduced modulo Q for the
others. -/
def verifyExponent (x Q : Int) (k : Nat) : Nat :=
  if k = 0 then 1 else (x ^ k % Q).natAbs

end pedersen

namespace pedersen

/-- Shares without any chunk whose rows of parts differ in length: the row of
shareholder 1 holds a part, the others and the commitments are empty. -/
def raggedShares : Shares :=
  { Abscissae := [some 1, some 2, some 3]
    Parts := [[], [⟨some 1, some 1⟩], []]
    Commitments := [] }

/-- The shares `testShares` with the abscissa of shareholder 1 nil. -/
def nilAbscissaShares : Shares := { testShares with Abscissae := [some 6, none, some 9] }

/-- The shares `testShares` with two of the three parts of chunk 1 emptied. -/
def thinShares : Shares :=
  { Abscissae := [some 6, some 8, some 9]
    Parts := [[⟨some 1108101562423, some 76⟩, SecretPart.empty],
              [⟨some 1108101562441, some 98⟩, ⟨some 3315714752608, some 125⟩],
              [⟨some 1108101562450, some 109⟩, SecretPart.empty]]
    Commitments := [[some 16042819420122053143, some 13770292334187234029],
                    [some 13009962040883416538, some 7338666233300091230]] }

end pedersen

namespace pedersen

/-- A scheme with threshold three over the group of the test-suite. -/
def threePedersen : Pedersen :=
  { group := testGroup, threshold := 3, parts := 3, concLimit := 4 }

/-- Commitments outside the subgroup of order Q: the last one is P - 1, whose
Q-th power is not 1 modulo P. -/
def looseCommitments : List (Option Int) :=
  [some 8414335786771157015, some 1, some 17634709279010524618]

end pedersen

namespace pedersen

/-- What `Split` returns for `testSecret` when the caller gives the abscissa 0
for every shareholder. -/
def zeroAbscissaShares : Shares :=
  { Abscissae := [some 0, some 0, some 0]
    Parts := [[⟨some 1108101562369, some 10⟩, ⟨some 3315714752512, some 13⟩],
              [⟨some 1108101562369, some 10⟩, ⟨some 3315714752512, some 13⟩],
              [⟨some 1108101562369, some 10⟩, ⟨some 3315714752512, some 13⟩]]
    Commitments := [[some 16042819420122053143, some 13770292334187234029],
                    [some 13009962040883416538, some 7338666233300091230]] }

end pedersen

namespace pedersen

/-- What `Split` returns for the four-byte secret 1, 2, 3, 4 with random
abscissae drawn from `testTape`: two chunks, of three bytes and of one. -/
def fourByteShares : Shares :=
  { Abscissae := [some 6, some 8, some 9]
    Parts := [[⟨some 283686884868150, some 76⟩, ⟨some 17179869256, some 97⟩],
              [⟨some 283686884868168, some 98⟩, ⟨some 17179869280, some 125⟩],
              [⟨some 283686884868177, some 109⟩, ⟨some 17179869292, some 139⟩]]
    Commitments := [[some 13365328046549557990, some 13770292334187234029],
                    [some 4847883366066505344, some 7338666233300091230]] }

/-- A group as `NewSchnorrGroup` can return it: the primes of the test-suite
with both generators 0. -/
def zeroGeneratorGroup : Group :=
  { P := some 17634709279010524619
    Q := some 8817354639505262309
    G := some 0
    H := some 0 }

/-- What `Combine` reads of a part: whether it is the empty part, and its
SShare. -/
def SecretPart.combineView (part : SecretPart) : Bool × Option Int :=
  (decide (SecretPart.empty = part), part.SShare)

/-- The shares `testShares` with other TShare values and other commitments. -/
def reblindedShares : Shares :=
  { Abscissae := [some 6, some 8, some 9]
    Parts := [[⟨some 1108101562423, some 1⟩, ⟨some 3315714752584, some 2⟩],
              [⟨some 1108101562441, some 3⟩, ⟨some 3315714752608, some 4⟩],
              [⟨some 1108101562450, some 5⟩, ⟨some 3315714752620, some 6⟩]]
    Commitments := [[some 7, some 8], [some 9, some 10]] }

end pedersen

namespace pedersen

/-- Shares without any chunk: every row of parts and the commitments are
empty. -/
def emptyRowsShares : Shares :=
  { Abscissae := [some 1, some 2, some 3]
    Parts := [[], [], []]
    Commitments := [] }

end pedersen

namespace pedersen

/-- The scheme `alignedPedersen` with the concurrency limit 1: one worker. -/
def alignedPedersenOne : Pedersen := { alignedPedersen with concLimit := 1 }

/-- The scheme `alignedPedersen` with the concurrency limit 2. -/
def alignedPedersenTwo : Pedersen := { alignedPedersen with concLimit := 2 }

/-- A secret of two chunks under `alignedGroup`, whose chunk length is four
bytes: the first chunk, four bytes 255, is padded to a number above Q. -/
def highFirstSecret : List Byte := [255, 255, 255, 255, 1]

/-- A secret of two chunks under `alignedGroup`: the second chunk, four bytes
255, is padded to a number above Q, and the first one is not. -/
def highLastSecret : List Byte := [1, 2, 3, 4, 255, 255, 255, 255]

/-- Abscissae of a caller whose first entry is nil. -/
def nilFirstAbscissae : List (Option Int) := [none, some 2, some 3]

end pedersen

/-! # Theorems -/

/-! ## Bytes and magnitudes -/

namespace big

theorem bytesToNat_nil : bytesToNat [] = 0 := rfl

theorem bytesToNat_append (l1 l2 : List Byte) :
    bytesToNat (l1 ++ l2) = bytesToNat l1 * 256 ^ l2.length + bytesToNat l2 := by
  induction l2 using List.reverseRecOn generalizing l1 with
  | nil => simp [bytesToNat]
  | append_singleton l b ih =>
    have h1 : bytesToNat (l1 ++ (l ++ [b])) = bytesToNat (l1 ++ l) * 256 + b.val := by
      rw [← List.append_assoc]
      simp [bytesToNat, List.foldl_append]
    have h2 : bytesToNat (l ++ [b]) = bytesToNat l * 256 + b.val := by
      simp [bytesToNat, List.foldl_append]
    rw [h1, h2, ih]
    simp [pow_succ]
    ring

theorem bytesToNat_cons (b : Byte) (l : List Byte) :
    bytesToNat (b :: l) = b.val * 256 ^ l.length + bytesToNat l := by
  have h := bytesToNat_append [b] l
  simpa [bytesToNat] using h

theorem bytesToNat_lt (l : List Byte) : bytesToNat l < 256 ^ l.length := by
  induction l using List.reverseRecOn with
  | nil => simp [bytesToNat]
  | append_singleton l b ih =>
    have hb : b.val < 256 := b.isLt
    have e1 : bytesToNat [b] = b.val := by simp [bytesToNat]
    rw [bytesToNat_append, e1]
    simp only [List.length_append, List.length_singleton, pow_succ, pow_zero, one_mul, pow_one]
    omega

theorem bytesToNat_replicate_zero (k : Nat) : bytesToNat (List.replicate k (0 : Byte)) = 0 := by
  induction k with
  | zero => rfl
  | succ k ih =>
    rw [List.replicate_succ, bytesToNat_cons, ih]
    simp

theorem natToBytesAux_fuel (fuel : Nat) : ∀ (fuel2 n : Nat) (acc : List Byte),
    n ≤ fuel → n ≤ fuel2 → natToBytesAux fuel n acc = natToBytesAux fuel2 n acc := by
  induction fuel with
  | zero =>
    intro fuel2 n acc h1 _
    have hn : n = 0 := by omega
    subst hn
    cases fuel2 <;> simp [natToBytesAux]
  | succ fuel ih =>
    intro fuel2 n acc h1 h2
    by_cases hn : n = 0
    · subst hn
      cases fuel2 <;> simp [natToBytesAux]
    · cases fuel2 with
      | zero => omega
      | succ f2 =>
        simp only [natToBytesAux, hn, if_false]
        apply ih <;> omega

theorem natToBytesAux_acc (fuel : Nat) : ∀ (n : Nat) (acc : List Byte),
    natToBytesAux fuel n acc = natToBytesAux fuel n [] ++ acc := by
  induction fuel with
  | zero => intro n acc; simp [natToBytesAux]
  | succ fuel ih =>
    intro n acc
    by_cases hn : n = 0
    · simp [natToBytesAux, hn]
    · simp only [natToBytesAux, hn, if_false]
      rw [ih _ (_ :: acc), ih _ [_]]
      simp

theorem natToBytes_zero : natToBytes 0 = [] := rfl

theorem natToBytes_pos (n : Nat) (hn : n ≠ 0) :
    natToBytes n = natToBytes (n / 256) ++ [⟨n % 256, Nat.mod_lt n (by decide)⟩] := by
  unfold natToBytes
  cases n with
  | zero => exact absurd rfl hn
  | succ k =>
    simp only [natToBytesAux, hn, if_false]
    rw [natToBytesAux_acc]
    congr 1
    apply natToBytesAux_fuel <;> omega

theorem natToBytes_eq_nil (n : Nat) : natToBytes n = [] ↔ n = 0 := by
  constructor
  · intro h
    by_contra hn
    rw [natToBytes_pos n hn] at h
    simp at h
  · intro h
    subst h
    rfl

theorem bytesToNat_natToBytes (n : Nat) : bytesToNat (natToBytes n) = n := by
  induction n using Nat.strong_induction_on with
  | _ n ih =>
    by_cases hn : n = 0
    · subst hn; rfl
    · rw [natToBytes_pos n hn, bytesToNat_append, ih (n / 256) (by omega)]
      simp [bytesToNat]
      omega

/-- A slice with a nonzero first byte is the minimal form of its value. -/
theorem natToBytes_bytesToNat_cons (t : List Byte) : ∀ (h : Byte), h ≠ 0 →
    natToBytes (bytesToNat (h :: t)) = h :: t := by
  induction t using List.reverseRecOn with
  | nil =>
    intro h hh
    have hv : h.val ≠ 0 := fun e => hh (Fin.ext e)
    have hb : h.val < 256 := h.isLt
    have e1 : bytesToNat [h] = h.val := by simp [bytesToNat]
    rw [e1, natToBytes_pos _ hv]
    have e2 : h.val / 256 = 0 := by omega
    rw [e2, natToBytes_zero]
    simp
    apply Fin.ext
    simp
  | append_singleton t b ih =>
    intro h hh
    have e1 : bytesToNat (h :: (t ++ [b])) = bytesToNat (h :: t) * 256 + b.val := by
      have e0 := bytesToNat_append (h :: t) [b]
      have e3 : bytesToNat [b] = b.val := by simp [bytesToNat]
      rw [e3] at e0
      simpa using e0
    have hv : bytesToNat (h :: t) ≠ 0 := by
      intro e
      have := ih h hh
      rw [e, natToBytes_zero] at this
      simp at this
    have hb : b.val < 256 := b.isLt
    rw [e1, natToBytes_pos _ (by omega)]
    have e2 : (bytesToNat (h :: t) * 256 + b.val) / 256 = bytesToNat (h :: t) := by omega
    rw [e2, ih h hh]
    simp
    apply Fin.ext
    simp
    omega

end big

namespace big

theorem length_natToBytes_le_iff (n : Nat) : ∀ m : Nat,
    (natToBytes n).length ≤ m ↔ n < 256 ^ m := by
  induction n using Nat.strong_induction_on with
  | _ n ih =>
    intro m
    by_cases hn : n = 0
    · subst hn
      simp [natToBytes_zero]
    · rw [natToBytes_pos n hn]
      cases m with
      | zero => simp; omega
      | succ m =>
        have h := ih (n / 256) (by omega) m
        simp only [List.length_append, List.length_singleton, Nat.add_le_add_iff_right, pow_succ]
        rw [h]
        omega

theorem bitLenAux_fuel (fuel : Nat) : ∀ (fuel2 n : Nat),
    n ≤ fuel → n ≤ fuel2 → bitLenAux fuel n = bitLenAux fuel2 n := by
  induction fuel with
  | zero =>
    intro fuel2 n h1 _
    have hn : n = 0 := by omega
    subst hn
    cases fuel2 <;> simp [bitLenAux]
  | succ fuel ih =>
    intro fuel2 n h1 h2
    by_cases hn : n = 0
    · subst hn
      cases fuel2 <;> simp [bitLenAux]
    · cases fuel2 with
      | zero => omega
      | succ f2 =>
        simp only [bitLenAux, hn, if_false]
        congr 1
        apply ih <;> omega

theorem bitLen_zero : bitLen 0 = 0 := rfl

theorem bitLen_pos (n : Nat) (hn : n ≠ 0) : bitLen n = bitLen (n / 2) + 1 := by
  unfold bitLen
  cases n with
  | zero => exact absurd rfl hn
  | succ k =>
    simp only [bitLenAux, hn, if_false]
    congr 1
    apply bitLenAux_fuel <;> omega

theorem bitLen_le_iff (n : Nat) : ∀ k : Nat, bitLen n ≤ k ↔ n < 2 ^ k := by
  induction n using Nat.strong_induction_on with
  | _ n ih =>
    intro k
    by_cases hn : n = 0
    · subst hn
      simp [bitLen_zero]
    · rw [bitLen_pos n hn]
      cases k with
      | zero => simp; omega
      | succ k =>
        have h := ih (n / 2) (by omega) k
        simp only [Nat.add_le_add_iff_right, pow_succ]
        rw [h]
        omega

theorem pow256 (k : Nat) : 256 ^ k = 2 ^ (8 * k) := by
  rw [pow_mul]
  norm_num

theorem bytesLen_eq_length (n : Nat) : (bitLen n + 7) / 8 = (natToBytes n).length := by
  have key : ∀ m, (bitLen n + 7) / 8 ≤ m ↔ (natToBytes n).length ≤ m := by
    intro m
    rw [length_natToBytes_le_iff, pow256, ← bitLen_le_iff]
    omega
  apply le_antisymm
  · exact (key _).2 le_rfl
  · exact (key _).1 le_rfl

theorem BytesLen_eq (z : Int) : BytesLen z = (Bytes z).length :=
  bytesLen_eq_length z.natAbs

theorem or_split (i a b c d : Nat) (hb : b < 2 ^ i) (hd : d < 2 ^ i) :
    (2 ^ i * a + b) ||| (2 ^ i * c + d) = 2 ^ i * (a ||| c) + (b ||| d) := by
  have hbd : b ||| d < 2 ^ i := Nat.or_lt_two_pow hb hd
  apply Nat.eq_of_testBit_eq
  intro j
  rw [Nat.testBit_or, Nat.testBit_mul_pow_two_add _ hb, Nat.testBit_mul_pow_two_add _ hd,
    Nat.testBit_mul_pow_two_add _ hbd]
  by_cases hj : j < i <;> simp [hj]

theorem and_split (i a b c d : Nat) (hb : b < 2 ^ i) (hd : d < 2 ^ i) :
    (2 ^ i * a + b) &&& (2 ^ i * c + d) = 2 ^ i * (a &&& c) + (b &&& d) := by
  have hbd : b &&& d < 2 ^ i := Nat.and_lt_two_pow b hd
  apply Nat.eq_of_testBit_eq
  intro j
  rw [Nat.testBit_and, Nat.testBit_mul_pow_two_add _ hb, Nat.testBit_mul_pow_two_add _ hd,
    Nat.testBit_mul_pow_two_add _ hbd]
  by_cases hj : j < i <;> simp [hj]

theorem byteOr_val (a b : Byte) : (byteOr a b).val = a.val ||| b.val := by
  have h : a.val ||| b.val < 2 ^ 8 := Nat.or_lt_two_pow a.isLt b.isLt
  simp only [byteOr]
  exact Nat.mod_eq_of_lt h

theorem byteAnd_val (a b : Byte) : (byteAnd a b).val = a.val &&& b.val := by
  have h : a.val &&& b.val < 2 ^ 8 := Nat.and_lt_two_pow a.val b.isLt
  simp only [byteAnd]
  exact Nat.mod_eq_of_lt h

theorem bytesToNat_zipWith_or (a : List Byte) : ∀ b : List Byte, a.length = b.length →
    bytesToNat (List.zipWith byteOr a b) = bytesToNat a ||| bytesToNat b := by
  induction a with
  | nil =>
    intro b hb
    have hb2 : b = [] := List.length_eq_zero.mp hb.symm
    subst hb2
    simp [bytesToNat]
  | cons x a ih =>
    intro b hb
    cases b with
    | nil => simp at hb
    | cons y b =>
      have hl : a.length = b.length := by simpa using hb
      have h1 := bytesToNat_lt a
      have h2 := bytesToNat_lt b
      rw [List.zipWith_cons_cons, bytesToNat_cons, bytesToNat_cons, bytesToNat_cons, ih b hl,
        byteOr_val, List.length_zipWith, ← hl, Nat.min_self, pow256] at *
      rw [Nat.mul_comm x.val, Nat.mul_comm y.val, or_split _ _ _ _ _ h1 h2, Nat.mul_comm]

theorem bytesToNat_zipWith_and (a : List Byte) : ∀ b : List Byte, a.length = b.length →
    bytesToNat (List.zipWith byteAnd a b) = bytesToNat a &&& bytesToNat b := by
  induction a with
  | nil =>
    intro b hb
    have hb2 : b = [] := List.length_eq_zero.mp hb.symm
    subst hb2
    simp [bytesToNat]
  | cons x a ih =>
    intro b hb
    cases b with
    | nil => simp at hb
    | cons y b =>
      have hl : a.length = b.length := by simpa using hb
      have h1 := bytesToNat_lt a
      have h2 := bytesToNat_lt b
      rw [List.zipWith_cons_cons, bytesToNat_cons, bytesToNat_cons, bytesToNat_cons, ih b hl,
        byteAnd_val, List.length_zipWith, ← hl, Nat.min_self, pow256] at *
      rw [Nat.mul_comm x.val, Nat.mul_comm y.val, and_split _ _ _ _ _ h1 h2, Nat.mul_comm]

/-- The byte loop of `Or` on two magnitudes, the longer first. -/
theorem orBytes_value (M m : Nat) (h : (natToBytes m).length ≤ (natToBytes M).length) :
    bytesToNat ((natToBytes M).take ((natToBytes M).length - (natToBytes m).length) ++
      List.zipWith byteOr (natToBytes m)
        ((natToBytes M).drop ((natToBytes M).length - (natToBytes m).length))) = M ||| m := by
  set MB := natToBytes M with hMB
  set mB := natToBytes m with hmB
  set off := MB.length - mB.length with hoff
  have hdl : (MB.drop off).length = mB.length := by simp [List.length_drop]; omega
  have hM : bytesToNat MB = M := bytesToNat_natToBytes M
  have hm : bytesToNat mB = m := bytesToNat_natToBytes m
  have hsplit : bytesToNat MB =
      bytesToNat (MB.take off) * 256 ^ mB.length + bytesToNat (MB.drop off) := by
    conv_lhs => rw [← List.take_append_drop off MB]
    rw [bytesToNat_append, hdl]
  have hlo : bytesToNat (MB.drop off) < 256 ^ mB.length := by
    have := bytesToNat_lt (MB.drop off)
    rwa [hdl] at this
  have hmlt : bytesToNat mB < 256 ^ mB.length := bytesToNat_lt mB
  rw [bytesToNat_append, bytesToNat_zipWith_or _ _ hdl.symm, List.length_zipWith, hdl,
    Nat.min_self, ← hM, hsplit, hm]
  rw [pow256] at *
  have e := or_split (8 * mB.length) (bytesToNat (MB.take off)) (bytesToNat (MB.drop off)) 0 m
    hlo (by rw [← hm]; exact hmlt)
  simp only [Nat.mul_zero, Nat.zero_add, Nat.or_zero] at e
  rw [Nat.mul_comm, e, Nat.lor_comm m]

/-- The byte loop of `And` on two magnitudes, the longer first. -/
theorem andBytes_value (M m : Nat) (h : (natToBytes m).length ≤ (natToBytes M).length) :
    bytesToNat (List.replicate ((natToBytes M).length - (natToBytes m).length) (0 : Byte) ++
      List.zipWith byteAnd (natToBytes m)
        ((natToBytes M).drop ((natToBytes M).length - (natToBytes m).length))) = M &&& m := by
  set MB := natToBytes M with hMB
  set mB := natToBytes m with hmB
  set off := MB.length - mB.length with hoff
  have hdl : (MB.drop off).length = mB.length := by simp [List.length_drop]; omega
  have hM : bytesToNat MB = M := bytesToNat_natToBytes M
  have hm : bytesToNat mB = m := bytesToNat_natToBytes m
  have hsplit : bytesToNat MB =
      bytesToNat (MB.take off) * 256 ^ mB.length + bytesToNat (MB.drop off) := by
    conv_lhs => rw [← List.take_append_drop off MB]
    rw [bytesToNat_append, hdl]
  have hlo : bytesToNat (MB.drop off) < 256 ^ mB.length := by
    have := bytesToNat_lt (MB.drop off)
    rwa [hdl] at this
  have hmlt : bytesToNat mB < 256 ^ mB.length := bytesToNat_lt mB
  rw [bytesToNat_append, bytesToNat_zipWith_and _ _ hdl.symm, List.length_zipWith, hdl,
    Nat.min_self, bytesToNat_replicate_zero, ← hM, hsplit, hm]
  rw [pow256] at *
  have e := and_split (8 * mB.length) (bytesToNat (MB.take off)) (bytesToNat (MB.drop off)) 0 m
    hlo (by rw [← hm]; exact hmlt)
  simp only [Nat.mul_zero, Nat.zero_add, Nat.and_zero] at e
  rw [Nat.mul_comm (bytesToNat (MB.take off)), e, Nat.land_comm m]
  simp

end big

namespace big

theorem SetBytes_of_ne_nil (l : List Byte) (h : l ≠ []) :
    SetBytes l = .ok ((bytesToNat l : Nat) : Int) := by
  cases l with
  | nil => exact absurd rfl h
  | cons a l => rfl

theorem Bytes_eq_nil (z : Int) : Bytes z = [] ↔ z = 0 := by
  unfold Bytes
  rw [natToBytes_eq_nil]
  exact Int.natAbs_eq_zero

/-- On operands that are not both zero, `Or` is the bitwise or of the
magnitudes. -/
theorem Or_eq (x y : Int) (h : x ≠ 0 ∨ y ≠ 0) :
    Or x y = .ok ((x.natAbs ||| y.natAbs : Nat) : Int) := by
  unfold Or
  simp only [BytesLen_eq]
  by_cases hlt : (Bytes x).length < (Bytes y).length
  · simp only [hlt, if_true]
    have hv := orBytes_value y.natAbs x.natAbs (le_of_lt hlt)
    have hne : (Bytes y).take ((Bytes y).length - (Bytes x).length) ++
        List.zipWith byteOr (Bytes x)
          ((Bytes y).drop ((Bytes y).length - (Bytes x).length)) ≠ [] := by
      intro e
      have hl := congrArg List.length e
      simp only [List.length_append, List.length_take, List.length_zipWith, List.length_drop,
        List.length_replicate, List.length_nil] at hl
      omega
    rw [SetBytes_of_ne_nil _ hne]
    unfold Bytes at hv ⊢
    rw [hv, Nat.lor_comm]
  · simp only [hlt, if_false]
    have hle : (Bytes y).length ≤ (Bytes x).length := not_lt.mp hlt
    have hv := orBytes_value x.natAbs y.natAbs hle
    have hx : Bytes x ≠ [] := by
      intro e
      have hy : Bytes y = [] := by
        apply List.length_eq_zero.mp
        rw [e] at hle
        simpa using hle
      rcases h with h | h
      · exact h ((Bytes_eq_nil x).1 e)
      · exact h ((Bytes_eq_nil y).1 hy)
    have hne : (Bytes x).take ((Bytes x).length - (Bytes y).length) ++
        List.zipWith byteOr (Bytes y)
          ((Bytes x).drop ((Bytes x).length - (Bytes y).length)) ≠ [] := by
      intro e
      have hl := congrArg List.length e
      have hpos : 0 < (Bytes x).length := List.length_pos.mpr hx
      simp only [List.length_append, List.length_take, List.length_zipWith, List.length_drop,
        List.length_replicate, List.length_nil] at hl
      omega
    rw [SetBytes_of_ne_nil _ hne]
    unfold Bytes at hv ⊢
    rw [hv]

/-- On operands that are not both zero, `And` is the bitwise and of the
magnitudes. -/
theorem And_eq (x y : Int) (h : x ≠ 0 ∨ y ≠ 0) :
    And x y = .ok ((x.natAbs &&& y.natAbs : Nat) : Int) := by
  unfold And
  simp only [BytesLen_eq]
  by_cases hlt : (Bytes x).length < (Bytes y).length
  · simp only [hlt, if_true]
    have hv := andBytes_value y.natAbs x.natAbs (le_of_lt hlt)
    have hne : List.replicate ((Bytes y).length - (Bytes x).length) (0 : Byte) ++
        List.zipWith byteAnd (Bytes x)
          ((Bytes y).drop ((Bytes y).length - (Bytes x).length)) ≠ [] := by
      intro e
      have hl := congrArg List.length e
      simp only [List.length_append, List.length_take, List.length_zipWith, List.length_drop,
        List.length_replicate, List.length_nil] at hl
      omega
    rw [SetBytes_of_ne_nil _ hne]
    unfold Bytes at hv ⊢
    rw [hv, Nat.land_comm]
  · simp only [hlt, if_false]
    have hle : (Bytes y).length ≤ (Bytes x).length := not_lt.mp hlt
    have hv := andBytes_value x.natAbs y.natAbs hle
    have hx : Bytes x ≠ [] := by
      intro e
      have hy : Bytes y = [] := by
        apply List.length_eq_zero.mp
        rw [e] at hle
        simpa using hle
      rcases h with h | h
      · exact h ((Bytes_eq_nil x).1 e)
      · exact h ((Bytes_eq_nil y).1 hy)
    have hne : List.replicate ((Bytes x).length - (Bytes y).length) (0 : Byte) ++
        List.zipWith byteAnd (Bytes y)
          ((Bytes x).drop ((Bytes x).length - (Bytes y).length)) ≠ [] := by
      intro e
      have hl := congrArg List.length e
      have hpos : 0 < (Bytes x).length := List.length_pos.mpr hx
      simp only [List.length_append, List.length_take, List.length_zipWith, List.length_drop,
        List.length_replicate, List.length_nil] at hl
      omega
    rw [SetBytes_of_ne_nil _ hne]
    unfold Bytes at hv ⊢
    rw [hv]

end big

namespace pedersen

open big

/-! ## Padding and chunking -/

theorem leadingZeros_le_length (c : List Byte) : leadingZeros c ≤ c.length := by
  induction c with
  | nil => simp [leadingZeros]
  | cons h t ih =>
    simp only [leadingZeros]
    split
    · simp; omega
    · simp

theorem replicate_leadingZeros_append (c : List Byte) :
    List.replicate (leadingZeros c) (0 : Byte) ++ natToBytes (bytesToNat c) = c := by
  induction c with
  | nil => rfl
  | cons h t ih =>
    by_cases hh : h = 0
    · subst hh
      have e : bytesToNat ((0 : Byte) :: t) = bytesToNat t := by
        rw [bytesToNat_cons]; simp
      simp only [leadingZeros, if_true, e, List.replicate_succ, List.cons_append, ih]
    · simp only [leadingZeros, hh, if_false, List.replicate_zero, List.nil_append]
      exact natToBytes_bytesToNat_cons t h hh

theorem bigIntPadding_eq (c : List Byte) (hne : c ≠ []) (hz : leadingZeros c < 2 ^ 32) :
    bigIntPadding c = .ok ((padValue c : Nat) : Int) := by
  unfold bigIntPadding
  rw [SetBytes_of_ne_nil c hne]
  simp only [bind, Except.bind, Lsh, zerosInfoSizeBytes, SetUInt64, pure, Except.pure, padValue]
  by_cases h0 : leadingZeros c > 0
  · rw [if_pos h0, Or_eq _ _ (Or.inr (by exact_mod_cast (Nat.pos_iff_ne_zero.mp h0)))]
    congr 1
    have e1 : (((bytesToNat c : Nat) : Int) * 2 ^ (4 * 8)).natAbs = 2 ^ 32 * bytesToNat c := by
      have : ((bytesToNat c : Nat) : Int) * 2 ^ (4 * 8) = ((2 ^ 32 * bytesToNat c : Nat) : Int) := by
        push_cast; ring
      rw [this, Int.natAbs_ofNat]
    rw [e1, Int.natAbs_ofNat, ← Nat.mul_add_lt_is_or hz, Nat.mul_comm]
  · rw [if_neg h0]
    have : leadingZeros c = 0 := by omega
    rw [this]
    push_cast
    ring_nf

theorem bigIntUnpadding_ofNat (N : Nat) :
    bigIntUnpadding (N : Int) =
      .ok (List.replicate (N % 2 ^ 32) (0 : Byte) ++ natToBytes (N / 2 ^ 32)) := by
  have e1 : N &&& (0x00000000FFFFFFFF : Nat) = N % 2 ^ 32 :=
    Nat.and_pow_two_sub_one_eq_mod N 32
  have hAnd : big.And (N : Int) (SetUInt64 0x00000000FFFFFFFF) =
      .ok ((N % 2 ^ 32 : Nat) : Int) := by
    rw [And_eq _ _ (Or.inr (by decide))]
    unfold SetUInt64
    rw [Int.natAbs_ofNat, Int.natAbs_ofNat, e1]
  have e3 : ((N : Int).tdiv (2 ^ (4 * 8))).natAbs = N / 2 ^ 32 := by
    have : ((N : Int).tdiv (2 ^ (4 * 8))) = ((N / 2 ^ 32 : Nat) : Int) := by
      rw [Int.tdiv_eq_ediv (by positivity) (by positivity)]
      norm_cast
    rw [this, Int.natAbs_ofNat]
  have hlt : N % 2 ^ 32 < 2 ^ 64 := lt_of_lt_of_le (Nat.mod_lt _ (by positivity)) (by norm_num)
  unfold bigIntUnpadding
  simp only []
  rw [hAnd]
  simp only [bind, Except.bind, pure, Except.pure, zerosInfoSizeBytes, Rsh, Bytes, Uint64,
    Int.natAbs_ofNat, e3, if_pos hlt]

theorem unpad_padValue (c : List Byte) (hz : leadingZeros c < 2 ^ 32) :
    bigIntUnpadding ((padValue c : Nat) : Int) = .ok c := by
  rw [bigIntUnpadding_ofNat]
  have e1 : padValue c % 2 ^ 32 = leadingZeros c := by
    unfold padValue; omega
  have e2 : padValue c / 2 ^ 32 = bytesToNat c := by
    unfold padValue; omega
  rw [e1, e2, replicate_leadingZeros_append]

end pedersen

namespace pedersen

open big

theorem length_chunkAt (v : List Byte) (pl i : Nat) :
    (chunkAt v pl i).length = min ((i + 1) * pl) v.length - i * pl := by
  simp [chunkAt, List.length_drop, List.length_take]

theorem length_chunksFrom (v : List Byte) (pl : Nat) : ∀ count i,
    (chunksFrom v pl count i).length = count := by
  intro count
  induction count with
  | zero => intro i; rfl
  | succ c ih => intro i; simp [chunksFrom, ih]

theorem partLenOf_pos (max : Int) : 1 ≤ partLenOf max := by
  unfold partLenOf
  simp only []
  split <;> omega

theorem partLenOf_le (max : Int) : partLenOf max ≤ BitLen max / 8 + 1 := by
  unfold partLenOf zerosInfoSizeBytes
  simp only []
  split <;> omega

theorem partLenOf_lt (max : Int) (h : BitLen max < 2 ^ 31) : partLenOf max < 2 ^ 32 := by
  have := partLenOf_le max
  omega

theorem partCountOf_spec (L pl : Nat) (hpl : 1 ≤ pl) :
    (partCountOf L pl ≠ 0 → (partCountOf L pl - 1) * pl < L) ∧ L ≤ partCountOf L pl * pl := by
  unfold partCountOf
  simp only []
  have h1 : L / pl * pl ≤ L := Nat.div_mul_le_self L pl
  have h2 : L < (L / pl + 1) * pl := by
    rw [Nat.mul_comm]
    exact Nat.lt_mul_div_succ L (by omega)
  split
  · constructor
    · intro _; simpa using ‹L / pl * pl < L›
    · exact le_of_lt h2
  · constructor
    · intro hq
      have hq1 : 1 ≤ L / pl := Nat.one_le_iff_ne_zero.mpr hq
      have e : (L / pl - 1) * pl + pl = L / pl * pl := by
        rw [← Nat.succ_mul]
        congr 1
        omega
      omega
    · omega

theorem splitSecretLoop_eq (v : List Byte) (pl : Nat) (hpl : 1 ≤ pl) (hpl2 : pl < 2 ^ 32) :
    ∀ count i, (count ≠ 0 → (i + count - 1) * pl < v.length) →
      splitSecretLoop v pl count i =
        .ok ((chunksFrom v pl count i).map (fun c => ((padValue c : Nat) : Int))) := by
  intro count
  induction count with
  | zero => intro i _; rfl
  | succ c ih =>
    intro i h
    have hlast : (i + c) * pl < v.length := by simpa using h (by omega)
    have hstart : i * pl < v.length :=
      lt_of_le_of_lt (Nat.mul_le_mul_right pl (Nat.le_add_right i c)) hlast
    have hsucc : (i + 1) * pl = i * pl + pl := Nat.succ_mul i pl
    have hrest : c ≠ 0 → (i + 1 + c - 1) * pl < v.length := by
      intro _
      have : i + 1 + c - 1 = i + c := by omega
      rw [this]; exact hlast
    have hslice : goSlice v (i * pl)
        (if (i + 1) * pl > v.length then v.length else (i + 1) * pl) = .ok (chunkAt v pl i) := by
      unfold goSlice chunkAt
      by_cases hgt : (i + 1) * pl > v.length
      · rw [if_pos hgt, if_pos ⟨by omega, le_rfl⟩]
        rw [List.take_of_length_le (le_refl _), List.take_of_length_le (le_of_lt hgt)]
      · rw [if_neg hgt, if_pos ⟨by omega, by omega⟩]
    have hlen := length_chunkAt v pl i
    have hne : chunkAt v pl i ≠ [] := by
      intro e
      rw [e] at hlen
      simp only [List.length_nil] at hlen
      omega
    have hz : leadingZeros (chunkAt v pl i) < 2 ^ 32 := by
      have := leadingZeros_le_length (chunkAt v pl i)
      omega
    simp only [splitSecretLoop, hslice, bigIntPadding_eq _ hne hz, ih (i + 1) hrest, bind,
      Except.bind, pure, Except.pure, chunksFrom, List.map_cons]

theorem take_drop_append (v : List Byte) (a b d : Nat) (hab : a ≤ b) (hbd : b ≤ d) :
    (v.take b).drop a ++ (v.take d).drop b = (v.take d).drop a := by
  have e1 : v.take b = (v.take d).take b := by
    rw [List.take_take, Nat.min_eq_left hbd]
  rw [e1]
  conv_rhs => rw [← List.take_append_drop b (v.take d)]
  by_cases hl : a ≤ ((v.take d).take b).length
  · rw [List.drop_append_of_le_length hl]
  · have hl2 : ((v.take d).take b).length < a := not_le.mp hl
    have hlen : ((v.take d).take b).length = min b (min d v.length) := by
      simp [List.length_take]
    have hb : min d v.length < b := by
      by_contra hcon
      have : min b (min d v.length) = b := Nat.min_eq_left (not_lt.mp hcon)
      omega
    have hd0 : (v.take d).drop b = [] := by
      apply List.drop_eq_nil_of_le
      simp [List.length_take]
      omega
    have hd1 : ((v.take d).take b).drop a = [] := List.drop_eq_nil_of_le (le_of_lt hl2)
    rw [hd0, hd1, List.append_nil, List.append_nil, hd1]

theorem join_chunksFrom (v : List Byte) (pl : Nat) : ∀ count i,
    (chunksFrom v pl count i).flatten = (v.take ((i + count) * pl)).drop (i * pl) := by
  intro count
  induction count with
  | zero => intro i; simp [chunksFrom]
  | succ c ih =>
    intro i
    simp only [chunksFrom, List.flatten_cons, ih, chunkAt]
    have e : i + 1 + c = i + (c + 1) := by omega
    rw [e]
    apply take_drop_append
    · exact Nat.mul_le_mul_right pl (Nat.le_succ i)
    · exact Nat.mul_le_mul_right pl (by omega)

theorem unpadLoop_padValue : ∀ (cs : List (List Byte)) (res : List Byte),
    (∀ c ∈ cs, leadingZeros c < 2 ^ 32) →
    unpadLoop (cs.map (fun c => ((padValue c : Nat) : Int))) res = .ok (res ++ cs.flatten) := by
  intro cs
  induction cs with
  | nil => intro res _; simp [unpadLoop]
  | cons c cs ih =>
    intro res h
    have hc := h c (List.mem_cons_self c cs)
    simp only [List.map_cons, unpadLoop, unpad_padValue c hc, bind, Except.bind]
    rw [ih _ (fun c' hc' => h c' (List.mem_cons_of_mem c hc'))]
    simp

theorem mem_chunksFrom_length (v : List Byte) (pl : Nat) : ∀ count i c,
    c ∈ chunksFrom v pl count i → c.length ≤ pl := by
  intro count
  induction count with
  | zero => intro i c h; simp [chunksFrom] at h
  | succ n ih =>
    intro i c h
    simp only [chunksFrom, List.mem_cons] at h
    rcases h with h | h
    · subst h
      rw [length_chunkAt]
      have hsucc : (i + 1) * pl = i * pl + pl := Nat.succ_mul i pl
      omega
    · exact ih (i + 1) c h

theorem splitSecret_eq (v : List Byte) (max : Int) (hmax : BitLen max < 2 ^ 31) :
    splitSecret v max = .ok ((chunksOf v max).map (fun c => ((padValue c : Nat) : Int))) := by
  unfold splitSecret chunksOf
  simp only []
  apply splitSecretLoop_eq v _ (partLenOf_pos max) (partLenOf_lt max hmax)
  intro h
  have := (partCountOf_spec v.length _ (partLenOf_pos max)).1 h
  simpa using this

theorem join_chunksOf (v : List Byte) (max : Int) : (chunksOf v max).flatten = v := by
  unfold chunksOf
  rw [join_chunksFrom]
  have := (partCountOf_spec v.length _ (partLenOf_pos max)).2
  simp only [Nat.zero_add, Nat.zero_mul, List.drop_zero]
  exact List.take_of_length_le this

end pedersen

namespace big

theorem powModAux_eq (fuel : Nat) : ∀ (b e m : Nat), e ≤ fuel →
    powModAux fuel b e m = b ^ e % m := by
  induction fuel with
  | zero =>
    intro b e m he
    have : e = 0 := by omega
    subst this
    simp [powModAux]
  | succ fuel ih =>
    intro b e m he
    by_cases h0 : e = 0
    · subst h0
      simp [powModAux]
    · have hdiv : e / 2 ≤ fuel := by omega
      simp only [powModAux, h0, if_false, ih b (e / 2) m hdiv]
      have hsq : b ^ (e / 2) % m * (b ^ (e / 2) % m) % m = b ^ (2 * (e / 2)) % m := by
        rw [← Nat.mul_mod, ← pow_add]
        congr 2
        omega
      rw [hsq]
      by_cases hodd : e % 2 = 1
      · rw [if_pos hodd, Nat.mod_mul_mod, ← pow_succ]
        congr 2
        omega
      · rw [if_neg hodd]
        congr 2
        omega

theorem powMod_eq (b e m : Nat) : powMod b e m = b ^ e % m :=
  powModAux_eq e b e m le_rfl

/-- Lucas test with an explicit factorisation of `p - 1`, checked by modular
exponentiation. -/
theorem prime_of_certificate (p a : Nat) (fs : List Nat) (hp : 1 < p)
    (hfs : ∀ q ∈ fs, Nat.Prime q) (hprod : fs.prod = p - 1)
    (h1 : powMod a (p - 1) p = 1) (h2 : ∀ q ∈ fs, powMod a ((p - 1) / q) p ≠ 1) :
    Nat.Prime p := by
  have cast_one : ∀ e : Nat, ((a : ZMod p) ^ e = 1) ↔ powMod a e p = 1 := by
    intro e
    rw [powMod_eq, ← Nat.cast_pow]
    have h1' : ((1 : Nat) : ZMod p) = 1 := Nat.cast_one
    rw [← h1', ZMod.natCast_eq_natCast_iff']
    rw [Nat.mod_eq_of_lt hp]
  apply lucas_primality p (a : ZMod p)
  · exact (cast_one _).2 h1
  · intro q hq hdvd
    rw [← hprod] at hdvd
    obtain ⟨r, hr, hqr⟩ := (Prime.dvd_prod_iff (Nat.prime_iff.mp hq)).1 hdvd
    have hrq : q = r := (Nat.prime_dvd_prime_iff_eq hq (hfs r hr)).1 hqr
    subst hrq
    intro hcon
    exact h2 q hr ((cast_one _).1 hcon)

end big

namespace pedersen

open big

theorem prime_1292309 : Nat.Prime 1292309 := by norm_num

set_option maxRecDepth 100000 in
theorem prime_1840248017 : Nat.Prime 1840248017 := by
  apply prime_of_certificate 1840248017 3 [2, 2, 2, 2, 89, 1292309] (by norm_num)
  · intro q hq
    simp only [List.mem_cons, List.mem_singleton, List.not_mem_nil, or_false] at hq
    rcases hq with h | h | h | h | h | h <;> subst h
    · exact Nat.prime_two
    · exact Nat.prime_two
    · exact Nat.prime_two
    · exact Nat.prime_two
    · norm_num
    · exact prime_1292309
  · decide
  · decide
  · decide

set_option maxRecDepth 100000 in
theorem prime_1197848681 : Nat.Prime 1197848681 := by
  apply prime_of_certificate 1197848681 6 [2, 2, 2, 5, 7, 31, 59, 2339] (by norm_num)
  · intro q hq
    simp only [List.mem_cons, List.mem_singleton, List.not_mem_nil, or_false] at hq
    rcases hq with h | h | h | h | h | h | h | h <;> subst h <;> norm_num
  · decide
  · decide
  · decide

set_option maxRecDepth 100000 in
theorem prime_testQ : Nat.Prime 8817354639505262309 := by
  apply prime_of_certificate 8817354639505262309 2 [2, 2, 1197848681, 1840248017] (by norm_num)
  · intro q hq
    simp only [List.mem_cons, List.mem_singleton, List.not_mem_nil, or_false] at hq
    rcases hq with h | h | h | h <;> subst h
    · exact Nat.prime_two
    · exact Nat.prime_two
    · exact prime_1197848681
    · exact prime_1840248017
  · decide
  · decide
  · decide

set_option maxRecDepth 100000 in
theorem prime_testP : Nat.Prime 17634709279010524619 := by
  apply prime_of_certificate 17634709279010524619 2 [2, 8817354639505262309] (by norm_num)
  · intro q hq
    simp only [List.mem_cons, List.mem_singleton, List.not_mem_nil, or_false] at hq
    rcases hq with h | h <;> subst h
    · exact Nat.prime_two
    · exact prime_testQ
  · decide
  · decide
  · decide

end pedersen

namespace pedersen

open big

theorem probablyPrime_testP : ProbablyPrime 17634709279010524619 = true := by
  unfold ProbablyPrime
  have : (17634709279010524619 : Int).toNat = 17634709279010524619 := rfl
  rw [this]
  exact decide_eq_true prime_testP

theorem probablyPrime_testQ : ProbablyPrime 8817354639505262309 = true := by
  unfold ProbablyPrime
  have : (8817354639505262309 : Int).toNat = 8817354639505262309 := rfl
  rw [this]
  exact decide_eq_true prime_testQ

theorem Group.validatePrimes_of (g : Group) (P Q : Int) (hP : g.P = some P) (hQ : g.Q = some Q)
    (hbits : ¬ (BitLen P < minPrimeBitLen)) (hpP : ProbablyPrime P = true)
    (hpQ : ProbablyPrime Q = true) (hmod : Mod (P - 1) Q = .ok 0) :
    g.validatePrimes = .ok () := by
  simp [Group.validatePrimes, hP, hQ, hbits, hpP, hpQ, hmod, bind, Except.bind, Cmp, SetUInt64,
    pure, Except.pure]

set_option maxRecDepth 100000 in
theorem testGroup_bits : ¬ (BitLen 17634709279010524619 < minPrimeBitLen) := by decide

set_option maxRecDepth 100000 in
theorem testGroup_mod : Mod (17634709279010524619 - 1) 8817354639505262309 = .ok 0 := by decide

theorem testGroup_validatePrimes : testGroup.validatePrimes = .ok () :=
  Group.validatePrimes_of testGroup 17634709279010524619 8817354639505262309 rfl rfl
    testGroup_bits probablyPrime_testP probablyPrime_testQ testGroup_mod

set_option maxRecDepth 100000 in
theorem testGroup_validateG : testGroup.validateGenerator testGroup.G = .ok () := by decide

set_option maxRecDepth 100000 in
theorem testGroup_validateH : testGroup.validateGenerator testGroup.H = .ok () := by decide

theorem Group.validate_of (g : Group) (h1 : g.validatePrimes = .ok ())
    (h2 : g.validateGenerator g.G = .ok ()) (h3 : g.validateGenerator g.H = .ok ()) :
    g.validate = .ok () := by
  simp only [Group.validate, h1, h2, h3, bind, Except.bind]

theorem testGroup_validate : testGroup.validate = .ok () :=
  Group.validate_of testGroup testGroup_validatePrimes testGroup_validateG testGroup_validateH

end pedersen

namespace pedersen

open big

/-! ## The error monad and the loops of the model -/

theorem bind_ok {α β : Type} (x : Except Err α) (f : α → Except Err β) (b : β) :
    (x >>= f) = .ok b ↔ ∃ a, x = .ok a ∧ f a = .ok b := by
  cases x with
  | error e => simp [bind, Except.bind]
  | ok a => simp [bind, Except.bind]

theorem bind_error {α β : Type} (x : Except Err α) (f : α → Except Err β) (e : Err) :
    (x >>= f) = .error e ↔ x = .error e ∨ ∃ a, x = .ok a ∧ f a = .error e := by
  cases x with
  | error e2 => simp [bind, Except.bind]
  | ok a => simp [bind, Except.bind]

theorem deref_ok {α : Type} (o : Option α) (a : α) : deref o = .ok a ↔ o = some a := by
  cases o <;> simp [deref]

theorem goIndex_ok {α : Type} (s : List α) (i : Nat) (a : α) :
    goIndex s i = .ok a ↔ s.get? i = some a := by
  unfold goIndex
  cases h : s.get? i <;> simp

theorem goIndex_lt {α : Type} (s : List α) (i : Nat) (h : i < s.length) :
    goIndex s i = .ok (s.get ⟨i, h⟩) := by
  rw [goIndex_ok]
  exact List.get?_eq_get h

theorem mapE_nil {α β : Type} (f : α → Except Err β) : mapE f [] = .ok [] := rfl

theorem mapE_cons {α β : Type} (f : α → Except Err β) (a : α) (l : List α) :
    mapE f (a :: l) = (f a >>= fun b => mapE f l >>= fun bs => pure (b :: bs)) := rfl

theorem mapE_map_ok {α β : Type} (f : α → Except Err β) (g : α → β) (l : List α)
    (h : ∀ a ∈ l, f a = .ok (g a)) : mapE f l = .ok (l.map g) := by
  induction l with
  | nil => rfl
  | cons a l ih =>
    rw [mapE_cons, h a (List.mem_cons_self a l), ih (fun b hb => h b (List.mem_cons_of_mem a hb))]
    rfl

theorem mapE_ok_forall₂ {α β : Type} (f : α → Except Err β) (l : List α) : ∀ (bs : List β),
    mapE f l = .ok bs → List.Forall₂ (fun a b => f a = .ok b) l bs := by
  induction l with
  | nil =>
    intro bs h
    simp only [mapE_nil, Except.ok.injEq] at h
    subst h
    exact List.Forall₂.nil
  | cons a l ih =>
    intro bs h
    rw [mapE_cons, bind_ok] at h
    obtain ⟨b, hb, h⟩ := h
    rw [bind_ok] at h
    obtain ⟨bs2, hbs2, h⟩ := h
    simp only [pure, Except.pure, Except.ok.injEq] at h
    subst h
    exact List.Forall₂.cons hb (ih bs2 hbs2)

theorem mapE_ok_length {α β : Type} (f : α → Except Err β) (l : List α) (bs : List β)
    (h : mapE f l = .ok bs) : bs.length = l.length :=
  (List.Forall₂.length_eq (mapE_ok_forall₂ f l bs h)).symm

theorem mapE_ok_mem {α β : Type} (f : α → Except Err β) (l : List α) (bs : List β)
    (h : mapE f l = .ok bs) (a : α) (ha : a ∈ l) : ∃ b, f a = .ok b := by
  induction l generalizing bs with
  | nil => simp at ha
  | cons x l ih =>
    rw [mapE_cons, bind_ok] at h
    obtain ⟨b, hb, h⟩ := h
    rw [bind_ok] at h
    obtain ⟨bs2, hbs2, _⟩ := h
    rcases List.mem_cons.mp ha with e | e
    · subst e; exact ⟨b, hb⟩
    · exact ih bs2 hbs2 e

theorem mapE_range_ok {β : Type} (f : Nat → Except Err β) (n : Nat) (bs : List β)
    (h : mapE f (List.range n) = .ok bs) :
    bs.length = n ∧ ∀ i (hi : i < bs.length), f i = .ok (bs.get ⟨i, hi⟩) := by
  have hf := mapE_ok_forall₂ f _ bs h
  have hl := mapE_ok_length f _ bs h
  rw [List.length_range] at hl
  refine ⟨hl, ?_⟩
  intro i hi
  have hi2 : i < (List.range n).length := by rw [List.length_range]; omega
  have := List.Forall₂.get hf hi2 hi
  simpa using this

theorem mapE_append {α β : Type} (f : α → Except Err β) (l1 l2 : List α) :
    mapE f (l1 ++ l2) =
      (mapE f l1 >>= fun a => mapE f l2 >>= fun b => pure (a ++ b)) := by
  induction l1 with
  | nil =>
    simp only [List.nil_append, mapE_nil, bind, Except.bind]
    cases mapE f l2 <;> rfl
  | cons x l ih =>
    rw [List.cons_append, mapE_cons, mapE_cons, ih]
    cases f x with
    | error e => rfl
    | ok b =>
      simp only [bind, Except.bind]
      cases mapE f l with
      | error e => rfl
      | ok bs =>
        simp only []
        cases mapE f l2 <;> rfl

/-- Running a body range by range yields, on success, what running it over
the concatenated ranges yields, and fails with the same error. -/
theorem mapE_flatten {α β γ : Type} (f : α → Except Err β) (g : γ → List α) (cs : List γ) :
    (mapE (fun c => mapE f (g c)) cs >>= fun rs => pure rs.flatten) =
      mapE f (cs.map g).flatten := by
  induction cs with
  | nil => rfl
  | cons c cs ih =>
    rw [List.map_cons, List.flatten_cons, mapE_append, ← ih, mapE_cons]
    cases mapE f (g c) with
    | error e => rfl
    | ok b =>
      simp only [bind, Except.bind]
      cases mapE (fun c => mapE f (g c)) cs <;> rfl

end pedersen

namespace pedersen

open big

/-! ## The goroutines of a group -/

theorem firstPanic_of_ok {α β : Type} (f : α → Except Err β) (l : List α) : ∀ (bs : List β),
    mapE f l = .ok bs → firstPanic (l.map f) = none := by
  induction l with
  | nil => intro bs _; rfl
  | cons a l ih =>
    intro bs h
    rw [mapE_cons, bind_ok] at h
    obtain ⟨b, hb, h⟩ := h
    rw [bind_ok] at h
    obtain ⟨bs2, hbs2, _⟩ := h
    simp only [List.map_cons, hb, firstPanic]
    exact ih bs2 hbs2

theorem firstPanic_of_errors {α β : Type} (f : α → Except Err β) (l : List α)
    (h : ∀ a ∈ l, ∀ e, f a = .error e → e.isPanic = false) : firstPanic (l.map f) = none := by
  induction l with
  | nil => rfl
  | cons a l ih =>
    have ih2 := ih (fun b hb => h b (List.mem_cons_of_mem a hb))
    rw [List.map_cons]
    cases hfa : f a with
    | ok b =>
      simp only [firstPanic]
      exact ih2
    | error e =>
      simp only [firstPanic, h a (List.mem_cons_self a l) e hfa]
      exact ih2

/-- A panic that `firstPanic` finds is an outcome of one of the workers. -/
theorem firstPanic_some {α β : Type} (f : α → Except Err β) (l : List α) (e : Err)
    (h : firstPanic (l.map f) = some e) : e.isPanic = true ∧ ∃ a ∈ l, f a = .error e := by
  induction l with
  | nil => cases h
  | cons a l ih =>
    rw [List.map_cons] at h
    cases hfa : f a with
    | ok b =>
      rw [hfa] at h
      simp only [firstPanic] at h
      obtain ⟨h1, a2, ha2, h2⟩ := ih h
      exact ⟨h1, a2, List.mem_cons_of_mem a ha2, h2⟩
    | error e2 =>
      rw [hfa] at h
      simp only [firstPanic] at h
      by_cases hp : e2.isPanic = true
      · rw [if_pos hp] at h
        simp only [Option.some.injEq] at h
        subst h
        exact ⟨hp, a, List.mem_cons_self a l, hfa⟩
      · rw [if_neg hp] at h
        obtain ⟨h1, a2, ha2, h2⟩ := ih h
        exact ⟨h1, a2, List.mem_cons_of_mem a ha2, h2⟩

/-- The group returns results exactly when the workers, run one after the
other, all return theirs. -/
theorem groupWait_ok_iff {α β : Type} (f : α → Except Err β) (l : List α) (bs : List β) :
    groupWait f l = .ok bs ↔ mapE f l = .ok bs := by
  unfold groupWait
  constructor
  · intro h
    cases hfp : firstPanic (l.map f) with
    | some e => rw [hfp] at h; cases h
    | none => rw [hfp] at h; exact h
  · intro h
    rw [firstPanic_of_ok f l bs h]
    exact h

/-- Without a panic among the outcomes, the group returns what the workers
return when they are run one after the other up to the first error. -/
theorem groupWait_eq_mapE {α β : Type} (f : α → Except Err β) (l : List α)
    (h : ∀ a ∈ l, ∀ e, f a = .error e → e.isPanic = false) : groupWait f l = mapE f l := by
  unfold groupWait
  rw [firstPanic_of_errors f l h]

/-- When the workers, run one after the other, stop at a panic, the group ends
with that panic. -/
theorem groupWait_of_panic {α β : Type} (f : α → Except Err β) (l : List α) (e : Err)
    (he : e.isPanic = true) (h : mapE f l = .error e) : groupWait f l = .error e := by
  induction l with
  | nil => cases h
  | cons a l ih =>
    rw [mapE_cons] at h
    unfold groupWait
    rw [List.map_cons]
    cases hfa : f a with
    | error e2 =>
      rw [hfa] at h
      simp only [bind, Except.bind, Except.error.injEq] at h
      subst h
      simp only [firstPanic, he, if_true]
    | ok b =>
      rw [hfa] at h
      simp only [firstPanic]
      cases hl : mapE f l with
      | ok bs =>
        rw [hl] at h
        simp [bind, Except.bind, pure, Except.pure] at h
      | error e2 =>
        rw [hl] at h
        simp only [bind, Except.bind, Except.error.injEq] at h
        subst h
        have := ih hl
        unfold groupWait at this
        cases hfp : firstPanic (l.map f) with
        | some e3 =>
          rw [hfp] at this
          exact this
        | none =>
          rw [hfp] at this
          rw [mapE_cons, hfa, hl]
          rfl

/-- When the workers, run one after the other, stop at an error, the group
fails: with that error, or with the panic of a worker. -/
theorem groupWait_of_error {α β : Type} (f : α → Except Err β) (l : List α) (e : Err)
    (h : mapE f l = .error e) :
    ∃ e2, groupWait f l = .error e2 ∧ (e2 = e ∨ e2.isPanic = true) := by
  unfold groupWait
  cases hfp : firstPanic (l.map f) with
  | some e3 => exact ⟨e3, rfl, Or.inr (firstPanic_some f l e3 hfp).1⟩
  | none => exact ⟨e, h, Or.inl rfl⟩

theorem groupWait_congr {α β : Type} (f g : α → Except Err β) (l : List α)
    (h : ∀ a ∈ l, f a = g a) : groupWait f l = groupWait g l := by
  have hm : l.map f = l.map g := List.map_congr_left h
  have hE : mapE f l = mapE g l := by
    induction l with
    | nil => rfl
    | cons a l ih =>
      rw [mapE_cons, mapE_cons, h a (List.mem_cons_self a l),
        ih (fun b hb => h b (List.mem_cons_of_mem a hb))
          (List.map_congr_left (fun b hb => h b (List.mem_cons_of_mem a hb)))]
  unfold groupWait
  rw [hm, hE]

/-- What follows the group returns a value exactly when it does so after the
workers run one after the other. -/
theorem groupWait_bind_ok_iff {α β γ : Type} (f : α → Except Err β) (l : List α)
    (k : List β → Except Err γ) (c : γ) :
    (groupWait f l >>= k) = .ok c ↔ (mapE f l >>= k) = .ok c := by
  rw [bind_ok, bind_ok]
  constructor
  · rintro ⟨bs, h1, h2⟩
    exact ⟨bs, (groupWait_ok_iff f l bs).1 h1, h2⟩
  · rintro ⟨bs, h1, h2⟩
    exact ⟨bs, (groupWait_ok_iff f l bs).2 h1, h2⟩

end pedersen

namespace pedersen

open big

/-! ## Chunk ranges -/

theorem balanceLoop_spec (L cs : Int) (hcs : 1 ≤ cs) : ∀ (fuel : Nat) (start : Int),
    0 ≤ start → (L - start).toNat ≤ fuel →
    ∃ ranges, balanceLoop L cs fuel start = .ok ranges ∧ Consecutive L (min start L) ranges := by
  intro fuel
  induction fuel with
  | zero =>
    intro start h0 hf
    have hge : ¬ start < L := by omega
    refine ⟨[], ?_, ?_⟩
    · simp [balanceLoop, hge]
    · have : min start L = L := by omega
      rw [this]
      exact Consecutive.nil
  | succ fuel ih =>
    intro start h0 hf
    by_cases hlt : start < L
    · obtain ⟨rest, hrest, hcons⟩ := ih (start + cs) (by omega) (by omega)
      refine ⟨{ start := start, stop := if start + cs > L then L else start + cs } :: rest, ?_, ?_⟩
      · simp only [balanceLoop, hlt, if_true, hrest, bind, Except.bind, pure, Except.pure]
      · have e1 : min start L = start := by omega
        rw [e1]
        have e2 : (if start + cs > L then L else start + cs) = min (start + cs) L := by
          split <;> omega
        refine Consecutive.cons
          { start := start, stop := if start + cs > L then L else start + cs } rest h0 ?_ ?_ ?_
        · show start < if start + cs > L then L else start + cs
          split <;> omega
        · show (if start + cs > L then L else start + cs) ≤ L
          split <;> omega
        · show Consecutive L (if start + cs > L then L else start + cs) rest
          rw [e2]
          exact hcons
    · refine ⟨[], ?_, ?_⟩
      · simp [balanceLoop, hlt]
      · have : min start L = L := by omega
        rw [this]
        exact Consecutive.nil

theorem balanceIndices_spec (p : Pedersen) (L : Nat) (c : Int) (hc : 1 ≤ c) :
    ∃ ranges, p.balanceIndices L c = .ok ranges ∧ Consecutive L 0 ranges := by
  unfold Pedersen.balanceIndices
  have hc0 : c ≠ 0 := by omega
  rw [if_neg hc0]
  by_cases hL : L = 0
  · subst hL
    refine ⟨[], ?_, ?_⟩
    · simp [balanceLoop]
    · exact Consecutive.nil
  · have hcs : 1 ≤ ((L : Int) + c - 1).tdiv c := by
      rw [Int.tdiv_eq_ediv (by omega) (by omega)]
      have : c ≤ (L : Int) + c - 1 := by omega
      exact Int.le_ediv_of_mul_le (by omega) (by simpa using this)
    obtain ⟨ranges, h1, h2⟩ := balanceLoop_spec L _ hcs (L : Int).toNat 0 le_rfl (by simp)
    refine ⟨ranges, h1, ?_⟩
    have e : min (0 : Int) L = 0 := by omega
    rwa [e] at h2

theorem Consecutive.bounds {L a : Int} {ranges : List chunkRange} (h : Consecutive L a ranges)
    (ha : 0 ≤ a) : a ≤ L := by
  induction h with
  | nil => exact le_rfl
  | cons r rest h0 hlt hle _ ih => omega

theorem indices_eq (r : chunkRange) :
    r.indices = List.range' r.start.toNat (r.stop.toNat - r.start.toNat) := by
  unfold chunkRange.indices
  rw [List.range'_eq_map_range]

/-- The indices of consecutive ranges, concatenated, are the indices from the
first start up to the end. -/
theorem Consecutive.flatten_indices {L a : Int} {ranges : List chunkRange}
    (h : Consecutive L a ranges) (ha : 0 ≤ a) :
    (ranges.map chunkRange.indices).flatten = List.range' a.toNat (L.toNat - a.toNat) := by
  induction h with
  | nil => simp
  | cons r rest h0 hlt hle hrest ih =>
    have hb := Consecutive.bounds hrest (by omega)
    rw [List.map_cons, List.flatten_cons, ih (by omega), indices_eq]
    have key : ∀ s e l : Nat, s ≤ e → e ≤ l →
        List.range' s (e - s) ++ List.range' e (l - e) = List.range' s (l - s) := by
      intro s e l h1 h2
      obtain ⟨k, rfl⟩ := Nat.exists_eq_add_of_le h1
      obtain ⟨j, rfl⟩ := Nat.exists_eq_add_of_le h2
      have e1 : s + k - s = k := by omega
      have e2 : s + k + j - (s + k) = j := by omega
      have e3 : s + k + j - s = k + j := by omega
      rw [e1, e2, e3, List.range'_append_1, Nat.add_comm]
    exact key _ _ _ (by omega) (by omega)

theorem Consecutive.flatten_indices_zero {L : Nat} {ranges : List chunkRange}
    (h : Consecutive (L : Int) 0 ranges) :
    (ranges.map chunkRange.indices).flatten = List.range L := by
  have := Consecutive.flatten_indices h le_rfl
  simpa [List.range_eq_range'] using this

end pedersen

namespace pedersen

open big

/-! ## Random numbers and polynomials -/

theorem genRandNum_ok (min max : Int) (tape tape2 : Tape) (v : Int)
    (h : genRandNum min max tape = .ok (v, tape2)) :
    0 < max ∧ ∃ r : Nat, tape = r :: tape2 ∧ v = (r : Int) % max + min := by
  unfold genRandNum RandRange at h
  by_cases hmax : max ≤ 0
  · simp [hmax, bind, Except.bind] at h
  · cases tape with
    | nil => simp [hmax, bind, Except.bind] at h
    | cons r rest =>
      simp only [hmax, if_false, bind, Except.bind, pure, Except.pure, Except.ok.injEq,
        Prod.mk.injEq] at h
      exact ⟨by omega, r, by rw [h.2], h.1.symm⟩

theorem genRandNum_bounds (min max : Int) (tape tape2 : Tape) (v : Int)
    (h : genRandNum min max tape = .ok (v, tape2)) : min ≤ v ∧ v < min + max := by
  obtain ⟨hmax, r, _, hv⟩ := genRandNum_ok min max tape tape2 v h
  have h1 := Int.emod_nonneg (r : Int) (ne_of_gt hmax)
  have h2 := Int.emod_lt_of_pos (r : Int) hmax
  omega

theorem resampleLoop_ok (min max : Int) (checkMap : List Int) : ∀ (fuel : Nat) (val : Int)
    (tape tape2 : Tape) (v : Int), (min ≤ val ∧ val < min + max) →
    resampleLoop min max checkMap fuel val tape = .ok (v, tape2) →
    v ∉ checkMap ∧ min ≤ v ∧ v < min + max := by
  intro fuel
  induction fuel with
  | zero => intro val tape tape2 v _ h; simp [resampleLoop] at h
  | succ fuel ih =>
    intro val tape tape2 v hval h
    unfold resampleLoop at h
    by_cases hmem : val ∈ checkMap
    · simp only [hmem, not_true_eq_false, if_false] at h
      rw [bind_ok] at h
      obtain ⟨⟨val2, tape3⟩, h1, h2⟩ := h
      exact ih val2 tape3 tape2 v (genRandNum_bounds _ _ _ _ _ h1) h2
    · simp only [hmem, not_false_eq_true, if_true, Except.ok.injEq, Prod.mk.injEq] at h
      obtain ⟨rfl, _⟩ := h
      exact ⟨hmem, hval⟩

theorem randIntsLoop_ok (min max : Int) (distinct : Bool) : ∀ (n : Nat) (checkMap : List Int)
    (tape tape2 : Tape) (vals : List Int),
    randIntsLoop min max distinct n checkMap tape = .ok (vals, tape2) →
    vals.length = n ∧ (∀ v ∈ vals, min ≤ v ∧ v < min + max) ∧
      (distinct = true → vals.Nodup ∧ ∀ v ∈ vals, v ∉ checkMap) := by
  intro n
  induction n with
  | zero =>
    intro checkMap tape tape2 vals h
    simp only [randIntsLoop, Except.ok.injEq, Prod.mk.injEq] at h
    obtain ⟨rfl, _⟩ := h
    simp
  | succ n ih =>
    intro checkMap tape tape2 vals h
    unfold randIntsLoop at h
    rw [bind_ok] at h
    obtain ⟨⟨val, tape3⟩, h1, h⟩ := h
    have hb := genRandNum_bounds _ _ _ _ _ h1
    cases distinct with
    | true =>
      simp only [if_true] at h
      rw [bind_ok] at h
      obtain ⟨⟨val2, tape4⟩, h2, h⟩ := h
      rw [bind_ok] at h
      obtain ⟨⟨rest, tape5⟩, h3, h⟩ := h
      simp only [pure, Except.pure, Except.ok.injEq, Prod.mk.injEq] at h
      obtain ⟨rfl, _⟩ := h
      obtain ⟨hnot, hb2⟩ := resampleLoop_ok _ _ _ _ _ _ _ _ hb h2
      obtain ⟨hl, hbs, hd⟩ := ih _ _ _ _ h3
      obtain ⟨hnd, hnm⟩ := hd rfl
      refine ⟨by simp [hl], ?_, fun _ => ⟨?_, ?_⟩⟩
      · intro v hv
        rcases List.mem_cons.mp hv with e | e
        · subst e; exact hb2
        · exact hbs v e
      · apply List.nodup_cons.mpr
        refine ⟨?_, hnd⟩
        intro hmem
        exact hnm val2 hmem (List.mem_cons_self _ _)
      · intro v hv
        rcases List.mem_cons.mp hv with e | e
        · subst e; exact hnot
        · intro hc
          exact hnm v e (List.mem_cons_of_mem _ hc)
    | false =>
      simp only [Bool.false_eq_true, if_false] at h
      rw [bind_ok] at h
      obtain ⟨⟨rest, tape5⟩, h3, h⟩ := h
      simp only [pure, Except.pure, Except.ok.injEq, Prod.mk.injEq] at h
      obtain ⟨rfl, _⟩ := h
      obtain ⟨hl, hbs, _⟩ := ih _ _ _ _ h3
      refine ⟨by simp [hl], ?_, fun hf => by simp at hf⟩
      intro v hv
      rcases List.mem_cons.mp hv with e | e
      · subst e; exact hb
      · exact hbs v e

theorem randInts_ok (n : Nat) (min max : Int) (distinct : Bool) (tape tape2 : Tape)
    (vals : List Int) (h : randInts n min max distinct tape = .ok (vals, tape2)) :
    vals.length = n ∧ (∀ v ∈ vals, min ≤ v ∧ v < min + max) ∧
      (distinct = true → vals.Nodup) := by
  obtain ⟨h1, h2, h3⟩ := randIntsLoop_ok min max distinct n [] tape tape2 vals h
  exact ⟨h1, h2, fun hd => (h3 hd).1⟩

/-- A polynomial drawn with a given intercept: its coefficients are the
intercept followed by `degree` numbers of `[0, order)`. -/
theorem newPolynomial_some_ok (s : Int) (degree order : Int) (tape tape2 : Tape) (F : polynomial)
    (h : newPolynomial (some s) degree order tape = .ok (F, tape2)) :
    ∃ rest : List Int, F = { coefficients := (s :: rest).map some, order := order } ∧
      rest.length = degree.toNat ∧ ∀ c ∈ rest, 0 ≤ c ∧ c < order := by
  unfold newPolynomial at h
  simp only [SetUInt64] at h
  by_cases hd : degree < 0
  · simp [hd] at h
  · simp only [hd, if_false] at h
    rw [bind_ok] at h
    obtain ⟨⟨rest, tape3⟩, h1, h⟩ := h
    simp only [pure, Except.pure, Except.ok.injEq, Prod.mk.injEq] at h
    obtain ⟨rfl, _⟩ := h
    obtain ⟨hl, hb, _⟩ := randInts_ok _ _ _ _ _ _ _ h1
    refine ⟨rest, by simp, hl, ?_⟩
    intro c hc
    have := hb c hc
    simpa using this

/-- A polynomial drawn with a random intercept, of degree at least one: all
its coefficients are numbers of `[0, order)`. -/
theorem newPolynomial_none_ok (degree order : Int) (hdeg : 1 ≤ degree) (tape tape2 : Tape)
    (K : polynomial) (h : newPolynomial none degree order tape = .ok (K, tape2)) :
    ∃ cs : List Int, K = { coefficients := cs.map some, order := order } ∧
      cs.length = degree.toNat + 1 ∧ ∀ c ∈ cs, 0 ≤ c ∧ c < order := by
  unfold newPolynomial at h
  simp only [SetUInt64] at h
  have hd : ¬ degree < 0 := by omega
  simp only [hd, if_false] at h
  cases hg : genRandNum ((0 : Nat) : Int) order tape with
  | error e =>
    -- the draw of the intercept failed: the draws of the other coefficients fail too
    rw [hg] at h
    simp only [] at h
    rw [bind_ok] at h
    obtain ⟨⟨rest, tape3⟩, h1, _⟩ := h
    exfalso
    obtain ⟨k, hk⟩ : ∃ k, degree.toNat = k + 1 := ⟨degree.toNat - 1, by omega⟩
    rw [hk] at h1
    unfold randInts randIntsLoop at h1
    rw [hg] at h1
    simp [bind, Except.bind] at h1
  | ok r =>
    obtain ⟨c0, tape3⟩ := r
    rw [hg] at h
    simp only [] at h
    rw [bind_ok] at h
    obtain ⟨⟨rest, tape4⟩, h1, h⟩ := h
    simp only [pure, Except.pure, Except.ok.injEq, Prod.mk.injEq] at h
    obtain ⟨rfl, _⟩ := h
    obtain ⟨hl, hb, _⟩ := randInts_ok _ _ _ _ _ _ _ h1
    have hb0 := genRandNum_bounds _ _ _ _ _ hg
    refine ⟨c0 :: rest, by simp, by simp [hl], ?_⟩
    intro c hc
    rcases List.mem_cons.mp hc with e | e
    · subst e; simpa using hb0
    · simpa using hb c e

theorem hornerLoop_eq (x : Int) : ∀ (rest : List Int) (out : Int),
    hornerLoop x (rest.map some) out = .ok (rest.foldl (fun out c => out * x + c) out) := by
  intro rest
  induction rest with
  | nil => intro out; rfl
  | cons c rest ih =>
    intro out
    simp only [List.map_cons, hornerLoop, deref, bind, Except.bind, ih, List.foldl_cons]

theorem foldl_reverse_hornerSum (x : Int) (cs : List Int) :
    cs.reverse.foldl (fun out c => out * x + c) 0 = hornerSum x cs := by
  induction cs with
  | nil => rfl
  | cons c cs ih =>
    rw [List.reverse_cons, List.foldl_append, ih]
    simp only [List.foldl_cons, List.foldl_nil, hornerSum]
    ring

/-- On non-nil coefficients and a nonzero order, `evaluate` returns. -/
theorem evaluate_eq (cs : List Int) (order x : Int) (hcs : cs ≠ []) (ho : order ≠ 0) :
    polynomial.evaluate { coefficients := cs.map some, order := order } x =
      .ok (evalValue cs order x) := by
  unfold polynomial.evaluate evalValue
  simp only [SetUInt64, Cmp]
  cases cs with
  | nil => exact absurd rfl hcs
  | cons c0 rest =>
    by_cases hx : x = 0
    · subst hx
      simp [goIndex, deref, bind, Except.bind]
    · have hcmp : (if x < ((0 : Nat) : Int) then (-1 : Int)
          else if x = ((0 : Nat) : Int) then 0 else 1) ≠ 0 := by
        split
        · omega
        · simp [hx]
      rw [if_neg hcmp, if_neg hx]
      have hrev : ((c0 :: rest).map some).reverse = ((c0 :: rest).reverse).map some := by
        rw [List.map_reverse]
      rw [hrev]
      have hsum := foldl_reverse_hornerSum x (c0 :: rest)
      cases hr : (c0 :: rest).reverse with
      | nil => simp at hr
      | cons top tl =>
        rw [hr] at hsum
        simp only [List.foldl_cons, zero_mul, zero_add] at hsum
        simp only [List.map_cons, deref, bind, Except.bind, hornerLoop_eq, hsum, big.Mod, ho,
          if_false]

end pedersen

namespace pedersen

open big

/-! ## Splitting one chunk -/

theorem commit_eq (p : Pedersen) (P Q G H : Int)
    (hg : p.group = { P := some P, Q := some Q, G := some G, H := some H })
    (hodd : P % 2 ≠ 0) (s t : Int) :
    p.commit s t = .ok (commitValue G H P s t) := by
  have hP0 : P ≠ 0 := by
    intro h; rw [h] at hodd; simp at hodd
  simp only [Pedersen.commit, hg, deref, ModExpMont, hodd, if_false, bind, Except.bind, ModMul,
    hP0, commitValue]

theorem abscissaAt_of_get (abscissae : List (Option Int)) (i : Nat) (x : Int)
    (h : abscissae.get? i = some (some x)) : abscissaAt abscissae i = x := by
  unfold abscissaAt
  rw [h]

theorem split_ok (p : Pedersen) (P Q G H : Int)
    (hg : p.group = { P := some P, Q := some Q, G := some G, H := some H })
    (hodd : P % 2 ≠ 0) (hQ : Q ≠ 0) (ht : 2 ≤ p.threshold)
    (idx : Nat) (secret : Int) (abscissae : List (Option Int)) (tape tape2 : Tape)
    (r : splitValue) (h : p.split idx secret abscissae tape = .ok (r, tape2)) :
    ∃ F K : List Int, F.length = p.threshold.toNat ∧ K.length = p.threshold.toNat ∧
      F.head? = some secret ∧ (∀ c ∈ F.tail, 0 ≤ c ∧ c < Q) ∧ (∀ c ∈ K, 0 ≤ c ∧ c < Q) ∧
      (∀ i, i < p.parts.toNat → abscissae.get? i = some (some (abscissaAt abscissae i))) ∧
      r = splitValueOf G H P Q abscissae p.parts.toNat p.threshold.toNat idx F K := by
  have hQd : deref p.group.Q = .ok Q := by rw [hg]; rfl
  unfold Pedersen.split at h
  rw [bind_ok] at h
  obtain ⟨Q2, hQ2, h⟩ := h
  rw [hQd] at hQ2
  simp only [Except.ok.injEq] at hQ2
  subst hQ2
  rw [bind_ok] at h
  obtain ⟨⟨F, tape3⟩, hF, h⟩ := h
  simp only [] at h
  rw [bind_ok] at h
  obtain ⟨⟨K, tape4⟩, hK, h⟩ := h
  simp only [] at h
  rw [bind_ok] at h
  obtain ⟨secretParts, hparts, h⟩ := h
  rw [bind_ok] at h
  obtain ⟨commitments, hcomm, h⟩ := h
  simp only [pure, Except.pure, Except.ok.injEq, Prod.mk.injEq] at h
  obtain ⟨hr, _⟩ := h
  obtain ⟨Frest, hFeq, hFl, hFb⟩ := newPolynomial_some_ok _ _ _ _ _ _ hF
  obtain ⟨Kcs, hKeq, hKl, hKb⟩ := newPolynomial_none_ok _ _ (by omega) _ _ _ hK
  have htn : (p.threshold - 1).toNat + 1 = p.threshold.toNat := by omega
  have hFne : (secret :: Frest) ≠ [] := by simp
  have hKne : Kcs ≠ [] := by
    intro e; rw [e] at hKl; simp at hKl
  -- the abscissae of the shareholders are set
  have habs : ∀ i, i < p.parts.toNat →
      abscissae.get? i = some (some (abscissaAt abscissae i)) := by
    intro i hi
    obtain ⟨b, hb⟩ := mapE_ok_mem _ _ _ hparts i (List.mem_range.mpr hi)
    rw [bind_ok] at hb
    obtain ⟨xi, hxi, hb⟩ := hb
    rw [bind_ok] at hb
    obtain ⟨x, hx, _⟩ := hb
    rw [goIndex_ok] at hxi
    rw [deref_ok] at hx
    subst hx
    rw [hxi, abscissaAt_of_get _ _ _ hxi]
  have hparts2 := mapE_map_ok (fun i => do
      let xi ← goIndex abscissae i
      let xi ← deref xi
      let s ← F.evaluate xi
      let t ← K.evaluate xi
      pure ({ SShare := some s, TShare := some t } : SecretPart))
    (fun i => partOf (secret :: Frest) Kcs Q (abscissaAt abscissae i)) (List.range p.parts.toNat)
    (by
      intro i hi
      have hget := habs i (List.mem_range.mp hi)
      have hidx : goIndex abscissae i = .ok (some (abscissaAt abscissae i)) :=
        (goIndex_ok _ _ _).2 hget
      simp only [hidx, deref, bind, Except.bind, hFeq, hKeq, evaluate_eq _ _ _ hFne hQ,
        evaluate_eq _ _ _ hKne hQ, pure, Except.pure, partOf])
  rw [hparts2] at hparts
  simp only [Except.ok.injEq] at hparts
  have hcomm2 := mapE_map_ok (fun i => do
      let fi ← goIndex F.coefficients i
      let fi ← deref fi
      let ki ← goIndex K.coefficients i
      let ki ← deref ki
      let commitment ← p.commit fi ki
      pure (some commitment))
    (fun k => some (commitValue G H P ((secret :: Frest).getD k 0) (Kcs.getD k 0)))
    (List.range p.threshold.toNat)
    (by
      intro i hi
      have hi2 := List.mem_range.mp hi
      have hFi : goIndex F.coefficients i = .ok (some ((secret :: Frest).getD i 0)) := by
        rw [goIndex_ok, hFeq]
        simp only [List.get?_eq_getElem?, List.getElem?_map]
        have : i < (secret :: Frest).length := by simp [hFl]; omega
        rw [List.getElem?_eq_getElem this, List.getD_eq_getElem _ _ this]
        rfl
      have hKi : goIndex K.coefficients i = .ok (some (Kcs.getD i 0)) := by
        rw [goIndex_ok, hKeq]
        simp only [List.get?_eq_getElem?, List.getElem?_map]
        have : i < Kcs.length := by omega
        rw [List.getElem?_eq_getElem this, List.getD_eq_getElem _ _ this]
        rfl
      simp only [hFi, hKi, deref, bind, Except.bind, commit_eq p P Q G H hg hodd, pure,
        Except.pure])
  rw [hcomm2] at hcomm
  simp only [Except.ok.injEq] at hcomm
  refine ⟨secret :: Frest, Kcs, by simp [hFl]; omega, by omega, rfl, ?_, hKb, habs, ?_⟩
  · simpa using hFb
  · rw [← hr, ← hparts, ← hcomm]
    rfl

end pedersen

namespace pedersen

open big

/-! ## The workers of Split and the result matrices -/

theorem mapTape_enumFrom_ok {β : Type} (g : Nat → Int → Tape → Except Err (β × Tape)) :
    ∀ (l : List Int) (k : Nat) (tape tape2 : Tape) (bs : List β),
    mapTape (fun (e : Nat × Int) tape => g e.1 e.2 tape) (l.enumFrom k) tape = .ok (bs, tape2) →
    bs.length = l.length ∧ ∀ i s, l.get? i = some s →
      ∃ b t1 t2, bs.get? i = some b ∧ g (k + i) s t1 = .ok (b, t2) := by
  intro l
  induction l with
  | nil =>
    intro k tape tape2 bs h
    simp only [List.enumFrom_nil, mapTape, Except.ok.injEq, Prod.mk.injEq] at h
    obtain ⟨rfl, _⟩ := h
    simp
  | cons x l ih =>
    intro k tape tape2 bs h
    rw [List.enumFrom_cons] at h
    unfold mapTape at h
    rw [bind_ok] at h
    obtain ⟨⟨b, tape3⟩, hb, h⟩ := h
    simp only [] at h
    rw [bind_ok] at h
    obtain ⟨⟨bs2, tape4⟩, hbs, h⟩ := h
    simp only [pure, Except.pure, Except.ok.injEq, Prod.mk.injEq] at h
    obtain ⟨rfl, _⟩ := h
    obtain ⟨hl, hi⟩ := ih (k + 1) tape3 tape4 bs2 hbs
    refine ⟨by simp [hl], ?_⟩
    intro i s hs
    cases i with
    | zero =>
      simp only [List.get?_cons_zero, Option.some.injEq] at hs
      subst hs
      exact ⟨b, tape, tape3, rfl, hb⟩
    | succ i =>
      simp only [List.get?_cons_succ] at hs
      obtain ⟨b2, t1, t2, h1, h2⟩ := hi i s hs
      refine ⟨b2, t1, t2, by simpa using h1, ?_⟩
      have e : k + (i + 1) = k + 1 + i := by omega
      rw [e]
      exact h2

/-- The chunk body of a worker of `Split`. -/
theorem splitWorker_ok (p : Pedersen) (P Q G H : Int)
    (hg : p.group = { P := some P, Q := some Q, G := some G, H := some H })
    (abscissae : List (Option Int)) (start : Nat) (secrets : List Int) (tape tape2 : Tape)
    (vals : List splitValue)
    (h : p.splitWorker abscissae start secrets tape = .ok (vals, tape2)) :
    vals.length = secrets.length ∧ ∀ i s, secrets.get? i = some s →
      ∃ r t1 t2, vals.get? i = some r ∧ ¬ (Cmp s Q > 0) ∧
        p.split (start + i) s abscissae t1 = .ok (r, t2) := by
  have hPd : deref p.group.P = .ok P := by rw [hg]; rfl
  have hQd : deref p.group.Q = .ok Q := by rw [hg]; rfl
  unfold Pedersen.splitWorker at h
  rw [hPd, hQd] at h
  rw [bind_ok] at h
  obtain ⟨P2, hP2, h⟩ := h
  rw [bind_ok] at h
  obtain ⟨Q2, hQ2, h⟩ := h
  rw [bind_ok] at h
  obtain ⟨_, _, h⟩ := h
  simp only [Except.ok.injEq] at hP2 hQ2
  subst hP2 hQ2
  obtain ⟨hl, hi⟩ := mapTape_enumFrom_ok
    (fun idx secret tape => if Cmp secret Q > 0 then .error Err.ErrInvalidPrimeSize
      else p.split (start + idx) secret abscissae tape) secrets 0 tape tape2 vals h
  refine ⟨hl, ?_⟩
  intro i s hs
  obtain ⟨r, t1, t2, h1, h2⟩ := hi i s hs
  simp only [Nat.zero_add] at h2
  by_cases hc : Cmp s Q > 0
  · simp [hc] at h2
  · simp only [hc, if_false] at h2
    exact ⟨r, t1, t2, h1, hc, h2⟩

theorem get?_slice {α : Type} (l : List α) (lo hi i : Nat) (h : lo + i < hi) :
    ((l.take hi).drop lo).get? i = l.get? (lo + i) := by
  simp only [List.get?_eq_getElem?, List.getElem?_drop, List.getElem?_take, h, if_true]

theorem splitRanges_ok (p : Pedersen) (P Q G H : Int)
    (hg : p.group = { P := some P, Q := some Q, G := some G, H := some H })
    (abscissae : List (Option Int)) (splitted : List Int) {a : Int} {ranges : List chunkRange}
    (hc : Consecutive (splitted.length : Int) a ranges) :
    ∀ (tape : Tape) (results : List splitValue), 0 ≤ a →
    p.splitRanges abscissae splitted ranges tape = .ok results →
    results.length = splitted.length - a.toNat ∧ ∀ j s, a.toNat ≤ j → splitted.get? j = some s →
      ∃ r t1 t2, results.get? (j - a.toNat) = some r ∧ ¬ (Cmp s Q > 0) ∧
        p.split j s abscissae t1 = .ok (r, t2) := by
  intro tape
  have key : ∀ (rs : List (List splitValue)), 0 ≤ a →
      mapE (p.splitRange abscissae splitted tape) ranges = .ok rs →
      rs.flatten.length = splitted.length - a.toNat ∧
      ∀ j s, a.toNat ≤ j → splitted.get? j = some s →
        ∃ r t1 t2, rs.flatten.get? (j - a.toNat) = some r ∧ ¬ (Cmp s Q > 0) ∧
          p.split j s abscissae t1 = .ok (r, t2) := by
    induction hc with
    | nil =>
      intro rs _ h
      simp only [mapE_nil, Except.ok.injEq] at h
      subst h
      refine ⟨by simp, ?_⟩
      intro j s hj hs
      have : j < splitted.length := by
        have := List.get?_eq_some.mp hs
        exact this.1
      simp at hj
      omega
    | cons r rest h0 hlt hle hrest ih =>
      intro rs ha h
      rw [mapE_cons, bind_ok] at h
      obtain ⟨vals, hv, h⟩ := h
      rw [bind_ok] at h
      obtain ⟨more, hm, h⟩ := h
      simp only [pure, Except.pure, Except.ok.injEq] at h
      subst h
      unfold Pedersen.splitRange at hv
      rw [bind_ok] at hv
      obtain ⟨secrets, hsl, hv⟩ := hv
      rw [bind_ok] at hv
      obtain ⟨⟨vals2, tape3⟩, hw, hv⟩ := hv
      simp only [pure, Except.pure, Except.ok.injEq] at hv
      subst hv
      have hb := Consecutive.bounds hrest (by omega)
      have hstop : r.stop.toNat ≤ splitted.length := by omega
      have hss : r.start.toNat < r.stop.toNat := by omega
      unfold goSlice at hsl
      rw [if_pos ⟨by omega, hstop⟩] at hsl
      simp only [Except.ok.injEq] at hsl
      have hslen : secrets.length = r.stop.toNat - r.start.toNat := by
        rw [← hsl]
        simp [List.length_drop, List.length_take]
        omega
      obtain ⟨hvl, hvi⟩ := splitWorker_ok p P Q G H hg abscissae _ _ _ _ _ hw
      obtain ⟨hml, hmi⟩ := ih more (by omega) hm
      rw [List.flatten_cons]
      refine ⟨by rw [List.length_append, hvl, hml, hslen]; omega, ?_⟩
      intro j s hj hs
      have hjlt : j < splitted.length := (List.get?_eq_some.mp hs).1
      by_cases hjs : j < r.stop.toNat
      · have hsec : secrets.get? (j - r.start.toNat) = some s := by
          rw [← hsl, get?_slice _ _ _ _ (by omega)]
          have : r.start.toNat + (j - r.start.toNat) = j := by omega
          rw [this]; exact hs
        obtain ⟨r2, t1, t2, h1, h2, h3⟩ := hvi _ s hsec
        have e : r.start.toNat + (j - r.start.toNat) = j := by omega
        rw [e] at h3
        refine ⟨r2, t1, t2, ?_, h2, h3⟩
        rw [List.get?_eq_getElem?] at h1 ⊢
        rw [List.getElem?_append_left (by omega)]
        exact h1
      · obtain ⟨r2, t1, t2, h1, h2, h3⟩ := hmi j s (by omega) hs
        refine ⟨r2, t1, t2, ?_, h2, h3⟩
        rw [List.get?_eq_getElem?] at h1 ⊢
        rw [List.getElem?_append_right (by omega)]
        have : j - r.start.toNat - vals2.length = j - r.stop.toNat := by omega
        rw [this]
        exact h1
  intro results ha h
  unfold Pedersen.splitRanges at h
  rw [bind_ok] at h
  obtain ⟨rs, hrs, h⟩ := h
  simp only [pure, Except.pure, Except.ok.injEq] at h
  subst h
  exact key rs ha ((groupWait_ok_iff _ _ _).1 hrs)

end pedersen

namespace pedersen

open big

theorem enum_map_range {α β : Type} (n : Nat) (f : Nat → α) (h : Nat × α → β) :
    ((List.range n).map f).enum.map h = (List.range n).map (fun i => h (i, f i)) := by
  apply List.ext_getElem?
  intro j
  simp only [List.getElem?_map, List.getElem?_enum]
  by_cases hj : j < n
  · simp [List.getElem?_range hj]
  · have : (List.range n)[j]? = none := by
      apply List.getElem?_eq_none
      simp; omega
    simp [this]

theorem set_append_replicate {α : Type} (A : List α) (e v : α) (k : Nat) (hk : 1 ≤ k) :
    (A ++ List.replicate k e).set A.length v = (A ++ [v]) ++ List.replicate (k - 1) e := by
  obtain ⟨j, rfl⟩ : ∃ j, k = j + 1 := ⟨k - 1, by omega⟩
  rw [List.set_append]
  simp [List.replicate_succ]

/-- The matrices of `Split` after the writes of the results, which come in
the order of their indices. -/
theorem foldl_writeResult (n : Nat) (results : List splitValue) : ∀ (m : Nat),
    results.length ≤ m → (∀ j r, results.get? j = some r → r.index = j) →
    results.foldl writeResult
      (List.replicate n (List.replicate m SecretPart.empty), List.replicate m []) =
    ((List.range n).map (fun i =>
        results.map (fun r => (r.secretParts.get? i).getD SecretPart.empty) ++
          List.replicate (m - results.length) SecretPart.empty),
      results.map (fun r => r.secretComm) ++ List.replicate (m - results.length) []) := by
  induction results using List.reverseRecOn with
  | nil =>
    intro m _ _
    simp only [List.foldl_nil, List.map_nil, List.nil_append, List.length_nil, Nat.sub_zero,
      Prod.mk.injEq, and_true]
    apply List.ext_getElem?
    intro j
    by_cases hj : j < n
    · simp [List.getElem?_replicate, hj, List.getElem?_range hj]
    · have : (List.range n)[j]? = none := by
        apply List.getElem?_eq_none
        simp; omega
      simp [List.getElem?_replicate, hj, this]
  | append_singleton init last ih =>
    intro m hm hidx
    have hlen : (init ++ [last]).length = init.length + 1 := by simp
    rw [hlen] at hm
    have hidx2 : ∀ j r, init.get? j = some r → r.index = j := by
      intro j r hj
      apply hidx j r
      rw [List.get?_eq_getElem?] at hj ⊢
      have hlt : j < init.length := by
        by_contra hc
        rw [List.getElem?_eq_none (by omega)] at hj
        simp at hj
      rw [List.getElem?_append_left hlt]
      exact hj
    have hlast : last.index = init.length := by
      apply hidx init.length last
      rw [List.get?_eq_getElem?, List.getElem?_append_right (le_refl _)]
      simp
    rw [List.foldl_append, ih m (by omega) hidx2]
    simp only [List.foldl_cons, List.foldl_nil, writeResult, hlast, hlen]
    rw [enum_map_range]
    simp only [Prod.mk.injEq]
    constructor
    · apply List.map_congr_left
      intro i _
      have hl : (init.map (fun r => (r.secretParts.get? i).getD SecretPart.empty)).length =
          init.length := by simp
      have := set_append_replicate
        (init.map (fun r => (r.secretParts.get? i).getD SecretPart.empty)) SecretPart.empty
        ((last.secretParts.get? i).getD SecretPart.empty) (m - init.length) (by omega)
      rw [hl] at this
      rw [this]
      simp only [List.map_append, List.map_cons, List.map_nil]
      congr 2
    · have hl : (init.map (fun r => r.secretComm)).length = init.length := by simp
      have := set_append_replicate (init.map (fun r => r.secretComm)) [] last.secretComm
        (m - init.length) (by omega)
      rw [hl] at this
      rw [this]
      simp only [List.map_append, List.map_cons, List.map_nil]
      congr 2

end pedersen

namespace pedersen

open big

/-! ## Validated groups -/

theorem Group.validatePrimes_ok (g : Group) (h : g.validatePrimes = .ok ()) :
    ∃ P Q : Int, g.P = some P ∧ g.Q = some Q ∧ Nat.Prime P.toNat ∧ Nat.Prime Q.toNat ∧
      minPrimeBitLen ≤ BitLen P ∧ (P - 1).tmod Q = 0 := by
  unfold Group.validatePrimes at h
  cases hP : g.P with
  | none => rw [hP] at h; cases hQ : g.Q <;> rw [hQ] at h <;> simp at h
  | some P =>
    cases hQ : g.Q with
    | none => rw [hP, hQ] at h; simp at h
    | some Q =>
      rw [hP, hQ] at h
      simp only [] at h
      by_cases hb : BitLen P < minPrimeBitLen
      · simp [hb] at h
      · simp only [hb, if_false] at h
        by_cases hpp : ProbablyPrime P = true
        · by_cases hpq : ProbablyPrime Q = true
          · simp only [hpp, hpq, Bool.not_true, Bool.false_eq_true, if_false] at h
            rw [bind_ok] at h
            obtain ⟨pm, hpm, h⟩ := h
            unfold big.Mod at hpm
            by_cases hQ0 : Q = 0
            · simp [hQ0] at hpm
            · simp only [hQ0, if_false, Except.ok.injEq] at hpm
              by_cases hcmp : Cmp pm (SetUInt64 0) ≠ 0
              · simp [hcmp] at h
              · have hz : pm = 0 := by
                  unfold Cmp SetUInt64 at hcmp
                  simp only [ne_eq, not_not] at hcmp
                  by_contra hne
                  split at hcmp
                  · omega
                  · simp [hne] at hcmp
                subst hz
                refine ⟨P, Q, rfl, rfl, ?_, ?_, by omega, hpm⟩
                · simpa [ProbablyPrime] using hpp
                · simpa [ProbablyPrime] using hpq
          · simp [hpp, hpq] at h
        · simp [hpp] at h

theorem Group.validateGenerator_ok (g : Group) (P Q : Int) (hP : g.P = some P)
    (hQ : g.Q = some Q) (hQ0 : Q ≠ 0) (hP0 : P ≠ 0) (gen : Option Int)
    (h : g.validateGenerator gen = .ok ()) :
    ∃ x, gen = some x ∧ modExpValue x ((P - 1).tdiv Q) P ≠ 1 ∧ modExpValue x Q P = 1 := by
  unfold Group.validateGenerator at h
  cases gen with
  | none => simp at h
  | some x =>
    simp only [hP, hQ, deref, bind, Except.bind, big.Div, hQ0, if_false, ModExp, hP0] at h
    by_cases h1 : Cmp (modExpValue x ((P - 1).tdiv Q) P) 1 = 0
    · simp [h1] at h
    · simp only [h1, if_false] at h
      by_cases h2 : Cmp (modExpValue x Q P) 1 ≠ 0
      · simp [h2] at h
      · simp only [ne_eq, not_not] at h2
        refine ⟨x, rfl, ?_, ?_⟩
        · intro hc
          apply h1
          simp [Cmp, hc]
        · unfold Cmp at h2
          by_contra hne
          split at h2
          · omega
          · simp [hne] at h2

theorem Group.validate_ok (g : Group) (h : g.validate = .ok ()) :
    ∃ P Q G H : Int, GroupFacts g P Q G H := by
  unfold Group.validate at h
  rw [bind_ok] at h
  obtain ⟨_, h1, h⟩ := h
  rw [bind_ok] at h
  obtain ⟨_, h2, h3⟩ := h
  obtain ⟨P, Q, hP, hQ, hpP, hpQ, hbits, hdvd⟩ := Group.validatePrimes_ok g h1
  have hQ0 : Q ≠ 0 := by
    intro e; rw [e] at hpQ; exact Nat.not_prime_zero hpQ
  have hP0 : P ≠ 0 := by
    intro e; rw [e] at hpP; exact Nat.not_prime_zero hpP
  obtain ⟨G, hG, hG1, hG2⟩ := Group.validateGenerator_ok g P Q hP hQ hQ0 hP0 _ h2
  obtain ⟨H, hH, hH1, hH2⟩ := Group.validateGenerator_ok g P Q hP hQ hQ0 hP0 _ h3
  refine ⟨P, Q, G, H, ?_, hpP, hpQ, hbits, hdvd, hG1, hG2, hH1, hH2⟩
  cases g
  simp only at hP hQ hG hH
  simp [hP, hQ, hG, hH]

theorem GroupFacts.Q_pos {g : Group} {P Q G H : Int} (hf : GroupFacts g P Q G H) : 2 ≤ Q := by
  have := hf.primeQ.two_le
  omega

theorem GroupFacts.P_big {g : Group} {P Q G H : Int} (hf : GroupFacts g P Q G H) :
    2 ^ 63 ≤ P := by
  have h2 := hf.primeP.two_le
  have hb := hf.bits
  unfold minPrimeBitLen BitLen at hb
  have : ¬ (P.natAbs < 2 ^ 63) := by
    intro hlt
    have := (bitLen_le_iff P.natAbs 63).2 hlt
    omega
  omega

theorem GroupFacts.P_odd {g : Group} {P Q G H : Int} (hf : GroupFacts g P Q G H) :
    P % 2 ≠ 0 := by
  have hbig := hf.P_big
  have hp := hf.primeP
  rcases hp.eq_two_or_odd with h | h
  · omega
  · omega

end pedersen

namespace pedersen

open big

/-! ## The result of Split -/

theorem exists_list_of_get {α β : Type} (R : Nat → α → β → Prop) : ∀ (l : List α) (k : Nat),
    (∀ j a, l.get? j = some a → ∃ b, R (k + j) a b) →
    ∃ bs : List β, bs.length = l.length ∧
      ∀ j a b, l.get? j = some a → bs.get? j = some b → R (k + j) a b := by
  intro l
  induction l with
  | nil => intro k _; exact ⟨[], rfl, by simp⟩
  | cons x l ih =>
    intro k h
    obtain ⟨b0, hb0⟩ := h 0 x rfl
    obtain ⟨bs, hl, hbs⟩ := ih (k + 1) (by
      intro j a hj
      obtain ⟨b, hb⟩ := h (j + 1) a (by simpa using hj)
      have e : k + 1 + j = k + (j + 1) := by omega
      exact ⟨b, by rw [e]; exact hb⟩)
    refine ⟨b0 :: bs, by simp [hl], ?_⟩
    intro j a b hj hb
    cases j with
    | zero =>
      simp only [List.get?_cons_zero, Option.some.injEq] at hj hb
      subst hj hb
      exact hb0
    | succ j =>
      simp only [List.get?_cons_succ] at hj hb
      have e : k + (j + 1) = k + 1 + j := by omega
      rw [e]
      exact hbs j a b hj hb

theorem chunksOf_length_pos (v : List Byte) (max : Int) (hv : v ≠ []) :
    1 ≤ (chunksOf v max).length := by
  unfold chunksOf
  rw [length_chunksFrom]
  have h := (partCountOf_spec v.length _ (partLenOf_pos max)).2
  have hl : 1 ≤ v.length := List.length_pos.mpr hv
  by_contra hc
  have : partCountOf v.length (partLenOf max) = 0 := by omega
  rw [this] at h
  omega

theorem adjustConcLimit_pos (p : Pedersen) (hc : 1 ≤ p.concLimit) (num : Int) (hn : 1 ≤ num) :
    1 ≤ p.adjustConcLimit num := by
  unfold Pedersen.adjustConcLimit Pedersen.GetConcLimit
  simp only []
  split <;> omega

theorem Pedersen.validate_bounds (p : Pedersen) (h : p.validate = .ok ()) :
    2 ≤ p.threshold ∧ p.threshold ≤ p.parts := by
  unfold Pedersen.validate minThreshold at h
  by_cases h1 : p.threshold < 2
  · simp [h1] at h
  · by_cases h2 : p.parts < p.threshold
    · simp [h1, h2] at h
    · omega

/-- What `Split` returns: the abscissae, and for every chunk a pair of
polynomials F and K from which the parts and the commitments are computed. -/
theorem Split_spec (p : Pedersen) (P Q G H : Int) (hf : GroupFacts p.group P Q G H)
    (hv : p.validate = .ok ()) (hc : 1 ≤ p.concLimit) (hbits : BitLen Q < 2 ^ 31)
    (secret : List Byte) (a : Option (List (Option Int))) (tape : Tape) (sh : Shares)
    (h : p.Split secret a tape = (some sh, none)) :
    secret ≠ [] ∧
    (a = none → ∃ xs : List Int, sh.Abscissae = xs.map some ∧ xs.length = p.parts.toNat ∧
      xs.Nodup ∧ ∀ x ∈ xs, 1 ≤ x ∧ x < 1 + Q) ∧
    (∀ l, a = some l → sh.Abscissae = l ∧ p.parts ≤ (l.length : Int)) ∧
    (∀ i, i < p.parts.toNat →
      sh.Abscissae.get? i = some (some (abscissaAt sh.Abscissae i))) ∧
    ∃ polys : List (List Int × List Int),
      polys.length = (chunksOf secret Q).length ∧
      (∀ j c FK, (chunksOf secret Q).get? j = some c → polys.get? j = some FK →
        FK.1.length = p.threshold.toNat ∧ FK.2.length = p.threshold.toNat ∧
        FK.1.head? = some ((padValue c : Nat) : Int) ∧ ((padValue c : Nat) : Int) ≤ Q ∧
        (∀ x ∈ FK.1.tail, 0 ≤ x ∧ x < Q) ∧ (∀ x ∈ FK.2, 0 ≤ x ∧ x < Q)) ∧
      sh.Parts = (List.range p.parts.toNat).map (fun i =>
        polys.map (fun FK => partOf FK.1 FK.2 Q (abscissaAt sh.Abscissae i))) ∧
      sh.Commitments = polys.map (fun FK => commitmentsOf G H P FK.1 FK.2 p.threshold.toNat) := by
  obtain ⟨ht, htn⟩ := Pedersen.validate_bounds p hv
  have hg := hf.eq
  have hQ2 := hf.Q_pos
  have hodd := hf.P_odd
  have hQd : deref p.group.Q = .ok Q := by rw [hg]; rfl
  unfold Pedersen.Split at h
  by_cases hs : secret.length = 0
  · simp [hs] at h
  have hsne : secret ≠ [] := fun e => hs (by rw [e]; rfl)
  rw [if_neg hs] at h
  cases hcore : p.splitCore secret a tape with
  | error e => rw [hcore] at h; simp at h
  | ok sh2 =>
    rw [hcore] at h
    simp only [Prod.mk.injEq, Option.some.injEq, and_true] at h
    subst h
    unfold Pedersen.splitCore at hcore
    rw [bind_ok] at hcore
    obtain ⟨⟨abscissae, tape1⟩, habs, hcore⟩ := hcore
    simp only [] at hcore
    rw [hQd, bind_ok] at hcore
    obtain ⟨Q', hQ', hcore⟩ := hcore
    simp only [Except.ok.injEq] at hQ'
    subst hQ'
    rw [splitSecret_eq secret Q hbits, bind_ok] at hcore
    obtain ⟨splitted, hsp, hcore⟩ := hcore
    simp only [Except.ok.injEq] at hsp
    have hm1 := chunksOf_length_pos secret Q hsne
    have hsl : splitted.length = (chunksOf secret Q).length := by rw [← hsp]; simp
    obtain ⟨ranges, hbal, hcons⟩ := balanceIndices_spec p splitted.length
      (p.adjustConcLimit splitted.length)
      (adjustConcLimit_pos p hc _ (by rw [hsl]; exact_mod_cast hm1))
    rw [hbal, bind_ok] at hcore
    obtain ⟨ranges', hr', hcore⟩ := hcore
    simp only [Except.ok.injEq] at hr'
    subst hr'
    rw [bind_ok] at hcore
    obtain ⟨results, hres, hcore⟩ := hcore
    simp only [pure, Except.pure, Except.ok.injEq] at hcore
    obtain ⟨hrl, hri⟩ := splitRanges_ok p P Q G H hg abscissae splitted hcons tape1
      results le_rfl hres
    simp only [Int.toNat_zero, Nat.sub_zero] at hrl hri
    -- every result comes from a pair of polynomials
    have hex : ∀ j c, (chunksOf secret Q).get? j = some c → ∃ FK : List Int × List Int,
        (FK.1.length = p.threshold.toNat ∧ FK.2.length = p.threshold.toNat ∧
          FK.1.head? = some ((padValue c : Nat) : Int) ∧ ((padValue c : Nat) : Int) ≤ Q ∧
          (∀ x ∈ FK.1.tail, 0 ≤ x ∧ x < Q) ∧ (∀ x ∈ FK.2, 0 ≤ x ∧ x < Q)) ∧
        (∀ i, i < p.parts.toNat →
          abscissae.get? i = some (some (abscissaAt abscissae i))) ∧
        results.get? j = some (splitValueOf G H P Q abscissae p.parts.toNat p.threshold.toNat
          j FK.1 FK.2) := by
      intro j c hj
      have hsj : splitted.get? j = some ((padValue c : Nat) : Int) := by
        rw [← hsp, List.get?_eq_getElem?, List.getElem?_map]
        rw [List.get?_eq_getElem?] at hj
        rw [hj]; rfl
      obtain ⟨r, t1, t2, h1, h2, h3⟩ := hri j _ (Nat.zero_le j) hsj
      obtain ⟨F, K, hFl, hKl, hFh, hFb, hKb, hab, hr⟩ :=
        split_ok p P Q G H hg hodd (by omega) ht j _ abscissae t1 t2 r h3
      refine ⟨(F, K), ⟨hFl, hKl, hFh, ?_, hFb, hKb⟩, hab, ?_⟩
      · unfold Cmp at h2
        by_contra hgt
        apply h2
        split
        · omega
        · split <;> omega
      · rw [h1, hr]
    obtain ⟨polys, hpl, hpolys⟩ := exists_list_of_get
      (fun (j : Nat) (c : List Byte) (FK : List Int × List Int) =>
        (FK.1.length = p.threshold.toNat ∧ FK.2.length = p.threshold.toNat ∧
          FK.1.head? = some ((padValue c : Nat) : Int) ∧ ((padValue c : Nat) : Int) ≤ Q ∧
          (∀ x ∈ FK.1.tail, 0 ≤ x ∧ x < Q) ∧ (∀ x ∈ FK.2, 0 ≤ x ∧ x < Q)) ∧
        (∀ i, i < p.parts.toNat →
          abscissae.get? i = some (some (abscissaAt abscissae i))) ∧
        results.get? j = some (splitValueOf G H P Q abscissae p.parts.toNat p.threshold.toNat
          j FK.1 FK.2))
      (chunksOf secret Q) 0 (by
        intro j c hj
        simp only [Nat.zero_add]
        exact hex j c hj)
    simp only [Nat.zero_add] at hpolys
    -- the results, index by index
    have hresults : results = polys.enum.map (fun (e : Nat × (List Int × List Int)) =>
        splitValueOf G H P Q abscissae p.parts.toNat p.threshold.toNat e.1 e.2.1 e.2.2) := by
      apply List.ext_getElem?
      intro j
      simp only [List.getElem?_map, List.getElem?_enum]
      by_cases hj : j < (chunksOf secret Q).length
      · have hc1 : (chunksOf secret Q).get? j = some ((chunksOf secret Q).get ⟨j, hj⟩) :=
          List.get?_eq_get hj
        have hp1 : polys.get? j = some (polys.get ⟨j, by omega⟩) := List.get?_eq_get (by omega)
        have := (hpolys j _ _ hc1 hp1).2.2
        rw [List.get?_eq_getElem?] at this hp1
        rw [this, hp1]
        rfl
      · rw [List.getElem?_eq_none (by omega), List.getElem?_eq_none (by omega)]
        rfl
    have hidx : ∀ j r, results.get? j = some r → r.index = j := by
      intro j r hj
      rw [hresults, List.get?_eq_getElem?, List.getElem?_map, List.getElem?_enum] at hj
      cases hpj : polys[j]? with
      | none => rw [hpj] at hj; simp at hj
      | some FK =>
        rw [hpj] at hj
        simp only [Option.map_some', Option.some.injEq] at hj
        rw [← hj]
        rfl
    have htable := foldl_writeResult p.parts.toNat results splitted.length (by omega) hidx
    rw [htable] at hcore
    have hzero : splitted.length - results.length = 0 := by omega
    simp only [hzero, List.replicate_zero, List.append_nil] at hcore
    subst hcore
    have habs0 : ∀ i, i < p.parts.toNat →
        abscissae.get? i = some (some (abscissaAt abscissae i)) := by
      have hj0 : 0 < (chunksOf secret Q).length := by omega
      obtain ⟨FK, _, hab, _⟩ := hex 0 _ (List.get?_eq_get hj0)
      exact hab
    refine ⟨hsne, ?_, ?_, habs0, polys, hpl, ?_, ?_, ?_⟩
    · intro ha
      subst ha
      unfold Pedersen.splitAbscissae at habs
      simp only [] at habs
      rw [hQd, bind_ok] at habs
      obtain ⟨Q', hQ', habs⟩ := habs
      simp only [Except.ok.injEq] at hQ'
      subst hQ'
      rw [bind_ok] at habs
      obtain ⟨⟨xs, tape3⟩, hxs, habs⟩ := habs
      simp only [pure, Except.pure, Except.ok.injEq, Prod.mk.injEq] at habs
      obtain ⟨hl, hb, hd⟩ := randInts_ok _ _ _ _ _ _ _ hxs
      exact ⟨xs, habs.1.symm, hl, hd rfl, hb⟩
    · intro l ha
      subst ha
      unfold Pedersen.splitAbscissae at habs
      simp only [] at habs
      by_cases hlen : (l.length : Int) < p.parts
      · simp [hlen] at habs
      · simp only [hlen, if_false, pure, Except.pure, Except.ok.injEq, Prod.mk.injEq] at habs
        exact ⟨habs.1.symm, by omega⟩
    · intro j c FK hj hp
      exact (hpolys j c FK hj hp).1
    · show List.map _ (List.range p.parts.toNat) = _
      apply List.map_congr_left
      intro i hi
      have hi2 := List.mem_range.mp hi
      rw [hresults, List.map_map]
      apply List.ext_getElem?
      intro j
      simp only [List.getElem?_map, List.getElem?_enum, Function.comp]
      cases hpj : polys[j]? with
      | none => rfl
      | some FK =>
        simp only [Option.map_some', Option.some.injEq, splitValueOf]
        show ((List.map (fun i => partOf FK.1 FK.2 Q (abscissaAt abscissae i))
          (List.range p.parts.toNat)).get? i).getD SecretPart.empty = _
        rw [List.get?_eq_getElem?, List.getElem?_map, List.getElem?_range hi2]
        rfl
    · show List.map _ results = _
      rw [hresults, List.map_map]
      apply List.ext_getElem?
      intro j
      simp only [List.getElem?_map, List.getElem?_enum, Function.comp]
      cases hpj : polys[j]? with
      | none => rfl
      | some FK => rfl

end pedersen

namespace big

/-! ## Modular inverses -/

theorem invAux_spec (n g : Int) (hn : 1 < n) : ∀ (fuel a b : Nat) (s0 s1 : Int),
    b < fuel → ((a : Int) ≡ s0 * g [ZMOD n]) → ((b : Int) ≡ s1 * g [ZMOD n]) →
    (0 ≤ s0 ∧ s0 < n) → (0 ≤ s1 ∧ s1 < n) →
    ∃ s, invAux fuel n a b s0 s1 = (((Nat.gcd a b : Nat) : Int), s) ∧
      (((Nat.gcd a b : Nat) : Int) ≡ s * g [ZMOD n]) ∧ 0 ≤ s ∧ s < n := by
  intro fuel
  induction fuel with
  | zero => intro a b s0 s1 hb; omega
  | succ fuel ih =>
    intro a b s0 s1 hb ha hbm hs0 hs1
    by_cases hb0 : b = 0
    · subst hb0
      refine ⟨s0, ?_, ?_, hs0⟩
      · simp [invAux]
      · simpa using ha
    · have hbne : ((b : Nat) : Int) ≠ 0 := by exact_mod_cast hb0
      have hmod : ((a : Int) % (b : Int)) = ((a % b : Nat) : Int) := by norm_cast
      have hdiv : ((a : Int) / (b : Int)) = ((a / b : Nat) : Int) := by norm_cast
      have hlt : a % b < fuel := by
        have := Nat.mod_lt a (Nat.pos_of_ne_zero hb0)
        omega
      have hnew : (((a % b : Nat) : Int) ≡ ((s0 - ((a / b : Nat) : Int) * s1) % n) * g [ZMOD n]) := by
        have h1 : ((a % b : Nat) : Int) = (a : Int) - ((a / b : Nat) : Int) * (b : Int) := by
          have := Nat.div_add_mod a b
          have h2 : ((b * (a / b) + a % b : Nat) : Int) = (a : Int) := by exact_mod_cast this
          push_cast at h2
          rw [← hmod, ← hdiv]
          linarith
        rw [h1]
        have h3 : (s0 - ((a / b : Nat) : Int) * s1) % n ≡ s0 - ((a / b : Nat) : Int) * s1 [ZMOD n] :=
          Int.mod_modEq _ _
        have h4 := Int.ModEq.mul_right g h3
        have h5 : (a : Int) - ((a / b : Nat) : Int) * (b : Int) ≡
            (s0 - ((a / b : Nat) : Int) * s1) * g [ZMOD n] := by
          have h6 := Int.ModEq.sub ha (Int.ModEq.mul_left (((a / b : Nat) : Int)) hbm)
          have e : s0 * g - ((a / b : Nat) : Int) * (s1 * g) =
              (s0 - ((a / b : Nat) : Int) * s1) * g := by ring
          rw [e] at h6
          exact h6
        exact h5.trans h4.symm
      have hrange : 0 ≤ (s0 - ((a / b : Nat) : Int) * s1) % n ∧
          (s0 - ((a / b : Nat) : Int) * s1) % n < n :=
        ⟨Int.emod_nonneg _ (by omega), Int.emod_lt_of_pos _ (by omega)⟩
      obtain ⟨s, hs, hcong, hsr⟩ := ih b (a % b) s1 _ hlt hbm hnew hs1 hrange
      refine ⟨s, ?_, ?_, hsr⟩
      · simp only [invAux, hbne, if_false, hmod, hdiv]
        rw [hs]
        congr 2
        rw [Nat.gcd_comm b, ← Nat.gcd_rec]
        exact Nat.gcd_comm b a
      · have e : Nat.gcd a b = Nat.gcd b (a % b) := by
          rw [Nat.gcd_comm b, ← Nat.gcd_rec]
          exact Nat.gcd_comm a b
        rw [e]
        exact hcong

/-- For a prime modulus and a number it does not divide, `ModInverse` returns
the inverse, reduced into `[0, q)`. -/
theorem ModInverse_prime (q : Nat) [hq : Fact q.Prime] (g : Int) (hg : ((g : Int) : ZMod q) ≠ 0) :
    ∃ r : Int, ModInverse g (q : Int) = .ok r ∧ 0 ≤ r ∧ r < q ∧
      ((r : Int) : ZMod q) = ((g : Int) : ZMod q)⁻¹ := by
  have hq2 : 2 ≤ q := hq.out.two_le
  have hn : (1 : Int) < (q : Int) := by omega
  have hgm : 0 ≤ g % (q : Int) := Int.emod_nonneg _ (by omega)
  obtain ⟨b, hb⟩ : ∃ b : Nat, g % (q : Int) = (b : Int) := ⟨(g % q).toNat, by omega⟩
  have hblt : b < q := by
    have := Int.emod_lt_of_pos g (show (0 : Int) < q by omega)
    omega
  have h1 : ((q : Nat) : Int) ≡ 0 * g [ZMOD (q : Int)] := by
    simp [Int.ModEq]
  have h2 : ((b : Nat) : Int) ≡ 1 * g [ZMOD (q : Int)] := by
    rw [← hb, one_mul]
    exact Int.mod_modEq g q
  obtain ⟨s, hs, hcong, hs0, hs1⟩ := invAux_spec (q : Int) g hn (q + 1) q b 0 1 (by omega) h1 h2
    ⟨le_rfl, by omega⟩ ⟨by omega, hn⟩
  have hcop : Nat.gcd q b = 1 := by
    have hndvd : ¬ q ∣ b := by
      intro hd
      apply hg
      have : ((b : Nat) : ZMod q) = 0 := (ZMod.natCast_zmod_eq_zero_iff_dvd b q).2 hd
      have e : ((g : Int) : ZMod q) = (((b : Nat) : Int) : ZMod q) := by
        rw [← hb]
        exact ((ZMod.intCast_eq_intCast_iff g (g % q) q).2 (Int.mod_modEq g q).symm)
      rw [e]
      exact_mod_cast this
    exact (Nat.Prime.coprime_iff_not_dvd hq.out).2 hndvd
  rw [hcop] at hs hcong
  refine ⟨s, ?_, hs0, hs1, ?_⟩
  · unfold ModInverse
    have hna : ((q : Int)).natAbs = q := Int.natAbs_ofNat q
    have hnle : ¬ ((q : Int)).natAbs ≤ 1 := by rw [hna]; omega
    rw [if_neg hnle]
    simp only [hna]
    have htn : ((q : Int)).toNat + 1 = q + 1 := by simp
    rw [htn, hb, hs]
    simp
  · have hmul : ((s : Int) : ZMod q) * ((g : Int) : ZMod q) = 1 := by
      have := (ZMod.intCast_eq_intCast_iff _ _ q).2 hcong
      push_cast at this
      exact this.symm
    exact eq_inv_of_mul_eq_one_left hmul

end big

namespace pedersen

open big

/-! ## Interpolation: the loops -/

theorem cast_tmod (q : Nat) (a : Int) : (((a.tmod (q : Int) : Int)) : ZMod q) = ((a : Int) : ZMod q) := by
  have h := Int.tmod_add_tdiv a (q : Int)
  have h2 : ((a : Int) : ZMod q) = (((a.tmod (q : Int) + (q : Int) * a.tdiv (q : Int) : Int)) : ZMod q) := by
    rw [h]
  rw [h2]
  push_cast
  simp

theorem Mod_prime (q : Nat) [hq : Fact q.Prime] (a : Int) :
    big.Mod a (q : Int) = .ok (a.tmod (q : Int)) := by
  have : (q : Int) ≠ 0 := by
    have := hq.out.two_le
    omega
  simp [big.Mod, this]

theorem basisLoop_spec (q : Nat) [hq : Fact q.Prime] (x xj : Int) (j : Nat) :
    ∀ (l : List (Nat × Int)) (basis : Int),
    (∀ e ∈ l, e.1 ≠ j → (((e.2 - xj : Int)) : ZMod q) ≠ 0) →
    ∃ b, basisLoop x (q : Int) xj j l basis = .ok b ∧
      ((b : Int) : ZMod q) = ((basis : Int) : ZMod q) *
        (l.map (fun e => if j = e.1 then (1 : ZMod q)
          else (((e.2 - x : Int)) : ZMod q) * (((e.2 - xj : Int)) : ZMod q)⁻¹)).prod ∧
      (x = 0 → 0 ≤ basis → (∀ e ∈ l, 0 ≤ e.2) → 0 ≤ b) := by
  intro l
  induction l with
  | nil =>
    intro basis _
    exact ⟨basis, rfl, by simp, fun _ h _ => h⟩
  | cons e l ih =>
    intro basis hinv
    obtain ⟨k, xk⟩ := e
    have hinv2 : ∀ e ∈ l, e.1 ≠ j → (((e.2 - xj : Int)) : ZMod q) ≠ 0 :=
      fun e he => hinv e (List.mem_cons_of_mem _ he)
    by_cases hjk : j = k
    · obtain ⟨b, hb, hcast, hnn⟩ := ih basis hinv2
      refine ⟨b, ?_, ?_, ?_⟩
      · simp only [basisLoop, hjk, if_true]
        rw [← hjk]; exact hb
      · rw [hcast]
        simp [hjk]
      · intro hx h0 hall
        exact hnn hx h0 (fun e he => hall e (List.mem_cons_of_mem _ he))
    · have hne : (((xk - xj : Int)) : ZMod q) ≠ 0 :=
        hinv (k, xk) (List.mem_cons_self _ _) (fun e => hjk e.symm)
      obtain ⟨inv, hinvok, hi0, hi1, hicast⟩ := ModInverse_prime q (xk - xj) hne
      obtain ⟨b, hb, hcast, hnn⟩ := ih ((basis * ((xk - x) * inv)).tmod (q : Int)) hinv2
      refine ⟨b, ?_, ?_, ?_⟩
      · simp only [basisLoop, hjk, if_false, hinvok, bind, Except.bind, Mod_prime]
        exact hb
      · rw [hcast, cast_tmod]
        simp only [List.map_cons, hjk, if_false, List.prod_cons]
        rw [← hicast]
        push_cast
        ring
      · intro hx h0 hall
        apply hnn hx
        · apply Int.tmod_nonneg
          have hxk : 0 ≤ xk := hall (k, xk) (List.mem_cons_self _ _)
          subst hx
          have : 0 ≤ (xk - 0) * inv := mul_nonneg (by omega) hi0
          exact mul_nonneg h0 this
        · exact fun e he => hall e (List.mem_cons_of_mem _ he)

theorem interpolateLoop_spec (q : Nat) [hq : Fact q.Prime] (xs ys : List Int) (x : Int) :
    ∀ (l : List (Nat × Int)) (result : Int),
    (∀ e ∈ l, e.1 < ys.length ∧
      ∀ e2 ∈ xs.enum, e2.1 ≠ e.1 → (((e2.2 - e.2 : Int)) : ZMod q) ≠ 0) →
    ∃ r, interpolateLoop xs ys x (q : Int) l result = .ok r ∧
      ((r : Int) : ZMod q) = ((result : Int) : ZMod q) +
        (l.map (fun e =>
          (xs.enum.map (fun e2 => if e.1 = e2.1 then (1 : ZMod q)
            else (((e2.2 - x : Int)) : ZMod q) * (((e2.2 - e.2 : Int)) : ZMod q)⁻¹)).prod *
          (((ys.getD e.1 0 : Int)) : ZMod q))).sum ∧
      (x = 0 → 0 ≤ result → (∀ e ∈ xs.enum, 0 ≤ e.2) → (∀ y ∈ ys, 0 ≤ y) → 0 ≤ r) := by
  intro l
  induction l with
  | nil =>
    intro result _
    exact ⟨result, rfl, by simp, fun _ h _ _ => h⟩
  | cons e l ih =>
    intro result hall
    obtain ⟨j, xj⟩ := e
    obtain ⟨hjlt, hjinv⟩ := hall (j, xj) (List.mem_cons_self _ _)
    obtain ⟨b, hb, hbcast, hbnn⟩ := basisLoop_spec q x xj j xs.enum 1 hjinv
    have hy : goIndex ys j = .ok (ys.getD j 0) := by
      rw [goIndex_ok, List.get?_eq_getElem?, List.getElem?_eq_getElem hjlt,
        List.getD_eq_getElem _ _ hjlt]
    obtain ⟨r, hr, hrcast, hrnn⟩ := ih (result + b * ys.getD j 0)
      (fun e he => hall e (List.mem_cons_of_mem _ he))
    refine ⟨r, ?_, ?_, ?_⟩
    · simp only [interpolateLoop, hb, hy, bind, Except.bind]
      exact hr
    · rw [hrcast]
      simp only [List.map_cons, List.sum_cons]
      push_cast
      rw [hbcast]
      push_cast
      ring
    · intro hx h0 hxs hys
      apply hrnn hx _ hxs hys
      have hb0 := hbnn hx (by omega) hxs
      have hy0 : 0 ≤ ys.getD j 0 := by
        rw [List.getD_eq_getElem _ _ hjlt]
        exact hys _ (List.getElem_mem _)
      have := mul_nonneg hb0 hy0
      omega

end pedersen

namespace pedersen

open big

/-! ## Interpolation: Lagrange's formula -/

theorem enum_map_eq_ofFn {α β : Type} (l : List α) (F : Nat → α → β) :
    l.enum.map (fun e => F e.1 e.2) = List.ofFn (fun i : Fin l.length => F i.val (l.get i)) := by
  apply List.ext_getElem
  · simp
  · intro i h1 h2
    simp [List.getElem_enum]

theorem lagrange_eval {K : Type} [Field K] (n : Nat) (v : Fin n → K) (hv : Function.Injective v)
    (f : Polynomial K) (hdeg : f.degree < n) (x : K) :
    (∑ i : Fin n, (∏ k : Fin n, if i = k then (1 : K) else (v k - x) * (v k - v i)⁻¹) *
      f.eval (v i)) = f.eval x := by
  have hcard : f.degree < (Finset.univ : Finset (Fin n)).card := by simpa using hdeg
  have hf := Lagrange.eq_interpolate (s := Finset.univ) (v := v) (f := f) hv.injOn hcard
  conv_rhs => rw [hf]
  rw [Lagrange.interpolate_apply, Polynomial.eval_finset_sum]
  apply Finset.sum_congr rfl
  intro i _
  rw [Polynomial.eval_mul, Polynomial.eval_C, mul_comm]
  congr 1
  unfold Lagrange.basis
  rw [Polynomial.eval_prod, ← Finset.filter_ne' Finset.univ i, Finset.prod_filter]
  apply Finset.prod_congr rfl
  intro k _
  by_cases hik : i = k
  · simp [hik]
  · have hki : k ≠ i := fun e => hik e.symm
    simp only [hik, hki, if_false, ne_eq, not_false_eq_true, if_true]
    unfold Lagrange.basisDivisor
    simp only [Polynomial.eval_mul, Polynomial.eval_C, Polynomial.eval_sub, Polynomial.eval_X]
    rw [← neg_sub (v k) (v i), inv_neg, ← neg_sub (v k) x]
    ring

/-- The polynomial with the given coefficients, over the integers modulo q. -/
theorem eval_foldr (q : Nat) (x : Int) (cs : List Int) :
    Polynomial.eval ((x : Int) : ZMod q)
      (cs.foldr (fun c acc => Polynomial.C ((c : Int) : ZMod q) + Polynomial.X * acc) 0) =
      ((hornerSum x cs : Int) : ZMod q) := by
  induction cs with
  | nil => simp [hornerSum]
  | cons c cs ih =>
    simp only [List.foldr_cons, Polynomial.eval_add, Polynomial.eval_C, Polynomial.eval_mul,
      Polynomial.eval_X, ih, hornerSum]
    push_cast
    ring

theorem coeff_foldr (q : Nat) (cs : List Int) : ∀ m : Nat,
    (cs.foldr (fun c acc => Polynomial.C ((c : Int) : ZMod q) + Polynomial.X * acc) 0).coeff m =
      (((cs.getD m 0 : Int)) : ZMod q) := by
  induction cs with
  | nil => intro m; simp
  | cons c cs ih =>
    intro m
    cases m with
    | zero => simp
    | succ m =>
      simp only [List.foldr_cons, Polynomial.coeff_add, Polynomial.coeff_C_succ,
        Polynomial.coeff_X_mul, zero_add, ih m]
      simp

theorem degree_foldr (q : Nat) (cs : List Int) :
    (cs.foldr (fun c acc => Polynomial.C ((c : Int) : ZMod q) + Polynomial.X * acc) 0).degree <
      (cs.length : WithBot Nat) := by
  rw [Polynomial.degree_lt_iff_coeff_zero]
  intro m hm
  rw [coeff_foldr]
  have : cs.getD m 0 = 0 := by
    rw [List.getD_eq_getElem?_getD, List.getElem?_eq_none hm]
    rfl
  rw [this]
  simp

end pedersen

namespace pedersen

open big

theorem hornerSum_zero (cs : List Int) : hornerSum 0 cs = cs.headD 0 := by
  cases cs with
  | nil => rfl
  | cons c cs => simp [hornerSum]

theorem mem_enum_iff {α : Type} (l : List α) (e : Nat × α) :
    e ∈ l.enum ↔ ∃ h : e.1 < l.length, l.get ⟨e.1, h⟩ = e.2 := by
  obtain ⟨i, x⟩ := e
  rw [List.mk_mem_enum_iff_getElem?]
  constructor
  · intro h
    have hi : i < l.length := by
      by_contra hc
      rw [List.getElem?_eq_none (by omega)] at h
      simp at h
    refine ⟨hi, ?_⟩
    rw [List.getElem?_eq_getElem hi] at h
    simpa using h
  · rintro ⟨hi, h⟩
    rw [List.getElem?_eq_getElem hi]
    simpa using h

/-- Interpolating at 0, modulo a prime q, at least as many samples of a
polynomial as it has coefficients, taken at abscissae that are pairwise
distinct modulo q, returns a number congruent to its coefficient 0. -/
theorem interpolate_recovers (q : Nat) [hq : Fact q.Prime] (cs xs ys : List Int)
    (hlen : ys.length = xs.length) (hdeg : cs.length ≤ xs.length)
    (hinj : ∀ i j (hi : i < xs.length) (hj : j < xs.length),
      ((xs.get ⟨i, hi⟩ : Int) : ZMod q) = ((xs.get ⟨j, hj⟩ : Int) : ZMod q) → i = j)
    (hys : ∀ i (hi : i < xs.length),
      (((ys.getD i 0 : Int)) : ZMod q) = ((hornerSum (xs.get ⟨i, hi⟩) cs : Int) : ZMod q)) :
    ∃ r, interpolatePolynomial xs ys 0 (q : Int) = .ok r ∧
      ((r : Int) : ZMod q) = (((cs.headD 0 : Int)) : ZMod q) ∧
      ((∀ x ∈ xs, 0 ≤ x) → (∀ y ∈ ys, 0 ≤ y) → 0 ≤ r ∧ r < q) := by
  have hq2 := hq.out.two_le
  have hall : ∀ e ∈ xs.enum, e.1 < ys.length ∧
      ∀ e2 ∈ xs.enum, e2.1 ≠ e.1 → (((e2.2 - e.2 : Int)) : ZMod q) ≠ 0 := by
    intro e he
    obtain ⟨h1, h2⟩ := (mem_enum_iff xs e).1 he
    refine ⟨by omega, ?_⟩
    intro e2 he2 hne hc
    obtain ⟨h3, h4⟩ := (mem_enum_iff xs e2).1 he2
    apply hne
    apply hinj e2.1 e.1 h3 h1
    rw [h2, h4]
    push_cast at hc
    exact sub_eq_zero.mp hc
  obtain ⟨S, hS, hcast, hnn⟩ := interpolateLoop_spec q xs ys 0 xs.enum 0 hall
  refine ⟨S.tmod (q : Int), ?_, ?_, ?_⟩
  · simp only [interpolatePolynomial, hS, bind, Except.bind, Mod_prime]
  · rw [cast_tmod, hcast]
    simp only [Int.cast_zero, zero_add]
    rw [enum_map_eq_ofFn xs (fun (j : Nat) (xj : Int) =>
      (xs.enum.map (fun e2 => if j = e2.1 then (1 : ZMod q)
        else (((e2.2 - 0 : Int)) : ZMod q) * (((e2.2 - xj : Int)) : ZMod q)⁻¹)).prod *
      (((ys.getD j 0 : Int)) : ZMod q)), List.sum_ofFn]
    have hfin := lagrange_eval xs.length (fun i => ((xs.get i : Int) : ZMod q))
      (by
        intro i j hij
        exact Fin.ext (hinj i.val j.val i.isLt j.isLt hij))
      (cs.foldr (fun c acc => Polynomial.C ((c : Int) : ZMod q) + Polynomial.X * acc) 0)
      (lt_of_lt_of_le (degree_foldr q cs) (by exact_mod_cast hdeg)) (((0 : Int)) : ZMod q)
    rw [eval_foldr, hornerSum_zero] at hfin
    rw [← hfin]
    apply Finset.sum_congr rfl
    intro i _
    rw [eval_foldr, ← hys i.val i.isLt]
    congr 1
    rw [enum_map_eq_ofFn xs (fun (k : Nat) (xk : Int) => if i.val = k then (1 : ZMod q)
      else (((xk - 0 : Int)) : ZMod q) * (((xk - xs.get i : Int)) : ZMod q)⁻¹), List.prod_ofFn]
    apply Finset.prod_congr rfl
    intro k _
    by_cases hik : i = k
    · simp [hik]
    · have hik2 : ¬ i.val = k.val := fun e => hik (Fin.ext e)
      simp only [hik, hik2, if_false]
      push_cast
      rfl
  · intro hxs hys0
    have h0 : 0 ≤ S := hnn rfl le_rfl (by
      intro e he
      obtain ⟨h1, h2⟩ := (mem_enum_iff xs e).1 he
      rw [← h2]
      exact hxs _ (List.get_mem _ _ _)) hys0
    exact ⟨Int.tmod_nonneg _ h0, Int.tmod_lt_of_pos _ (by omega)⟩

end pedersen

namespace pedersen

open big

theorem hornerSum_nonneg (x : Int) (hx : 0 ≤ x) (cs : List Int) (hcs : ∀ c ∈ cs, 0 ≤ c) :
    0 ≤ hornerSum x cs := by
  induction cs with
  | nil => simp [hornerSum]
  | cons c cs ih =>
    simp only [hornerSum]
    have h1 := hcs c (List.mem_cons_self _ _)
    have h2 := ih (fun c hc => hcs c (List.mem_cons_of_mem _ hc))
    have := mul_nonneg hx h2
    omega

theorem cast_inj_of_range (q : Nat) (a b : Int) (ha : 0 ≤ a ∧ a < q) (hb : 0 ≤ b ∧ b < q)
    (h : ((a : Int) : ZMod q) = ((b : Int) : ZMod q)) : a = b := by
  have h1 := (ZMod.intCast_eq_intCast_iff a b q).1 h
  unfold Int.ModEq at h1
  rw [Int.emod_eq_of_lt ha.1 ha.2, Int.emod_eq_of_lt hb.1 hb.2] at h1
  exact h1

theorem evalValue_nonneg (cs : List Int) (q x : Int) (hx : 0 ≤ x) (hcs : ∀ c ∈ cs, 0 ≤ c) :
    0 ≤ evalValue cs q x := by
  unfold evalValue
  split
  · cases cs with
    | nil => simp
    | cons c cs => exact hcs c (List.mem_cons_self _ _)
  · exact Int.tmod_nonneg _ (hornerSum_nonneg x hx cs hcs)

theorem cast_evalValue (q : Nat) (cs : List Int) (x : Int) :
    (((evalValue cs (q : Int) x : Int)) : ZMod q) = ((hornerSum x cs : Int) : ZMod q) := by
  unfold evalValue
  split
  · rename_i h
    subst h
    rw [hornerSum_zero]
  · exact cast_tmod q _

end pedersen

namespace pedersen

open big

/-! ## Shape validation -/

theorem ok_bind {α β : Type} (a : α) (f : α → Except Err β) : (Except.ok a >>= f) = f a := rfl

theorem Shares.partAt_of_get (s : Shares) (i j : Nat) (row : List SecretPart) (part : SecretPart)
    (h1 : s.Parts.get? i = some row) (h2 : row.get? j = some part) : s.partAt i j = part := by
  unfold Shares.partAt
  rw [h1, Option.some_bind, h2]
  rfl

theorem countParts_ok (s : Shares) (m j : Nat) (hj : j < m)
    (hrows : ∀ row ∈ s.Parts, row.length = m ∧
      ∀ part ∈ row, part = SecretPart.empty ∨ (part.SShare ≠ none ∧ part.TShare ≠ none)) :
    ∀ (is : List Nat) (acc : Nat), (∀ i ∈ is, i < s.Parts.length) →
    countParts s m j is acc =
      .ok (acc + (is.filter (fun i => decide (s.partAt i j ≠ SecretPart.empty))).length) := by
  intro is
  induction is with
  | nil => intro acc _; simp [countParts]
  | cons i is ih =>
    intro acc hall
    have hi : i < s.Parts.length := hall i (List.mem_cons_self _ _)
    have hrow := hrows _ (List.get_mem s.Parts i hi)
    have hidx : goIndex s.Parts i = .ok (s.Parts.get ⟨i, hi⟩) := goIndex_lt _ _ hi
    have hjr : j < (s.Parts.get ⟨i, hi⟩).length := by rw [hrow.1]; exact hj
    have hidx2 : goIndex (s.Parts.get ⟨i, hi⟩) j = .ok ((s.Parts.get ⟨i, hi⟩).get ⟨j, hjr⟩) :=
      goIndex_lt _ _ hjr
    have hpart : s.partAt i j = (s.Parts.get ⟨i, hi⟩).get ⟨j, hjr⟩ :=
      Shares.partAt_of_get s i j _ _ (List.get?_eq_get hi) (List.get?_eq_get hjr)
    have hcase := hrow.2 _ (List.get_mem _ j hjr)
    have ih2 := fun acc => ih acc (fun k hk => hall k (List.mem_cons_of_mem _ hk))
    unfold countParts
    simp only [hidx, hidx2, bind, Except.bind, hrow.1, ne_eq, not_true_eq_false, if_false]
    rw [← hpart] at hcase ⊢
    by_cases he : s.partAt i j = SecretPart.empty
    · rw [he]
      simp only [if_true]
      rw [ih2, List.filter_cons]
      simp [he]
    · have he2 : ¬ SecretPart.empty = s.partAt i j := fun e => he e.symm
      rcases hcase with h | ⟨h1, h2⟩
      · exact absurd h he
      · simp only [he2, if_false, h1, h2, or_self]
        rw [ih2, List.filter_cons]
        simp [he]
        omega

theorem validateShares_of_wellShaped (p : Pedersen) (s : Shares) (n t m : Nat)
    (hn : p.parts = n) (ht : p.threshold = t) (hn1 : 1 ≤ n) (h : s.wellShaped n t m) :
    p.validateShares (some s) = .ok () := by
  obtain ⟨ha, hanil, hp, hrows, hcl, hcomm, hcount⟩ := h
  have hpn : p.parts.toNat = n := by omega
  have htn : p.threshold.toNat = t := by omega
  unfold Pedersen.validateShares
  simp only []
  have h1 : ¬ ((s.Abscissae.length : Int) ≠ p.parts) := by rw [ha, hn]; simp
  have h2 : ¬ ((s.Parts.length : Int) ≠ p.parts) := by rw [hp, hn]; simp
  rw [if_neg h1, if_neg h2]
  have habs : mapE (fun i => do
      let a ← goIndex s.Abscissae i
      if a = none then .error Err.ErrNilAbscissa else pure ()) (List.range p.parts.toNat) =
      .ok ((List.range p.parts.toNat).map (fun _ => ())) := by
    apply mapE_map_ok
    intro i hi
    have hi2 : i < s.Abscissae.length := by
      have := List.mem_range.mp hi
      omega
    have hne := hanil _ (List.get_mem s.Abscissae i hi2)
    simp only [goIndex_lt _ _ hi2, bind, Except.bind, hne, if_false, pure, Except.pure]
  have h0 : 0 < s.Parts.length := by omega
  have hrow0 := (hrows _ (List.get_mem s.Parts 0 h0)).1
  have hchunks : mapE (fun partIdx => p.validateChunk s (s.Parts.get ⟨0, h0⟩).length partIdx)
      (List.range (s.Parts.get ⟨0, h0⟩).length) =
      .ok ((List.range (s.Parts.get ⟨0, h0⟩).length).map (fun _ => ())) := by
    apply mapE_map_ok
    intro j hj
    rw [hrow0] at hj ⊢
    have hj2 : j < m := List.mem_range.mp hj
    have hjc : j < s.Commitments.length := by omega
    have hrowc := hcomm _ (List.get_mem s.Commitments j hjc)
    unfold Pedersen.validateChunk
    have hlen : ¬ (((s.Commitments.get ⟨j, hjc⟩).length : Int) ≠ p.threshold) := by
      rw [hrowc.1, ht]; simp
    have hcnt := countParts_ok s m j hj2 hrows (List.range p.parts.toNat) 0
      (by intro i hi; have := List.mem_range.mp hi; omega)
    have hcnt2 : ¬ ((((0 + ((List.range p.parts.toNat).filter
        (fun i => decide (s.partAt i j ≠ SecretPart.empty))).length : Nat)) : Int)
        < p.threshold) := by
      have := hcount j hj2
      unfold Shares.nonEmptyCount Shares.holders at this
      rw [hp, ← hpn] at this
      rw [ht]
      push_cast
      omega
    have hcs : mapE (fun i => do
        let c ← goIndex (s.Commitments.get ⟨j, hjc⟩) i
        if c = none then .error Err.ErrNilCommitment else pure ())
        (List.range p.threshold.toNat) =
        .ok ((List.range p.threshold.toNat).map (fun _ => ())) := by
      apply mapE_map_ok
      intro k hk
      have hk2 : k < (s.Commitments.get ⟨j, hjc⟩).length := by
        have := List.mem_range.mp hk
        rw [hrowc.1]; omega
      have hne := hrowc.2 _ (List.get_mem _ k hk2)
      simp only [goIndex_lt _ _ hk2, bind, Except.bind, hne, if_false, pure, Except.pure]
    simp only [goIndex_lt _ _ hjc, ok_bind, hlen, if_false, hcnt, hcnt2, hcs]
    rfl
  have hcl2 : ¬ (s.Commitments.length ≠ (s.Parts.get ⟨0, h0⟩).length) := by
    rw [hrow0, hcl]; simp
  simp only [habs, goIndex_lt _ _ h0, ok_bind, hcl2, if_false, hchunks]
  rfl

end pedersen

namespace pedersen

open big

/-! ## The shape of the result of Split -/

theorem partOf_ne_empty (F K : List Int) (Q x : Int) : partOf F K Q x ≠ SecretPart.empty := by
  intro h
  have := congrArg SecretPart.SShare h
  simp [partOf, SecretPart.empty] at this

theorem length_commitmentsOf (G H P : Int) (F K : List Int) (t : Nat) :
    (commitmentsOf G H P F K t).length = t := by
  simp [commitmentsOf]

theorem mem_commitmentsOf_ne_none (G H P : Int) (F K : List Int) (t : Nat) (c : Option Int)
    (hc : c ∈ commitmentsOf G H P F K t) : c ≠ none := by
  unfold commitmentsOf at hc
  obtain ⟨k, _, rfl⟩ := List.mem_map.mp hc
  simp

/-- The matrix of parts that `Split` returns. -/
theorem partAt_split (n : Nat) (polys : List (List Int × List Int)) (Q : Int)
    (abscissae : List (Option Int)) (s : Shares)
    (hparts : s.Parts = (List.range n).map (fun i =>
      polys.map (fun FK => partOf FK.1 FK.2 Q (abscissaAt abscissae i))))
    (i j : Nat) (hi : i < n) (FK : List Int × List Int) (hj : polys.get? j = some FK) :
    s.partAt i j = partOf FK.1 FK.2 Q (abscissaAt abscissae i) := by
  apply Shares.partAt_of_get s i j
    (polys.map (fun FK => partOf FK.1 FK.2 Q (abscissaAt abscissae i)))
  · rw [hparts, List.get?_eq_getElem?, List.getElem?_map, List.getElem?_range hi]
    rfl
  · rw [List.get?_eq_getElem?, List.getElem?_map]
    rw [List.get?_eq_getElem?] at hj
    rw [hj]
    rfl

theorem holders_split (n : Nat) (polys : List (List Int × List Int)) (Q : Int)
    (abscissae : List (Option Int)) (s : Shares)
    (hparts : s.Parts = (List.range n).map (fun i =>
      polys.map (fun FK => partOf FK.1 FK.2 Q (abscissaAt abscissae i))))
    (j : Nat) (hj : j < polys.length) : s.holders j = List.range n := by
  unfold Shares.holders
  have hl : s.Parts.length = n := by rw [hparts]; simp
  rw [hl]
  apply List.filter_eq_self.mpr
  intro i hi
  have hi2 := List.mem_range.mp hi
  rw [partAt_split n polys Q abscissae s hparts i j hi2 _ (List.get?_eq_get hj)]
  simp [partOf_ne_empty]

/-- The shares `Split` returns have the shape `validateShares` accepts, as
soon as they hold exactly `parts` abscissae. -/
theorem wellShaped_split (n t : Nat) (hnt : t ≤ n) (polys : List (List Int × List Int))
    (G H P Q : Int) (s : Shares) (hlen : s.Abscissae.length = n)
    (habs : ∀ i, i < n → s.Abscissae.get? i = some (some (abscissaAt s.Abscissae i)))
    (hparts : s.Parts = (List.range n).map (fun i =>
      polys.map (fun FK => partOf FK.1 FK.2 Q (abscissaAt s.Abscissae i))))
    (hcomm : s.Commitments = polys.map (fun FK => commitmentsOf G H P FK.1 FK.2 t)) :
    s.wellShaped n t polys.length := by
  refine ⟨hlen, ?_, by rw [hparts]; simp, ?_, by rw [hcomm]; simp, ?_, ?_⟩
  · intro a ha
    obtain ⟨k, hk⟩ := List.mem_iff_get.mp ha
    have h1 := habs k.val (by rw [← hlen]; exact k.isLt)
    rw [List.get?_eq_get k.isLt] at h1
    simp only [Option.some.injEq] at h1
    rw [← hk, h1]
    simp
  · intro row hrow
    rw [hparts] at hrow
    obtain ⟨i, _, rfl⟩ := List.mem_map.mp hrow
    refine ⟨by simp, ?_⟩
    intro part hpart
    obtain ⟨FK, _, rfl⟩ := List.mem_map.mp hpart
    right
    simp [partOf]
  · intro row hrow
    rw [hcomm] at hrow
    obtain ⟨FK, _, rfl⟩ := List.mem_map.mp hrow
    exact ⟨length_commitmentsOf _ _ _ _ _ _, fun c hc => mem_commitmentsOf_ne_none _ _ _ _ _ _ c hc⟩
  · intro j hj
    unfold Shares.nonEmptyCount
    rw [holders_split n polys Q s.Abscissae s hparts j hj]
    simpa using hnt

end pedersen

namespace pedersen

open big

/-! ## Evaluations on the test-suite group -/

set_option maxRecDepth 100000 in
theorem testGroup_bitsQ : BitLen 8817354639505262309 < 2 ^ 31 := by decide

theorem testPedersen_validate : testPedersen.validate = .ok () := by decide

set_option maxRecDepth 100000 in
theorem testSplit_random :
    testPedersen.Split testSecret none testTape = (some testShares, none) := by decide

set_option maxRecDepth 100000 in
theorem testSplit_repeated :
    testPedersen.Split testSecret (some repeatedAbscissae) [9, 10, 11, 12, 13, 14] =
      (some repeatedShares, none) := by decide

theorem repeatedShares_rejected :
    testPedersen.validateShares (some repeatedShares) = .error Err.ErrInsufficientAbscissae := by
  decide

/-- A random abscissa can be Q itself: `genRandNum` draws below max and then
adds min. -/
theorem randInts_reaches_order :
    randInts 1 1 8817354639505262309 true [8817354639505262308] =
      .ok ([8817354639505262309], []) := by decide

theorem GroupFacts.of_validate (g : Group) (Q : Int) (hg : g.validate = .ok ())
    (hQ : g.Q = some Q) : ∃ P G H : Int, GroupFacts g P Q G H := by
  obtain ⟨P, Q2, G, H, hf⟩ := Group.validate_ok g hg
  have : Q2 = Q := by
    have h := hf.eq
    rw [h] at hQ
    simpa using hQ
  subst this
  exact ⟨P, G, H, hf⟩

end pedersen

namespace pedersen

open big

/-! ## Padded chunks are below a prime modulus that they do not exceed -/

theorem bytesToNat_lt_of_leadingZeros (c : List Byte) :
    bytesToNat c < 256 ^ (c.length - leadingZeros c) := by
  have h := replicate_leadingZeros_append c
  have hl : (natToBytes (bytesToNat c)).length = c.length - leadingZeros c := by
    have := congrArg List.length h
    simp only [List.length_append, List.length_replicate] at this
    omega
  exact (length_natToBytes_le_iff (bytesToNat c) _).1 (le_of_eq hl)

/-- A padded chunk that the check of `Split` lets through (it is not above Q)
is strictly below Q when Q is prime: a prime is not a multiple of 2^32, and a
chunk with leading zero bytes is too short to reach Q. -/
theorem padValue_lt (q : Nat) (hq : q.Prime) (hbits : BitLen (q : Int) < 2 ^ 31) (c : List Byte)
    (hlen : c.length ≤ partLenOf (q : Int)) (hle : padValue c ≤ q) : padValue c < q := by
  by_contra hcon
  have heq : padValue c = q := by omega
  have hb := bytesToNat_lt_of_leadingZeros c
  have hz := leadingZeros_le_length c
  have hpl := partLenOf_lt (q : Int) hbits
  unfold padValue at heq
  by_cases hz0 : leadingZeros c = 0
  · rw [hz0, Nat.add_zero] at heq
    have hdvd : 2 ∣ q := ⟨bytesToNat c * 2 ^ 31, by rw [← heq]; ring⟩
    rcases hq.eq_one_or_self_of_dvd 2 hdvd with h | h
    · omega
    · have h2 := hq.two_le
      have : bytesToNat c ≠ 0 := by
        intro h0; rw [h0] at heq; omega
      have : 1 ≤ bytesToNat c := by omega
      have : 2 ^ 32 ≤ bytesToNat c * 2 ^ 32 := Nat.le_mul_of_pos_left _ this
      omega
  · have hBL : BitLen (q : Int) = bitLen q := by simp [BitLen]
    have hdef : partLenOf (q : Int) = 1 ∧ BitLen (q : Int) / 8 ≤ 4 ∨
        (partLenOf (q : Int) + 4 = BitLen (q : Int) / 8) := by
      unfold partLenOf zerosInfoSizeBytes
      simp only []
      split <;> omega
    rcases hdef with ⟨h1, _⟩ | h1
    · have hl1 : c.length - leadingZeros c = 0 := by omega
      rw [hl1, pow_zero] at hb
      have hb0 : bytesToNat c = 0 := by omega
      rw [hb0] at heq
      have : q = 1 := by omega
      exact hq.one_lt.ne (this.symm)
    · have hL : c.length - leadingZeros c ≤ partLenOf (q : Int) - 1 := by omega
      have hb2 : bytesToNat c < 256 ^ (partLenOf (q : Int) - 1) :=
        lt_of_lt_of_le hb (Nat.pow_le_pow_right (by norm_num) hL)
      have hq2 : q < 2 ^ (8 * (partLenOf (q : Int) - 1) + 32) := by
        rw [pow_add, ← pow256]
        generalize 256 ^ (partLenOf (q : Int) - 1) = A at hb2 ⊢
        have : (bytesToNat c + 1) * 2 ^ 32 ≤ A * 2 ^ 32 := Nat.mul_le_mul_right _ hb2
        have hz32 : leadingZeros c < 2 ^ 32 := by omega
        omega
      have := (bitLen_le_iff q _).2 hq2
      omega

/-! ## Shares with emptied parts -/

theorem Shares.partAt_get (s : Shares) (i j : Nat) (hi : i < s.Parts.length)
    (hj : j < (s.Parts.get ⟨i, hi⟩).length) :
    s.partAt i j = (s.Parts.get ⟨i, hi⟩).get ⟨j, hj⟩ :=
  Shares.partAt_of_get s i j _ _ (List.get?_eq_get hi) (List.get?_eq_get hj)

theorem Shares.emptiedFrom.partAt {s s2 : Shares} (h : s.emptiedFrom s2) (m : Nat)
    (hrows : ∀ row ∈ s.Parts, row.length = m) :
    s2.Parts.length = s.Parts.length ∧ (∀ row ∈ s2.Parts, row.length = m) ∧
    ∀ i j, i < s.Parts.length → j < m →
      s2.partAt i j = s.partAt i j ∨ s2.partAt i j = SecretPart.empty := by
  obtain ⟨_, _, hf⟩ := h
  obtain ⟨hl, hget⟩ := List.forall₂_iff_get.1 hf
  have hrow2 : ∀ i (h1 : i < s.Parts.length) (h2 : i < s2.Parts.length),
      (s2.Parts.get ⟨i, h2⟩).length = m := by
    intro i h1 h2
    have := (List.forall₂_iff_get.1 (hget i h1 h2)).1
    rw [← this]
    exact hrows _ (List.get_mem _ _ _)
  refine ⟨hl.symm, ?_, ?_⟩
  · intro row hrow
    obtain ⟨k, hk⟩ := List.mem_iff_get.mp hrow
    rw [← hk]
    exact hrow2 k.val (by rw [hl]; exact k.isLt) k.isLt
  · intro i j hi hj
    have hi2 : i < s2.Parts.length := by omega
    have hr1 : (s.Parts.get ⟨i, hi⟩).length = m := hrows _ (List.get_mem _ _ _)
    have hr2 := hrow2 i hi hi2
    rw [Shares.partAt_get s2 i j hi2 (by omega), Shares.partAt_get s i j hi (by omega)]
    exact (List.forall₂_iff_get.1 (hget i hi hi2)).2 j (by omega) (by omega)

end pedersen

namespace pedersen

open big

/-! ## Combine -/

theorem mapE_deref_map {α β : Type} (f : α → β) (l : List α) :
    mapE deref (l.map (fun a => some (f a))) = .ok (l.map f) := by
  induction l with
  | nil => rfl
  | cons a l ih =>
    rw [List.map_cons, mapE_cons, ih]
    rfl

/-- The samples `combine` collects: the abscissae and the SShares of the
shareholders whose part is not empty, in order. -/
theorem collectSamples_eq (xs : List Int) (g : Nat → SecretPart) : ∀ (l : List Nat),
    (∀ i ∈ l, i < xs.length) →
    collectSamples (xs.map some) (l.map (fun i => (i, g i))) =
      .ok ((l.filter (fun i => decide (g i ≠ SecretPart.empty))).map (fun i => some (xs.getD i 0)),
        (l.filter (fun i => decide (g i ≠ SecretPart.empty))).map (fun i => (g i).SShare)) := by
  intro l
  induction l with
  | nil => intro _; rfl
  | cons i l ih =>
    intro hall
    have hi := hall i (List.mem_cons_self _ _)
    have ih2 := ih (fun k hk => hall k (List.mem_cons_of_mem _ hk))
    rw [List.map_cons]
    unfold collectSamples
    by_cases he : SecretPart.empty = g i
    · rw [if_pos he, ih2]
      have : decide (g i ≠ SecretPart.empty) = false := by simp [he.symm]
      rw [List.filter_cons_of_neg (by simp [this])]
    · rw [if_neg he, ih2]
      have hne : g i ≠ SecretPart.empty := fun h => he h.symm
      rw [List.filter_cons_of_pos (by simp [hne])]
      have hgi : goIndex (xs.map some) i = .ok (some (xs.getD i 0)) := by
        rw [goIndex_ok, List.get?_eq_getElem?, List.getElem?_map,
          List.getElem?_eq_getElem hi, List.getD_eq_getElem xs 0 hi]
        rfl
      rw [hgi]
      rfl

/-- Two numbers of `[1, q]` that agree modulo q are equal. -/
theorem eq_of_cast_eq (q : Nat) (hq : 1 ≤ q) (a b : Int) (ha : 1 ≤ a ∧ a < 1 + q)
    (hb : 1 ≤ b ∧ b < 1 + q) (h : ((a : Int) : ZMod q) = ((b : Int) : ZMod q)) : a = b := by
  have h1 := (ZMod.intCast_eq_intCast_iff a b q).1 h
  obtain ⟨k, hk⟩ := h1.symm.dvd
  have hqpos : (0 : Int) < q := by omega
  have hk1 : k < 1 := by
    by_contra hc
    have : (q : Int) * 1 ≤ q * k := Int.mul_le_mul_of_nonneg_left (by omega) (by omega)
    omega
  have hk2 : -1 < k := by
    by_contra hc
    have : (q : Int) * k ≤ q * (-1) := Int.mul_le_mul_of_nonneg_left (by omega) (by omega)
    omega
  have : k = 0 := by omega
  rw [this] at hk
  omega

/-- The function combine returns the intercept of F when at least as many parts
as F has coefficients are left, each of them the value of F at the abscissa of
its shareholder. -/
theorem combine_ok (p : Pedersen) (q : Nat) (hq : q.Prime) (hQ : p.group.Q = some (q : Int))
    (idx : Nat) (xs : List Int) (hnd : xs.Nodup) (hx : ∀ x ∈ xs, 1 ≤ x ∧ x < 1 + (q : Int))
    (F K : List Int) (c0 : Int) (hF0 : F.head? = some c0) (hc0 : 0 ≤ c0 ∧ c0 < q)
    (hFt : ∀ c ∈ F.tail, 0 ≤ c ∧ c < q) (g : Nat → SecretPart)
    (hg : ∀ i, i < xs.length → g i = partOf F K q (xs.getD i 0) ∨ g i = SecretPart.empty)
    (hcount : F.length ≤
      ((List.range xs.length).filter (fun i => decide (g i ≠ SecretPart.empty))).length) :
    p.combine idx (xs.map some) ((List.range xs.length).map g) =
      .ok { index := idx, value := c0 } := by
  haveI : Fact q.Prime := ⟨hq⟩
  unfold Pedersen.combine
  have henum : ((List.range xs.length).map g).enum =
      (List.range xs.length).map (fun i => (i, g i)) := by
    have := enum_map_range xs.length g (fun e => e)
    simpa using this
  rw [henum, collectSamples_eq xs g _ (fun i hi => List.mem_range.mp hi)]
  generalize hhs : (List.range xs.length).filter (fun i => decide (g i ≠ SecretPart.empty)) = hs
    at hcount
  have hmem : ∀ i ∈ hs, i < xs.length ∧ g i ≠ SecretPart.empty := by
    intro i hi
    rw [← hhs, List.mem_filter] at hi
    exact ⟨List.mem_range.mp hi.1, by simpa using hi.2⟩
  have hhnd : hs.Nodup := by
    rw [← hhs]
    exact List.Nodup.filter _ (List.nodup_range _)
  have hys : hs.map (fun i => (g i).SShare) =
      hs.map (fun i => some (evalValue F q (xs.getD i 0))) := by
    apply List.map_congr_left
    intro i hi
    obtain ⟨h1, h2⟩ := hmem i hi
    rcases hg i h1 with h | h
    · rw [h]; rfl
    · exact absurd h h2
  rw [hys]
  simp only [ok_bind, hQ, deref, SetUInt64]
  rw [mapE_deref_map (fun i => xs.getD i 0) hs,
    mapE_deref_map (fun i => evalValue F q (xs.getD i 0)) hs]
  simp only [ok_bind]
  have hFnn : ∀ c ∈ F, 0 ≤ c := by
    intro c hc
    cases F with
    | nil => simp at hc
    | cons a rest =>
      simp only [List.head?_cons, Option.some.injEq] at hF0
      rcases List.mem_cons.mp hc with h | h
      · rw [h, hF0]; exact hc0.1
      · exact (hFt c h).1
  have hxmem : ∀ i, i < xs.length → xs.getD i 0 ∈ xs := by
    intro i hi
    rw [List.getD_eq_getElem xs 0 hi]
    exact List.getElem_mem _
  obtain ⟨r, hr, hcast, hrange⟩ := interpolate_recovers q F (hs.map (fun i => xs.getD i 0))
    (hs.map (fun i => evalValue F q (xs.getD i 0))) (by simp) (by simpa using hcount)
    (by
      intro i j hi hj heq
      simp only [List.length_map] at hi hj
      simp only [List.get_eq_getElem, List.getElem_map] at heq
      have hi1 := (hmem _ (List.getElem_mem hi)).1
      have hj1 := (hmem _ (List.getElem_mem hj)).1
      have e := eq_of_cast_eq q hq.one_lt.le _ _ (hx _ (hxmem _ hi1)) (hx _ (hxmem _ hj1)) heq
      rw [List.getD_eq_getElem xs 0 hi1, List.getD_eq_getElem xs 0 hj1] at e
      have e2 := (List.Nodup.getElem_inj_iff hnd).1 e
      exact (List.Nodup.getElem_inj_iff hhnd).1 e2)
    (by
      intro i hi
      simp only [List.length_map] at hi
      simp only [List.get_eq_getElem, List.getElem_map]
      rw [List.getD_eq_getElem _ 0 (by simpa using hi), List.getElem_map]
      exact cast_evalValue q F _)
  have hrr := hrange
    (by
      intro x hx2
      obtain ⟨i, hi, rfl⟩ := List.mem_map.mp hx2
      have := hx _ (hxmem i (hmem i hi).1)
      omega)
    (by
      intro y hy
      obtain ⟨i, hi, rfl⟩ := List.mem_map.mp hy
      have := hx _ (hxmem i (hmem i hi).1)
      exact evalValue_nonneg F q _ (by omega) hFnn)
  have hhead : F.headD 0 = c0 := by
    cases F with
    | nil => simp at hF0
    | cons a rest => simpa using hF0
  rw [hhead] at hcast
  have : r = c0 := cast_inj_of_range q r c0 hrr hc0 hcast
  subst this
  have e : ∀ z : Int, z = 0 → (interpolatePolynomial (hs.map (fun i => xs.getD i 0))
      (hs.map (fun i => evalValue F q (xs.getD i 0))) z q >>= fun secret =>
        (pure { index := idx, value := secret } : Except Err combineValue)) =
      .ok { index := idx, value := r } := by
    intro z hz
    rw [hz, hr]
    rfl
  exact e _ rfl

end pedersen

namespace pedersen

open big

/-- The parts of chunk `j` that a worker of `Combine` gathers. -/
theorem gather_parts (s : Shares) (n m j : Nat) (hn : s.Parts.length = n)
    (hrows : ∀ row ∈ s.Parts, row.length = m) (hj : j < m) :
    mapE (fun shareIdx => do
      let row ← goIndex s.Parts shareIdx
      goIndex row j) (List.range n) = .ok ((List.range n).map (fun i => s.partAt i j)) := by
  apply mapE_map_ok
  intro i hi
  have hi2 : i < s.Parts.length := by rw [hn]; exact List.mem_range.mp hi
  have hr : (s.Parts.get ⟨i, hi2⟩).length = m := hrows _ (List.get_mem _ _ _)
  rw [goIndex_lt s.Parts i hi2, ok_bind, goIndex_lt _ j (by omega),
    Shares.partAt_get s i j hi2 (by omega)]

/-- Combine returns the chunks, joined, of every well-shaped Shares whose
non-empty parts are values of polynomials with the padded chunks as
intercepts. -/
theorem Combine_ok (p : Pedersen) (q : Nat) (hq : q.Prime) (hQ : p.group.Q = some (q : Int))
    (hc : 1 ≤ p.concLimit) (n t : Nat) (hn : p.parts = n) (ht : p.threshold = t) (hn1 : 1 ≤ n)
    (xs : List Int) (hxl : xs.length = n) (hnd : xs.Nodup)
    (hx : ∀ x ∈ xs, 1 ≤ x ∧ x < 1 + (q : Int)) (s : Shares) (hA : s.Abscissae = xs.map some)
    (polys : List (List Int × List Int)) (chunks : List (List Byte))
    (hm : polys.length = chunks.length) (hm1 : 1 ≤ chunks.length)
    (hz : ∀ c ∈ chunks, leadingZeros c < 2 ^ 32)
    (hpolys : ∀ j c FK, chunks.get? j = some c → polys.get? j = some FK →
      FK.1.length = t ∧ FK.1.head? = some ((padValue c : Nat) : Int) ∧ padValue c < q ∧
      ∀ x ∈ FK.1.tail, 0 ≤ x ∧ x < (q : Int))
    (hshape : s.wellShaped n t chunks.length)
    (hparts : ∀ i j FK, i < n → polys.get? j = some FK →
      s.partAt i j = partOf FK.1 FK.2 q (xs.getD i 0) ∨ s.partAt i j = SecretPart.empty) :
    p.Combine (some s) = .ok chunks.flatten := by
  have hval := validateShares_of_wellShaped p s n t chunks.length hn ht hn1 hshape
  obtain ⟨_, _, hpl, hrows, _, _, hcount⟩ := hshape
  have h0 : 0 < s.Parts.length := by omega
  have hrow0 : (s.Parts.get ⟨0, h0⟩).length = chunks.length :=
    (hrows _ (List.get_mem _ _ _)).1
  obtain ⟨ranges, hranges, hcons⟩ := balanceIndices_spec p chunks.length
    (p.adjustConcLimit (chunks.length : Int)) (adjustConcLimit_pos p hc _ (by omega))
  have hpn : p.parts.toNat = n := by omega
  have hper : ∀ j ∈ List.range chunks.length,
      (do
        let parts ← mapE (fun shareIdx => do
          let row ← goIndex s.Parts shareIdx
          goIndex row j) (List.range p.parts.toNat)
        p.combine j s.Abscissae parts) =
      .ok ({ index := j, value := ((padValue (chunks.getD j []) : Nat) : Int) } : combineValue) := by
    intro j hj
    have hj2 := List.mem_range.mp hj
    have hjp : j < polys.length := by omega
    rw [hpn, gather_parts s n chunks.length j hpl (fun row hrow => (hrows row hrow).1) hj2,
      ok_bind, hA, ← hxl]
    obtain ⟨h1, h2, h3, h4⟩ := hpolys j _ _ (List.get?_eq_get hj2) (List.get?_eq_get hjp)
    have hcj : chunks.getD j [] = chunks.get ⟨j, hj2⟩ := List.getD_eq_getElem _ _ hj2
    rw [hcj]
    apply combine_ok p q hq hQ j xs hnd hx (polys.get ⟨j, hjp⟩).1 (polys.get ⟨j, hjp⟩).2 _ h2
      ⟨by omega, by exact_mod_cast h3⟩ h4 (fun i => s.partAt i j)
    · intro i hi
      exact hparts i j _ (by omega) (List.get?_eq_get hjp)
    · have := hcount j hj2
      unfold Shares.nonEmptyCount Shares.holders at this
      rw [hpl, ← hxl] at this
      rw [h1]
      exact this
  have hall := mapE_map_ok _ _ _ hper
  have hflat := mapE_flatten (fun idx => do
        let parts ← mapE (fun shareIdx => do
          let row ← goIndex s.Parts shareIdx
          goIndex row idx) (List.range p.parts.toNat)
        p.combine idx s.Abscissae parts) chunkRange.indices ranges
  rw [Consecutive.flatten_indices_zero hcons, hall, bind_ok] at hflat
  obtain ⟨rs, hrs, hrs2⟩ := hflat
  have hrs3 : rs.flatten = (List.range chunks.length).map (fun j =>
      ({ index := j, value := ((padValue (chunks.getD j []) : Nat) : Int) } : combineValue)) := by
    simpa [pure, Except.pure] using hrs2
  have hvals : rs.flatten.map (fun v => v.value) =
      chunks.map (fun c => ((padValue c : Nat) : Int)) := by
    rw [hrs3, List.map_map]
    apply List.ext_getElem?
    intro k
    simp only [List.getElem?_map]
    by_cases hk : k < chunks.length
    · rw [List.getElem?_range hk, List.getElem?_eq_getElem hk]
      simp [List.getElem?_eq_getElem hk]
    · rw [List.getElem?_eq_none (by simpa using hk), List.getElem?_eq_none (by simpa using hk)]
      rfl
  unfold Pedersen.Combine
  rw [hval, ok_bind]
  simp only [deref, ok_bind]
  rw [goIndex_lt s.Parts 0 h0, ok_bind]
  simp only [hrow0]
  rw [hranges, ok_bind]
  unfold Pedersen.combineWorker
  rw [(groupWait_ok_iff _ _ _).2 hrs, ok_bind, hvals, unpadLoop_padValue _ _ hz]
  rfl

end pedersen

namespace pedersen

open big

/-- Emptying parts keeps the shape `validateShares` accepts as long as enough
parts are left in every chunk. -/
theorem wellShaped_emptied (s s2 : Shares) (n t m : Nat) (h : s.wellShaped n t m)
    (he : s.emptiedFrom s2) (hcount : ∀ j, j < m → t ≤ s2.nonEmptyCount j) :
    s2.wellShaped n t m := by
  obtain ⟨ha, hanil, hp, hrows, hcl, hcomm, _⟩ := h
  obtain ⟨hl, hrows2, _⟩ := he.partAt m (fun row hrow => (hrows row hrow).1)
  obtain ⟨heA, heC, hf⟩ := he
  obtain ⟨_, hget⟩ := List.forall₂_iff_get.1 hf
  refine ⟨by rw [heA]; exact ha, by rw [heA]; exact hanil, by omega, ?_, by rw [heC]; exact hcl,
    by rw [heC]; exact hcomm, hcount⟩
  intro row2 hrow2
  refine ⟨hrows2 row2 hrow2, ?_⟩
  intro part2 hpart2
  obtain ⟨i, hi⟩ := List.mem_iff_get.mp hrow2
  subst hi
  obtain ⟨j, hj⟩ := List.mem_iff_get.mp hpart2
  subst hj
  have hi1 : i.val < s.Parts.length := by rw [← hl]; exact i.isLt
  have hrel := hget i.val hi1 i.isLt
  obtain ⟨hlen, hget2⟩ := List.forall₂_iff_get.1 hrel
  have hj1 : j.val < (s.Parts.get ⟨i.val, hi1⟩).length := by
    rw [hlen]; exact j.isLt
  have hrel2 := hget2 j.val hj1 j.isLt
  rcases hrel2 with h1 | h1
  ·
    have hprop := (hrows _ (List.get_mem s.Parts i.val hi1)).2 _
      (List.get_mem (s.Parts.get ⟨i.val, hi1⟩) j.val hj1)
    have h1b : (s2.Parts.get i).get j = (s.Parts.get ⟨i.val, hi1⟩).get ⟨j.val, hj1⟩ := h1
    rw [h1b]
    exact hprop
  · exact Or.inl h1

theorem abscissaAt_map_some (xs : List Int) (i : Nat) (hi : i < xs.length) :
    abscissaAt (xs.map some) i = xs.getD i 0 := by
  apply abscissaAt_of_get
  rw [List.get?_eq_getElem?, List.getElem?_map, List.getElem?_eq_getElem hi,
    List.getD_eq_getElem xs 0 hi]
  rfl

theorem mem_chunksOf_length (v : List Byte) (max : Int) (c : List Byte)
    (hc : c ∈ chunksOf v max) : c.length ≤ partLenOf max :=
  mem_chunksFrom_length v _ _ _ c hc

end pedersen

namespace pedersen

open big

/-! ## A group whose Q fills whole bytes -/

set_option maxRecDepth 100000 in
theorem prime_alignedP : Nat.Prime 775927208276463083237 := by
  apply prime_of_certificate 775927208276463083237 2 [2, 2, 11, 17634709279010524619]
    (by norm_num)
  · intro q hq
    simp only [List.mem_cons, List.mem_singleton, List.not_mem_nil, or_false] at hq
    rcases hq with h | h | h | h <;> subst h
    · exact Nat.prime_two
    · exact Nat.prime_two
    · norm_num
    · exact prime_testP
  · decide
  · decide
  · decide

theorem probablyPrime_alignedP : ProbablyPrime 775927208276463083237 = true := by
  unfold ProbablyPrime
  have : (775927208276463083237 : Int).toNat = 775927208276463083237 := rfl
  rw [this]
  exact decide_eq_true prime_alignedP

set_option maxRecDepth 100000 in
theorem alignedGroup_bits : ¬ (BitLen 775927208276463083237 < minPrimeBitLen) := by decide

set_option maxRecDepth 100000 in
theorem alignedGroup_mod : Mod (775927208276463083237 - 1) 17634709279010524619 = .ok 0 := by
  decide

theorem alignedGroup_validatePrimes : alignedGroup.validatePrimes = .ok () :=
  Group.validatePrimes_of alignedGroup 775927208276463083237 17634709279010524619 rfl rfl
    alignedGroup_bits probablyPrime_alignedP probablyPrime_testP alignedGroup_mod

set_option maxRecDepth 100000 in
theorem alignedGroup_validateG : alignedGroup.validateGenerator alignedGroup.G = .ok () := by
  decide

set_option maxRecDepth 100000 in
theorem alignedGroup_validateH : alignedGroup.validateGenerator alignedGroup.H = .ok () := by
  decide

theorem alignedGroup_validate : alignedGroup.validate = .ok () :=
  Group.validate_of alignedGroup alignedGroup_validatePrimes alignedGroup_validateG
    alignedGroup_validateH

set_option maxRecDepth 100000 in
theorem alignedSecret_chunks :
    splitSecret alignedSecret 17634709279010524619 = .ok [18446744069414584320] := by decide

set_option maxRecDepth 100000 in
theorem alignedSplit_fails :
    alignedPedersen.Split alignedSecret none [5, 6, 7] = (none, some Err.ErrInvalidPrimeSize) := by
  decide

end pedersen

namespace pedersen

open big

/-! ## Commitments in the integers modulo P -/

theorem cast_powMod (a e m : Nat) : ((powMod a e m : Nat) : ZMod m) = ((a : Nat) : ZMod m) ^ e := by
  rw [powMod_eq, ZMod.natCast_mod, Nat.cast_pow]

theorem cast_modExpValue (P : Nat) (hP : 0 < P) (x y : Int) :
    ((modExpValue x y (P : Int) : Int) : ZMod P) = ((x : Int) : ZMod P) ^ y.natAbs := by
  unfold modExpValue
  have h1 : ((P : Int)).natAbs = P := Int.natAbs_ofNat P
  rw [h1, Int.cast_natCast, cast_powMod]
  congr 1
  have hnn : 0 ≤ x % (P : Int) := Int.emod_nonneg _ (by omega)
  have h2 : (((x % (P : Int)).natAbs : Nat) : Int) = x % (P : Int) := Int.natAbs_of_nonneg hnn
  have h3 : (((x % (P : Int)).natAbs : Nat) : ZMod P) = (((x % (P : Int) : Int)) : ZMod P) := by
    conv_rhs => rw [← h2]
    exact (Int.cast_natCast _).symm
  rw [h3]
  exact (ZMod.intCast_eq_intCast_iff _ _ _).2 (Int.emod_emod_of_dvd x (dvd_refl _))

theorem commitValue_range (G H : Int) (P : Nat) (hP : 0 < P) (s t : Int) :
    0 ≤ commitValue G H P s t ∧ commitValue G H P s t < P := by
  unfold commitValue
  exact ⟨Int.emod_nonneg _ (by omega), Int.emod_lt_of_pos _ (by omega)⟩

theorem cast_emod (P : Nat) (a : Int) : (((a % (P : Int) : Int)) : ZMod P) = ((a : Int) : ZMod P) :=
  (ZMod.intCast_eq_intCast_iff _ _ _).2 (Int.emod_emod_of_dvd a (dvd_refl _))

theorem cast_commitValue (G H : Int) (P : Nat) (hP : 0 < P) (s t : Int) :
    ((commitValue G H P s t : Int) : ZMod P) =
      ((G : Int) : ZMod P) ^ s.natAbs * ((H : Int) : ZMod P) ^ t.natAbs := by
  unfold commitValue
  rw [cast_emod, Int.cast_mul, cast_modExpValue P hP, cast_modExpValue P hP]

/-- Exponents may be reduced modulo q for an element whose q-th power is 1. -/
theorem pow_mod_of_pow_eq_one {M : Type} [Monoid M] (g : M) (q : Nat) (hg : g ^ q = 1) (a : Nat) :
    g ^ (a % q) = g ^ a := by
  conv_rhs => rw [← Nat.div_add_mod a q]
  rw [pow_add, pow_mul, hg, one_pow, one_mul]

/-- What validation establishes, in the integers modulo P. -/
theorem GroupFacts.casts {g : Group} {P Q G H : Int} (hf : GroupFacts g P Q G H) :
    ∃ Pn q : Nat, P = (Pn : Int) ∧ Q = (q : Int) ∧ Pn.Prime ∧ q.Prime ∧
      ((G : Int) : ZMod Pn) ^ q = 1 ∧ ((H : Int) : ZMod Pn) ^ q = 1 ∧
      ((G : Int) : ZMod Pn) ≠ 1 ∧ ((H : Int) : ZMod Pn) ≠ 1 := by
  have hQ2 := hf.Q_pos
  have hP2 := hf.P_big
  obtain ⟨Pn, rfl⟩ : ∃ Pn : Nat, P = (Pn : Int) := ⟨P.toNat, by omega⟩
  obtain ⟨q, rfl⟩ : ∃ q : Nat, Q = (q : Int) := ⟨Q.toNat, by omega⟩
  have hPp : Pn.Prime := by simpa using hf.primeP
  have hqp : q.Prime := by simpa using hf.primeQ
  have hP0 : 0 < Pn := hPp.pos
  haveI : Fact (1 < Pn) := ⟨hPp.one_lt⟩
  have one_cast : (((1 : Int)) : ZMod Pn) = 1 := Int.cast_one
  have key : ∀ X : Int, modExpValue X (q : Int) (Pn : Int) = 1 →
      modExpValue X (((Pn : Int) - 1).tdiv (q : Int)) (Pn : Int) ≠ 1 →
      ((X : Int) : ZMod Pn) ^ q = 1 ∧ ((X : Int) : ZMod Pn) ≠ 1 := by
    intro X h1 h2
    constructor
    · have := cast_modExpValue Pn hP0 X (q : Int)
      rw [h1, one_cast, Int.natAbs_ofNat] at this
      exact this.symm
    · intro hX
      apply h2
      have h3 := cast_modExpValue Pn hP0 X (((Pn : Int) - 1).tdiv (q : Int))
      rw [hX, one_pow] at h3
      have hr : 0 ≤ modExpValue X (((Pn : Int) - 1).tdiv (q : Int)) (Pn : Int) ∧
          modExpValue X (((Pn : Int) - 1).tdiv (q : Int)) (Pn : Int) < Pn := by
        unfold modExpValue
        rw [Int.natAbs_ofNat, powMod_eq]
        constructor
        · exact Int.natCast_nonneg _
        · exact_mod_cast Nat.mod_lt _ hP0
      have h1lt : (0 : Int) ≤ 1 ∧ (1 : Int) < Pn := ⟨by norm_num, by
        have := hPp.one_lt
        omega⟩
      exact cast_inj_of_range Pn _ 1 hr h1lt (by rw [h3, one_cast])
  obtain ⟨a1, a2⟩ := key G hf.genG2 hf.genG1
  obtain ⟨b1, b2⟩ := key H hf.genH2 hf.genH1
  exact ⟨Pn, q, rfl, rfl, hPp, hqp, a1, b1, a2, b2⟩

end pedersen

namespace pedersen

open big

/-! ## Verification of one part -/

theorem vandermondeLoop_eq (x Q : Int) (hQ : Q ≠ 0) : ∀ (count : Nat) (prev : Int),
    vandermondeLoop x Q count prev =
      .ok ((List.range count).map (fun k => prev * x ^ (k + 1) % Q)) := by
  intro count
  induction count with
  | zero => intro prev; rfl
  | succ count ih =>
    intro prev
    unfold vandermondeLoop
    simp only [ModMul, hQ, if_false, ok_bind]
    rw [ih, ok_bind, List.range_succ_eq_map, List.map_cons, List.map_map]
    simp only [pure, Except.pure, Except.ok.injEq, zero_add, pow_one, List.cons.injEq, true_and]
    apply List.map_congr_left
    intro k _
    simp only [Function.comp]
    have h := (Int.mod_modEq (prev * x) Q).mul_right (x ^ (k + 1))
    unfold Int.ModEq at h
    rw [h]
    congr 1
    simp only [Nat.succ_eq_add_one]
    ring

theorem vandermondeAbscissa_eq (p : Pedersen) (Q : Int) (hQ : p.group.Q = some Q) (hQ0 : Q ≠ 0)
    (ht : 1 ≤ p.threshold) (x : Int) :
    p.vandermondeAbscissa x = .ok (vandermondeOf x Q p.threshold.toNat) := by
  unfold Pedersen.vandermondeAbscissa vandermondeOf
  rw [if_neg (by omega)]
  simp only [hQ, deref, ok_bind]
  rw [vandermondeLoop_eq x Q hQ0, ok_bind]
  simp only [one_mul]
  rfl

theorem vandermondeOf_getD (x Q : Int) (t j : Nat) (hj1 : 1 ≤ j) (hjt : j < t) :
    (vandermondeOf x Q t).getD j 0 = x ^ j % Q := by
  obtain ⟨k, rfl⟩ : ∃ k, j = k + 1 := ⟨j - 1, by omega⟩
  unfold vandermondeOf
  rw [List.getD_cons_succ, List.getD_eq_getElem _ _ (by simp; omega)]
  simp

theorem length_vandermondeOf (x Q : Int) (t : Nat) (ht : 1 ≤ t) :
    (vandermondeOf x Q t).length = t := by
  unfold vandermondeOf
  simp
  omega

theorem commAt_of_get (comms : List (Option Int)) (j : Nat)
    (hj : j < comms.length) (hnn : ∀ c ∈ comms, c ≠ none) :
    comms.get? j = some (some (commAt comms j)) := by
  unfold commAt
  rw [List.get?_eq_get hj, List.getD_eq_getElem _ _ hj]
  have := hnn _ (List.getElem_mem hj)
  cases h : comms[j] with
  | none => exact absurd h this
  | some c => simp [h]

theorem rhsLoop_spec (Pn : Nat) (hP : 0 < Pn) (hodd : (Pn : Int) % 2 ≠ 0)
    (comms : List (Option Int)) (hnn : ∀ c ∈ comms, c ≠ none) (vand : List Int) :
    ∀ (js : List Nat) (rhs : Int), (∀ j ∈ js, j < comms.length ∧ j < vand.length) →
    ∃ r, rhsLoop (Pn : Int) comms vand js rhs = .ok r ∧
      ((r : Int) : ZMod Pn) = ((rhs : Int) : ZMod Pn) *
        (js.map (fun j => ((commAt comms j : Int) : ZMod Pn) ^ (vand.getD j 0).natAbs)).prod ∧
      (js ≠ [] ∨ (0 ≤ rhs ∧ rhs < Pn) → 0 ≤ r ∧ r < Pn) := by
  intro js
  induction js with
  | nil =>
    intro rhs _
    refine ⟨rhs, rfl, by simp, ?_⟩
    intro h
    rcases h with h | h
    · exact absurd rfl h
    · exact h
  | cons j js ih =>
    intro rhs hall
    obtain ⟨hj1, hj2⟩ := hall j (List.mem_cons_self _ _)
    have hP0 : (Pn : Int) ≠ 0 := by omega
    have hr : 0 ≤ rhs * modExpValue (commAt comms j) (vand.getD j 0) (Pn : Int) % (Pn : Int) ∧
        rhs * modExpValue (commAt comms j) (vand.getD j 0) (Pn : Int) % (Pn : Int) < Pn :=
      ⟨Int.emod_nonneg _ hP0, Int.emod_lt_of_pos _ (by omega)⟩
    obtain ⟨r, h1, h2, h3⟩ := ih
      (rhs * modExpValue (commAt comms j) (vand.getD j 0) (Pn : Int) % (Pn : Int))
      (fun k hk => hall k (List.mem_cons_of_mem _ hk))
    refine ⟨r, ?_, ?_, fun _ => h3 (Or.inr hr)⟩
    · unfold rhsLoop
      rw [(goIndex_ok _ _ _).2 (commAt_of_get comms j hj1 hnn), ok_bind]
      simp only [deref, ok_bind]
      rw [goIndex_lt vand j hj2, ok_bind]
      simp only [ModExpMont, hodd, if_false, ok_bind, ModMul, hP0]
      rw [← h1, List.getD_eq_getElem _ _ hj2]
      rfl
    · rw [h2, cast_emod, Int.cast_mul, cast_modExpValue Pn hP, List.map_cons, List.prod_cons,
        mul_assoc]

theorem constantTimeEq_iff (a b : Int) (ha : 0 ≤ a) (hb : 0 ≤ b) :
    ConstantTimeEq a b = true ↔ a = b := by
  unfold ConstantTimeEq Bytes
  rw [decide_eq_true_iff]
  constructor
  · intro h
    have := congrArg bytesToNat h
    rw [bytesToNat_natToBytes, bytesToNat_natToBytes] at this
    omega
  · intro h
    rw [h]

/-- The function verifyWithContext accepts a complete part exactly when the
verification equation holds modulo P, and rejects it with ErrWrongSecretPart
otherwise. -/
theorem verifyWithContext_spec (p : Pedersen) (Pn : Nat) (Q G H : Int) (hPp : Pn.Prime)
    (hodd : (Pn : Int) % 2 ≠ 0)
    (hg : p.group = { P := some (Pn : Int), Q := some Q, G := some G, H := some H })
    (ht : 2 ≤ p.threshold) (vand : List Int) (hvl : vand.length = p.threshold.toNat)
    (part : SecretPart) (hS : part.SShare ≠ none) (hT : part.TShare ≠ none)
    (comms : List (Option Int)) (hcl : comms.length = p.threshold.toNat)
    (hnn : ∀ c ∈ comms, c ≠ none) :
    (lhsValue Pn G H part = rhsValue Pn comms vand p.threshold.toNat →
      p.verifyWithContext vand part comms = .ok ()) ∧
    (lhsValue Pn G H part ≠ rhsValue Pn comms vand p.threshold.toNat →
      p.verifyWithContext vand part comms = .error Err.ErrWrongSecretPart) := by
  obtain ⟨sS, sT⟩ := part
  cases sS with
  | none => exact absurd rfl hS
  | some S =>
    cases sT with
    | none => exact absurd rfl hT
    | some T =>
      have hP : 0 < Pn := hPp.pos
      obtain ⟨r, h1, h2, h3⟩ := rhsLoop_spec Pn hP hodd comms hnn vand
        ((List.range p.threshold.toNat).drop 1) (commAt comms 0)
        (by
          intro j hj
          have := List.mem_range.mp (List.mem_of_mem_drop hj)
          omega)
      have hne : (List.range p.threshold.toNat).drop 1 ≠ [] := by
        intro h
        have := congrArg List.length h
        simp at this
        omega
      have hr := h3 (Or.inl hne)
      have hl := commitValue_range G H Pn hP S T
      have hlc := cast_commitValue G H Pn hP S T
      have hcomp : p.verifyWithContext vand ⟨some S, some T⟩ comms =
          (if !ConstantTimeEq (commitValue G H Pn S T) r then .error Err.ErrWrongSecretPart
            else pure ()) := by
        unfold Pedersen.verifyWithContext
        simp only []
        rw [if_neg (by rw [hcl]; simp; omega)]
        simp only [hg, deref, ok_bind]
        rw [(goIndex_ok _ _ _).2 (commAt_of_get comms 0 (by omega) hnn), ok_bind]
        simp only [ok_bind]
        rw [h1, ok_bind, commit_eq p Pn Q G H hg hodd, ok_bind]
      have hrv : ((r : Int) : ZMod Pn) = rhsValue Pn comms vand p.threshold.toNat := h2
      have hlv : ((commitValue G H Pn S T : Int) : ZMod Pn) = lhsValue Pn G H ⟨some S, some T⟩ :=
        hlc
      rw [hcomp, ← hrv, ← hlv]
      constructor
      · intro heq
        have := cast_inj_of_range Pn _ _ hl hr heq
        rw [(constantTimeEq_iff _ _ hl.1 hr.1).2 this]
        rfl
      · intro hneq
        have : ConstantTimeEq (commitValue G H Pn S T) r = false := by
          rw [← Bool.not_eq_true, constantTimeEq_iff _ _ hl.1 hr.1]
          intro h
          exact hneq (by rw [h])
        rw [this]
        rfl

end pedersen

namespace pedersen

open big

/-! ## Shape validation: what acceptance implies -/

theorem countParts_sound (s : Shares) (m j : Nat) : ∀ (is : List Nat) (acc r : Nat),
    countParts s m j is acc = .ok r →
    (∀ i ∈ is, ∃ row, s.Parts.get? i = some row ∧ row.length = m ∧
      ∃ part, row.get? j = some part ∧
        (part = SecretPart.empty ∨ (part.SShare ≠ none ∧ part.TShare ≠ none))) ∧
    r = acc + (is.filter (fun i => decide (s.partAt i j ≠ SecretPart.empty))).length := by
  intro is
  induction is with
  | nil =>
    intro acc r h
    simp only [countParts, Except.ok.injEq] at h
    exact ⟨by simp, by simp [h]⟩
  | cons i is ih =>
    intro acc r h
    unfold countParts at h
    rw [bind_ok] at h
    obtain ⟨row, hrow, h⟩ := h
    rw [goIndex_ok] at hrow
    by_cases hlen : row.length ≠ m
    · rw [if_pos hlen] at h; simp at h
    · rw [if_neg hlen, bind_ok] at h
      obtain ⟨part, hpart, h⟩ := h
      rw [goIndex_ok] at hpart
      have hlen2 : row.length = m := by omega
      have hpa : s.partAt i j = part := Shares.partAt_of_get s i j row part hrow hpart
      by_cases he : SecretPart.empty = part
      · rw [if_pos he] at h
        obtain ⟨h1, h2⟩ := ih acc r h
        refine ⟨?_, ?_⟩
        · intro k hk
          rcases List.mem_cons.mp hk with hk | hk
          · subst hk
            exact ⟨row, hrow, hlen2, part, hpart, Or.inl he.symm⟩
          · exact h1 k hk
        · rw [h2, List.filter_cons]
          simp [hpa, he.symm]
      · rw [if_neg he] at h
        by_cases hnil : part.SShare = none ∨ part.TShare = none
        · rw [if_pos hnil] at h; simp at h
        · rw [if_neg hnil] at h
          obtain ⟨h1, h2⟩ := ih (acc + 1) r h
          have hne : part ≠ SecretPart.empty := fun e => he e.symm
          refine ⟨?_, ?_⟩
          · intro k hk
            rcases List.mem_cons.mp hk with hk | hk
            · subst hk
              refine ⟨row, hrow, hlen2, part, hpart, Or.inr ?_⟩
              constructor
              · intro e; exact hnil (Or.inl e)
              · intro e; exact hnil (Or.inr e)
            · exact h1 k hk
          · rw [h2, List.filter_cons]
            simp [hpa, hne]
            omega

/-- Shares that `validateShares` accepts, with at least one chunk, have the
shape `wellShaped` describes. -/
theorem wellShaped_of_validateShares (p : Pedersen) (s : Shares) (row0 : List SecretPart)
    (hrow0 : s.Parts.get? 0 = some row0) (hm : 1 ≤ row0.length)
    (h : p.validateShares (some s) = .ok ()) :
    s.wellShaped p.parts.toNat p.threshold.toNat row0.length := by
  unfold Pedersen.validateShares at h
  simp only [] at h
  by_cases h1 : (s.Abscissae.length : Int) ≠ p.parts
  · rw [if_pos h1] at h; simp at h
  rw [if_neg h1] at h
  by_cases h2 : (s.Parts.length : Int) ≠ p.parts
  · rw [if_pos h2] at h; simp at h
  rw [if_neg h2, bind_ok] at h
  obtain ⟨_, habs, h⟩ := h
  rw [(goIndex_ok _ _ _).2 hrow0, ok_bind] at h
  by_cases h3 : s.Commitments.length ≠ row0.length
  · rw [if_pos h3] at h; simp at h
  rw [if_neg h3, bind_ok] at h
  obtain ⟨_, hchunks, _⟩ := h
  have hal : s.Abscissae.length = p.parts.toNat := by omega
  have hpl : s.Parts.length = p.parts.toNat := by omega
  have hcl : s.Commitments.length = row0.length := by omega
  have hchunk : ∀ j, j < row0.length → p.validateChunk s row0.length j = .ok () := by
    intro j hj
    obtain ⟨u, hu⟩ := mapE_ok_mem _ _ _ hchunks j (List.mem_range.mpr hj)
    exact hu
  have hfacts : ∀ j, j < row0.length →
      (∃ comms, s.Commitments.get? j = some comms ∧ comms.length = p.threshold.toNat ∧
        ∀ c ∈ comms, c ≠ none) ∧
      (∀ i, i < p.parts.toNat → ∃ row, s.Parts.get? i = some row ∧ row.length = row0.length ∧
        ∃ part, row.get? j = some part ∧
          (part = SecretPart.empty ∨ (part.SShare ≠ none ∧ part.TShare ≠ none))) ∧
      p.threshold.toNat ≤ s.nonEmptyCount j := by
    intro j hj
    have hc := hchunk j hj
    unfold Pedersen.validateChunk at hc
    rw [bind_ok] at hc
    obtain ⟨comms, hcomms, hc⟩ := hc
    rw [goIndex_ok] at hcomms
    by_cases h4 : (comms.length : Int) ≠ p.threshold
    · rw [if_pos h4] at hc; simp at hc
    rw [if_neg h4, bind_ok] at hc
    obtain ⟨cnt, hcnt, hc⟩ := hc
    by_cases h5 : (cnt : Int) < p.threshold
    · rw [if_pos h5] at hc; simp at hc
    rw [if_neg h5, bind_ok] at hc
    obtain ⟨_, hnil, _⟩ := hc
    obtain ⟨hrows, hcount⟩ := countParts_sound s row0.length j _ 0 cnt hcnt
    have hcl2 : comms.length = p.threshold.toNat := by omega
    refine ⟨⟨comms, hcomms, hcl2, ?_⟩, fun i hi => hrows i (List.mem_range.mpr hi), ?_⟩
    · intro c hc2
      obtain ⟨k, hk⟩ := List.mem_iff_get.mp hc2
      obtain ⟨u, hu⟩ := mapE_ok_mem _ _ _ hnil k.val
        (List.mem_range.mpr (by rw [← hcl2]; exact k.isLt))
      rw [goIndex_lt comms k.val k.isLt, ok_bind, hk] at hu
      intro hcn
      rw [if_pos hcn] at hu
      simp at hu
    · unfold Shares.nonEmptyCount Shares.holders
      rw [hpl]
      omega
  refine ⟨hal, ?_, hpl, ?_, hcl, ?_, fun j hj => (hfacts j hj).2.2⟩
  · intro a ha
    obtain ⟨k, hk⟩ := List.mem_iff_get.mp ha
    obtain ⟨u, hu⟩ := mapE_ok_mem _ _ _ habs k.val
      (List.mem_range.mpr (by rw [← hal]; exact k.isLt))
    rw [goIndex_lt s.Abscissae k.val k.isLt, ok_bind, hk] at hu
    intro hcn
    rw [if_pos hcn] at hu
    simp at hu
  · intro row hrow
    obtain ⟨i, hi⟩ := List.mem_iff_get.mp hrow
    have hi2 : i.val < p.parts.toNat := by rw [← hpl]; exact i.isLt
    obtain ⟨row2, hr2, hlen, _⟩ := (hfacts 0 (by omega)).2.1 i.val hi2
    rw [List.get?_eq_get i.isLt, Option.some.injEq, hi] at hr2
    subst hr2
    refine ⟨hlen, ?_⟩
    intro part hpart
    obtain ⟨j, hj⟩ := List.mem_iff_get.mp hpart
    obtain ⟨row3, hr3, _, part3, hp3, hprop⟩ := (hfacts j.val (by rw [← hlen]; exact j.isLt)).2.1
      i.val hi2
    rw [List.get?_eq_get i.isLt, Option.some.injEq, hi] at hr3
    subst hr3
    rw [List.get?_eq_get j.isLt, Option.some.injEq, hj] at hp3
    subst hp3
    exact hprop
  · intro row hrow
    obtain ⟨j, hj⟩ := List.mem_iff_get.mp hrow
    obtain ⟨comms, hcomms, hl, hnn⟩ := (hfacts j.val (by rw [← hcl]; exact j.isLt)).1
    rw [List.get?_eq_get j.isLt, Option.some.injEq, hj] at hcomms
    subst hcomms
    exact ⟨hl, hnn⟩

end pedersen

namespace pedersen

open big

/-! ## VerifyShares -/

/-- A loop whose bodies succeed or fail with one and the same error succeeds
when all bodies do and fails with that error otherwise. -/
theorem mapE_unit {α : Type} (e : Err) (f : α → Except Err Unit) : ∀ (l : List α),
    (∀ a ∈ l, f a = .ok () ∨ f a = .error e) →
    ((∀ a ∈ l, f a = .ok ()) → (mapE f l >>= fun _ => (pure () : Except Err Unit)) = .ok ()) ∧
    ((¬ ∀ a ∈ l, f a = .ok ()) →
      (mapE f l >>= fun _ => (pure () : Except Err Unit)) = .error e) := by
  intro l
  induction l with
  | nil =>
    intro _
    exact ⟨fun _ => rfl, fun h => absurd (by simp) h⟩
  | cons a l ih =>
    intro hall
    obtain ⟨ih1, ih2⟩ := ih (fun b hb => hall b (List.mem_cons_of_mem _ hb))
    rcases hall a (List.mem_cons_self _ _) with ha | ha
    · have hstep : (mapE f (a :: l) >>= fun _ => (pure () : Except Err Unit)) =
          (mapE f l >>= fun _ => (pure () : Except Err Unit)) := by
        rw [mapE_cons, ha, ok_bind]
        cases mapE f l <;> rfl
      rw [hstep]
      constructor
      · intro h
        exact ih1 (fun b hb => h b (List.mem_cons_of_mem _ hb))
      · intro h
        apply ih2
        intro h2
        apply h
        intro b hb
        rcases List.mem_cons.mp hb with hb | hb
        · rw [hb]; exact ha
        · exact h2 b hb
    · constructor
      · intro h
        have := h a (List.mem_cons_self _ _)
        rw [ha] at this
        simp at this
      · intro _
        rw [mapE_cons, ha]
        rfl

/-- The check of one part in `VerifyShares`. -/
theorem verifyPart_spec (p : Pedersen) (Pn : Nat) (Q G H : Int) (hPp : Pn.Prime)
    (hodd : (Pn : Int) % 2 ≠ 0)
    (hg : p.group = { P := some (Pn : Int), Q := some Q, G := some G, H := some H })
    (ht : 2 ≤ p.threshold) (s : Shares) (n m : Nat)
    (hshape : s.wellShaped n p.threshold.toNat m) (i j : Nat) (hi : i < n) (hj : j < m) :
    (s.partVerifies Pn Q G H p.threshold.toNat i j →
      (do
        let row ← goIndex s.Parts i
        let part ← goIndex row j
        if SecretPart.empty = part then pure ()
        else do
          let comms ← goIndex s.Commitments j
          p.verifyWithContext (vandermondeOf (abscissaAt s.Abscissae i) Q p.threshold.toNat)
            part comms) = .ok ()) ∧
    (¬ s.partVerifies Pn Q G H p.threshold.toNat i j →
      (do
        let row ← goIndex s.Parts i
        let part ← goIndex row j
        if SecretPart.empty = part then pure ()
        else do
          let comms ← goIndex s.Commitments j
          p.verifyWithContext (vandermondeOf (abscissaAt s.Abscissae i) Q p.threshold.toNat)
            part comms) = .error Err.ErrWrongSecretPart) := by
  obtain ⟨_, _, hpl, hrows, hcl, hcomm, _⟩ := hshape
  have hi2 : i < s.Parts.length := by omega
  have hrow := hrows _ (List.get_mem s.Parts i hi2)
  have hj2 : j < (s.Parts.get ⟨i, hi2⟩).length := by rw [hrow.1]; exact hj
  have hpa := Shares.partAt_get s i j hi2 hj2
  have hjc : j < s.Commitments.length := by omega
  have hc := hcomm _ (List.get_mem s.Commitments j hjc)
  have hcd : s.Commitments.getD j [] = s.Commitments.get ⟨j, hjc⟩ :=
    List.getD_eq_getElem _ _ hjc
  rw [goIndex_lt s.Parts i hi2, ok_bind, goIndex_lt _ j hj2, ok_bind, ← hpa]
  unfold Shares.partVerifies
  by_cases he : SecretPart.empty = s.partAt i j
  · rw [if_pos he]
    exact ⟨fun _ => rfl, fun h => absurd (Or.inl he.symm) h⟩
  · rw [if_neg he, goIndex_lt _ j hjc, ok_bind, hcd]
    have hne : s.partAt i j ≠ SecretPart.empty := fun e => he e.symm
    have hcomplete : (s.partAt i j).SShare ≠ none ∧ (s.partAt i j).TShare ≠ none := by
      rcases hrow.2 _ (List.get_mem _ j hj2) with h | h
      · rw [← hpa] at h; exact absurd h hne
      · rw [← hpa] at h; exact h
    obtain ⟨h1, h2⟩ := verifyWithContext_spec p Pn Q G H hPp hodd hg ht
      (vandermondeOf (abscissaAt s.Abscissae i) Q p.threshold.toNat)
      (length_vandermondeOf _ _ _ (by omega)) (s.partAt i j) hcomplete.1 hcomplete.2
      (s.Commitments.get ⟨j, hjc⟩) hc.1 hc.2
    constructor
    · intro h
      rcases h with h | h
      · exact absurd h hne
      · exact h1 h
    · intro h
      apply h2
      intro h3
      exact h (Or.inr h3)

/-- The function VerifyShares, on well-shaped shares with at least one chunk,
returns nil when every non-empty part satisfies the verification equation and
ErrWrongSecretPart otherwise. -/
theorem VerifyShares_spec (p : Pedersen) (P Q G H : Int) (hf : GroupFacts p.group P Q G H)
    (hv : p.validate = .ok ()) (hc : 1 ≤ p.concLimit) (s : Shares) (m : Nat) (hm : 1 ≤ m)
    (hshape : s.wellShaped p.parts.toNat p.threshold.toNat m) :
    ((∀ i j, i < p.parts.toNat → j < m →
        s.partVerifies P.toNat Q G H p.threshold.toNat i j) →
      p.VerifyShares (some s) = .ok ()) ∧
    ((¬ ∀ i j, i < p.parts.toNat → j < m →
        s.partVerifies P.toNat Q G H p.threshold.toNat i j) →
      p.VerifyShares (some s) = .error Err.ErrWrongSecretPart) := by
  obtain ⟨ht, htn⟩ := Pedersen.validate_bounds p hv
  have hPbig := hf.P_big
  have hodd := hf.P_odd
  have hQ2 := hf.Q_pos
  obtain ⟨Pn, rfl⟩ : ∃ Pn : Nat, P = (Pn : Int) := ⟨P.toNat, by omega⟩
  have hPp : Pn.Prime := by simpa using hf.primeP
  have hg := hf.eq
  have hval := validateShares_of_wellShaped p s p.parts.toNat p.threshold.toNat m (by omega)
    (by omega) (by omega) hshape
  have hshape2 := hshape
  obtain ⟨hal, hanil, hpl, hrows, hcl, hcomm, _⟩ := hshape
  have h0 : 0 < s.Parts.length := by omega
  have hrow0 : (s.Parts.get ⟨0, h0⟩).length = m := (hrows _ (List.get_mem _ _ _)).1
  obtain ⟨ranges, hranges, hcons⟩ := balanceIndices_spec p p.parts.toNat
    (p.adjustConcLimit (m : Int)) (adjustConcLimit_pos p hc _ (by omega))
  have hpn : ((p.parts.toNat : Nat) : Int) = p.parts := by omega
  rw [hpn] at hranges
  have hflat := Consecutive.flatten_indices_zero hcons
  simp only [Int.toNat_ofNat]
  -- shareholder level
  have hholder : ∀ i, i < p.parts.toNat →
      ((∀ j, j < m → s.partVerifies Pn Q G H p.threshold.toNat i j) →
        p.verifyShareholder s m i = .ok ()) ∧
      ((¬ ∀ j, j < m → s.partVerifies Pn Q G H p.threshold.toNat i j) →
        p.verifyShareholder s m i = .error Err.ErrWrongSecretPart) := by
    intro i hi
    have hia : i < s.Abscissae.length := by omega
    have hx : s.Abscissae.get? i = some (some (abscissaAt s.Abscissae i)) := by
      have hne := hanil _ (List.get_mem s.Abscissae i hia)
      unfold abscissaAt
      rw [List.get?_eq_get hia]
      cases hxx : s.Abscissae.get ⟨i, hia⟩ with
      | none => exact absurd hxx hne
      | some x => rfl
    have hcomp : p.verifyShareholder s m i =
        (mapE (fun partIndex => do
          let row ← goIndex s.Parts i
          let part ← goIndex row partIndex
          if SecretPart.empty = part then pure ()
          else do
            let comms ← goIndex s.Commitments partIndex
            p.verifyWithContext (vandermondeOf (abscissaAt s.Abscissae i) Q p.threshold.toNat)
              part comms) (List.range m) >>= fun _ => (pure () : Except Err Unit)) := by
      unfold Pedersen.verifyShareholder
      rw [(goIndex_ok _ _ _).2 hx, ok_bind]
      simp only [deref, ok_bind]
      rw [vandermondeAbscissa_eq p Q (by rw [hg]) (by omega) (by omega), ok_bind]
    rw [hcomp]
    obtain ⟨m1, m2⟩ := mapE_unit Err.ErrWrongSecretPart _ (List.range m)
      (by
        intro j hj
        have hj2 := List.mem_range.mp hj
        obtain ⟨a1, a2⟩ := verifyPart_spec p Pn Q G H hPp hodd hg ht s p.parts.toNat m hshape2
          i j hi hj2
        by_cases hpv : s.partVerifies Pn Q G H p.threshold.toNat i j
        · exact Or.inl (a1 hpv)
        · exact Or.inr (a2 hpv))
    constructor
    · intro hall
      apply m1
      intro j hj
      have hj2 := List.mem_range.mp hj
      exact (verifyPart_spec p Pn Q G H hPp hodd hg ht s p.parts.toNat m hshape2 i j hi hj2).1
        (hall j hj2)
    · intro hnall
      apply m2
      intro hall
      apply hnall
      intro j hj
      by_contra hpv
      have e1 := (verifyPart_spec p Pn Q G H hPp hodd hg ht s p.parts.toNat m hshape2 i j hi
        hj).2 hpv
      have e2 := hall j (List.mem_range.mpr hj)
      rw [e1] at e2
      simp at e2
  -- worker level
  have hmemr : ∀ chunk ∈ ranges, ∀ i ∈ chunk.indices, i < p.parts.toNat := by
    intro chunk hchunk i hi
    have : i ∈ (ranges.map chunkRange.indices).flatten :=
      List.mem_flatten.mpr ⟨_, List.mem_map.mpr ⟨chunk, hchunk, rfl⟩, hi⟩
    rw [hflat] at this
    exact List.mem_range.mp this
  have hworker : ∀ chunk ∈ ranges,
      ((∀ i ∈ chunk.indices, ∀ j, j < m → s.partVerifies Pn Q G H p.threshold.toNat i j) →
        p.verifyWorker s m chunk = .ok ()) ∧
      ((¬ ∀ i ∈ chunk.indices, ∀ j, j < m → s.partVerifies Pn Q G H p.threshold.toNat i j) →
        p.verifyWorker s m chunk = .error Err.ErrWrongSecretPart) := by
    intro chunk hchunk
    have hcomp : p.verifyWorker s m chunk =
        (mapE (fun idx => p.verifyShareholder s m idx) chunk.indices >>=
          fun _ => (pure () : Except Err Unit)) := by
      unfold Pedersen.verifyWorker
      simp only [hg, deref, ok_bind, montSet, hodd, if_false]
    rw [hcomp]
    obtain ⟨m1, m2⟩ := mapE_unit Err.ErrWrongSecretPart
      (fun idx => p.verifyShareholder s m idx) chunk.indices
      (by
        intro i hi
        obtain ⟨a1, a2⟩ := hholder i (hmemr chunk hchunk i hi)
        by_cases hpv : ∀ j, j < m → s.partVerifies Pn Q G H p.threshold.toNat i j
        · exact Or.inl (a1 hpv)
        · exact Or.inr (a2 hpv))
    constructor
    · intro hall
      apply m1
      intro i hi
      exact (hholder i (hmemr chunk hchunk i hi)).1 (hall i hi)
    · intro hnall
      apply m2
      intro hall
      apply hnall
      intro i hi
      by_contra hpv
      have e1 := (hholder i (hmemr chunk hchunk i hi)).2 hpv
      have e2 := hall i hi
      rw [e1] at e2
      simp at e2
  -- top level
  have hnopanic : ∀ chunk ∈ ranges, ∀ e, p.verifyWorker s m chunk = .error e →
      e.isPanic = false := by
    intro chunk hchunk e he
    obtain ⟨a1, a2⟩ := hworker chunk hchunk
    by_cases hpv : ∀ i ∈ chunk.indices, ∀ j, j < m →
        s.partVerifies Pn Q G H p.threshold.toNat i j
    · rw [a1 hpv] at he
      cases he
    · rw [a2 hpv] at he
      simp only [Except.error.injEq] at he
      subst he
      rfl
  have hcomp : p.VerifyShares (some s) =
      (mapE (fun chunk => p.verifyWorker s m chunk) ranges >>=
        fun _ => (pure () : Except Err Unit)) := by
    unfold Pedersen.VerifyShares
    rw [hval, ok_bind]
    simp only [deref, ok_bind]
    rw [goIndex_lt s.Parts 0 h0, ok_bind]
    simp only [hrow0]
    rw [hranges, ok_bind, groupWait_eq_mapE _ _ hnopanic]
  rw [hcomp]
  obtain ⟨m1, m2⟩ := mapE_unit Err.ErrWrongSecretPart
    (fun chunk => p.verifyWorker s m chunk) ranges
    (by
      intro chunk hchunk
      obtain ⟨a1, a2⟩ := hworker chunk hchunk
      by_cases hpv : ∀ i ∈ chunk.indices, ∀ j, j < m →
          s.partVerifies Pn Q G H p.threshold.toNat i j
      · exact Or.inl (a1 hpv)
      · exact Or.inr (a2 hpv))
  constructor
  · intro hall
    apply m1
    intro chunk hchunk
    exact (hworker chunk hchunk).1 (fun i hi j hj => hall i j (hmemr chunk hchunk i hi) hj)
  · intro hnall
    apply m2
    intro hall
    apply hnall
    intro i j hi hj
    have hmem : i ∈ (ranges.map chunkRange.indices).flatten := by
      rw [hflat]; exact List.mem_range.mpr hi
    obtain ⟨l, hl, hil⟩ := List.mem_flatten.mp hmem
    obtain ⟨chunk, hchunk, rfl⟩ := List.mem_map.mp hl
    by_contra hpv
    have e1 := (hworker chunk hchunk).2 (fun h => hpv (h i hil j hj))
    have e2 := hall chunk hchunk
    rw [e1] at e2
    simp at e2

end pedersen

namespace pedersen

open big

/-! ## The verification equation for the parts that split computes -/

theorem prod_map_zpow {K : Type} [Field K] (g : K) (hg : g ≠ 0) (l : List Int) :
    (l.map (fun a => g ^ a)).prod = g ^ l.sum := by
  induction l with
  | nil => simp
  | cons a l ih => rw [List.map_cons, List.prod_cons, List.sum_cons, ih, zpow_add₀ hg]

theorem hornerSum_eq_sum (x : Int) (F : List Int) :
    hornerSum x F = ((List.range F.length).map (fun j => F.getD j 0 * x ^ j)).sum := by
  induction F with
  | nil => rfl
  | cons c F ih =>
    rw [List.length_cons, List.range_succ_eq_map, List.map_cons, List.sum_cons, List.map_map]
    simp only [hornerSum, List.getD_cons_zero, pow_zero, mul_one, ih]
    congr 1
    rw [← List.sum_map_mul_left]
    congr 1
    apply List.map_congr_left
    intro j _
    simp only [Function.comp, List.getD_cons_succ, pow_succ]
    ring

theorem zpow_emod_of_pow_eq_one {K : Type} [Field K] (y : K) (hy : y ≠ 0) (q : Nat)
    (hq : y ^ q = 1) (a : Int) : y ^ (a % (q : Int)) = y ^ a := by
  conv_rhs => rw [← Int.emod_add_ediv a (q : Int)]
  rw [zpow_add₀ hy, zpow_mul, zpow_natCast, hq, one_zpow, mul_one]

theorem pow_natAbs_of_nonneg {K : Type} [Field K] (y : K) (a : Int) (ha : 0 ≤ a) :
    y ^ a.natAbs = y ^ a := by
  conv_rhs => rw [← Int.natAbs_of_nonneg ha]
  rw [zpow_natCast]

theorem ne_zero_of_pow_eq_one {K : Type} [Field K] (y : K) (q : Nat) (hq0 : q ≠ 0)
    (hq : y ^ q = 1) : y ≠ 0 := by
  intro h
  rw [h, zero_pow hq0] at hq
  exact zero_ne_one hq

/-- The power of a generator to an evaluation of a polynomial is its power to
the sum of the polynomial over the integers. -/
theorem zpow_evalValue {K : Type} [Field K] (g : K) (q : Nat) (hq0 : q ≠ 0) (hg : g ^ q = 1)
    (F : List Int) (hF : ∀ c ∈ F, 0 ≤ c) (x : Int) (hx : 0 ≤ x) :
    g ^ (evalValue F (q : Int) x).natAbs = g ^ (hornerSum x F) := by
  have hg0 := ne_zero_of_pow_eq_one g q hq0 hg
  rw [pow_natAbs_of_nonneg _ _ (evalValue_nonneg F q x hx hF)]
  unfold evalValue
  split
  · rename_i h
    rw [h, hornerSum_zero]
  · have hnn := hornerSum_nonneg x hx F hF
    rw [Int.tmod_eq_emod hnn (by omega), zpow_emod_of_pow_eq_one g hg0 q hg]

theorem commAt_commitmentsOf (G H P : Int) (F K : List Int) (t j : Nat) (hj : j < t) :
    commAt (commitmentsOf G H P F K t) j = commitValue G H P (F.getD j 0) (K.getD j 0) := by
  unfold commAt commitmentsOf
  rw [List.getD_eq_getElem _ _ (by simpa using hj)]
  simp

/-- The product of the commitments raised to the powers of the abscissa. -/
theorem prod_commitments {K : Type} [Field K] (g h : K) (hg : g ≠ 0) (hh : h ≠ 0) (x : Int)
    (F Kc : List Int) (hl : Kc.length = F.length) :
    ((List.range F.length).map
      (fun j => (g ^ (F.getD j 0) * h ^ (Kc.getD j 0)) ^ (x ^ j))).prod =
      g ^ (hornerSum x F) * h ^ (hornerSum x Kc) := by
  have e : ∀ j, (g ^ (F.getD j 0) * h ^ (Kc.getD j 0)) ^ (x ^ j) =
      g ^ (F.getD j 0 * x ^ j) * h ^ (Kc.getD j 0 * x ^ j) := by
    intro j
    rw [mul_zpow, ← zpow_mul, ← zpow_mul]
  simp only [e]
  rw [List.prod_map_mul, hornerSum_eq_sum x F, hornerSum_eq_sum x Kc, hl,
    ← prod_map_zpow g hg, ← prod_map_zpow h hh, List.map_map, List.map_map]
  rfl

end pedersen

namespace pedersen

open big

theorem range_drop_one (t : Nat) (ht : 1 ≤ t) :
    (List.range t).drop 1 = (List.range (t - 1)).map Nat.succ := by
  obtain ⟨k, rfl⟩ : ∃ k, t = k + 1 := ⟨t - 1, by omega⟩
  rw [List.range_succ_eq_map]
  rfl

/-- The right-hand side that `verifyWithContext` computes is the product of
the commitments raised to the powers of the abscissa: the exponents, which it
reduces modulo Q, act on elements whose Q-th power is 1. -/
theorem rhsValue_eq (Pn q : Nat) [Fact Pn.Prime] (hq0 : q ≠ 0) (comms : List (Option Int))
    (x : Int) (t : Nat) (ht : 1 ≤ t)
    (hc : ∀ j, j < t → ((commAt comms j : Int) : ZMod Pn) ^ q = 1) :
    rhsValue Pn comms (vandermondeOf x (q : Int) t) t =
      ((List.range t).map (fun j => ((commAt comms j : Int) : ZMod Pn) ^ (x ^ j))).prod := by
  unfold rhsValue
  rw [range_drop_one t ht]
  obtain ⟨k, rfl⟩ : ∃ k, t = k + 1 := ⟨t - 1, by omega⟩
  rw [List.range_succ_eq_map, List.map_cons, List.prod_cons, pow_zero, zpow_one, List.map_map,
    List.map_map, Nat.add_sub_cancel]
  congr 2
  apply List.map_congr_left
  intro j hj
  have hj2 := List.mem_range.mp hj
  simp only [Function.comp]
  rw [vandermondeOf_getD x q (k + 1) (j + 1) (by omega) (by omega)]
  have hq1 : (0 : Int) < q := by omega
  rw [pow_natAbs_of_nonneg _ _ (Int.emod_nonneg _ (by omega)),
    zpow_emod_of_pow_eq_one _ (ne_zero_of_pow_eq_one _ q hq0 (hc (j + 1) (by omega))) q
      (hc (j + 1) (by omega))]

theorem cast_commitmentProduct (Pn : Nat) [Fact Pn.Prime] (comms : List (Option Int)) (x : Int)
    (hx : 0 ≤ x) (t : Nat) :
    ((commitmentProduct comms x t : Int) : ZMod Pn) =
      ((List.range t).map (fun j => ((commAt comms j : Int) : ZMod Pn) ^ (x ^ j))).prod := by
  unfold commitmentProduct
  rw [Int.cast_list_prod, List.map_map]
  congr 1
  apply List.map_congr_left
  intro j _
  simp only [Function.comp, Int.cast_pow]
  have : x ^ j = ((x.toNat ^ j : Nat) : Int) := by
    push_cast
    rw [Int.toNat_of_nonneg hx]
  rw [this, zpow_natCast]

/-- The parts that `split` computes at a non-negative abscissa satisfy the
verification equation against the commitments that it computes. -/
theorem verification_equation (Pn q : Nat) [hPp : Fact Pn.Prime] (hq0 : q ≠ 0) (G H : Int)
    (hG : ((G : Int) : ZMod Pn) ^ q = 1) (hH : ((H : Int) : ZMod Pn) ^ q = 1)
    (F K : List Int) (t : Nat) (hFl : F.length = t) (hKl : K.length = t)
    (hF : ∀ c ∈ F, 0 ≤ c) (hK : ∀ c ∈ K, 0 ≤ c) (x : Int) (hx : 0 ≤ x) :
    lhsValue Pn G H (partOf F K q x) =
      ((List.range t).map (fun j =>
        ((commAt (commitmentsOf G H Pn F K t) j : Int) : ZMod Pn) ^ (x ^ j))).prod ∧
    ∀ j, j < t → ((commAt (commitmentsOf G H Pn F K t) j : Int) : ZMod Pn) ^ q = 1 := by
  have hg0 := ne_zero_of_pow_eq_one _ q hq0 hG
  have hh0 := ne_zero_of_pow_eq_one _ q hq0 hH
  have hgetF : ∀ j, 0 ≤ F.getD j 0 := by
    intro j
    by_cases hj : j < F.length
    · rw [List.getD_eq_getElem _ _ hj]; exact hF _ (List.getElem_mem hj)
    · rw [List.getD_eq_default _ _ (by omega)]
  have hgetK : ∀ j, 0 ≤ K.getD j 0 := by
    intro j
    by_cases hj : j < K.length
    · rw [List.getD_eq_getElem _ _ hj]; exact hK _ (List.getElem_mem hj)
    · rw [List.getD_eq_default _ _ (by omega)]
  have hcast : ∀ j, j < t → ((commAt (commitmentsOf G H Pn F K t) j : Int) : ZMod Pn) =
      ((G : Int) : ZMod Pn) ^ (F.getD j 0) * ((H : Int) : ZMod Pn) ^ (K.getD j 0) := by
    intro j hj
    rw [commAt_commitmentsOf G H Pn F K t j hj, cast_commitValue G H Pn hPp.out.pos,
      pow_natAbs_of_nonneg _ _ (hgetF j), pow_natAbs_of_nonneg _ _ (hgetK j)]
  constructor
  · unfold lhsValue partOf
    simp only [Option.getD_some]
    rw [zpow_evalValue _ q hq0 hG F hF x hx, zpow_evalValue _ q hq0 hH K hK x hx,
      ← prod_commitments _ _ hg0 hh0 x F K (by omega), hFl]
    congr 1
    apply List.map_congr_left
    intro j hj
    rw [hcast j (List.mem_range.mp hj)]
  · intro j hj
    rw [hcast j hj, mul_pow, ← pow_natAbs_of_nonneg _ _ (hgetF j),
      ← pow_natAbs_of_nonneg _ _ (hgetK j), ← pow_mul, ← pow_mul, mul_comm _ q, mul_comm _ q,
      pow_mul, pow_mul, hG, hH, one_pow, one_pow, one_mul]

end pedersen

namespace pedersen

open big

set_option maxRecDepth 100000 in
theorem testSplit_negative :
    testPedersen.Split testSecret (some negativeAbscissae) [9, 10, 11, 12, 13, 14] =
      (some negativeShares, none) := by decide

set_option maxRecDepth 100000 in
theorem negativeShares_rejected :
    testPedersen.VerifyShares (some negativeShares) = .error Err.ErrWrongSecretPart := by decide

set_option maxRecDepth 100000 in
theorem testShares_verified : testPedersen.VerifyShares (some testShares) = .ok () := by decide

end pedersen

namespace pedersen

open big

/-! ## Replacing one part -/

theorem Shares.partAt_lt (s : Shares) (i j : Nat) (h : s.partAt i j ≠ SecretPart.empty) :
    ∃ hi : i < s.Parts.length, j < (s.Parts.get ⟨i, hi⟩).length := by
  unfold Shares.partAt at h
  by_cases hi : i < s.Parts.length
  · refine ⟨hi, ?_⟩
    by_contra hj
    apply h
    rw [List.get?_eq_get hi, Option.some_bind, List.get?_eq_getElem?,
      List.getElem?_eq_none (by simpa using hj)]
    rfl
  · exfalso
    apply h
    rw [List.get?_eq_getElem?, List.getElem?_eq_none (by omega)]
    rfl

theorem Shares.partAt_setPart_self (s : Shares) (i j : Nat) (part : SecretPart)
    (hi : i < s.Parts.length) (hj : j < (s.Parts.get ⟨i, hi⟩).length) :
    (s.setPart i j part).partAt i j = part := by
  apply Shares.partAt_of_get _ i j ((s.Parts.getD i []).set j part)
  · unfold Shares.setPart
    simp only []
    rw [List.get?_eq_getElem?, List.getElem?_set_self hi]
  · rw [List.get?_eq_getElem?, List.getElem?_set_self]
    rw [List.getD_eq_getElem _ _ hi]
    exact hj

theorem Shares.partAt_setPart_other (s : Shares) (i j i2 j2 : Nat) (part : SecretPart)
    (hne : ¬ (i2 = i ∧ j2 = j)) : (s.setPart i j part).partAt i2 j2 = s.partAt i2 j2 := by
  unfold Shares.partAt Shares.setPart
  simp only [List.get?_eq_getElem?]
  by_cases hi : i2 = i
  · subst hi
    have hj : j ≠ j2 := fun e => hne ⟨rfl, e.symm⟩
    by_cases hil : i2 < s.Parts.length
    · rw [List.getElem?_set_self hil, List.getElem?_eq_getElem hil, Option.some_bind,
        Option.some_bind, List.getElem?_set_ne hj, List.getD_eq_getElem _ _ hil]
    · rw [List.getElem?_eq_none (by simpa using hil), List.getElem?_eq_none (by simpa using hil)]
  · rw [List.getElem?_set_ne (fun e => hi e.symm)]

/-- Replacing a complete part by a complete part keeps the shape. -/
theorem wellShaped_setPart (s : Shares) (n t m : Nat) (h : s.wellShaped n t m) (i j : Nat)
    (hne : s.partAt i j ≠ SecretPart.empty) (part : SecretPart)
    (hS : part.SShare ≠ none) (hT : part.TShare ≠ none) :
    (s.setPart i j part).wellShaped n t m := by
  obtain ⟨ha, hanil, hp, hrows, hcl, hcomm, hcount⟩ := h
  obtain ⟨hi, hj⟩ := Shares.partAt_lt s i j hne
  have hpne : part ≠ SecretPart.empty := by
    intro e
    rw [e] at hS
    exact hS rfl
  have hAbs : (s.setPart i j part).Abscissae = s.Abscissae := rfl
  have hCom : (s.setPart i j part).Commitments = s.Commitments := rfl
  have hPl : (s.setPart i j part).Parts.length = s.Parts.length := by
    unfold Shares.setPart
    simp
  refine ⟨by rw [hAbs]; exact ha, by rw [hAbs]; exact hanil, by rw [hPl]; exact hp, ?_,
    by rw [hCom]; exact hcl, by rw [hCom]; exact hcomm, ?_⟩
  · intro row hrow
    have hrow2 : row ∈ s.Parts.set i ((s.Parts.getD i []).set j part) := hrow
    rcases List.mem_or_eq_of_mem_set hrow2 with h1 | h1
    · exact hrows row h1
    · have hold := hrows _ (List.get_mem s.Parts i hi)
      rw [h1, List.getD_eq_getElem _ _ hi]
      refine ⟨by rw [List.length_set]; exact hold.1, ?_⟩
      intro part2 hpart2
      rcases List.mem_or_eq_of_mem_set hpart2 with h2 | h2
      · exact hold.2 part2 h2
      · rw [h2]; exact Or.inr ⟨hS, hT⟩
  · intro j2 hj2
    have := hcount j2 hj2
    unfold Shares.nonEmptyCount Shares.holders at this ⊢
    rw [hPl]
    have hfil : List.filter (fun i2 => decide ((s.setPart i j part).partAt i2 j2 ≠
        SecretPart.empty)) (List.range s.Parts.length) =
        List.filter (fun i2 => decide (s.partAt i2 j2 ≠ SecretPart.empty))
          (List.range s.Parts.length) := by
      apply List.filter_congr
      intro i2 _
      by_cases hsame : i2 = i ∧ j2 = j
      · obtain ⟨rfl, rfl⟩ := hsame
        rw [Shares.partAt_setPart_self s i2 j2 part hi hj]
        simp [hpne, hne]
      · rw [Shares.partAt_setPart_other s i j i2 j2 part hsame]
    rw [hfil]
    exact this

/-- What acceptance by `VerifyShares` implies: the shares are well shaped,
with at least one chunk, and every part verifies. -/
theorem VerifyShares_ok (p : Pedersen) (P Q G H : Int) (hf : GroupFacts p.group P Q G H)
    (hv : p.validate = .ok ()) (hc : 1 ≤ p.concLimit) (s : Shares)
    (hok : p.VerifyShares (some s) = .ok ()) :
    ∃ m, 1 ≤ m ∧ s.wellShaped p.parts.toNat p.threshold.toNat m ∧
      ∀ i j, i < p.parts.toNat → j < m → s.partVerifies P.toNat Q G H p.threshold.toNat i j := by
  have hok2 := hok
  unfold Pedersen.VerifyShares at hok2
  rw [bind_ok] at hok2
  obtain ⟨_, hval, hok2⟩ := hok2
  simp only [deref, ok_bind] at hok2
  rw [bind_ok] at hok2
  obtain ⟨row0, hrow0, hok2⟩ := hok2
  rw [goIndex_ok] at hrow0
  rw [bind_ok] at hok2
  obtain ⟨ranges, hranges, _⟩ := hok2
  have hm : 1 ≤ row0.length := by
    by_contra hcon
    have h0 : row0.length = 0 := by omega
    rw [h0] at hranges
    unfold Pedersen.balanceIndices Pedersen.adjustConcLimit Pedersen.GetConcLimit at hranges
    simp only [Nat.cast_zero] at hranges
    rw [if_pos (by omega : p.concLimit > 0)] at hranges
    simp at hranges
  have hshape := wellShaped_of_validateShares p s row0 hrow0 hm hval
  refine ⟨row0.length, hm, hshape, ?_⟩
  by_contra hcon
  have := (VerifyShares_spec p P Q G H hf hv hc s row0.length hm hshape).2 hcon
  rw [this] at hok
  simp at hok

/-- Replacing a part of accepted shares by a complete part whose left-hand
side of the verification equation is another one makes `VerifyShares` return
ErrWrongSecretPart. -/
theorem VerifyShares_setPart (p : Pedersen) (P Q G H : Int) (hf : GroupFacts p.group P Q G H)
    (hv : p.validate = .ok ()) (hc : 1 ≤ p.concLimit) (s : Shares)
    (hok : p.VerifyShares (some s) = .ok ()) (i j : Nat)
    (hne : s.partAt i j ≠ SecretPart.empty) (part : SecretPart)
    (hS : part.SShare ≠ none) (hT : part.TShare ≠ none)
    (hlhs : lhsValue P.toNat G H part ≠ lhsValue P.toNat G H (s.partAt i j)) :
    p.VerifyShares (some (s.setPart i j part)) = .error Err.ErrWrongSecretPart := by
  obtain ⟨m, hm, hshape, hall⟩ := VerifyShares_ok p P Q G H hf hv hc s hok
  have hshape2 := wellShaped_setPart s _ _ m hshape i j hne part hS hT
  obtain ⟨hi, hj⟩ := Shares.partAt_lt s i j hne
  have hi2 : i < p.parts.toNat := by rw [← hshape.2.2.1]; exact hi
  have hj2 : j < m := by
    rw [← (hshape.2.2.2.1 _ (List.get_mem s.Parts i hi)).1]; exact hj
  apply (VerifyShares_spec p P Q G H hf hv hc _ m hm hshape2).2
  intro hcon
  have h1 := hcon i j hi2 hj2
  have h2 := hall i j hi2 hj2
  unfold Shares.partVerifies at h1 h2
  rw [Shares.partAt_setPart_self s i j part hi hj] at h1
  have hpne : part ≠ SecretPart.empty := by
    intro e
    rw [e] at hS
    exact hS rfl
  rcases h1 with h1 | h1
  · exact hpne h1
  · rcases h2 with h2 | h2
    · exact hne h2
    · apply hlhs
      rw [h1, h2]
      rfl

end pedersen

namespace pedersen

open big

/-! ## Tampered shares change the left-hand side -/

/-- Powers of an element of prime order q agree only for exponents that agree
modulo q. -/
theorem pow_eq_pow_of_prime_order (Pn q : Nat) [Fact Pn.Prime] (hq : q.Prime) (g : ZMod Pn)
    (hg : g ^ q = 1) (hg1 : g ≠ 1) (a b : Nat) (h : g ^ a = g ^ b) :
    (q : Int) ∣ (b : Int) - (a : Int) := by
  haveI : Fact q.Prime := ⟨hq⟩
  have hg0 : g ≠ 0 := ne_zero_of_pow_eq_one g q hq.pos.ne' hg
  have hu : (Units.mk0 g hg0) ^ a = (Units.mk0 g hg0) ^ b := by
    apply Units.ext
    simpa using h
  have hord : orderOf (Units.mk0 g hg0) = q := by
    apply orderOf_eq_prime
    · apply Units.ext
      simpa using hg
    · intro e
      apply hg1
      have := congrArg Units.val e
      simpa using this
  have := pow_eq_pow_iff_modEq.1 hu
  rw [hord] at this
  exact Nat.modEq_iff_dvd.1 this

theorem lhsValue_ne_SShare (Pn q : Nat) [Fact Pn.Prime] (hq : q.Prime) (G H : Int)
    (hG : ((G : Int) : ZMod Pn) ^ q = 1) (hG1 : ((G : Int) : ZMod Pn) ≠ 1)
    (hH : ((H : Int) : ZMod Pn) ^ q = 1) (S T v : Int) (hdiff : ¬ (q : Int) ∣ (|v| - |S|)) :
    lhsValue Pn G H { SShare := some v, TShare := some T } ≠
      lhsValue Pn G H { SShare := some S, TShare := some T } := by
  unfold lhsValue
  simp only [Option.getD_some]
  intro heq
  have hh0 : ((H : Int) : ZMod Pn) ^ T.natAbs ≠ 0 :=
    pow_ne_zero _ (ne_zero_of_pow_eq_one _ q hq.pos.ne' hH)
  have h1 := mul_right_cancel₀ hh0 heq
  have h2 := pow_eq_pow_of_prime_order Pn q hq _ hG hG1 _ _ h1.symm
  rw [Int.natCast_natAbs, Int.natCast_natAbs] at h2
  exact hdiff h2

theorem lhsValue_ne_TShare (Pn q : Nat) [Fact Pn.Prime] (hq : q.Prime) (G H : Int)
    (hG : ((G : Int) : ZMod Pn) ^ q = 1) (hH : ((H : Int) : ZMod Pn) ^ q = 1)
    (hH1 : ((H : Int) : ZMod Pn) ≠ 1) (S T v : Int) (hdiff : ¬ (q : Int) ∣ (|v| - |T|)) :
    lhsValue Pn G H { SShare := some S, TShare := some v } ≠
      lhsValue Pn G H { SShare := some S, TShare := some T } := by
  unfold lhsValue
  simp only [Option.getD_some]
  intro heq
  have hg0 : ((G : Int) : ZMod Pn) ^ S.natAbs ≠ 0 :=
    pow_ne_zero _ (ne_zero_of_pow_eq_one _ q hq.pos.ne' hG)
  have h1 := mul_left_cancel₀ hg0 heq
  have h2 := pow_eq_pow_of_prime_order Pn q hq _ hH hH1 _ _ h1.symm
  rw [Int.natCast_natAbs, Int.natCast_natAbs] at h2
  exact hdiff h2

set_option maxRecDepth 100000 in
theorem negatedShares_verified : testPedersen.VerifyShares (some negatedShares) = .ok () := by
  decide

end pedersen

namespace pedersen

open big

/-! ## Hiding: the coefficients that explain given shares for another secret -/

/-- Drawing the coefficients of a polynomial with a given intercept from a
tape of outcomes below the order gives those outcomes as coefficients. -/
theorem randIntsLoop_of_tape (order : Int) (ho : 0 < order) : ∀ (cs : List Int) (checkMap : List Int),
    (∀ c ∈ cs, 0 ≤ c ∧ c < order) →
    randIntsLoop ((0 : Nat) : Int) order false cs.length checkMap (cs.map Int.toNat) =
      .ok (cs, []) := by
  intro cs
  induction cs with
  | nil => intro _ _; rfl
  | cons c cs ih =>
    intro checkMap hcs
    have hc := hcs c (List.mem_cons_self _ _)
    have ih2 := ih checkMap (fun d hd => hcs d (List.mem_cons_of_mem _ hd))
    have hgen : genRandNum ((0 : Nat) : Int) order (c.toNat :: cs.map Int.toNat) =
        .ok (c, cs.map Int.toNat) := by
      unfold genRandNum RandRange
      rw [if_neg (by omega)]
      simp only [ok_bind, pure, Except.pure, Nat.cast_zero, add_zero, Except.ok.injEq,
        Prod.mk.injEq, and_true]
      rw [Int.toNat_of_nonneg hc.1]
      exact Int.emod_eq_of_lt hc.1 hc.2
    rw [List.length_cons, List.map_cons]
    unfold randIntsLoop
    rw [hgen, ok_bind]
    simp only [Bool.false_eq_true, if_false]
    rw [ih2]
    rfl

theorem newPolynomial_of_tape (s order : Int) (ho : 0 < order) (cs : List Int)
    (hcs : ∀ c ∈ cs, 0 ≤ c ∧ c < order) :
    newPolynomial (some s) (cs.length : Int) order (cs.map Int.toNat) =
      .ok ({ coefficients := (s :: cs).map some, order := order }, []) := by
  unfold newPolynomial randInts
  simp only [SetUInt64]
  rw [if_neg (by omega), Int.toNat_ofNat, randIntsLoop_of_tape order ho cs [] hcs]
  rfl

theorem evalValue_range (q : Nat) (hq : 0 < q) (F : List Int) (hF : ∀ c ∈ F, 0 ≤ c) (x : Int)
    (hx : 1 ≤ x) : 0 ≤ evalValue F q x ∧ evalValue F q x < q := by
  refine ⟨evalValue_nonneg F q x (by omega) hF, ?_⟩
  unfold evalValue
  rw [if_neg (by omega)]
  exact Int.tmod_lt_of_pos _ (by omega)

/-- Two polynomials with non-negative coefficients evaluate to the same share
at an abscissa of `[1, q)` exactly when their sums agree modulo q. -/
theorem evaluate_eq_iff (q : Nat) (hq : 0 < q) (F1 F2 : List Int) (h1 : F1 ≠ []) (h2 : F2 ≠ [])
    (hF1 : ∀ c ∈ F1, 0 ≤ c) (hF2 : ∀ c ∈ F2, 0 ≤ c) (x : Int) (hx : 1 ≤ x) :
    polynomial.evaluate { coefficients := F2.map some, order := q } x =
      polynomial.evaluate { coefficients := F1.map some, order := q } x ↔
    ((hornerSum x F2 : Int) : ZMod q) = ((hornerSum x F1 : Int) : ZMod q) := by
  rw [evaluate_eq F2 q x h2 (by omega), evaluate_eq F1 q x h1 (by omega),
    ← cast_evalValue q F2 x, ← cast_evalValue q F1 x]
  constructor
  · intro h
    rw [Except.ok.injEq] at h
    rw [h]
  · intro h
    rw [cast_inj_of_range q _ _ (evalValue_range q hq F2 hF2 x hx)
      (evalValue_range q hq F1 hF1 x hx) h]

/-- A list of residues is the list of the coefficients of its polynomial. -/
theorem list_eq_of_foldr_eq (q : Nat) (cs1 cs2 : List Int) (hl : cs1.length = cs2.length)
    (h1 : ∀ c ∈ cs1, 0 ≤ c ∧ c < q) (h2 : ∀ c ∈ cs2, 0 ≤ c ∧ c < q)
    (h : cs1.foldr (fun c acc => Polynomial.C ((c : Int) : ZMod q) + Polynomial.X * acc) 0 =
      cs2.foldr (fun c acc => Polynomial.C ((c : Int) : ZMod q) + Polynomial.X * acc) 0) :
    cs1 = cs2 := by
  apply List.ext_getElem hl
  intro k hk1 hk2
  have hc := congrArg (fun f => Polynomial.coeff f k) h
  simp only [coeff_foldr] at hc
  rw [List.getD_eq_getElem _ _ hk1, List.getD_eq_getElem _ _ hk2] at hc
  exact cast_inj_of_range q _ _ (h1 _ (List.getElem_mem hk1)) (h2 _ (List.getElem_mem hk2)) hc

/-- Every polynomial of degree below n over the integers modulo q is the
polynomial of a list of n residues. -/
theorem exists_list_of_polynomial (q : Nat) [NeZero q] (n : Nat) (f : Polynomial (ZMod q))
    (hdeg : f.degree < (n : WithBot Nat)) :
    ∃ cs : List Int, cs.length = n ∧ (∀ c ∈ cs, 0 ≤ c ∧ c < q) ∧
      cs.foldr (fun c acc => Polynomial.C ((c : Int) : ZMod q) + Polynomial.X * acc) 0 = f := by
  refine ⟨(List.range n).map (fun k => (((f.coeff k).val : Nat) : Int)), by simp, ?_, ?_⟩
  · intro c hc
    obtain ⟨k, _, rfl⟩ := List.mem_map.mp hc
    exact ⟨Int.natCast_nonneg _, by exact_mod_cast ZMod.val_lt (f.coeff k)⟩
  · apply Polynomial.ext
    intro m
    rw [coeff_foldr]
    by_cases hm : m < n
    · rw [List.getD_eq_getElem _ _ (by simpa using hm)]
      simp
    · rw [List.getD_eq_default _ _ (by simpa using hm)]
      have := (Polynomial.degree_lt_iff_coeff_zero f n).1 hdeg m (by omega)
      rw [this]
      simp

end pedersen

namespace pedersen

open big

/-! ## Errors of the shape validation -/

/-- A body of a loop that fails makes the loop fail with the same error when
the bodies before it succeed or fail with that error. -/
theorem mapE_error_of_unit {α : Type} (e : Err) (f : α → Except Err Unit) (l : List α)
    (hall : ∀ a ∈ l, f a = .ok () ∨ f a = .error e) (hex : ∃ a ∈ l, f a = .error e) :
    mapE f l = .error e := by
  obtain ⟨_, m2⟩ := mapE_unit e f l hall
  have hfail := m2 (by
    intro h
    obtain ⟨a, ha, hfa⟩ := hex
    rw [h a ha] at hfa
    cases hfa)
  cases hm : mapE f l with
  | error e2 =>
    rw [hm] at hfail
    simp only [bind, Except.bind] at hfail
    rw [Except.error.inj hfail]
  | ok v => rw [hm] at hfail; cases hfail

/-- The function validateShares returns ErrNilAbscissa when the lengths of
Abscissae and Parts are `parts` and some abscissa is nil. -/
theorem validateShares_nilAbscissa (p : Pedersen) (s : Shares)
    (ha : (s.Abscissae.length : Int) = p.parts) (hp : (s.Parts.length : Int) = p.parts)
    (hnil : none ∈ s.Abscissae) :
    p.validateShares (some s) = .error Err.ErrNilAbscissa := by
  unfold Pedersen.validateShares
  simp only []
  rw [if_neg (by rw [ha]; simp), if_neg (by rw [hp]; simp)]
  have hal : s.Abscissae.length = p.parts.toNat := by omega
  have hmap := mapE_error_of_unit Err.ErrNilAbscissa (fun i => do
      let a ← goIndex s.Abscissae i
      if a = none then .error Err.ErrNilAbscissa else pure ()) (List.range p.parts.toNat)
    (by
      intro i hi
      have hi2 : i < s.Abscissae.length := by rw [hal]; exact List.mem_range.mp hi
      simp only [goIndex_lt _ _ hi2, ok_bind]
      by_cases h : s.Abscissae.get ⟨i, hi2⟩ = none
      · right; rw [if_pos h]
      · left; rw [if_neg h]; rfl)
    (by
      obtain ⟨k, hk⟩ := List.mem_iff_get.mp hnil
      refine ⟨k.val, List.mem_range.mpr (by rw [← hal]; exact k.isLt), ?_⟩
      simp only [goIndex_lt _ _ k.isLt, ok_bind, hk, if_true])
  rw [hmap]
  rfl

/-- On shares that follow every other shape rule, `validateChunk` succeeds for
a chunk with at least `threshold` non-empty parts and returns
ErrInsufficientSharesParts for a chunk with fewer. -/
theorem validateChunk_shaped (p : Pedersen) (s : Shares) (n t m : Nat) (hn : p.parts = n)
    (ht : p.threshold = t) (h : s.shaped n t m) (j : Nat) (hj : j < m) :
    (t ≤ s.nonEmptyCount j → p.validateChunk s m j = .ok ()) ∧
    (s.nonEmptyCount j < t → p.validateChunk s m j = .error Err.ErrInsufficientSharesParts) := by
  obtain ⟨ha, hanil, hp, hrows, hcl, hcomm⟩ := h
  have hpn : p.parts.toNat = n := by omega
  have htn : p.threshold.toNat = t := by omega
  have hjc : j < s.Commitments.length := by omega
  have hrowc := hcomm _ (List.get_mem s.Commitments j hjc)
  have hlen : ¬ (((s.Commitments.get ⟨j, hjc⟩).length : Int) ≠ p.threshold) := by
    rw [hrowc.1, ht]; simp
  have hcnt := countParts_ok s m j hj hrows (List.range p.parts.toNat) 0
    (by intro i hi; have := List.mem_range.mp hi; omega)
  have hcount : (0 + ((List.range p.parts.toNat).filter
      (fun i => decide (s.partAt i j ≠ SecretPart.empty))).length) = s.nonEmptyCount j := by
    unfold Shares.nonEmptyCount Shares.holders
    rw [hp, hpn]
    omega
  rw [hcount] at hcnt
  have hcs : mapE (fun i => do
      let c ← goIndex (s.Commitments.get ⟨j, hjc⟩) i
      if c = none then .error Err.ErrNilCommitment else pure ())
      (List.range p.threshold.toNat) =
      .ok ((List.range p.threshold.toNat).map (fun _ => ())) := by
    apply mapE_map_ok
    intro k hk
    have hk2 : k < (s.Commitments.get ⟨j, hjc⟩).length := by
      have := List.mem_range.mp hk
      rw [hrowc.1]; omega
    have hne := hrowc.2 _ (List.get_mem _ k hk2)
    simp only [goIndex_lt _ _ hk2, bind, Except.bind, hne, if_false, pure, Except.pure]
  unfold Pedersen.validateChunk
  simp only [goIndex_lt _ _ hjc, ok_bind, hlen, if_false, hcnt]
  constructor
  · intro hge
    rw [if_neg (by rw [ht]; omega), hcs]
    rfl
  · intro hlt
    rw [if_pos (by rw [ht]; omega)]

/-- Threshold enforcement by `validateShares`. -/
theorem validateShares_thin (p : Pedersen) (s : Shares) (n t m : Nat) (hn : p.parts = n)
    (ht : p.threshold = t) (hn1 : 1 ≤ n) (h : s.shaped n t m)
    (hthin : ∃ j, j < m ∧ s.nonEmptyCount j < t) :
    p.validateShares (some s) = .error Err.ErrInsufficientSharesParts := by
  have hshape := h
  obtain ⟨ha, hanil, hp, hrows, hcl, hcomm⟩ := h
  have hpn : p.parts.toNat = n := by omega
  unfold Pedersen.validateShares
  simp only []
  rw [if_neg (by rw [ha, hn]; simp), if_neg (by rw [hp, hn]; simp)]
  have habs : mapE (fun i => do
      let a ← goIndex s.Abscissae i
      if a = none then .error Err.ErrNilAbscissa else pure ()) (List.range p.parts.toNat) =
      .ok ((List.range p.parts.toNat).map (fun _ => ())) := by
    apply mapE_map_ok
    intro i hi
    have hi2 : i < s.Abscissae.length := by
      have := List.mem_range.mp hi
      omega
    have hne := hanil _ (List.get_mem s.Abscissae i hi2)
    simp only [goIndex_lt _ _ hi2, bind, Except.bind, hne, if_false, pure, Except.pure]
  have h0 : 0 < s.Parts.length := by omega
  have hrow0 := (hrows _ (List.get_mem s.Parts 0 h0)).1
  rw [habs, ok_bind, goIndex_lt _ _ h0, ok_bind]
  simp only [hrow0]
  rw [if_neg (by rw [hcl]; simp)]
  have hmap := mapE_error_of_unit Err.ErrInsufficientSharesParts
    (fun partIdx => p.validateChunk s m partIdx) (List.range m)
    (by
      intro j hj
      obtain ⟨a1, a2⟩ := validateChunk_shaped p s n t m hn ht hshape j (List.mem_range.mp hj)
      by_cases hc : t ≤ s.nonEmptyCount j
      · exact Or.inl (a1 hc)
      · exact Or.inr (a2 (by omega)))
    (by
      obtain ⟨j, hj, hlt⟩ := hthin
      exact ⟨j, List.mem_range.mpr hj,
        (validateChunk_shaped p s n t m hn ht hshape j hj).2 hlt⟩)
  rw [hmap]
  rfl

theorem VerifyShares_of_validateShares_error (p : Pedersen) (s : Option Shares) (e : Err)
    (h : p.validateShares s = .error e) : p.VerifyShares s = .error e := by
  unfold Pedersen.VerifyShares
  rw [h]
  rfl

theorem Combine_of_validateShares_error (p : Pedersen) (s : Option Shares) (e : Err)
    (h : p.validateShares s = .error e) : p.Combine s = .error e := by
  unfold Pedersen.Combine
  rw [h]
  rfl

theorem raggedShares_accepted : testPedersen.validateShares (some raggedShares) = .ok () := by
  decide

end pedersen

namespace pedersen

open big

/-! ## Validation of the generators, over the integers -/

/-- The value of `ModExp` for a positive modulus is the power reduced to its
non-negative remainder. -/
theorem modExpValue_eq (x y P : Int) (hP : 0 < P) :
    modExpValue x y P = x ^ y.natAbs % P := by
  obtain ⟨Pn, rfl⟩ : ∃ Pn : Nat, P = (Pn : Int) := ⟨P.toNat, by omega⟩
  unfold modExpValue
  rw [Int.natAbs_ofNat, powMod_eq]
  have hnn : 0 ≤ x % (Pn : Int) := Int.emod_nonneg _ (by omega)
  rw [Int.natCast_mod, Int.natCast_pow, Int.natCast_natAbs, abs_of_nonneg hnn]
  exact (Int.ModEq.pow y.natAbs (Int.mod_modEq x (Pn : Int)))

theorem Cmp_eq_zero_iff (a b : Int) : Cmp a b = 0 ↔ a = b := by
  unfold Cmp
  constructor
  · intro h
    by_contra hne
    split at h
    · omega
    · omega
  · intro h
    rw [if_neg (by omega), if_pos h]

/-- The decision of `validateGenerator`. -/
theorem Group.validateGenerator_eq (g : Group) (P Q : Int) (hP : g.P = some P) (hQ : g.Q = some Q)
    (hP0 : 0 < P) (hQ0 : 0 < Q) (x : Int) :
    g.validateGenerator (some x) =
      if x ^ ((P - 1) / Q).toNat % P ≠ 1 ∧ x ^ Q.toNat % P = 1 then .ok ()
      else .error Err.ErrInvalidGenerator := by
  have hQn : Q ≠ 0 := by omega
  have hPn : P ≠ 0 := by omega
  have hdiv : (P - 1).tdiv Q = (P - 1) / Q := Int.tdiv_eq_ediv (by omega) (by omega)
  have hdnn : 0 ≤ (P - 1) / Q := Int.ediv_nonneg (by omega) (by omega)
  have e1 : ((P - 1) / Q).natAbs = ((P - 1) / Q).toNat := by omega
  have e2 : Q.natAbs = Q.toNat := by omega
  unfold Group.validateGenerator
  simp only [hP, hQ, deref, ok_bind, big.Div, hQn, if_false, ModExp, hPn, hdiv,
    modExpValue_eq _ _ P hP0, e1, e2, Cmp_eq_zero_iff]
  by_cases h1 : x ^ ((P - 1) / Q).toNat % P = 1
  · rw [if_pos h1, if_neg (by simp [h1])]
  · rw [if_neg h1]
    by_cases h2 : x ^ Q.toNat % P = 1
    · rw [if_neg (by rw [h2]; simp [Cmp]), if_pos ⟨h1, h2⟩]
      rfl
    · rw [if_pos (by rw [ne_eq, Cmp_eq_zero_iff]; exact h2), if_neg (by simp [h2])]

end pedersen

namespace pedersen

open big

/-! ## Verify: the equation over the integers -/

theorem cast_verifyLhs (Pn : Nat) (G H s t : Int) :
    ((verifyLhs G H s t : Int) : ZMod Pn) =
      lhsValue Pn G H { SShare := some s, TShare := some t } := by
  unfold verifyLhs lhsValue
  simp only [Option.getD_some]
  push_cast
  rfl

theorem cast_verifyRhs (Pn q : Nat) (hq : 2 ≤ q) (comms : List (Option Int)) (x : Int) (t : Nat)
    (ht : 1 ≤ t) :
    ((verifyRhs comms x (q : Int) t : Int) : ZMod Pn) =
      rhsValue Pn comms (vandermondeOf x (q : Int) t) t := by
  unfold verifyRhs rhsValue
  rw [range_drop_one t ht]
  obtain ⟨k, rfl⟩ : ∃ k, t = k + 1 := ⟨t - 1, by omega⟩
  rw [List.range_succ_eq_map, List.map_cons, List.prod_cons, List.map_map, List.map_map,
    Nat.add_sub_cancel]
  have h1 : ((x ^ 0 % (q : Int)).natAbs) = 1 := by
    rw [pow_zero, Int.emod_eq_of_lt (by omega) (by omega)]
    rfl
  rw [h1, pow_one, Int.cast_mul, Int.cast_list_prod, List.map_map]
  congr 2
  apply List.map_congr_left
  intro j hj
  have hj2 := List.mem_range.mp hj
  simp only [Function.comp, Int.cast_pow]
  rw [vandermondeOf_getD x q (k + 1) (j + 1) (by omega) (by omega)]

/-- The right-hand side that `verifyWithContext` computes is the product of the
commitments raised to the powers of the abscissa when the Q-th power of every
commitment but the first is 1. -/
theorem rhsValue_eq_of_tail (Pn q : Nat) [Fact Pn.Prime] (hq0 : q ≠ 0)
    (comms : List (Option Int)) (x : Int) (t : Nat) (ht : 1 ≤ t)
    (hc : ∀ j, 1 ≤ j → j < t → ((commAt comms j : Int) : ZMod Pn) ^ q = 1) :
    rhsValue Pn comms (vandermondeOf x (q : Int) t) t =
      ((List.range t).map (fun j => ((commAt comms j : Int) : ZMod Pn) ^ (x ^ j))).prod := by
  unfold rhsValue
  rw [range_drop_one t ht]
  obtain ⟨k, rfl⟩ : ∃ k, t = k + 1 := ⟨t - 1, by omega⟩
  rw [List.range_succ_eq_map, List.map_cons, List.prod_cons, pow_zero, zpow_one, List.map_map,
    List.map_map, Nat.add_sub_cancel]
  congr 2
  apply List.map_congr_left
  intro j hj
  have hj2 := List.mem_range.mp hj
  simp only [Function.comp]
  rw [vandermondeOf_getD x q (k + 1) (j + 1) (by omega) (by omega)]
  have hq1 : (0 : Int) < q := by omega
  rw [pow_natAbs_of_nonneg _ _ (Int.emod_nonneg _ (by omega)),
    zpow_emod_of_pow_eq_one _ (ne_zero_of_pow_eq_one _ q hq0 (hc (j + 1) (by omega) (by omega))) q
      (hc (j + 1) (by omega) (by omega))]

/-- The function Verify, for a validated group and scheme, a non-nil abscissa,
a complete part and `threshold` non-nil commitments. -/
theorem Verify_eq (p : Pedersen) (P Q G H : Int) (hf : GroupFacts p.group P Q G H)
    (hv : p.validate = .ok ()) (x : Int) (part : SecretPart) (comms : List (Option Int)) :
    p.Verify (some x) part comms =
      p.verifyWithContext (vandermondeOf x Q p.threshold.toNat) part comms := by
  obtain ⟨ht, _⟩ := Pedersen.validate_bounds p hv
  have hodd := hf.P_odd
  have hQ2 := hf.Q_pos
  have hg := hf.eq
  unfold Pedersen.Verify
  simp only [hg, deref, ok_bind, montSet, hodd, if_false]
  rw [vandermondeAbscissa_eq p Q (by rw [hg]) (by omega) (by omega), ok_bind]

set_option maxRecDepth 100000 in
theorem looseCommitments_rejected :
    threePedersen.Verify (some 3000000000) { SShare := some 1, TShare := some 0 }
      looseCommitments = .error Err.ErrWrongSecretPart := by decide

/-- The claimed equation holds for `looseCommitments` at the abscissa
3000000000: the square of the abscissa is even, and the even powers of P - 1
are 1 modulo P. -/
theorem looseCommitments_equation :
    (8414335786771157015 : Int) ^ (1 : Int).toNat * (15078279289296123424 : Int) ^ (0 : Int).toNat ≡
      commitmentProduct looseCommitments 3000000000 3 [ZMOD 17634709279010524619] := by
  have hprod : ∀ e1 e2 : Nat, ∀ a b c : Int,
      ((List.range 3).map (fun k => commAt [some a, some b, some c] k ^
        (if k = 0 then 1 else if k = 1 then e1 else e2))).prod = a ^ 1 * (b ^ e1 * (c ^ e2 * 1)) := by
    intro e1 e2 a b c
    rfl
  have hcp : commitmentProduct looseCommitments 3000000000 3 =
      (8414335786771157015 : Int) ^ 1 * ((1 : Int) ^ ((3000000000 : Int).toNat ^ 1) *
        ((17634709279010524618 : Int) ^ ((3000000000 : Int).toNat ^ 2) * 1)) := by
    unfold commitmentProduct looseCommitments
    rw [← hprod ((3000000000 : Int).toNat ^ 1) ((3000000000 : Int).toNat ^ 2)]
    apply congrArg
    apply List.map_congr_left
    intro k hk
    have hk3 := List.mem_range.mp hk
    interval_cases k
    · rfl
    · rfl
    · rfl
  rw [hcp]
  have heven : ∃ m : Nat, (3000000000 : Int).toNat ^ 2 = 2 * m := ⟨4500000000000000000, by decide⟩
  obtain ⟨m, hm⟩ := heven
  rw [hm, pow_mul, one_pow]
  have hsq : (17634709279010524618 : Int) ^ 2 ≡ 1 [ZMOD 17634709279010524619] := by decide
  have hpow := Int.ModEq.pow m hsq
  rw [one_pow] at hpow
  have h1 : (8414335786771157015 : Int) ^ 1 *
      (1 * ((17634709279010524618 ^ 2) ^ m * 1)) ≡
      8414335786771157015 ^ 1 * (1 * (1 * 1)) [ZMOD 17634709279010524619] :=
    Int.ModEq.mul_left _ (Int.ModEq.mul_left _ (Int.ModEq.mul_right _ hpow))
  refine Int.ModEq.trans ?_ h1.symm
  decide

end pedersen

namespace pedersen

open big

/-! ## Flipping one bit -/

theorem xor_split (i a b c d : Nat) (hb : b < 2 ^ i) (hd : d < 2 ^ i) :
    (2 ^ i * a + b) ^^^ (2 ^ i * c + d) = 2 ^ i * (a ^^^ c) + (b ^^^ d) := by
  have hbd : b ^^^ d < 2 ^ i := Nat.xor_lt_two_pow hb hd
  apply Nat.eq_of_testBit_eq
  intro j
  rw [Nat.testBit_xor, Nat.testBit_mul_pow_two_add _ hb, Nat.testBit_mul_pow_two_add _ hd,
    Nat.testBit_mul_pow_two_add _ hbd]
  by_cases hj : j < i <;> simp [hj]

theorem xor_one (a : Nat) : a ^^^ 1 = a + 1 ∨ (a ^^^ 1) + 1 = a := by
  have h := xor_split 1 (a / 2) (a % 2) 0 1 (by omega) (by omega)
  have ha : 2 ^ 1 * (a / 2) + a % 2 = a := by omega
  rw [ha] at h
  simp only [pow_one, Nat.mul_zero, Nat.zero_add, Nat.xor_zero] at h
  rw [h]
  rcases Nat.mod_two_eq_zero_or_one a with h2 | h2
  · left
    rw [h2]
    have : (0 : Nat) ^^^ 1 = 1 := by decide
    omega
  · right
    rw [h2]
    have : (1 : Nat) ^^^ 1 = 0 := by decide
    omega

/-- Flipping bit b adds or takes away 2^b. -/
theorem xor_two_pow (n b : Nat) : n ^^^ 2 ^ b = n + 2 ^ b ∨ (n ^^^ 2 ^ b) + 2 ^ b = n := by
  have hr : n % 2 ^ b < 2 ^ b := Nat.mod_lt _ (by positivity)
  have h := xor_split b (n / 2 ^ b) (n % 2 ^ b) 1 0 hr (by positivity)
  have hn : 2 ^ b * (n / 2 ^ b) + n % 2 ^ b = n := Nat.div_add_mod n (2 ^ b)
  rw [hn] at h
  simp only [Nat.mul_one, Nat.add_zero, Nat.xor_zero] at h
  rw [h]
  rcases xor_one (n / 2 ^ b) with h1 | h1
  · left
    rw [h1]
    conv_rhs => rw [← hn]
    ring
  · right
    conv_rhs => rw [← hn, ← h1]
    ring

theorem flipBit_sub (c : Int) (b : Nat) :
    flipBit c b - c = 2 ^ b ∨ flipBit c b - c = -(2 ^ b) := by
  unfold flipBit
  have hx := xor_two_pow c.natAbs b
  have hcast : ((2 ^ b : Nat) : Int) = 2 ^ b := by push_cast; rfl
  by_cases hc : c < 0
  · rw [if_pos hc]
    have hca : (c.natAbs : Int) = -c := by omega
    rcases hx with h | h
    · right
      rw [h, Nat.cast_add, hcast]
      omega
    · left
      have h2 : ((c.natAbs ^^^ 2 ^ b : Nat) : Int) + ((2 ^ b : Nat) : Int) = (c.natAbs : Int) := by
        exact_mod_cast h
      rw [hcast] at h2
      omega
  · rw [if_neg hc]
    have hca : (c.natAbs : Int) = c := by omega
    rcases hx with h | h
    · left
      rw [h, Nat.cast_add, hcast]
      omega
    · right
      have h2 : ((c.natAbs ^^^ 2 ^ b : Nat) : Int) + ((2 ^ b : Nat) : Int) = (c.natAbs : Int) := by
        exact_mod_cast h
      rw [hcast] at h2
      omega

/-- A number and the number with one bit flipped differ modulo an odd prime. -/
theorem flipBit_not_modEq (Pn : Nat) (hPp : Pn.Prime) (hodd : (Pn : Int) % 2 ≠ 0) (c : Int)
    (b : Nat) : ¬ (flipBit c b ≡ c [ZMOD (Pn : Int)]) := by
  intro h
  have hdvd : (Pn : Int) ∣ flipBit c b - c := (Int.modEq_iff_dvd.1 h.symm)
  have hdvd2 : (Pn : Int) ∣ 2 ^ b := by
    rcases flipBit_sub c b with e | e
    · rw [e] at hdvd; exact hdvd
    · rw [e] at hdvd; exact (Int.dvd_neg.1 hdvd)
  have hdvd3 : Pn ∣ 2 ^ b := by exact_mod_cast hdvd2
  have := (Nat.Prime.dvd_of_dvd_pow hPp hdvd3)
  have h2 : Pn = 2 := (Nat.prime_dvd_prime_iff_eq hPp Nat.prime_two).1 this
  rw [h2] at hodd
  exact hodd (by decide)

end pedersen

namespace pedersen

open big

/-! ## Replacing one commitment -/

theorem prod_replace {M : Type} [CommMonoid M] (f f2 : Nat → M) (k0 : Nat)
    (hsame : ∀ k, k ≠ k0 → f2 k = f k) : ∀ t, k0 < t →
    ((List.range t).map f2).prod * f k0 = ((List.range t).map f).prod * f2 k0 := by
  intro t
  induction t with
  | zero => intro h; omega
  | succ t ih =>
    intro hk
    rw [List.prod_range_succ, List.prod_range_succ]
    by_cases hkt : k0 = t
    · subst hkt
      have hpre : (List.range k0).map f2 = (List.range k0).map f := by
        apply List.map_congr_left
        intro k hk2
        have := List.mem_range.mp hk2
        exact hsame k (by omega)
      rw [hpre]
      exact mul_right_comm _ _ _
    · have hlt : k0 < t := by omega
      rw [hsame t (fun e => hkt e.symm), mul_right_comm, ih hlt, mul_right_comm]

/-- The right-hand side that `verifyWithContext` computes, as one product. -/
theorem rhsValue_prod (Pn : Nat) (comms : List (Option Int)) (x Q : Int) (t : Nat) (ht : 1 ≤ t) :
    rhsValue Pn comms (vandermondeOf x Q t) t =
      ((List.range t).map (fun k =>
        ((commAt comms k : Int) : ZMod Pn) ^ verifyExponent x Q k)).prod := by
  unfold rhsValue
  rw [range_drop_one t ht]
  obtain ⟨k, rfl⟩ : ∃ k, t = k + 1 := ⟨t - 1, by omega⟩
  rw [List.range_succ_eq_map, List.map_cons, List.prod_cons, List.map_map, List.map_map,
    Nat.add_sub_cancel]
  have h0 : verifyExponent x Q 0 = 1 := rfl
  rw [h0, pow_one]
  congr 2
  apply List.map_congr_left
  intro j hj
  have hj2 := List.mem_range.mp hj
  simp only [Function.comp]
  rw [vandermondeOf_getD x Q (k + 1) (j + 1) (by omega) (by omega)]
  rfl

theorem commAt_set (row : List (Option Int)) (k k2 : Nat) (c2 : Int) (hk : k < row.length) :
    commAt (row.set k (some c2)) k2 = if k2 = k then c2 else commAt row k2 := by
  unfold commAt
  simp only [List.getD_eq_getElem?_getD]
  by_cases h : k2 = k
  · subst h
    rw [if_pos rfl, List.getElem?_set_self hk]
    rfl
  · rw [if_neg h, List.getElem?_set_ne (fun e => h e.symm)]

theorem getD_setCommitment (s : Shares) (j k j2 : Nat) (c : Option Int)
    (hj : j < s.Commitments.length) :
    (s.setCommitment j k c).Commitments.getD j2 [] =
      if j2 = j then (s.Commitments.getD j []).set k c else s.Commitments.getD j2 [] := by
  unfold Shares.setCommitment
  simp only [List.getD_eq_getElem?_getD]
  by_cases h : j2 = j
  · subst h
    rw [if_pos rfl, List.getElem?_set_self hj]
    rfl
  · rw [if_neg h, List.getElem?_set_ne (fun e => h e.symm)]

/-- Replacing a commitment by a non-nil value keeps the shape. -/
theorem wellShaped_setCommitment (s : Shares) (n t m : Nat) (h : s.wellShaped n t m) (j k : Nat)
    (c2 : Int) : (s.setCommitment j k (some c2)).wellShaped n t m := by
  obtain ⟨ha, hanil, hp, hrows, hcl, hcomm, hcount⟩ := h
  refine ⟨ha, hanil, hp, hrows, ?_, ?_, hcount⟩
  · unfold Shares.setCommitment
    simp only [List.length_set]
    exact hcl
  · intro row hrow
    have hrow2 : row ∈ s.Commitments.set j ((s.Commitments.getD j []).set k (some c2)) := hrow
    rcases List.mem_or_eq_of_mem_set hrow2 with h1 | h1
    · exact hcomm row h1
    · by_cases hj : j < s.Commitments.length
      · have hold := hcomm _ (List.get_mem s.Commitments j hj)
        rw [h1, List.getD_eq_getElem _ _ hj]
        refine ⟨by rw [List.length_set]; exact hold.1, ?_⟩
        intro c hc
        rcases List.mem_or_eq_of_mem_set hc with h2 | h2
        · exact hold.2 c h2
        · rw [h2]; simp
      · have : s.Commitments.set j ((s.Commitments.getD j []).set k (some c2)) = s.Commitments :=
          List.set_eq_of_length_le (by omega)
        rw [this] at hrow2
        exact hcomm row hrow2

end pedersen

namespace pedersen

open big

theorem lhsValue_ne_zero (Pn q : Nat) [Fact Pn.Prime] (hq0 : q ≠ 0) (G H : Int)
    (hG : ((G : Int) : ZMod Pn) ^ q = 1) (hH : ((H : Int) : ZMod Pn) ^ q = 1)
    (part : SecretPart) : lhsValue Pn G H part ≠ 0 := by
  unfold lhsValue
  exact mul_ne_zero (pow_ne_zero _ (ne_zero_of_pow_eq_one _ q hq0 hG))
    (pow_ne_zero _ (ne_zero_of_pow_eq_one _ q hq0 hH))

/-- With one commitment of a row replaced, the right-hand side of the
verification equation keeps a non-zero value exactly when the power of the new
commitment is the power of the old one. -/
theorem rhsValue_set (Pn : Nat) [Fact Pn.Prime] (row : List (Option Int)) (x Q : Int) (t k : Nat)
    (hkt : k < t) (hkr : k < row.length) (c2 : Int)
    (hR : rhsValue Pn row (vandermondeOf x Q t) t ≠ 0) :
    rhsValue Pn (row.set k (some c2)) (vandermondeOf x Q t) t =
        rhsValue Pn row (vandermondeOf x Q t) t ↔
      ((c2 : Int) : ZMod Pn) ^ verifyExponent x Q k =
        ((commAt row k : Int) : ZMod Pn) ^ verifyExponent x Q k := by
  have ht : 1 ≤ t := by omega
  rw [rhsValue_prod Pn _ x Q t ht, rhsValue_prod Pn row x Q t ht] at *
  have hrep := prod_replace
    (fun k2 => ((commAt row k2 : Int) : ZMod Pn) ^ verifyExponent x Q k2)
    (fun k2 => ((commAt (row.set k (some c2)) k2 : Int) : ZMod Pn) ^ verifyExponent x Q k2) k
    (by
      intro k2 hne
      simp only [commAt_set row k k2 c2 hkr, if_neg hne]) t hkt
  simp only [commAt_set row k k c2 hkr, if_true] at hrep
  have ha : ((commAt row k : Int) : ZMod Pn) ^ verifyExponent x Q k ≠ 0 := by
    intro h0
    apply hR
    apply List.prod_eq_zero
    rw [← h0]
    exact List.mem_map.mpr ⟨k, List.mem_range.mpr hkt, rfl⟩
  constructor
  · intro h
    rw [h] at hrep
    exact (mul_left_cancel₀ hR hrep).symm
  · intro h
    rw [h] at hrep
    exact mul_right_cancel₀ ha hrep

/-- The function VerifyShares after the replacement of one commitment of
accepted shares: it returns nil when, for every shareholder with a non-empty
part for the chunk of the commitment, the power of the new commitment is the
power of the old one, and ErrWrongSecretPart otherwise. -/
theorem VerifyShares_setCommitment (p : Pedersen) (P Q G H : Int)
    (hf : GroupFacts p.group P Q G H) (hv : p.validate = .ok ()) (hc : 1 ≤ p.concLimit)
    (sh : Shares) (hok : p.VerifyShares (some sh) = .ok ()) (j k : Nat) (c c2 : Int)
    (hcomm : (sh.Commitments.getD j []).get? k = some (some c)) :
    ((∀ i, i < p.parts.toNat → sh.partAt i j = SecretPart.empty ∨
        ((c2 : Int) : ZMod P.toNat) ^ verifyExponent (abscissaAt sh.Abscissae i) Q k =
          ((c : Int) : ZMod P.toNat) ^ verifyExponent (abscissaAt sh.Abscissae i) Q k) →
      p.VerifyShares (some (sh.setCommitment j k (some c2))) = .ok ()) ∧
    ((¬ ∀ i, i < p.parts.toNat → sh.partAt i j = SecretPart.empty ∨
        ((c2 : Int) : ZMod P.toNat) ^ verifyExponent (abscissaAt sh.Abscissae i) Q k =
          ((c : Int) : ZMod P.toNat) ^ verifyExponent (abscissaAt sh.Abscissae i) Q k) →
      p.VerifyShares (some (sh.setCommitment j k (some c2))) = .error Err.ErrWrongSecretPart) ∧
    ∃ i, i < p.parts.toNat ∧ sh.partAt i j ≠ SecretPart.empty := by
  obtain ⟨m, hm, hshape, hall⟩ := VerifyShares_ok p P Q G H hf hv hc sh hok
  obtain ⟨ht, htn⟩ := Pedersen.validate_bounds p hv
  have hshape2 := wellShaped_setCommitment sh _ _ m hshape j k c2
  obtain ⟨Pn, q, hP, hQ, hPp, hqp, hG, hH, _, _⟩ := hf.casts
  subst hP
  subst hQ
  haveI : Fact Pn.Prime := ⟨hPp⟩
  simp only [Int.toNat_ofNat] at hall ⊢
  have hcl : sh.Commitments.length = m := hshape.2.2.2.2.1
  -- the place of the commitment
  have hj : j < sh.Commitments.length := by
    by_contra hcon
    rw [List.getD_eq_default _ _ (by omega)] at hcomm
    simp at hcomm
  have hrow := hshape.2.2.2.2.2.1 _ (List.get_mem sh.Commitments j hj)
  have hrd : sh.Commitments.getD j [] = sh.Commitments.get ⟨j, hj⟩ := List.getD_eq_getElem _ _ hj
  have hk : k < (sh.Commitments.getD j []).length := by
    rw [List.get?_eq_getElem?] at hcomm
    exact (List.getElem?_eq_some_iff.1 hcomm).1
  have hkt : k < p.threshold.toNat := by
    rw [hrd, hrow.1] at hk
    exact hk
  have hck : commAt (sh.Commitments.getD j []) k = c := by
    unfold commAt
    rw [List.getD_eq_getElem?_getD, ← List.get?_eq_getElem?, hcomm]
    rfl
  -- the parts of the other chunks, and the part of the chunk
  have hkey : ∀ i j2, i < p.parts.toNat → j2 < m →
      ((sh.setCommitment j k (some c2)).partVerifies Pn q G H p.threshold.toNat i j2 ↔
        (j2 = j → sh.partAt i j = SecretPart.empty ∨
          ((c2 : Int) : ZMod Pn) ^ verifyExponent (abscissaAt sh.Abscissae i) q k =
            ((c : Int) : ZMod Pn) ^ verifyExponent (abscissaAt sh.Abscissae i) q k)) := by
    intro i j2 hi hj2
    have horig := hall i j2 hi hj2
    unfold Shares.partVerifies at horig ⊢
    have hpa : (sh.setCommitment j k (some c2)).partAt i j2 = sh.partAt i j2 := rfl
    have hab : (sh.setCommitment j k (some c2)).Abscissae = sh.Abscissae := rfl
    rw [hpa, hab, getD_setCommitment sh j k j2 (some c2) hj]
    by_cases hjj : j2 = j
    · subst hjj
      rw [if_pos rfl]
      by_cases he : sh.partAt i j2 = SecretPart.empty
      · simp [he]
      · have ho : lhsValue Pn G H (sh.partAt i j2) =
            rhsValue Pn (sh.Commitments.getD j2 [])
              (vandermondeOf (abscissaAt sh.Abscissae i) q p.threshold.toNat)
              p.threshold.toNat := by
          rcases horig with h | h
          · exact absurd h he
          · exact h
        have hR : rhsValue Pn (sh.Commitments.getD j2 [])
            (vandermondeOf (abscissaAt sh.Abscissae i) q p.threshold.toNat)
            p.threshold.toNat ≠ 0 := by
          rw [← ho]
          exact lhsValue_ne_zero Pn q hqp.pos.ne' G H hG hH _
        have hset := rhsValue_set Pn (sh.Commitments.getD j2 []) (abscissaAt sh.Abscissae i) q
          p.threshold.toNat k hkt hk c2 hR
        rw [hck] at hset
        constructor
        · intro h _
          right
          rcases h with h | h
          · exact absurd h he
          · rw [ho] at h
            exact hset.1 h.symm
        · intro h
          right
          rcases h rfl with h | h
          · exact absurd h he
          · rw [ho]
            exact (hset.2 h).symm
    · rw [if_neg hjj]
      constructor
      · intro _ h
        exact absurd h hjj
      · intro _
        exact horig
  have hspec := VerifyShares_spec p Pn q G H hf hv hc (sh.setCommitment j k (some c2)) m hm hshape2
  simp only [Int.toNat_ofNat] at hspec
  refine ⟨?_, ?_, ?_⟩
  · intro h
    apply hspec.1
    intro i j2 hi hj2
    exact (hkey i j2 hi hj2).2 (fun _ => h i hi)
  · intro h
    apply hspec.2
    intro hcon
    apply h
    intro i hi
    exact (hkey i j hi (by omega)).1 (hcon i j hi (by omega)) rfl
  · have hcount := hshape.2.2.2.2.2.2 j (by omega)
    unfold Shares.nonEmptyCount at hcount
    have hne : sh.holders j ≠ [] := by
      intro h0
      rw [h0] at hcount
      simp at hcount
      omega
    obtain ⟨i, hi⟩ := List.exists_mem_of_ne_nil _ hne
    unfold Shares.holders at hi
    rw [List.mem_filter] at hi
    refine ⟨i, ?_, by simpa using hi.2⟩
    have := List.mem_range.mp hi.1
    rw [hshape.2.2.1] at this
    exact this

end pedersen

namespace pedersen

open big

set_option maxRecDepth 100000 in
theorem testSplit_zero :
    testPedersen.Split testSecret (some [some 0, some 0, some 0]) [9, 10, 11, 12, 13, 14] =
      (some zeroAbscissaShares, none) := by decide

set_option maxRecDepth 100000 in
theorem zeroAbscissaShares_verified :
    testPedersen.VerifyShares (some zeroAbscissaShares) = .ok () := by decide

set_option maxRecDepth 100000 in
theorem zeroAbscissaShares_flipped_verified :
    testPedersen.VerifyShares (some (zeroAbscissaShares.setCommitment 0 1
      (some (flipBit 13770292334187234029 0)))) = .ok () := by decide

end pedersen

namespace big

/-! ## ConstantTimeEq and the bitwise operations on any operands -/

/-- The function ConstantTimeEq compares magnitudes. -/
theorem constantTimeEq_iff_natAbs (z x : Int) :
    ConstantTimeEq z x = true ↔ z.natAbs = x.natAbs := by
  unfold ConstantTimeEq Bytes
  rw [decide_eq_true_iff]
  constructor
  · intro h
    have := congrArg bytesToNat h
    rwa [bytesToNat_natToBytes, bytesToNat_natToBytes] at this
  · intro h
    rw [h]

/-- On non-negative operands that are not both zero, `And` is the bitwise and. -/
theorem And_nonneg (x y : Int) (hx : 0 ≤ x) (hy : 0 ≤ y) (h : x ≠ 0 ∨ y ≠ 0) :
    And x y = .ok ((x.toNat &&& y.toNat : Nat) : Int) := by
  rw [And_eq x y h]
  have e1 : x.natAbs = x.toNat := by omega
  have e2 : y.natAbs = y.toNat := by omega
  rw [e1, e2]

/-- On non-negative operands that are not both zero, `Or` is the bitwise or. -/
theorem Or_nonneg (x y : Int) (hx : 0 ≤ x) (hy : 0 ≤ y) (h : x ≠ 0 ∨ y ≠ 0) :
    Or x y = .ok ((x.toNat ||| y.toNat : Nat) : Int) := by
  rw [Or_eq x y h]
  have e1 : x.natAbs = x.toNat := by omega
  have e2 : y.natAbs = y.toNat := by omega
  rw [e1, e2]

end big

namespace pedersen

open big

/-! ## NewPedersen over a group of the caller, and tampered primes -/

/-- With a group among the options, `NewPedersen` validates it and the
scheme, and returns that group. -/
theorem NewPedersen_of_group (defaultConcLimit : Int)
    (GeneratePrime : Int → Bool → Except Err Int) (parts threshold : Int) (options : List Opt)
    (tape tape2 : Tape) (g : Group) (p : Pedersen)
    (hsel : (configure defaultConcLimit parts threshold options).group = some g)
    (h : NewPedersen defaultConcLimit GeneratePrime parts threshold options tape =
      .ok (p, tape2)) :
    p.GetGroup = g ∧ g.validate = .ok () ∧ p.validate = .ok () := by
  unfold NewPedersen resolveGroup at h
  simp only [hsel] at h
  cases hg : g.validate with
  | error e =>
    rw [hg] at h
    simp [bind, Except.bind] at h
  | ok u =>
    rw [hg] at h
    simp only [ok_bind, pure, Except.pure] at h
    rw [bind_ok] at h
    obtain ⟨u2, hv, h⟩ := h
    simp only [Except.ok.injEq, Prod.mk.injEq] at h
    obtain ⟨rfl, _⟩ := h
    exact ⟨rfl, rfl, hv⟩

/-- The quotient of P - 1 by Q in a validated group. -/
theorem GroupFacts.cofactor {g : Group} {P Q G H : Int} (hf : GroupFacts g P Q G H) :
    ∃ m : Int, 1 ≤ m ∧ P = m * Q + 1 := by
  have hQ := hf.Q_pos
  have hP := hf.P_big
  obtain ⟨m, hm⟩ := Int.dvd_of_tmod_eq_zero hf.dvd
  refine ⟨m, ?_, by rw [mul_comm]; omega⟩
  by_contra hlt
  have hm0 : m ≤ 0 := by omega
  have : Q * m ≤ 0 := Int.mul_nonpos_of_nonneg_of_nonpos (by omega) hm0
  omega

/-- A prime Q other than 2 does not divide P - 1 any more after one bit of P
is flipped. -/
theorem flipBit_not_dvd (P Q : Int) (hQ : Nat.Prime Q.toNat) (hQ2 : Q ≠ 2)
    (hdvd : Q ∣ P - 1) (b : Nat) : ¬ (Q ∣ flipBit P b - 1) := by
  intro h
  have hQpos : 0 < Q := by
    have := hQ.pos
    omega
  have hd : Q ∣ flipBit P b - P := by
    have := Int.dvd_sub h hdvd
    have e : flipBit P b - 1 - (P - 1) = flipBit P b - P := by ring
    rwa [e] at this
  have hd2 : Q ∣ (2 : Int) ^ b := by
    rcases flipBit_sub P b with e | e
    · rwa [e] at hd
    · rw [e] at hd; exact (Int.dvd_neg.1 hd)
  have hd3 : Q.toNat ∣ 2 ^ b := by
    have e : Q = (Q.toNat : Int) := by omega
    rw [e] at hd2
    exact_mod_cast hd2
  have hd4 : Q.toNat ∣ 2 := hQ.dvd_of_dvd_pow hd3
  have := (Nat.prime_dvd_prime_iff_eq hQ Nat.prime_two).1 hd4
  omega

end pedersen

namespace pedersen

open big

/-! ## The number of chunks -/

theorem partLenOf_eq (max : Int) :
    partLenOf max = if BitLen max / 8 ≤ 4 then 1 else BitLen max / 8 - 4 := by
  unfold partLenOf zerosInfoSizeBytes
  simp only []
  split_ifs <;> omega

/-- The count of chunks is the length divided by the chunk length, rounded up. -/
theorem partCountOf_eq (L pl : Nat) (hpl : 1 ≤ pl) : partCountOf L pl = (L + pl - 1) / pl := by
  obtain ⟨h1, h2⟩ := partCountOf_spec L pl hpl
  have hpos : 0 < pl := by omega
  apply le_antisymm
  · rw [Nat.le_div_iff_mul_le hpos]
    by_cases h0 : partCountOf L pl = 0
    · rw [h0]; omega
    · have := h1 h0
      have e : partCountOf L pl * pl = (partCountOf L pl - 1) * pl + pl := by
        conv_lhs => rw [show partCountOf L pl = (partCountOf L pl - 1) + 1 by omega]
        rw [Nat.add_mul, Nat.one_mul]
      omega
  · have h3 : (L + pl - 1) / pl * pl ≤ L + pl - 1 := Nat.div_mul_le_self _ _
    by_contra hlt
    have hlt2 : partCountOf L pl + 1 ≤ (L + pl - 1) / pl := by omega
    have : (partCountOf L pl + 1) * pl ≤ (L + pl - 1) / pl * pl :=
      Nat.mul_le_mul_right pl hlt2
    rw [Nat.add_mul, Nat.one_mul] at this
    omega

theorem length_chunksOf (v : List Byte) (max : Int) :
    (chunksOf v max).length = (v.length + partLenOf max - 1) / partLenOf max := by
  unfold chunksOf
  rw [length_chunksFrom, partCountOf_eq _ _ (partLenOf_pos max)]

set_option maxRecDepth 100000 in
theorem testSplit_fourBytes :
    testPedersen.Split [1, 2, 3, 4] none testTape = (some fourByteShares, none) := by decide

end pedersen

namespace pedersen

open big

/-! ## A generated group with a generator that is zero -/

set_option maxRecDepth 100000 in
theorem genRandNum_reaches_modulus :
    genRandNum 2 (17634709279010524619 - 1) [17634709279010524617] =
      .ok (17634709279010524619, []) := by decide

set_option maxRecDepth 100000 in
theorem zeroGenerator_generated :
    NewSchnorrGroup (fun _ _ => .ok 17634709279010524619) 64
      [17634709279010524617, 17634709279010524617] = .ok (zeroGeneratorGroup, []) := by decide

set_option maxRecDepth 100000 in
theorem zeroGenerator_invalid :
    zeroGeneratorGroup.validateGenerator (some 0) = .error Err.ErrInvalidGenerator := by decide

theorem zeroGeneratorGroup_rejected :
    zeroGeneratorGroup.validate = .error Err.ErrInvalidGenerator := by
  have h1 : zeroGeneratorGroup.validatePrimes = .ok () :=
    Group.validatePrimes_of zeroGeneratorGroup 17634709279010524619 8817354639505262309 rfl rfl
      testGroup_bits probablyPrime_testP probablyPrime_testQ testGroup_mod
  unfold Group.validate
  rw [h1]
  have h2 : zeroGeneratorGroup.G = some 0 := rfl
  rw [h2, zeroGenerator_invalid]
  rfl

set_option maxRecDepth 100000 in
theorem testGroup_safe :
    (8817354639505262309 : Int) = Rsh (17634709279010524619 - 1) 1 ∧
    BitLen 17634709279010524619 = 64 := by decide

end pedersen

namespace pedersen

open big

/-! ## What Combine reads of the shares -/

theorem mapE_congr {α β : Type} (f g : α → Except Err β) (l : List α)
    (h : ∀ a ∈ l, f a = g a) : mapE f l = mapE g l := by
  induction l with
  | nil => rfl
  | cons a l ih =>
    rw [mapE_cons, mapE_cons, h a (List.mem_cons_self _ _),
      ih (fun b hb => h b (List.mem_cons_of_mem _ hb))]

theorem collectSamples_congr (abscissae : List (Option Int)) :
    ∀ (l1 l2 : List (Nat × SecretPart)),
    l1.map (fun e => (e.1, e.2.combineView)) = l2.map (fun e => (e.1, e.2.combineView)) →
    collectSamples abscissae l1 = collectSamples abscissae l2 := by
  intro l1
  induction l1 with
  | nil =>
    intro l2 h
    cases l2 with
    | nil => rfl
    | cons b l2 => simp at h
  | cons a l1 ih =>
    intro l2 h
    cases l2 with
    | nil => simp at h
    | cons b l2 =>
      simp only [List.map_cons, List.cons.injEq, Prod.mk.injEq] at h
      obtain ⟨⟨hidx, hview⟩, hrest⟩ := h
      obtain ⟨i1, part1⟩ := a
      obtain ⟨i2, part2⟩ := b
      simp only at hidx hview
      subst hidx
      unfold SecretPart.combineView at hview
      simp only [Prod.mk.injEq, decide_eq_decide] at hview
      obtain ⟨hempty, hS⟩ := hview
      unfold collectSamples
      rw [ih l2 hrest, hS]
      by_cases h1 : SecretPart.empty = part1
      · rw [if_pos h1, if_pos (hempty.1 h1)]
      · rw [if_neg h1, if_neg (fun h2 => h1 (hempty.2 h2))]

theorem enumFrom_map_view (parts1 parts2 : List SecretPart)
    (h : parts1.map SecretPart.combineView = parts2.map SecretPart.combineView) (k : Nat) :
    (parts1.enumFrom k).map (fun e => (e.1, e.2.combineView)) =
      (parts2.enumFrom k).map (fun e => (e.1, e.2.combineView)) := by
  induction parts1 generalizing parts2 k with
  | nil =>
    cases parts2 with
    | nil => rfl
    | cons b l2 => simp at h
  | cons a l1 ih =>
    cases parts2 with
    | nil => simp at h
    | cons b l2 =>
      simp only [List.map_cons, List.cons.injEq] at h
      simp only [List.enumFrom_cons, List.map_cons, h.1, ih l2 h.2 (k + 1)]

/-- The function combine reads the parts by their emptiness and their SShare
only. -/
theorem combine_congr (p : Pedersen) (idx : Nat) (abscissae : List (Option Int))
    (parts1 parts2 : List SecretPart)
    (h : parts1.map SecretPart.combineView = parts2.map SecretPart.combineView) :
    p.combine idx abscissae parts1 = p.combine idx abscissae parts2 := by
  unfold Pedersen.combine
  rw [collectSamples_congr abscissae parts1.enum parts2.enum (enumFrom_map_view _ _ h 0)]

/-- Column `idx` of two matrices of parts that look the same to `Combine`. -/
theorem column_congr (p : Pedersen) (idx : Nat) (abscissae : List (Option Int))
    (M1 M2 : List (List SecretPart))
    (h : M1.map (List.map SecretPart.combineView) = M2.map (List.map SecretPart.combineView)) :
    ∀ l : List Nat,
    (mapE (fun shareIdx => do
        let row ← goIndex M1 shareIdx
        goIndex row idx) l >>= fun parts => p.combine idx abscissae parts) =
    (mapE (fun shareIdx => do
        let row ← goIndex M2 shareIdx
        goIndex row idx) l >>= fun parts => p.combine idx abscissae parts) := by
  have hcell : ∀ i : Nat,
      ((goIndex M1 i >>= fun row => goIndex row idx) = .error Err.panicIndexOutOfRange ∧
        (goIndex M2 i >>= fun row => goIndex row idx) = .error Err.panicIndexOutOfRange) ∨
      ∃ a b, (goIndex M1 i >>= fun row => goIndex row idx) = .ok a ∧
        (goIndex M2 i >>= fun row => goIndex row idx) = .ok b ∧
        a.combineView = b.combineView := by
    intro i
    have hrow := congrArg (fun M => M[i]?) h
    simp only [List.getElem?_map] at hrow
    unfold goIndex
    simp only [List.get?_eq_getElem?]
    cases h1 : M1[i]? with
    | none =>
      rw [h1] at hrow
      cases h2 : M2[i]? with
      | none => exact Or.inl ⟨rfl, rfl⟩
      | some r2 => rw [h2] at hrow; simp at hrow
    | some r1 =>
      rw [h1] at hrow
      cases h2 : M2[i]? with
      | none => rw [h2] at hrow; simp at hrow
      | some r2 =>
        rw [h2] at hrow
        simp only [Option.map_some', Option.some.injEq] at hrow
        have hc := congrArg (fun r => r[idx]?) hrow
        simp only [List.getElem?_map] at hc
        simp only [ok_bind]
        cases h3 : r1[idx]? with
        | none =>
          rw [h3] at hc
          cases h4 : r2[idx]? with
          | none => exact Or.inl ⟨rfl, rfl⟩
          | some b => rw [h4] at hc; simp at hc
        | some a =>
          rw [h3] at hc
          cases h4 : r2[idx]? with
          | none => rw [h4] at hc; simp at hc
          | some b =>
            rw [h4] at hc
            simp only [Option.map_some', Option.some.injEq] at hc
            exact Or.inr ⟨a, b, rfl, rfl, hc⟩
  have hcol : ∀ l : List Nat,
      (∃ e, mapE (fun shareIdx => goIndex M1 shareIdx >>= fun row => goIndex row idx) l =
          .error e ∧
        mapE (fun shareIdx => goIndex M2 shareIdx >>= fun row => goIndex row idx) l =
          .error e) ∨
      ∃ c1 c2, mapE (fun shareIdx => goIndex M1 shareIdx >>= fun row => goIndex row idx) l =
          .ok c1 ∧
        mapE (fun shareIdx => goIndex M2 shareIdx >>= fun row => goIndex row idx) l =
          .ok c2 ∧
        c1.map SecretPart.combineView = c2.map SecretPart.combineView := by
    intro l
    induction l with
    | nil => exact Or.inr ⟨[], [], rfl, rfl, rfl⟩
    | cons i l ih =>
      rw [mapE_cons, mapE_cons]
      rcases hcell i with ⟨e1, e2⟩ | ⟨a, b, e1, e2, hab⟩
      · rw [e1, e2]
        exact Or.inl ⟨_, rfl, rfl⟩
      · rw [e1, e2, ok_bind, ok_bind]
        rcases ih with ⟨e, r1, r2⟩ | ⟨c1, c2, r1, r2, hc⟩
        · rw [r1, r2]
          exact Or.inl ⟨e, rfl, rfl⟩
        · rw [r1, r2]
          refine Or.inr ⟨a :: c1, b :: c2, rfl, rfl, ?_⟩
          simp only [List.map_cons, hab, hc]
  intro l
  rcases hcol l with ⟨e, r1, r2⟩ | ⟨c1, c2, r1, r2, hc⟩
  · rw [r1, r2]
  · rw [r1, r2, ok_bind, ok_bind]
    exact combine_congr p idx abscissae c1 c2 hc

/-- The workers of `Combine` read the parts by their emptiness and their SShare
only. -/
theorem combineWorker_congr (p : Pedersen) (s1 s2 : Shares)
    (habs : s1.Abscissae = s2.Abscissae)
    (hview : s1.Parts.map (List.map SecretPart.combineView) =
      s2.Parts.map (List.map SecretPart.combineView)) (chunk : chunkRange) :
    p.combineWorker s1 chunk = p.combineWorker s2 chunk := by
  unfold Pedersen.combineWorker
  apply mapE_congr
  intro idx _
  have := column_congr p idx s1.Abscissae s1.Parts s2.Parts hview (List.range p.parts.toNat)
  rw [habs] at this ⊢
  exact this

end pedersen

namespace pedersen

open big

/-! ## The ranges of the workers do not matter -/

theorem mapE_error_of_head {α β : Type} (f : α → Except Err β) (e : Err) (a : α) (l : List α)
    (h : f a = .error e) : mapE f (a :: l) = .error e := by
  rw [mapE_cons, h]
  rfl

/-- Loops over lists of indices, one list after the other, are the loop over
the concatenated list. -/
theorem mapE_flatten_unit {α γ : Type} (f : α → Except Err Unit) (g : γ → List α)
    (cs : List γ) :
    (mapE (fun c => mapE f (g c) >>= fun _ => (pure () : Except Err Unit)) cs >>=
        fun _ => (pure () : Except Err Unit)) =
      (mapE f (cs.map g).flatten >>= fun _ => (pure () : Except Err Unit)) := by
  induction cs with
  | nil => rfl
  | cons c cs ih =>
    rw [List.map_cons, List.flatten_cons, mapE_append, mapE_cons]
    cases h1 : mapE f (g c) with
    | error e => rfl
    | ok b =>
      simp only [ok_bind, pure, Except.pure] at ih ⊢
      cases h2 : mapE (fun c => mapE f (g c) >>= fun _ => Except.ok ()) cs with
      | error e =>
        rw [h2] at ih
        cases h3 : mapE f (List.map g cs).flatten with
        | error e2 =>
          rw [h3] at ih
          simp only [bind, Except.bind] at ih ⊢
          exact ih
        | ok b2 =>
          rw [h3] at ih
          simp [bind, Except.bind] at ih
      | ok b3 =>
        rw [h2] at ih
        cases h3 : mapE f (List.map g cs).flatten with
        | error e2 =>
          rw [h3] at ih
          simp [bind, Except.bind] at ih
        | ok b2 => rfl

/-- Workers that first run one and the same preamble and then loop over the
indices of their range give, over consecutive ranges that cover a non-empty
interval, the result of the preamble followed by the loop over the whole
interval. -/
theorem mapE_workers (pre : Except Err Unit) (f : Nat → Except Err Unit)
    (w : chunkRange → Except Err Unit)
    (hw : ∀ c, w c = (pre >>= fun _ => mapE f c.indices >>= fun _ =>
      (pure () : Except Err Unit)))
    {L a : Int} {ranges : List chunkRange} (hc : Consecutive L a ranges) (ha : 0 ≤ a)
    (hlt : a < L) :
    (mapE w ranges >>= fun _ => (pure () : Except Err Unit)) =
      (pre >>= fun _ => mapE f (List.range' a.toNat (L.toNat - a.toNat)) >>= fun _ =>
        (pure () : Except Err Unit)) := by
  cases hpre : pre with
  | error e =>
    cases hc with
    | nil => omega
    | cons r rest h0 h1 h2 hrest =>
      rw [mapE_error_of_head w e r rest (by rw [hw, hpre]; rfl)]
      rfl
  | ok u =>
    have hw2 : w = fun c => mapE f c.indices >>= fun _ => (pure () : Except Err Unit) := by
      funext c
      rw [hw, hpre]
      rfl
    rw [hw2, mapE_flatten_unit f chunkRange.indices ranges, Consecutive.flatten_indices hc ha]
    rfl

/-- Two ways of cutting a non-empty interval into consecutive ranges give the
same result. -/
theorem mapE_workers_congr (pre : Except Err Unit) (f : Nat → Except Err Unit)
    (w : chunkRange → Except Err Unit)
    (hw : ∀ c, w c = (pre >>= fun _ => mapE f c.indices >>= fun _ =>
      (pure () : Except Err Unit)))
    {L : Int} {ranges1 ranges2 : List chunkRange} (hc1 : Consecutive L 0 ranges1)
    (hc2 : Consecutive L 0 ranges2) (hL : 0 < L) :
    (mapE w ranges1 >>= fun _ => (pure () : Except Err Unit)) =
      (mapE w ranges2 >>= fun _ => (pure () : Except Err Unit)) := by
  rw [mapE_workers pre f w hw hc1 le_rfl hL, mapE_workers pre f w hw hc2 le_rfl hL]

/-- Loops that collect results over two ways of cutting an interval into
consecutive ranges give the same results, concatenated. -/
theorem mapE_ranges_congr {β : Type} (f : Nat → Except Err β) {L : Nat}
    {ranges1 ranges2 : List chunkRange} (hc1 : Consecutive (L : Int) 0 ranges1)
    (hc2 : Consecutive (L : Int) 0 ranges2) :
    (mapE (fun c : chunkRange => mapE f c.indices) ranges1 >>= fun rs => pure rs.flatten) =
      (mapE (fun c : chunkRange => mapE f c.indices) ranges2 >>= fun rs => pure rs.flatten) := by
  rw [mapE_flatten f chunkRange.indices ranges1, mapE_flatten f chunkRange.indices ranges2,
    Consecutive.flatten_indices_zero hc1, Consecutive.flatten_indices_zero hc2]

theorem slice_append_drop {α : Type} (l : List α) (a b : Nat) (hab : a ≤ b)
    (hb : b ≤ l.length) : (l.take b).drop a ++ l.drop b = l.drop a := by
  conv_rhs => rw [← List.take_append_drop b l]
  rw [List.drop_append_of_le_length (by rw [List.length_take]; omega)]

theorem mapTape_cons {α β : Type} (f : α → Tape → Except Err (β × Tape)) (a : α)
    (rest : List α) (tape : Tape) :
    mapTape f (a :: rest) tape =
      (f a tape >>= fun r => mapTape f rest r.2 >>= fun r2 => pure (r.1 :: r2.1, r2.2)) := rfl

theorem mapTape_append {α β : Type} (f : α → Tape → Except Err (β × Tape)) (l1 l2 : List α) :
    ∀ tape, mapTape f (l1 ++ l2) tape =
      (mapTape f l1 tape >>= fun r1 => mapTape f l2 r1.2 >>= fun r2 =>
        pure (r1.1 ++ r2.1, r2.2)) := by
  induction l1 with
  | nil =>
    intro tape
    simp only [List.nil_append, mapTape, ok_bind, List.nil_append]
    cases mapTape f l2 tape <;> rfl
  | cons x l ih =>
    intro tape
    rw [List.cons_append, mapTape_cons, mapTape_cons]
    cases hx : f x tape with
    | error e => rfl
    | ok b =>
      simp only [ok_bind]
      rw [ih b.2]
      cases h1 : mapTape f l b.2 with
      | error e => rfl
      | ok r1 =>
        simp only [ok_bind, pure, Except.pure]
        cases h2 : mapTape f l2 r1.2 with
        | error e => simp only [bind, Except.bind, h2]
        | ok r2 => simp only [bind, Except.bind, h2, List.cons_append]

theorem mapTape_enumFrom_shift {β : Type} (g : Nat → Int → Tape → Except Err (β × Tape))
    (s : Nat) : ∀ (l : List Int) (k : Nat) (tape : Tape),
    mapTape (fun (e : Nat × Int) tape => g (s + e.1) e.2 tape) (l.enumFrom k) tape =
      mapTape (fun (e : Nat × Int) tape => g e.1 e.2 tape) (l.enumFrom (s + k)) tape := by
  intro l
  induction l with
  | nil => intro k tape; rfl
  | cons x l ih =>
    intro k tape
    rw [List.enumFrom_cons, List.enumFrom_cons, mapTape_cons, mapTape_cons]
    simp only []
    cases hx : g (s + k) x tape with
    | error e => rfl
    | ok b =>
      simp only [ok_bind]
      rw [ih (k + 1) b.2]
      rfl

end pedersen

namespace pedersen

open big

/-! ## The outcomes of the generator that a chunk consumes -/

theorem genRandNum_drop (min max : Int) (tape tape2 : Tape) (v : Int)
    (h : genRandNum min max tape = .ok (v, tape2)) : tape2 = tape.drop 1 := by
  unfold genRandNum RandRange at h
  by_cases hm : max ≤ 0
  · simp [hm, bind, Except.bind] at h
  · cases tape with
    | nil => simp [hm, bind, Except.bind] at h
    | cons r rest =>
      simp only [hm, if_false, bind, Except.bind, pure, Except.pure, Except.ok.injEq,
        Prod.mk.injEq] at h
      rw [← h.2]
      rfl

theorem randIntsLoop_drop (min max : Int) : ∀ (n : Nat) (checkMap : List Int)
    (tape tape2 : Tape) (vals : List Int),
    randIntsLoop min max false n checkMap tape = .ok (vals, tape2) → tape2 = tape.drop n := by
  intro n
  induction n with
  | zero =>
    intro checkMap tape tape2 vals h
    simp only [randIntsLoop, Except.ok.injEq, Prod.mk.injEq] at h
    rw [← h.2]
    rfl
  | succ n ih =>
    intro checkMap tape tape2 vals h
    unfold randIntsLoop at h
    rw [bind_ok] at h
    obtain ⟨⟨v, tape3⟩, hv, h⟩ := h
    simp only [Bool.false_eq_true, if_false] at h
    rw [bind_ok] at h
    obtain ⟨⟨rest, tape4⟩, hrest, h⟩ := h
    simp only [pure, Except.pure, Except.ok.injEq, Prod.mk.injEq] at h
    rw [← h.2, ih checkMap tape3 tape4 rest hrest, genRandNum_drop min max tape tape3 v hv,
      List.drop_drop]
    congr 1
    omega

theorem newPolynomial_some_drop (s degree order : Int) (tape tape2 : Tape) (F : polynomial)
    (h : newPolynomial (some s) degree order tape = .ok (F, tape2)) :
    0 ≤ degree ∧ tape2 = tape.drop degree.toNat := by
  unfold newPolynomial randInts at h
  simp only [] at h
  by_cases hd : degree < 0
  · rw [if_pos hd] at h
    cases h
  · rw [if_neg hd, bind_ok] at h
    obtain ⟨⟨rest, tape3⟩, hrest, h⟩ := h
    simp only [pure, Except.pure, Except.ok.injEq, Prod.mk.injEq] at h
    refine ⟨by omega, ?_⟩
    rw [← h.2]
    exact randIntsLoop_drop _ _ _ _ _ _ _ hrest

/-- A polynomial without intercept consumes one outcome more than its degree,
unless the draw of its coefficient 0 failed, which leaves that coefficient
nil. -/
theorem newPolynomial_none_drop (degree order : Int) (tape tape2 : Tape) (K : polynomial)
    (h : newPolynomial none degree order tape = .ok (K, tape2)) :
    0 ≤ degree ∧ (K.coefficients.head? = some none ∨ tape2 = tape.drop (degree.toNat + 1)) := by
  unfold newPolynomial randInts at h
  simp only [] at h
  cases hc : genRandNum (SetUInt64 0) order tape with
  | error e =>
    rw [hc] at h
    simp only [] at h
    by_cases hd : degree < 0
    · rw [if_pos hd] at h
      cases h
    · rw [if_neg hd, bind_ok] at h
      obtain ⟨⟨rest, tape3⟩, hrest, h⟩ := h
      simp only [pure, Except.pure, Except.ok.injEq, Prod.mk.injEq] at h
      refine ⟨by omega, Or.inl ?_⟩
      rw [← h.1]
      rfl
  | ok v =>
    obtain ⟨c, tape1⟩ := v
    rw [hc] at h
    simp only [] at h
    by_cases hd : degree < 0
    · rw [if_pos hd] at h
      cases h
    · rw [if_neg hd, bind_ok] at h
      obtain ⟨⟨rest, tape3⟩, hrest, h⟩ := h
      simp only [pure, Except.pure, Except.ok.injEq, Prod.mk.injEq] at h
      refine ⟨by omega, Or.inr ?_⟩
      rw [← h.2, randIntsLoop_drop _ _ _ _ _ _ _ hrest, genRandNum_drop _ _ _ _ _ hc,
        List.drop_drop]
      congr 1
      omega

/-- Splitting one chunk consumes exactly `drawsPerChunk` outcomes of the
generator when it returns a result. -/
theorem split_drop (p : Pedersen) (idx : Nat) (secret : Int) (abscissae : List (Option Int))
    (tape tape2 : Tape) (r : splitValue)
    (h : p.split idx secret abscissae tape = .ok (r, tape2)) :
    tape2 = tape.drop p.drawsPerChunk := by
  unfold Pedersen.split at h
  rw [bind_ok] at h
  obtain ⟨Q, _, h⟩ := h
  rw [bind_ok] at h
  obtain ⟨⟨F, tape3⟩, hF, h⟩ := h
  simp only [] at h
  rw [bind_ok] at h
  obtain ⟨⟨K, tape4⟩, hK, h⟩ := h
  simp only [] at h
  rw [bind_ok] at h
  obtain ⟨parts, _, h⟩ := h
  rw [bind_ok] at h
  obtain ⟨comms, hcomms, h⟩ := h
  simp only [pure, Except.pure, Except.ok.injEq, Prod.mk.injEq] at h
  obtain ⟨hd, hF2⟩ := newPolynomial_some_drop _ _ _ _ _ _ hF
  obtain ⟨_, hK2⟩ := newPolynomial_none_drop _ _ _ _ _ hK
  have ht : 1 ≤ p.threshold := by omega
  have hdeg : (p.threshold - 1).toNat = p.threshold.toNat - 1 := by omega
  unfold Pedersen.drawsPerChunk
  rw [← h.2]
  rcases hK2 with hnil | hK2
  · exfalso
    obtain ⟨b, hb⟩ := mapE_ok_mem _ _ comms hcomms 0 (List.mem_range.mpr (by omega))
    rw [bind_ok] at hb
    obtain ⟨fi, _, hb⟩ := hb
    rw [bind_ok] at hb
    obtain ⟨fi2, _, hb⟩ := hb
    rw [bind_ok] at hb
    obtain ⟨ki, hki, hb⟩ := hb
    rw [bind_ok] at hb
    obtain ⟨ki2, hki2, _⟩ := hb
    rw [goIndex_ok] at hki
    have hhead : K.coefficients.get? 0 = K.coefficients.head? := by
      cases K.coefficients <;> rfl
    rw [hhead, hnil] at hki
    simp only [Option.some.injEq] at hki
    subst hki
    cases hki2
  · rw [hK2, hF2, List.drop_drop, hdeg]
    congr 1
    omega

/-- A loop that threads the tape through bodies which each consume `k`
outcomes consumes `k` outcomes per element. -/
theorem mapTape_drop {α β : Type} (f : α → Tape → Except Err (β × Tape)) (k : Nat)
    (hf : ∀ a tape b tape2, f a tape = .ok (b, tape2) → tape2 = tape.drop k) :
    ∀ (l : List α) (tape tape2 : Tape) (bs : List β),
    mapTape f l tape = .ok (bs, tape2) → tape2 = tape.drop (k * l.length) ∧
      bs.length = l.length := by
  intro l
  induction l with
  | nil =>
    intro tape tape2 bs h
    simp only [mapTape, Except.ok.injEq, Prod.mk.injEq] at h
    rw [← h.1, ← h.2]
    exact ⟨rfl, rfl⟩
  | cons a l ih =>
    intro tape tape2 bs h
    unfold mapTape at h
    rw [bind_ok] at h
    obtain ⟨⟨b, tape3⟩, hb, h⟩ := h
    simp only [] at h
    rw [bind_ok] at h
    obtain ⟨⟨bs2, tape4⟩, hbs, h⟩ := h
    simp only [pure, Except.pure, Except.ok.injEq, Prod.mk.injEq] at h
    obtain ⟨i1, i2⟩ := ih tape3 tape4 bs2 hbs
    rw [← h.1, ← h.2, i1, hf a tape b tape3 hb, List.drop_drop, List.length_cons,
      List.length_cons, i2]
    refine ⟨?_, rfl⟩
    congr 1
    rw [Nat.mul_succ]
    omega

end pedersen

namespace pedersen

open big

/-! ## The concurrency limit does not change the results -/

theorem validateShares_length (p : Pedersen) (s : Shares)
    (h : p.validateShares (some s) = .ok ()) : (s.Parts.length : Int) = p.parts := by
  unfold Pedersen.validateShares at h
  simp only [] at h
  by_cases h1 : (s.Abscissae.length : Int) ≠ p.parts
  · rw [if_pos h1] at h; cases h
  · rw [if_neg h1] at h
    by_cases h2 : (s.Parts.length : Int) ≠ p.parts
    · rw [if_pos h2] at h; cases h
    · exact not_not.mp h2

theorem adjustConcLimit_zero (p : Pedersen) (hc : 1 ≤ p.concLimit) :
    p.adjustConcLimit 0 = 0 := by
  unfold Pedersen.adjustConcLimit Pedersen.GetConcLimit
  simp only []
  rw [if_pos (by omega)]

theorem goIndex_pos {α : Type} (l : List α) (a : α) (h : goIndex l 0 = .ok a) :
    0 < l.length := by
  rw [goIndex_ok] at h
  cases l with
  | nil => simp at h
  | cons x l => simp

/-- The worker of `VerifyShares` is a preamble, the same for every range,
followed by the loop over the shareholders of the range. -/
theorem verifyWorker_eq (p : Pedersen) (s : Shares) (partsCount : Nat) (chunk : chunkRange) :
    p.verifyWorker s partsCount chunk =
      ((deref p.group.P >>= fun P => montSet P) >>= fun _ =>
        mapE (fun idx => p.verifyShareholder s partsCount idx) chunk.indices >>= fun _ =>
          (pure () : Except Err Unit)) := by
  unfold Pedersen.verifyWorker
  cases p.group.P with
  | none => rfl
  | some P => rfl

/-- With zero chunks `VerifyShares` divides by zero, whatever the limit. -/
theorem VerifyShares_zero_chunks (p : Pedersen) (hc : 1 ≤ p.concLimit) (sh : Shares)
    (row0 : List SecretPart) (hrow : goIndex sh.Parts 0 = .ok row0) (hm : row0.length = 0)
    (hvs : p.validateShares (some sh) = .ok ()) :
    p.VerifyShares (some sh) = .error Err.panicDivideByZero := by
  unfold Pedersen.VerifyShares
  rw [hvs]
  simp only [ok_bind, deref, hrow, hm, Nat.cast_zero, adjustConcLimit_zero p hc,
    Pedersen.balanceIndices, if_true]
  rfl

/-- `VerifyShares` accepts under one concurrency limit exactly when it
accepts under another. -/
theorem VerifyShares_limit_ok (group : Group) (threshold parts c1 c2 : Int) (h1 : 1 ≤ c1)
    (h2 : 1 ≤ c2) (s : Option Shares) :
    ({ group := group, threshold := threshold, parts := parts, concLimit := c1 } :
      Pedersen).VerifyShares s = .ok () ↔
    ({ group := group, threshold := threshold, parts := parts, concLimit := c2 } :
      Pedersen).VerifyShares s = .ok () := by
  generalize hp1 : (⟨group, threshold, parts, c1⟩ : Pedersen) = p1
  generalize hp2 : (⟨group, threshold, parts, c2⟩ : Pedersen) = p2
  have hc1 : 1 ≤ p1.concLimit := by rw [← hp1]; exact h1
  have hc2 : 1 ≤ p2.concLimit := by rw [← hp2]; exact h2
  have hparts : p1.parts = p2.parts := by rw [← hp1, ← hp2]
  have hval : p1.validateShares s = p2.validateShares s := by rw [← hp1, ← hp2]; rfl
  have hwork : ∀ (sh : Shares) (m : Nat) (chunk : chunkRange),
      p1.verifyWorker sh m chunk = p2.verifyWorker sh m chunk := by
    intro sh m chunk
    rw [← hp1, ← hp2]
    rfl
  unfold Pedersen.VerifyShares
  rw [hval]
  cases hvs : p2.validateShares s with
  | error e => exact Iff.rfl
  | ok u =>
    cases s with
    | none => simp [Pedersen.validateShares] at hvs
    | some sh =>
      simp only [ok_bind, deref]
      cases hrow : goIndex sh.Parts 0 with
      | error e => exact Iff.rfl
      | ok row0 =>
        simp only [ok_bind]
        have hlen := validateShares_length p2 sh hvs
        have hpos := goIndex_pos _ _ hrow
        by_cases hm : row0.length = 0
        · rw [hm]
          simp only [Nat.cast_zero, adjustConcLimit_zero p1 hc1, adjustConcLimit_zero p2 hc2,
            Pedersen.balanceIndices, if_true]
          exact Iff.rfl
        · have hm1 : (1 : Int) ≤ (row0.length : Int) := by omega
          obtain ⟨R1, hR1, hC1⟩ := balanceIndices_spec p1 sh.Parts.length
            (p1.adjustConcLimit row0.length) (adjustConcLimit_pos p1 hc1 _ hm1)
          obtain ⟨R2, hR2, hC2⟩ := balanceIndices_spec p2 sh.Parts.length
            (p2.adjustConcLimit row0.length) (adjustConcLimit_pos p2 hc2 _ hm1)
          rw [hparts, ← hlen]
          rw [hR1, hR2]
          simp only [ok_bind]
          have hfun : (fun chunk => p1.verifyWorker sh row0.length chunk) =
              fun chunk => p2.verifyWorker sh row0.length chunk := funext (hwork sh row0.length)
          rw [hfun, groupWait_bind_ok_iff, groupWait_bind_ok_iff]
          rw [mapE_workers_congr (deref p2.group.P >>= fun P => montSet P)
            (fun idx => p2.verifyShareholder sh row0.length idx)
            (fun chunk => p2.verifyWorker sh row0.length chunk)
            (fun c => verifyWorker_eq p2 sh row0.length c) hC1 hC2 (by omega)]

/-- Over a validated group and scheme the result of `VerifyShares`, error
included, is the same under two concurrency limits. -/
theorem VerifyShares_limit (group : Group) (threshold parts c1 c2 : Int) (h1 : 1 ≤ c1)
    (h2 : 1 ≤ c2) (hg : group.validate = .ok ())
    (hv : ({ group := group, threshold := threshold, parts := parts, concLimit := c1 } :
      Pedersen).validate = .ok ()) (s : Option Shares) :
    ({ group := group, threshold := threshold, parts := parts, concLimit := c1 } :
      Pedersen).VerifyShares s =
    ({ group := group, threshold := threshold, parts := parts, concLimit := c2 } :
      Pedersen).VerifyShares s := by
  have hv2 : ({ group := group, threshold := threshold, parts := parts, concLimit := c2 } :
      Pedersen).validate = .ok () := hv
  generalize hp1 : (⟨group, threshold, parts, c1⟩ : Pedersen) = p1 at hv ⊢
  generalize hp2 : (⟨group, threshold, parts, c2⟩ : Pedersen) = p2 at hv2 ⊢
  have hc1 : 1 ≤ p1.concLimit := by rw [← hp1]; exact h1
  have hc2 : 1 ≤ p2.concLimit := by rw [← hp2]; exact h2
  have hparts : p1.parts = p2.parts := by rw [← hp1, ← hp2]
  have hthr : p1.threshold = p2.threshold := by rw [← hp1, ← hp2]
  have hg1 : p1.group = group := by rw [← hp1]
  have hg2 : p2.group = group := by rw [← hp2]
  have hval : p1.validateShares s = p2.validateShares s := by rw [← hp1, ← hp2]; rfl
  cases hvs : p2.validateShares s with
  | error e =>
    rw [VerifyShares_of_validateShares_error p2 s e hvs,
      VerifyShares_of_validateShares_error p1 s e (by rw [hval]; exact hvs)]
  | ok u =>
    cases s with
    | none => simp [Pedersen.validateShares] at hvs
    | some sh =>
      have hvs1 : p1.validateShares (some sh) = .ok () := by rw [hval]; exact hvs
      obtain ⟨P, Q, G, H, hf⟩ := Group.validate_ok group hg
      have hf1 : GroupFacts p1.group P Q G H := by rw [hg1]; exact hf
      have hf2 : GroupFacts p2.group P Q G H := by rw [hg2]; exact hf
      obtain ⟨ht, htn⟩ := Pedersen.validate_bounds p2 hv2
      have hlen := validateShares_length p2 sh hvs
      have h0 : 0 < sh.Parts.length := by omega
      have hrow : goIndex sh.Parts 0 = .ok (sh.Parts.get ⟨0, h0⟩) := goIndex_lt sh.Parts 0 h0
      by_cases hm : (sh.Parts.get ⟨0, h0⟩).length = 0
      · rw [VerifyShares_zero_chunks p1 hc1 sh _ hrow hm hvs1,
          VerifyShares_zero_chunks p2 hc2 sh _ hrow hm hvs]
      · have hshape2 := wellShaped_of_validateShares p2 sh _ (List.get?_eq_get h0) (by omega) hvs
        have hshape1 : sh.wellShaped p1.parts.toNat p1.threshold.toNat
            (sh.Parts.get ⟨0, h0⟩).length := by
          rw [hparts, hthr]; exact hshape2
        obtain ⟨a1, a2⟩ := VerifyShares_spec p1 P Q G H hf1 hv hc1 sh _ (by omega) hshape1
        obtain ⟨b1, b2⟩ := VerifyShares_spec p2 P Q G H hf2 hv2 hc2 sh _ (by omega) hshape2
        rw [hparts, hthr] at a1 a2
        by_cases hall : ∀ i j, i < p2.parts.toNat → j < (sh.Parts.get ⟨0, h0⟩).length →
            sh.partVerifies P.toNat Q G H p2.threshold.toNat i j
        · rw [a1 hall, b1 hall]
        · rw [a2 hall, b2 hall]

end pedersen

namespace pedersen

open big

theorem bind_comp_pure {α β γ : Type} (x : Except Err α) (g : α → β) (k : β → Except Err γ) :
    (x >>= fun a => k (g a)) = ((x >>= fun a => pure (g a)) >>= k) := by
  cases x <;> rfl

/-- The worker of `Split` either fails before its loop, with an error that
does not depend on its range, or is its loop over the chunks of the range. -/
theorem splitWorker_cases (p : Pedersen) (abscissae : List (Option Int)) :
    (∃ e, ∀ (start : Nat) (secrets : List Int) (tape : Tape),
      p.splitWorker abscissae start secrets tape = .error e) ∨
    (∃ Q : Int, ∀ (start : Nat) (secrets : List Int) (tape : Tape),
      p.splitWorker abscissae start secrets tape =
        mapTape (fun (e : Nat × Int) tape =>
          if Cmp e.2 Q > 0 then .error Err.ErrInvalidPrimeSize
          else p.split (start + e.1) e.2 abscissae tape) (secrets.enumFrom 0) tape) := by
  unfold Pedersen.splitWorker
  cases hP : p.group.P with
  | none => exact Or.inl ⟨_, fun _ _ _ => rfl⟩
  | some P =>
    cases hQ : p.group.Q with
    | none => exact Or.inl ⟨_, fun _ _ _ => rfl⟩
    | some Q =>
      cases hm : montSet P with
      | error e =>
        refine Or.inl ⟨e, fun _ _ _ => ?_⟩
        simp only [deref, ok_bind, hm]
        rfl
      | ok u =>
        refine Or.inr ⟨Q, fun _ _ _ => ?_⟩
        simp only [deref, ok_bind, hm]
        rfl

theorem Consecutive.exists_cons {L a : Int} {ranges : List chunkRange}
    (h : Consecutive L a ranges) (hlt : a < L) :
    ∃ r rest, ranges = r :: rest ∧ r.start = a ∧ r.start < r.stop ∧ r.stop ≤ L := by
  cases h with
  | nil => omega
  | cons r rest h0 h1 h2 hrest => exact ⟨r, rest, rfl, rfl, h1, h2⟩

/-- The loop of a worker of `Split` consumes `drawsPerChunk` outcomes of the
generator per chunk. -/
theorem splitLoop_drop (p : Pedersen) (abscissae : List (Option Int)) (Q : Int) (tape tape2 : Tape)
    (l : List (Nat × Int)) (vals : List splitValue)
    (h : mapTape (fun (e : Nat × Int) tape =>
      if Cmp e.2 Q > 0 then .error Err.ErrInvalidPrimeSize
      else p.split e.1 e.2 abscissae tape) l tape = .ok (vals, tape2)) :
    tape2 = tape.drop (p.drawsPerChunk * l.length) ∧ vals.length = l.length := by
  refine mapTape_drop _ p.drawsPerChunk ?_ l tape tape2 vals h
  intro a t b t2 hab
  by_cases hc : Cmp a.2 Q > 0
  · rw [if_pos hc] at hab
    cases hab
  · rw [if_neg hc] at hab
    exact split_drop p _ _ _ _ _ _ hab

/-- The workers of `Split`, run one after the other over consecutive ranges
that cover all the chunks, each on its part of the tape, do what one worker
does over all the chunks. -/
theorem splitRanges_seq (p : Pedersen) (abscissae : List (Option Int))
    (splitted : List Int) {ranges : List chunkRange}
    (hc : Consecutive (splitted.length : Int) 0 ranges) (hL : 1 ≤ splitted.length)
    (tape : Tape) :
    (mapE (p.splitRange abscissae splitted tape) ranges >>= fun rs => pure rs.flatten) =
      (p.splitWorker abscissae 0 splitted tape >>= fun r => pure r.1) := by
  rcases splitWorker_cases p abscissae with ⟨e, he⟩ | ⟨Q, hQ⟩
  · rw [he]
    obtain ⟨r, rest, rfl, hs, h1, h2⟩ := hc.exists_cons (by omega)
    rw [mapE_cons]
    unfold Pedersen.splitRange goSlice
    rw [if_pos ⟨by omega, by omega⟩]
    simp only [ok_bind, he]
    rfl
  · have key : ∀ {a : Int} {ranges : List chunkRange},
        Consecutive (splitted.length : Int) a ranges → 0 ≤ a →
        (mapE (p.splitRange abscissae splitted tape) ranges >>= fun rs => pure rs.flatten) =
          (mapTape (fun (e : Nat × Int) tape =>
            if Cmp e.2 Q > 0 then .error Err.ErrInvalidPrimeSize
            else p.split e.1 e.2 abscissae tape)
            ((splitted.drop a.toNat).enumFrom a.toNat)
            (tape.drop (p.drawsPerChunk * a.toNat)) >>= fun r => pure r.1) := by
      intro a ranges hc
      induction hc with
      | nil =>
        intro _
        have : splitted.drop ((splitted.length : Int).toNat) = [] := by simp
        rw [this]
        rfl
      | cons r rest h0 h1 h2 hrest ih =>
        intro _
        have hb := Consecutive.bounds hrest (by omega)
        have ih2 := ih (by omega)
        rw [mapE_cons]
        have hsr : p.splitRange abscissae splitted tape r =
            (mapTape (fun (e : Nat × Int) tape =>
              if Cmp e.2 Q > 0 then .error Err.ErrInvalidPrimeSize
              else p.split e.1 e.2 abscissae tape)
              (((splitted.take r.stop.toNat).drop r.start.toNat).enumFrom r.start.toNat)
              (tape.drop (p.drawsPerChunk * r.start.toNat)) >>= fun x => pure x.1) := by
          unfold Pedersen.splitRange goSlice
          rw [if_pos ⟨by omega, by omega⟩]
          simp only [ok_bind]
          rw [hQ, mapTape_enumFrom_shift (fun idx secret tape =>
            if Cmp secret Q > 0 then .error Err.ErrInvalidPrimeSize
            else p.split idx secret abscissae tape) r.start.toNat _ 0 _, Nat.add_zero]
        rw [hsr]
        rw [← slice_append_drop splitted r.start.toNat r.stop.toNat (by omega) (by omega),
          List.enumFrom_append, mapTape_append]
        have hlen : ((splitted.take r.stop.toNat).drop r.start.toNat).length =
            r.stop.toNat - r.start.toNat := by
          rw [List.length_drop, List.length_take]
          omega
        have hidx : r.start.toNat + (r.stop.toNat - r.start.toNat) = r.stop.toNat := by omega
        rw [hlen, hidx]
        cases hw : mapTape (fun (e : Nat × Int) tape =>
            if Cmp e.2 Q > 0 then .error Err.ErrInvalidPrimeSize
            else p.split e.1 e.2 abscissae tape)
            (((splitted.take r.stop.toNat).drop r.start.toNat).enumFrom r.start.toNat)
            (tape.drop (p.drawsPerChunk * r.start.toNat)) with
        | error e => rfl
        | ok r1 =>
          obtain ⟨vals, tape3⟩ := r1
          obtain ⟨hd, _⟩ := splitLoop_drop p abscissae Q _ _ _ _ hw
          rw [List.enumFrom_length, hlen, List.drop_drop] at hd
          have hmul : p.drawsPerChunk * r.start.toNat +
              p.drawsPerChunk * (r.stop.toNat - r.start.toNat) =
              p.drawsPerChunk * r.stop.toNat := by
            rw [← Nat.mul_add, hidx]
          rw [hmul] at hd
          simp only [ok_bind, pure, Except.pure]
          rw [hd]
          cases hm : mapE (p.splitRange abscissae splitted tape) rest with
          | error e =>
            rw [hm] at ih2
            cases hr : mapTape (fun (e : Nat × Int) tape =>
                if Cmp e.2 Q > 0 then .error Err.ErrInvalidPrimeSize
                else p.split e.1 e.2 abscissae tape)
                ((splitted.drop r.stop.toNat).enumFrom r.stop.toNat)
                (tape.drop (p.drawsPerChunk * r.stop.toNat)) with
            | error e2 =>
              rw [hr] at ih2
              simp only [bind, Except.bind, Except.error.injEq] at ih2 ⊢
              exact ih2
            | ok r2 =>
              rw [hr] at ih2
              simp [bind, Except.bind, pure, Except.pure] at ih2
          | ok more =>
            rw [hm] at ih2
            cases hr : mapTape (fun (e : Nat × Int) tape =>
                if Cmp e.2 Q > 0 then .error Err.ErrInvalidPrimeSize
                else p.split e.1 e.2 abscissae tape)
                ((splitted.drop r.stop.toNat).enumFrom r.stop.toNat)
                (tape.drop (p.drawsPerChunk * r.stop.toNat)) with
            | error e2 =>
              rw [hr] at ih2
              simp [bind, Except.bind, pure, Except.pure] at ih2
            | ok r2 =>
              rw [hr] at ih2
              simp only [bind, Except.bind, pure, Except.pure, Except.ok.injEq] at ih2 ⊢
              rw [List.flatten_cons, ih2]
    rw [key hc le_rfl, hQ]
    have e0 : (0 : Int).toNat = 0 := rfl
    rw [e0, List.drop_zero, Nat.mul_zero, List.drop_zero]
    simp only [Nat.zero_add]

end pedersen

namespace pedersen

open big

/-! ## The workers of Combine on validated shares -/

theorem mapE_error_mem {α β : Type} (f : α → Except Err β) (l : List α) (e : Err)
    (h : mapE f l = .error e) : ∃ a ∈ l, f a = .error e := by
  induction l with
  | nil => cases h
  | cons a l ih =>
    rw [mapE_cons, bind_error] at h
    rcases h with h | ⟨b, _, h⟩
    · exact ⟨a, List.mem_cons_self a l, h⟩
    · rw [bind_error] at h
      rcases h with h | ⟨bs, _, h⟩
      · obtain ⟨a2, ha2, h2⟩ := ih h
        exact ⟨a2, List.mem_cons_of_mem a ha2, h2⟩
      · cases h

theorem Mod_not_error (x y : Int) (hy : y ≠ 0) (e : Err) : big.Mod x y ≠ .error e := by
  unfold big.Mod
  rw [if_neg hy]
  intro h
  cases h

theorem ModInverse_error (g n : Int) (e : Err) (h : ModInverse g n = .error e) :
    e = Err.backend BackendOp.BN_mod_inverse := by
  unfold ModInverse at h
  by_cases hn : n.natAbs ≤ 1
  · rw [if_pos hn] at h
    simp only [Except.error.injEq] at h
    exact h.symm
  · rw [if_neg hn] at h
    simp only [] at h
    split at h
    · cases h
    · simp only [Except.error.injEq] at h
      exact h.symm

theorem basisLoop_error (x order xj : Int) (ho : order ≠ 0) (j : Nat) (e : Err) :
    ∀ (l : List (Nat × Int)) (basis : Int),
    basisLoop x order xj j l basis = .error e → e = Err.backend BackendOp.BN_mod_inverse := by
  intro l
  induction l with
  | nil => intro basis h; cases h
  | cons kx rest ih =>
    intro basis h
    obtain ⟨k, xk⟩ := kx
    unfold basisLoop at h
    by_cases hjk : j = k
    · rw [if_pos hjk] at h
      exact ih basis h
    · rw [if_neg hjk, bind_error] at h
      rcases h with h | ⟨d, _, h⟩
      · exact ModInverse_error _ _ e h
      · rw [bind_error] at h
        rcases h with h | ⟨b, _, h⟩
        · exact absurd h (Mod_not_error _ _ ho e)
        · exact ih b h

theorem interpolateLoop_error (xSamples ySamples : List Int) (x order : Int) (ho : order ≠ 0)
    (e : Err) :
    ∀ (l : List (Nat × Int)) (result : Int), (∀ jx ∈ l, jx.1 < ySamples.length) →
    interpolateLoop xSamples ySamples x order l result = .error e →
    e = Err.backend BackendOp.BN_mod_inverse := by
  intro l
  induction l with
  | nil => intro result _ h; cases h
  | cons jx rest ih =>
    intro result hl h
    obtain ⟨j, xj⟩ := jx
    unfold interpolateLoop at h
    rw [bind_error] at h
    rcases h with h | ⟨b, _, h⟩
    · exact basisLoop_error _ _ _ ho _ e _ _ h
    · have hj : j < ySamples.length := hl (j, xj) (List.mem_cons_self _ _)
      rw [goIndex_lt ySamples j hj, ok_bind] at h
      exact ih _ (fun jx hjx => hl jx (List.mem_cons_of_mem _ hjx)) h

/-- On samples of equal number and for an order other than 0, the
interpolation fails with one error only, that of a modular inverse that does
not exist: it does not panic. -/
theorem interpolatePolynomial_error (xSamples ySamples : List Int) (x order : Int)
    (ho : order ≠ 0) (e : Err) (hlen : ySamples.length = xSamples.length)
    (h : interpolatePolynomial xSamples ySamples x order = .error e) :
    e = Err.backend BackendOp.BN_mod_inverse := by
  unfold interpolatePolynomial at h
  rw [bind_error] at h
  rcases h with h | ⟨r, _, h⟩
  · refine interpolateLoop_error xSamples ySamples x order ho e _ _ ?_ h
    intro jx hjx
    obtain ⟨hlt, _⟩ := (mem_enum_iff xSamples jx).1 hjx
    omega
  · exact absurd h (Mod_not_error _ _ ho e)

theorem map_some_getD (l : List (Option Int)) (h : ∀ a ∈ l, a ≠ none) :
    l = (l.map (fun a => a.getD 0)).map some := by
  induction l with
  | nil => rfl
  | cons a l ih =>
    rw [List.map_cons, List.map_cons, ← ih (fun b hb => h b (List.mem_cons_of_mem a hb))]
    cases a with
    | none => exact absurd rfl (h none (List.mem_cons_self _ _))
    | some v => rfl

/-- Combining one chunk of shares of the validated shape, for an order other
than 0, fails with one error only, that of a modular inverse that does not
exist. -/
theorem combine_error (p : Pedersen) (Q : Int) (hQ : p.group.Q = some Q) (hQ0 : Q ≠ 0)
    (idx : Nat) (abscissae : List (Option Int)) (hnil : ∀ a ∈ abscissae, a ≠ none)
    (g : Nat → SecretPart)
    (hg : ∀ i, i < abscissae.length → g i = SecretPart.empty ∨ (g i).SShare ≠ none) (e : Err)
    (h : p.combine idx abscissae ((List.range abscissae.length).map g) = .error e) :
    e = Err.backend BackendOp.BN_mod_inverse := by
  obtain ⟨xs, hxs⟩ : ∃ xs : List Int, abscissae = xs.map some :=
    ⟨_, map_some_getD abscissae hnil⟩
  have hlen : abscissae.length = xs.length := by rw [hxs, List.length_map]
  rw [hlen] at h hg
  rw [hxs] at h
  unfold Pedersen.combine at h
  have henum : ((List.range xs.length).map g).enum =
      (List.range xs.length).map (fun i => (i, g i)) := by
    have := enum_map_range xs.length g (fun e => e)
    simpa using this
  rw [henum, collectSamples_eq xs g _ (fun i hi => List.mem_range.mp hi)] at h
  have hQd : deref p.group.Q = .ok Q := by rw [hQ]; rfl
  have hys : ((List.range xs.length).filter (fun i => decide (g i ≠ SecretPart.empty))).map
      (fun i => (g i).SShare) =
      ((List.range xs.length).filter (fun i => decide (g i ≠ SecretPart.empty))).map
      (fun i => some ((g i).SShare.getD 0)) := by
    apply List.map_congr_left
    intro i hi
    obtain ⟨hi1, hi2⟩ := List.mem_filter.mp hi
    have hne : g i ≠ SecretPart.empty := by simpa using hi2
    rcases hg i (List.mem_range.mp hi1) with h1 | h1
    · exact absurd h1 hne
    · cases hs : (g i).SShare with
      | none => exact absurd hs h1
      | some v => rfl
  simp only [ok_bind, hQd] at h
  rw [mapE_deref_map, hys, mapE_deref_map] at h
  simp only [ok_bind] at h
  rw [bind_error] at h
  rcases h with h | ⟨r, _, h⟩
  · exact interpolatePolynomial_error _ _ _ _ hQ0 e
      (by rw [List.length_map, List.length_map]) h
  · cases h

/-- A worker of `Combine` on shares of the validated shape, for an order other
than 0, fails with one error only, that of a modular inverse that does not
exist: it does not panic, and all the failing workers return the same error. -/
theorem combineWorker_error (p : Pedersen) (Q : Int) (hQ : p.group.Q = some Q) (hQ0 : Q ≠ 0)
    (s : Shares) (t m : Nat) (hshape : s.wellShaped p.parts.toNat t m) (chunk : chunkRange)
    (hidx : ∀ i ∈ chunk.indices, i < m) (e : Err)
    (h : p.combineWorker s chunk = .error e) : e = Err.backend BackendOp.BN_mod_inverse := by
  obtain ⟨hal, hanil, hpl, hrows, _, _, _⟩ := hshape
  unfold Pedersen.combineWorker at h
  obtain ⟨idx, hmem, h⟩ := mapE_error_mem _ _ e h
  have hi := hidx idx hmem
  rw [gather_parts s p.parts.toNat m idx hpl (fun row hrow => (hrows row hrow).1) hi,
    ok_bind] at h
  rw [← hal] at h
  refine combine_error p Q hQ hQ0 idx s.Abscissae hanil (fun i => s.partAt i idx) ?_ e h
  intro i hi2
  have hi3 : i < s.Parts.length := by omega
  have hrow := hrows _ (List.get_mem s.Parts i hi3)
  have hpart : s.partAt i idx = (s.Parts.get ⟨i, hi3⟩).get ⟨idx, by rw [hrow.1]; exact hi⟩ :=
    Shares.partAt_get s i idx hi3 (by rw [hrow.1]; exact hi)
  rcases hrow.2 _ (List.get_mem (s.Parts.get ⟨i, hi3⟩) idx (by rw [hrow.1]; exact hi)) with h1 | h1
  · left
    show s.partAt i idx = SecretPart.empty
    rw [hpart]
    exact h1
  · right
    show (s.partAt i idx).SShare ≠ none
    rw [hpart]
    exact h1.1

/-! ## The concurrency limit and the result of Combine -/

/-- `Combine` returns bytes under one concurrency limit exactly when it
returns them under another, and they are the same bytes. -/
theorem Combine_limit_ok (group : Group) (threshold parts c1 c2 : Int) (h1 : 1 ≤ c1)
    (h2 : 1 ≤ c2) (s : Option Shares) (b : List Byte) :
    ({ group := group, threshold := threshold, parts := parts, concLimit := c1 } :
      Pedersen).Combine s = .ok b ↔
    ({ group := group, threshold := threshold, parts := parts, concLimit := c2 } :
      Pedersen).Combine s = .ok b := by
  generalize hp1 : (⟨group, threshold, parts, c1⟩ : Pedersen) = p1
  generalize hp2 : (⟨group, threshold, parts, c2⟩ : Pedersen) = p2
  have hc1 : 1 ≤ p1.concLimit := by rw [← hp1]; exact h1
  have hc2 : 1 ≤ p2.concLimit := by rw [← hp2]; exact h2
  have hval : p1.validateShares s = p2.validateShares s := by rw [← hp1, ← hp2]; rfl
  have hwork : ∀ (sh : Shares) (chunk : chunkRange),
      p1.combineWorker sh chunk = p2.combineWorker sh chunk := by
    intro sh chunk
    rw [← hp1, ← hp2]
    rfl
  unfold Pedersen.Combine
  rw [hval]
  cases hvs : p2.validateShares s with
  | error e => exact Iff.rfl
  | ok u =>
    cases s with
    | none => simp [Pedersen.validateShares] at hvs
    | some sh =>
      simp only [ok_bind, deref]
      cases hrow : goIndex sh.Parts 0 with
      | error e => exact Iff.rfl
      | ok row0 =>
        simp only [ok_bind]
        by_cases hm : row0.length = 0
        · rw [hm]
          simp only [Nat.cast_zero, adjustConcLimit_zero p1 hc1, adjustConcLimit_zero p2 hc2,
            Pedersen.balanceIndices, if_true]
          exact Iff.rfl
        · have hm1 : (1 : Int) ≤ (row0.length : Int) := by omega
          obtain ⟨R1, hR1, hC1⟩ := balanceIndices_spec p1 row0.length
            (p1.adjustConcLimit row0.length) (adjustConcLimit_pos p1 hc1 _ hm1)
          obtain ⟨R2, hR2, hC2⟩ := balanceIndices_spec p2 row0.length
            (p2.adjustConcLimit row0.length) (adjustConcLimit_pos p2 hc2 _ hm1)
          rw [hR1, hR2]
          simp only [ok_bind]
          have hfun : (fun chunk => p1.combineWorker sh chunk) =
              fun chunk => p2.combineWorker sh chunk := funext (hwork sh)
          rw [hfun, groupWait_bind_ok_iff, groupWait_bind_ok_iff]
          have key := mapE_ranges_congr (fun idx => do
            let parts ← mapE (fun shareIdx => do
              let row ← goIndex sh.Parts shareIdx
              goIndex row idx) (List.range p2.parts.toNat)
            p2.combine idx sh.Abscissae parts) hC1 hC2
          rw [bind_comp_pure (mapE (fun chunk => p2.combineWorker sh chunk) R1) List.flatten
              (fun fl => unpadLoop (fl.map (fun v => v.value)) []),
            bind_comp_pure (mapE (fun chunk => p2.combineWorker sh chunk) R2) List.flatten
              (fun fl => unpadLoop (fl.map (fun v => v.value)) [])]
          have key2 : (mapE (fun chunk => p2.combineWorker sh chunk) R1 >>= fun a =>
              pure a.flatten) = (mapE (fun chunk => p2.combineWorker sh chunk) R2 >>= fun a =>
              pure a.flatten) := key
          rw [key2]

theorem mem_indices_lt {L : Nat} {ranges : List chunkRange}
    (hc : Consecutive (L : Int) 0 ranges) (chunk : chunkRange) (hchunk : chunk ∈ ranges)
    (i : Nat) (hi : i ∈ chunk.indices) : i < L := by
  have : i ∈ (ranges.map chunkRange.indices).flatten :=
    List.mem_flatten.mpr ⟨_, List.mem_map.mpr ⟨chunk, hchunk, rfl⟩, hi⟩
  rw [Consecutive.flatten_indices_zero hc] at this
  exact List.mem_range.mp this

/-- Over a validated group the result of `Combine`, error included, is the
same under two concurrency limits. -/
theorem Combine_limit (group : Group) (threshold parts c1 c2 : Int) (h1 : 1 ≤ c1)
    (h2 : 1 ≤ c2) (hg : group.validate = .ok ()) (s : Option Shares) :
    ({ group := group, threshold := threshold, parts := parts, concLimit := c1 } :
      Pedersen).Combine s =
    ({ group := group, threshold := threshold, parts := parts, concLimit := c2 } :
      Pedersen).Combine s := by
  obtain ⟨P, Q, G, H, hf⟩ := Group.validate_ok group hg
  generalize hp1 : (⟨group, threshold, parts, c1⟩ : Pedersen) = p1
  generalize hp2 : (⟨group, threshold, parts, c2⟩ : Pedersen) = p2
  have hc1 : 1 ≤ p1.concLimit := by rw [← hp1]; exact h1
  have hc2 : 1 ≤ p2.concLimit := by rw [← hp2]; exact h2
  have hQ2 : p2.group.Q = some Q := by rw [← hp2]; simp only [hf.eq]
  have hQ0 : Q ≠ 0 := by
    have := hf.Q_pos
    omega
  have hval : p1.validateShares s = p2.validateShares s := by rw [← hp1, ← hp2]; rfl
  have hwork : ∀ (sh : Shares) (chunk : chunkRange),
      p1.combineWorker sh chunk = p2.combineWorker sh chunk := by
    intro sh chunk
    rw [← hp1, ← hp2]
    rfl
  unfold Pedersen.Combine
  rw [hval]
  cases hvs : p2.validateShares s with
  | error e => rfl
  | ok u =>
    cases s with
    | none => simp [Pedersen.validateShares] at hvs
    | some sh =>
      simp only [ok_bind, deref]
      cases hrow : goIndex sh.Parts 0 with
      | error e => rfl
      | ok row0 =>
        simp only [ok_bind]
        by_cases hm : row0.length = 0
        · rw [hm]
          simp only [Nat.cast_zero, adjustConcLimit_zero p1 hc1, adjustConcLimit_zero p2 hc2,
            Pedersen.balanceIndices, if_true]
          rfl
        · have hm1 : (1 : Int) ≤ (row0.length : Int) := by omega
          obtain ⟨R1, hR1, hC1⟩ := balanceIndices_spec p1 row0.length
            (p1.adjustConcLimit row0.length) (adjustConcLimit_pos p1 hc1 _ hm1)
          obtain ⟨R2, hR2, hC2⟩ := balanceIndices_spec p2 row0.length
            (p2.adjustConcLimit row0.length) (adjustConcLimit_pos p2 hc2 _ hm1)
          rw [hR1, hR2]
          simp only [ok_bind]
          have hfun : (fun chunk => p1.combineWorker sh chunk) =
              fun chunk => p2.combineWorker sh chunk := funext (hwork sh)
          rw [hfun]
          have hshape := wellShaped_of_validateShares p2 sh row0 ((goIndex_ok _ _ _).1 hrow)
            (by omega) hvs
          rw [groupWait_eq_mapE _ R1 (fun chunk hchunk e he => by
              rw [combineWorker_error p2 Q hQ2 hQ0 sh _ _ hshape chunk
                (fun i hi => mem_indices_lt hC1 chunk hchunk i hi) e he]
              rfl),
            groupWait_eq_mapE _ R2 (fun chunk hchunk e he => by
              rw [combineWorker_error p2 Q hQ2 hQ0 sh _ _ hshape chunk
                (fun i hi => mem_indices_lt hC2 chunk hchunk i hi) e he]
              rfl)]
          have key := mapE_ranges_congr (fun idx => do
            let parts ← mapE (fun shareIdx => do
              let row ← goIndex sh.Parts shareIdx
              goIndex row idx) (List.range p2.parts.toNat)
            p2.combine idx sh.Abscissae parts) hC1 hC2
          rw [bind_comp_pure (mapE (fun chunk => p2.combineWorker sh chunk) R1) List.flatten
              (fun fl => unpadLoop (fl.map (fun v => v.value)) []),
            bind_comp_pure (mapE (fun chunk => p2.combineWorker sh chunk) R2) List.flatten
              (fun fl => unpadLoop (fl.map (fun v => v.value)) [])]
          exact congrArg (fun x => x >>= fun fl => unpadLoop (fl.map (fun v => v.value)) []) key

end pedersen

namespace pedersen

open big

/-- The workers of `Split` over consecutive ranges that cover all the chunks
return results exactly when one worker over all the chunks does, and the
results are the same. -/
theorem splitRanges_ok_iff (p : Pedersen) (abscissae : List (Option Int))
    (splitted : List Int) {ranges : List chunkRange}
    (hc : Consecutive (splitted.length : Int) 0 ranges) (hL : 1 ≤ splitted.length)
    (tape : Tape) (r : List splitValue) :
    p.splitRanges abscissae splitted ranges tape = .ok r ↔
      (p.splitWorker abscissae 0 splitted tape >>= fun x => pure x.1) = .ok r := by
  unfold Pedersen.splitRanges
  rw [groupWait_bind_ok_iff, splitRanges_seq p abscissae splitted hc hL tape]

/-- `Split` returns Shares under one concurrency limit exactly when it returns
them under another, for the same outcomes of the random generator, and they
are the same Shares. -/
theorem Split_limit_ok (group : Group) (threshold parts c1 c2 : Int) (h1 : 1 ≤ c1)
    (h2 : 1 ≤ c2) (secret : List Byte) (a : Option (List (Option Int))) (tape : Tape)
    (sh : Shares) :
    ({ group := group, threshold := threshold, parts := parts, concLimit := c1 } :
      Pedersen).Split secret a tape = (some sh, none) ↔
    ({ group := group, threshold := threshold, parts := parts, concLimit := c2 } :
      Pedersen).Split secret a tape = (some sh, none) := by
  generalize hp1 : (⟨group, threshold, parts, c1⟩ : Pedersen) = p1
  generalize hp2 : (⟨group, threshold, parts, c2⟩ : Pedersen) = p2
  have hc1 : 1 ≤ p1.concLimit := by rw [← hp1]; exact h1
  have hc2 : 1 ≤ p2.concLimit := by rw [← hp2]; exact h2
  have hparts : p1.parts = p2.parts := by rw [← hp1, ← hp2]
  have hgroup : p1.group = p2.group := by rw [← hp1, ← hp2]
  have habs : p1.splitAbscissae a tape = p2.splitAbscissae a tape := by
    rw [← hp1, ← hp2]
    rfl
  have hwork : ∀ (abscissae : List (Option Int)) (start : Nat) (secrets : List Int)
      (tape : Tape), p1.splitWorker abscissae start secrets tape =
        p2.splitWorker abscissae start secrets tape := by
    intro abscissae start secrets tape
    rw [← hp1, ← hp2]
    rfl
  have hcore : p1.splitCore secret a tape = .ok sh ↔ p2.splitCore secret a tape = .ok sh := by
    unfold Pedersen.splitCore
    rw [habs, hgroup, hparts]
    cases hsa : p2.splitAbscissae a tape with
    | error e => exact Iff.rfl
    | ok v =>
      obtain ⟨abscissae, tape2⟩ := v
      simp only [ok_bind]
      cases hQ : deref p2.group.Q with
      | error e => exact Iff.rfl
      | ok Q =>
        simp only [ok_bind]
        cases hsp : splitSecret secret Q with
        | error e => exact Iff.rfl
        | ok splitted =>
          simp only [ok_bind]
          by_cases hm : splitted.length = 0
          · rw [hm]
            simp only [Nat.cast_zero, adjustConcLimit_zero p1 hc1, adjustConcLimit_zero p2 hc2,
              Pedersen.balanceIndices, if_true]
            exact Iff.rfl
          · have hm1 : (1 : Int) ≤ (splitted.length : Int) := by omega
            obtain ⟨R1, hR1, hC1⟩ := balanceIndices_spec p1 splitted.length
              (p1.adjustConcLimit splitted.length) (adjustConcLimit_pos p1 hc1 _ hm1)
            obtain ⟨R2, hR2, hC2⟩ := balanceIndices_spec p2 splitted.length
              (p2.adjustConcLimit splitted.length) (adjustConcLimit_pos p2 hc2 _ hm1)
            rw [hR1, hR2]
            simp only [ok_bind]
            have hiff : ∀ r, p1.splitRanges abscissae splitted R1 tape2 = .ok r ↔
                p2.splitRanges abscissae splitted R2 tape2 = .ok r := by
              intro r
              rw [splitRanges_ok_iff p1 abscissae splitted hC1 (by omega) tape2,
                splitRanges_ok_iff p2 abscissae splitted hC2 (by omega) tape2, hwork]
            rw [bind_ok, bind_ok]
            constructor
            · rintro ⟨r, hr, hk⟩
              exact ⟨r, (hiff r).1 hr, hk⟩
            · rintro ⟨r, hr, hk⟩
              exact ⟨r, (hiff r).2 hr, hk⟩
  unfold Pedersen.Split
  by_cases hs : secret.length = 0
  · rw [if_pos hs, if_pos hs]
  · rw [if_neg hs, if_neg hs]
    constructor
    · intro h
      cases hc : p1.splitCore secret a tape with
      | error e => rw [hc] at h; simp at h
      | ok sh2 =>
        rw [hc] at h
        simp only [Prod.mk.injEq, Option.some.injEq, and_true] at h
        subst h
        rw [hcore.1 hc]
    · intro h
      cases hc : p2.splitCore secret a tape with
      | error e => rw [hc] at h; simp at h
      | ok sh2 =>
        rw [hc] at h
        simp only [Prod.mk.injEq, Option.some.injEq, and_true] at h
        subst h
        rw [hcore.2 hc]

end pedersen

namespace pedersen

open big

/-! ## Generated groups -/

/-- What `getGenerator` returns is r^exp mod p for a number r of `[2, p]`, and
it is not 1. -/
theorem getGeneratorLoop_ok (pMinus exp p : Int) : ∀ (fuel : Nat) (tape tape2 : Tape) (g : Int),
    getGeneratorLoop pMinus exp p fuel tape = .ok (g, tape2) →
    p % 2 ≠ 0 ∧ ∃ r : Int, 2 ≤ r ∧ r < 2 + pMinus ∧ g = modExpValue r exp p ∧ g ≠ 1 := by
  intro fuel
  induction fuel with
  | zero => intro tape tape2 g h; simp [getGeneratorLoop] at h
  | succ fuel ih =>
    intro tape tape2 g h
    unfold getGeneratorLoop at h
    rw [bind_ok] at h
    obtain ⟨⟨r, tape3⟩, hr, h⟩ := h
    have hb := genRandNum_bounds _ _ _ _ _ hr
    simp only [SetUInt64, Nat.cast_ofNat] at hb
    simp only [] at h
    rw [bind_ok] at h
    obtain ⟨g2, hg2, h⟩ := h
    unfold ModExpMont at hg2
    by_cases hodd : p % 2 = 0
    · rw [if_pos hodd] at hg2; cases hg2
    · rw [if_neg hodd] at hg2
      simp only [Except.ok.injEq] at hg2
      by_cases hc : Cmp g2 1 ≠ 0
      · rw [if_pos hc] at h
        simp only [pure, Except.pure, Except.ok.injEq, Prod.mk.injEq] at h
        obtain ⟨rfl, _⟩ := h
        refine ⟨hodd, r, hb.1, hb.2, hg2.symm, ?_⟩
        intro e
        exact hc ((Cmp_eq_zero_iff _ _).2 e)
      · rw [if_neg hc] at h
        exact ih tape3 tape2 g h

theorem getGenerator_ok (p q : Int) (hq : q ≠ 0) (tape tape2 : Tape) (g : Int)
    (h : getGenerator p q tape = .ok (g, tape2)) :
    p % 2 ≠ 0 ∧ ∃ r : Int, 2 ≤ r ∧ r < 1 + p ∧ g = modExpValue r ((p - 1).tdiv q) p ∧ g ≠ 1 := by
  unfold getGenerator at h
  rw [bind_ok] at h
  obtain ⟨_, _, h⟩ := h
  unfold big.Div at h
  simp only [hq, if_false, ok_bind] at h
  obtain ⟨h1, r, h2, h3, h4, h5⟩ := getGeneratorLoop_ok _ _ _ _ _ _ _ h
  exact ⟨h1, r, h2, by omega, h4, h5⟩

/-- In the integers modulo a safe prime p = 2 q + 1, with q an odd prime, the
square of a number that is not 0 has its q-th power 1, and its square is not 1
unless it is 1 itself. -/
theorem square_generates (Pn Qn : Nat) [Fact Pn.Prime] (hQ : Qn.Prime) (hQ2 : Qn ≠ 2)
    (hPQ : Pn = 2 * Qn + 1) (ρ : ZMod Pn) (hρ : ρ ≠ 0) (hne : ρ ^ 2 ≠ 1) :
    (ρ ^ 2) ^ Qn = 1 ∧ (ρ ^ 2) ^ 2 ≠ 1 := by
  have hfermat : ρ ^ (Pn - 1) = 1 := ZMod.pow_card_sub_one_eq_one hρ
  have h1 : (ρ ^ 2) ^ Qn = 1 := by
    rw [← pow_mul]
    have : 2 * Qn = Pn - 1 := by omega
    rw [this]
    exact hfermat
  refine ⟨h1, ?_⟩
  intro h2
  have hfac : (ρ ^ 2 - 1) * (ρ ^ 2 + 1) = 0 := by
    have : (ρ ^ 2 - 1) * (ρ ^ 2 + 1) = (ρ ^ 2) ^ 2 - 1 := by ring
    rw [this, h2, sub_self]
  rcases mul_eq_zero.mp hfac with h | h
  · exact hne (sub_eq_zero.mp h)
  · have hneg : ρ ^ 2 = -1 := eq_neg_of_add_eq_zero_left h
    have hodd : Odd Qn := hQ.odd_of_ne_two hQ2
    rw [hneg, hodd.neg_one_pow] at h1
    have h3 : (2 : ZMod Pn) = 0 := by
      have : (1 : ZMod Pn) + 1 = 0 := by
        nth_rewrite 1 [← h1]
        exact neg_add_cancel 1
      rw [← this]
      norm_num
    have h4 : ((2 : Nat) : ZMod Pn) = 0 := by exact_mod_cast h3
    rw [ZMod.natCast_zmod_eq_zero_iff_dvd] at h4
    have := Nat.le_of_dvd (by norm_num) h4
    have := hQ.two_le
    omega

end pedersen

namespace pedersen

open big

theorem emod_eq_one_iff (Pn : Nat) (h1 : 1 < Pn) (a : Int) :
    a % (Pn : Int) = 1 ↔ ((a : Int) : ZMod Pn) = 1 := by
  have e1 : (1 : Int) % (Pn : Int) = 1 := Int.emod_eq_of_lt (by omega) (by omega)
  have e2 : ((1 : Int) : ZMod Pn) = 1 := Int.cast_one
  rw [← e2, ZMod.intCast_eq_intCast_iff]
  unfold Int.ModEq
  rw [e1]

/-- A number of the form r^2 mod p, other than 0 and 1, passes the validation
of the generators of a group with a safe prime p = 2 q + 1. -/
theorem validateGenerator_square (grp : Group) (p q r : Int) (hP : grp.P = some p)
    (hQ : grp.Q = some q) (hp : Nat.Prime p.toNat) (hq : Nat.Prime q.toNat) (hq2 : q ≠ 2)
    (hpq : p = 2 * q + 1) (h0 : modExpValue r 2 p ≠ 0) (h1 : modExpValue r 2 p ≠ 1) :
    grp.validateGenerator (some (modExpValue r 2 p)) = .ok () := by
  have hq0 : 0 < q := by
    have := hq.pos
    omega
  have hp0 : 0 < p := by omega
  obtain ⟨Pn, rfl⟩ : ∃ Pn : Nat, p = (Pn : Int) := ⟨p.toNat, by omega⟩
  obtain ⟨Qn, rfl⟩ : ∃ Qn : Nat, q = (Qn : Int) := ⟨q.toNat, by omega⟩
  simp only [Int.toNat_ofNat] at hp hq
  haveI : Fact Pn.Prime := ⟨hp⟩
  have hPQ : Pn = 2 * Qn + 1 := by exact_mod_cast hpq
  have hQ2 : Qn ≠ 2 := by
    intro e
    apply hq2
    rw [e]
    rfl
  have hP1 : 1 < Pn := hp.one_lt
  rw [modExpValue_eq r 2 (Pn : Int) hp0] at h0 h1 ⊢
  have e2 : (2 : Int).natAbs = 2 := rfl
  rw [e2] at h0 h1 ⊢
  have hρ : ((r : Int) : ZMod Pn) ≠ 0 := by
    intro e
    have hd : (Pn : Int) ∣ r := (ZMod.intCast_zmod_eq_zero_iff_dvd r Pn).1 e
    exact h0 (Int.emod_eq_zero_of_dvd (Dvd.dvd.pow hd (by norm_num)))
  have hne : ((r : Int) : ZMod Pn) ^ 2 ≠ 1 := by
    intro e
    apply h1
    rw [emod_eq_one_iff Pn hP1, Int.cast_pow]
    exact e
  obtain ⟨s1, s2⟩ := square_generates Pn Qn hq hQ2 hPQ _ hρ hne
  have hdiv : ((Pn : Int) - 1) / (Qn : Int) = 2 := by
    have : (Pn : Int) - 1 = 2 * (Qn : Int) := by omega
    rw [this]
    exact Int.mul_ediv_cancel 2 (by omega)
  rw [Group.validateGenerator_eq grp (Pn : Int) (Qn : Int) hP hQ hp0 hq0, hdiv]
  have e3 : (2 : Int).toNat = 2 := rfl
  rw [e3, Int.toNat_ofNat]
  rw [if_pos]
  constructor
  · intro h
    rw [emod_eq_one_iff Pn hP1, Int.cast_pow, cast_emod, Int.cast_pow] at h
    exact s2 h
  · rw [emod_eq_one_iff Pn hP1, Int.cast_pow, cast_emod, Int.cast_pow]
    exact s1

/-- When the prime generator returns a safe prime of at least 64 bits, the
group that `NewSchnorrGroup` returns has that prime as P and its half as Q,
and passes the validation unless one of its generators is 0. -/
theorem NewSchnorrGroup_valid (GeneratePrime : Int → Bool → Except Err Int) (bits : Int)
    (tape tape2 : Tape) (grp : Group) (p : Int) (hgen : GeneratePrime bits true = .ok p)
    (hp : Nat.Prime p.toNat) (hq : Nat.Prime ((p - 1) / 2).toNat) (hbits : 64 ≤ BitLen p)
    (h : NewSchnorrGroup GeneratePrime bits tape = .ok (grp, tape2)) :
    grp.P = some p ∧ grp.Q = some ((p - 1) / 2) ∧
    (grp.G ≠ some 0 → grp.H ≠ some 0 → grp.validate = .ok ()) := by
  unfold NewSchnorrGroup at h
  by_cases hb : bits < (minPrimeBitLen : Int)
  · rw [if_pos hb] at h; cases h
  · rw [if_neg hb, hgen, ok_bind] at h
    have hp2 := hp.two_le
    have hq1 := hq.two_le
    have hRsh : Rsh (p - 1) 1 = (p - 1) / 2 := by
      unfold Rsh
      rw [Int.tdiv_eq_ediv (by omega) (by norm_num)]
      norm_num
    simp only [hRsh] at h
    rw [bind_ok] at h
    obtain ⟨⟨g, t1⟩, hg, h⟩ := h
    simp only [] at h
    rw [bind_ok] at h
    obtain ⟨⟨hh, t2⟩, hh2, h⟩ := h
    simp only [pure, Except.pure, Except.ok.injEq, Prod.mk.injEq] at h
    obtain ⟨rfl, _⟩ := h
    have hq0 : (p - 1) / 2 ≠ 0 := by omega
    obtain ⟨hodd, r1, _, _, hg1, hg2⟩ := getGenerator_ok p _ hq0 _ _ _ hg
    obtain ⟨_, r2, _, _, hh1, hh3⟩ := getGenerator_ok p _ hq0 _ _ _ hh2
    have hpq : p = 2 * ((p - 1) / 2) + 1 := by omega
    have hexp : (p - 1).tdiv ((p - 1) / 2) = 2 := by
      rw [Int.tdiv_eq_ediv (by omega) (by omega)]
      obtain ⟨q, hqd⟩ : ∃ q, q = (p - 1) / 2 := ⟨_, rfl⟩
      rw [← hqd]
      have e : p - 1 = 2 * q := by omega
      rw [e]
      exact Int.mul_ediv_cancel 2 (by omega)
    rw [hexp] at hg1 hh1
    refine ⟨rfl, rfl, ?_⟩
    intro hG hH
    simp only [ne_eq, Option.some.injEq] at hG hH
    have hq2 : (p - 1) / 2 ≠ 2 := by
      intro e
      have hp5 : p = 5 := by omega
      rw [hp5] at hbits
      revert hbits
      decide
    have hpp : ProbablyPrime p = true := by
      unfold ProbablyPrime
      exact decide_eq_true hp
    have hqp : ProbablyPrime ((p - 1) / 2) = true := by
      unfold ProbablyPrime
      exact decide_eq_true hq
    have hmod : big.Mod (p - 1) ((p - 1) / 2) = .ok 0 := by
      unfold big.Mod
      rw [if_neg hq0]
      congr 1
      apply Int.tmod_eq_zero_of_dvd
      exact ⟨2, by omega⟩
    apply Group.validate_of
    · exact Group.validatePrimes_of _ p ((p - 1) / 2) rfl rfl
        (by unfold minPrimeBitLen; omega) hpp hqp hmod
    · show Group.validateGenerator _ (some g) = .ok ()
      rw [hg1] at hG hg2 ⊢
      exact validateGenerator_square _ p ((p - 1) / 2) r1 rfl rfl hp hq hq2 hpq hG hg2
    · show Group.validateGenerator _ (some hh) = .ok ()
      rw [hh1] at hH hh3 ⊢
      exact validateGenerator_square _ p ((p - 1) / 2) r2 rfl rfl hp hq hq2 hpq hH hh3

/-- Below 64 bits `NewSchnorrGroup` generates nothing. -/
theorem NewSchnorrGroup_short (GeneratePrime : Int → Bool → Except Err Int) (bits : Int)
    (tape : Tape) (h : bits < 64) :
    NewSchnorrGroup GeneratePrime bits tape = .error Err.ErrInvalidPrimeSize := by
  unfold NewSchnorrGroup
  rw [if_pos (by unfold minPrimeBitLen; exact h)]

end pedersen

namespace pedersen

open big

/-! ## The constructor and its options -/

theorem configure_fold (defaultConcLimit : Int) (hd : 1 ≤ defaultConcLimit) :
    ∀ (l : List Opt) (d : pedersenDraft),
    (l.foldl (fun p o => o.apply defaultConcLimit p) d).threshold = d.threshold ∧
    (l.foldl (fun p o => o.apply defaultConcLimit p) d).parts = d.parts ∧
    (1 ≤ d.concLimit → 1 ≤ (l.foldl (fun p o => o.apply defaultConcLimit p) d).concLimit) := by
  intro l
  induction l with
  | nil => intro d; exact ⟨rfl, rfl, fun h => h⟩
  | cons o l ih =>
    intro d
    rw [List.foldl_cons]
    obtain ⟨h1, h2, h3⟩ := ih (o.apply defaultConcLimit d)
    rw [h1, h2]
    cases o with
    | CyclicGroup g => exact ⟨rfl, rfl, fun h => h3 h⟩
    | ConcLimit c =>
      refine ⟨rfl, rfl, fun _ => h3 ?_⟩
      show 1 ≤ (if c < 1 then defaultConcLimit else c)
      split <;> omega

/-- The options leave parts and threshold as the caller gave them and a
concurrency limit of at least 1, the number of CPUs being at least 1. -/
theorem configure_fields (defaultConcLimit : Int) (hd : 1 ≤ defaultConcLimit)
    (parts threshold : Int) (options : List Opt) :
    (configure defaultConcLimit parts threshold options).threshold = threshold ∧
    (configure defaultConcLimit parts threshold options).parts = parts ∧
    1 ≤ (configure defaultConcLimit parts threshold options).concLimit := by
  unfold configure
  simp only []
  obtain ⟨h1, h2, h3⟩ := configure_fold defaultConcLimit hd options
    ([Opt.ConcLimit defaultConcLimit].foldl (fun p o => o.apply defaultConcLimit p)
      { group := none, threshold := threshold, parts := parts, concLimit := 0 })
  refine ⟨by rw [h1]; rfl, by rw [h2]; rfl, h3 ?_⟩
  show 1 ≤ (if defaultConcLimit < 1 then defaultConcLimit else defaultConcLimit)
  split <;> omega

/-- What `NewPedersen` returns: the configured scheme, validated, around the
group that was resolved. -/
theorem NewPedersen_ok (defaultConcLimit : Int) (GeneratePrime : Int → Bool → Except Err Int)
    (parts threshold : Int) (options : List Opt) (tape tape2 : Tape) (p : Pedersen)
    (h : NewPedersen defaultConcLimit GeneratePrime parts threshold options tape =
      .ok (p, tape2)) :
    p.threshold = (configure defaultConcLimit parts threshold options).threshold ∧
    p.parts = (configure defaultConcLimit parts threshold options).parts ∧
    p.concLimit = (configure defaultConcLimit parts threshold options).concLimit ∧
    p.validate = .ok () ∧
    resolveGroup GeneratePrime (configure defaultConcLimit parts threshold options).group tape =
      .ok (p.group, tape2) := by
  unfold NewPedersen at h
  simp only [] at h
  rw [bind_ok] at h
  obtain ⟨⟨group, tape3⟩, hres, h⟩ := h
  simp only [] at h
  rw [bind_ok] at h
  obtain ⟨u, hv, h⟩ := h
  simp only [pure, Except.pure, Except.ok.injEq, Prod.mk.injEq] at h
  obtain ⟨rfl, rfl⟩ := h
  exact ⟨rfl, rfl, rfl, hv, hres⟩

theorem testNewPedersen :
    NewPedersen 4 (fun _ _ => .error Err.ErrInvalidOptions) 3 2
      [Opt.CyclicGroup (some testGroup), Opt.ConcLimit (-5)] [] = .ok (testPedersen, []) := by
  unfold NewPedersen resolveGroup
  have hc : configure 4 3 2 [Opt.CyclicGroup (some testGroup), Opt.ConcLimit (-5)] =
      { group := some testGroup, threshold := 2, parts := 3, concLimit := 4 } := by decide
  rw [hc]
  simp only [testGroup_validate, ok_bind]
  rfl

/-! ## Shares without chunks -/

theorem emptyRowsShares_accepted : testPedersen.validateShares (some emptyRowsShares) = .ok () := by
  decide

theorem emptyRowsShares_combine :
    testPedersen.Combine (some emptyRowsShares) = .error Err.panicDivideByZero := by decide

theorem emptyRowsShares_verify :
    testPedersen.VerifyShares (some emptyRowsShares) = .error Err.panicDivideByZero := by decide

set_option maxRecDepth 100000 in
theorem testAbscissae_drawn :
    randInts 3 1 8817354639505262309 true [5, 5, 7, 8] = .ok ([6, 8, 9], []) := by decide

/-! ## The order of the generators -/

/-- An element with g^q = 1 for a prime q, other than 1, has order q. -/
theorem orderOf_generator (Pn q : Nat) [Fact Pn.Prime] (hq : q.Prime) (g : ZMod Pn)
    (hg : g ^ q = 1) (hg1 : g ≠ 1) : orderOf g = q := by
  haveI : Fact q.Prime := ⟨hq⟩
  exact orderOf_eq_prime hg hg1

end pedersen

namespace pedersen

open big

/-! ## The slices of splitSecret -/

theorem bigIntPadding_ok (c : List Byte) (hne : c ≠ []) : ∃ n, bigIntPadding c = .ok n := by
  unfold bigIntPadding
  rw [SetBytes_of_ne_nil c hne]
  simp only [bind, Except.bind, Lsh, zerosInfoSizeBytes, SetUInt64, pure, Except.pure]
  by_cases h0 : leadingZeros c > 0
  · rw [if_pos h0, Or_eq _ _ (Or.inr (by exact_mod_cast (Nat.pos_iff_ne_zero.mp h0)))]
    exact ⟨_, rfl⟩
  · rw [if_neg h0]
    exact ⟨_, rfl⟩

/-- Every round of the loop of `splitSecret` cuts a slice within the bounds of
the value, not empty and of at most `partLen` bytes, and pads it. -/
theorem splitSecretLoop_total (v : List Byte) (pl : Nat) (hpl : 1 ≤ pl) :
    ∀ count i, (count ≠ 0 → (i + count - 1) * pl < v.length) →
    ∃ l, splitSecretLoop v pl count i = .ok l ∧ l.length = count ∧
      ∀ k, k < count →
        (i + k) * pl < v.length ∧
        ∃ c n, goSlice v ((i + k) * pl) (min ((i + k + 1) * pl) v.length) = .ok c ∧
          c ≠ [] ∧ c.length ≤ pl ∧ bigIntPadding c = .ok n ∧ l.get? k = some n := by
  intro count
  induction count with
  | zero =>
    intro i _
    exact ⟨[], rfl, rfl, fun k hk => absurd hk (Nat.not_lt_zero k)⟩
  | succ count ih =>
    intro i h
    have hlast := h (Nat.succ_ne_zero count)
    have hi : i * pl < v.length := by
      have : i * pl ≤ (i + (count + 1) - 1) * pl := Nat.mul_le_mul_right pl (by omega)
      omega
    obtain ⟨l, hl, hlen, hall⟩ := ih (i + 1) (by
      intro _
      have e : i + 1 + count - 1 = i + (count + 1) - 1 := by omega
      rw [e]
      exact hlast)
    have hend : (if (i + 1) * pl > v.length then v.length else (i + 1) * pl) =
        min ((i + 1) * pl) v.length := by
      split <;> omega
    have hlt : i * pl < min ((i + 1) * pl) v.length := by
      have : i * pl + pl = (i + 1) * pl := by rw [Nat.add_mul, Nat.one_mul]
      omega
    have hslice : goSlice v (i * pl) (min ((i + 1) * pl) v.length) =
        .ok ((v.take (min ((i + 1) * pl) v.length)).drop (i * pl)) := by
      unfold goSlice
      rw [if_pos ⟨by omega, by omega⟩]
    have hclen : ((v.take (min ((i + 1) * pl) v.length)).drop (i * pl)).length =
        min ((i + 1) * pl) v.length - i * pl := by
      rw [List.length_drop, List.length_take]
      omega
    have hcne : (v.take (min ((i + 1) * pl) v.length)).drop (i * pl) ≠ [] := by
      intro e
      rw [e] at hclen
      simp only [List.length_nil] at hclen
      omega
    obtain ⟨n, hn⟩ := bigIntPadding_ok _ hcne
    refine ⟨n :: l, ?_, by rw [List.length_cons, hlen], ?_⟩
    · unfold splitSecretLoop
      simp only [hend, hslice, ok_bind, hn, hl]
      rfl
    · intro k hk
      cases k with
      | zero =>
        refine ⟨by simpa using hi, _, n, by simpa using hslice, hcne, ?_, hn, rfl⟩
        rw [hclen]
        have : i * pl + pl = (i + 1) * pl := by rw [Nat.add_mul, Nat.one_mul]
        omega
      | succ k =>
        obtain ⟨a1, c, n2, a2, a3, a4, a5, a6⟩ := hall k (by omega)
        have e1 : i + 1 + k = i + (k + 1) := by omega
        rw [e1] at a1 a2
        exact ⟨a1, c, n2, a2, a3, a4, a5, by simpa using a6⟩

end pedersen

namespace pedersen

open big

/-! ## The ranges of balanceIndices -/

/-- The ranges of the loop of `balanceIndices`: range k starts at
start + k * chunkSize, before the length, and ends chunkSize further or at
the length. -/
theorem balanceLoop_ranges (L cs : Int) (hcs : 1 ≤ cs) : ∀ (fuel : Nat) (start : Int)
    (ranges : List chunkRange), 0 ≤ start →
    balanceLoop L cs fuel start = .ok ranges →
    ∀ k (hk : k < ranges.length),
      (ranges.get ⟨k, hk⟩).start = start + k * cs ∧
      (ranges.get ⟨k, hk⟩).stop = min (start + (k + 1) * cs) L ∧
      start + k * cs < L := by
  intro fuel
  induction fuel with
  | zero =>
    intro start ranges _ h k hk
    unfold balanceLoop at h
    by_cases hlt : start < L
    · rw [if_pos hlt] at h; cases h
    · rw [if_neg hlt] at h
      simp only [Except.ok.injEq] at h
      subst h
      exact absurd hk (Nat.not_lt_zero k)
  | succ fuel ih =>
    intro start ranges h0 h k hk
    unfold balanceLoop at h
    by_cases hlt : start < L
    · rw [if_pos hlt] at h
      simp only [] at h
      rw [bind_ok] at h
      obtain ⟨rest, hrest, h⟩ := h
      simp only [pure, Except.pure, Except.ok.injEq] at h
      subst h
      cases k with
      | zero =>
        simp only [List.get_eq_getElem, List.getElem_cons_zero, Nat.cast_zero, zero_mul,
          add_zero, zero_add, one_mul]
        refine ⟨trivial, ?_, hlt⟩
        split <;> omega
      | succ k =>
        have hk2 : k < rest.length := by simpa using hk
        obtain ⟨a1, a2, a3⟩ := ih (start + cs) rest (by omega) hrest k hk2
        simp only [List.get_eq_getElem, List.getElem_cons_succ] at a1 a2 ⊢
        have e1 : start + cs + (k : Int) * cs = start + ((k + 1 : Nat) : Int) * cs := by
          push_cast; ring
        have e2 : start + cs + ((k : Int) + 1) * cs =
            start + (((k + 1 : Nat) : Int) + 1) * cs := by
          push_cast; ring
        rw [e1] at a1 a3
        rw [e2] at a2
        exact ⟨a1, a2, a3⟩
    · rw [if_neg hlt] at h
      simp only [Except.ok.injEq] at h
      subst h
      exact absurd hk (Nat.not_lt_zero k)

theorem ceil_div_pos (L w : Int) (hL : 1 ≤ L) (hw : 1 ≤ w) :
    1 ≤ (L + w - 1).tdiv w ∧ L ≤ w * (L + w - 1).tdiv w := by
  rw [Int.tdiv_eq_ediv (by omega) (by omega)]
  constructor
  · exact Int.le_ediv_of_mul_le (by omega) (by omega)
  · have h1 := Int.emod_add_ediv (L + w - 1) w
    have h2 := Int.emod_lt_of_pos (L + w - 1) (by omega : 0 < w)
    omega

end pedersen

namespace pedersen

open big

/-! ## balanceIndices on the 64-bit integers -/

theorem wrapInt_of_range (z : Int) (h0 : -2 ^ 63 ≤ z) (h1 : z < 2 ^ 63) : wrapInt z = z := by
  unfold wrapInt
  omega

/-- The sum `length + numChunks - 1`, computed in two steps that each wrap
around, is exact when it is below 2^63. -/
theorem wrapInt_sum (L w : Int) (hL : 0 ≤ L) (hw : 1 ≤ w) (h : L + w ≤ 2 ^ 63) :
    wrapInt (wrapInt (L + w) - 1) = L + w - 1 := by
  unfold wrapInt
  omega

/-- Without overflow the loop on the 64-bit integers is the loop on the
integers: every start is a multiple of the stride below a multiple of the
stride that is itself below 2^63. -/
theorem balanceLoop64_eq (L cs B : Int) (hcs : 1 ≤ cs) (hdvd : cs ∣ B) (hLB : L ≤ B)
    (hB : B < 2 ^ 63) : ∀ (fuel : Nat) (start : Int), 0 ≤ start → cs ∣ start →
    balanceLoop64 L cs fuel start = balanceLoop L cs fuel start := by
  intro fuel
  induction fuel with
  | zero => intro start _ _; rfl
  | succ fuel ih =>
    intro start h0 hd
    unfold balanceLoop64 balanceLoop
    by_cases hlt : start < L
    · rw [if_pos hlt, if_pos hlt]
      have hnext : start + cs ≤ B := by
        obtain ⟨a, ha⟩ := hd
        obtain ⟨b, hb⟩ := hdvd
        have hab : a < b := by
          by_contra hge
          have : cs * b ≤ cs * a := mul_le_mul_of_nonneg_left (by omega) (by omega)
          omega
        have : cs * (a + 1) ≤ cs * b := mul_le_mul_of_nonneg_left (by omega) (by omega)
        rw [ha, hb]
        linarith
      have hwrap : wrapInt (start + cs) = start + cs :=
        wrapInt_of_range _ (by omega) (by omega)
      simp only [hwrap]
      rw [ih (start + cs) (by omega) (dvd_add hd (dvd_refl cs))]
    · rw [if_neg hlt, if_neg hlt]

/-- Whenever `length + numChunks - 1` does not overflow the 64-bit `int`,
`balanceIndices` on the 64-bit integers is `balanceIndices` on the integers. -/
theorem balanceIndices64_eq (p : Pedersen) (L : Nat) (w : Int) (hL : 1 ≤ L) (hw : 1 ≤ w)
    (hsum : (L : Int) + w ≤ 2 ^ 63) : p.balanceIndices64 L w = p.balanceIndices L w := by
  have hLi : (1 : Int) ≤ (L : Int) := by omega
  obtain ⟨hcs1, hcs2⟩ := ceil_div_pos (L : Int) w hLi hw
  have hle : w * ((L : Int) + w - 1).tdiv w ≤ (L : Int) + w - 1 := by
    rw [Int.tdiv_eq_ediv (by omega) (by omega)]
    exact Int.mul_ediv_self_le (by omega)
  have hcsle : ((L : Int) + w - 1).tdiv w ≤ (L : Int) + w - 1 := by
    have : 1 * ((L : Int) + w - 1).tdiv w ≤ w * ((L : Int) + w - 1).tdiv w :=
      mul_le_mul_of_nonneg_right hw (by omega)
    omega
  unfold Pedersen.balanceIndices64 Pedersen.balanceIndices
  rw [if_neg (by omega), if_neg (by omega)]
  simp only []
  rw [wrapInt_sum (L : Int) w (by omega) hw hsum,
    wrapInt_of_range (((L : Int) + w - 1).tdiv w) (by omega) (by omega)]
  exact balanceLoop64_eq (L : Int) _ (w * ((L : Int) + w - 1).tdiv w) hcs1
    (Dvd.intro_left w rfl) hcs2 (by omega) _ 0 le_rfl (dvd_zero _)

/-- For the length 2^63 - 1 and two workers the sum wraps around, the stride
is -2^62, and the loop never reaches the length: its starts are 0, -2^62,
-2^63 and 2^62 again and again. -/
theorem balanceLoop64_cycle : ∀ (fuel : Nat) (start : Int),
    (start = 0 ∨ start = -4611686018427387904 ∨ start = -9223372036854775808 ∨
      start = 4611686018427387904) →
    balanceLoop64 9223372036854775807 (-4611686018427387904) fuel start =
      .error Err.fuelExhausted := by
  intro fuel
  induction fuel with
  | zero =>
    intro start h
    unfold balanceLoop64
    rw [if_pos (by omega)]
  | succ fuel ih =>
    intro start h
    unfold balanceLoop64
    rw [if_pos (by omega)]
    have hnext : wrapInt (start + -4611686018427387904) = 0 ∨
        wrapInt (start + -4611686018427387904) = -4611686018427387904 ∨
        wrapInt (start + -4611686018427387904) = -9223372036854775808 ∨
        wrapInt (start + -4611686018427387904) = 4611686018427387904 := by
      unfold wrapInt
      omega
    rw [ih _ hnext]
    rfl

/-- The ranges of `balanceIndices` on the integers, for every length >= 1 and
every worker count w >= 1. -/
theorem balanceIndices_ranges (p : Pedersen) (L : Nat) (w : Int) (hL : 1 ≤ L) (hw : 1 ≤ w) :
    ∃ ranges, p.balanceIndices L w = .ok ranges ∧
      1 ≤ ranges.length ∧ (ranges.length : Int) ≤ w ∧
      Consecutive (L : Int) 0 ranges ∧
      (∀ k (hk : k < ranges.length),
        (ranges.get ⟨k, hk⟩).start = k * (((L : Int) + w - 1) / w) ∧
        (ranges.get ⟨k, hk⟩).stop = min ((k + 1) * (((L : Int) + w - 1) / w)) L ∧
        (ranges.get ⟨k, hk⟩).start < (ranges.get ⟨k, hk⟩).stop) ∧
      (ranges.map chunkRange.indices).flatten = List.range L ∧
      (∀ i : Nat, i < L → ∃! k : Fin ranges.length,
        (ranges.get k).start ≤ i ∧ (i : Int) < (ranges.get k).stop) := by
  obtain ⟨ranges, hranges, hcons⟩ := balanceIndices_spec p L w hw
  have hLi : (1 : Int) ≤ (L : Int) := by omega
  obtain ⟨hcs1, hcs2⟩ := ceil_div_pos (L : Int) w hLi hw
  have hdiv : ((L : Int) + w - 1).tdiv w = ((L : Int) + w - 1) / w :=
    Int.tdiv_eq_ediv (by omega) (by omega)
  have hloop : balanceLoop (L : Int) (((L : Int) + w - 1).tdiv w) (L : Int).toNat 0 =
      .ok ranges := by
    unfold Pedersen.balanceIndices at hranges
    rw [if_neg (by omega)] at hranges
    exact hranges
  have hexp := balanceLoop_ranges (L : Int) _ hcs1 _ 0 ranges le_rfl hloop
  rw [hdiv] at hexp hcs1 hcs2
  generalize hcsd : ((L : Int) + w - 1) / w = cs at hexp hcs1 hcs2
  have hflat := Consecutive.flatten_indices_zero hcons
  obtain ⟨r0, rest0, hr0, _, _, _⟩ := hcons.exists_cons (by omega)
  have hlen1 : 1 ≤ ranges.length := by rw [hr0]; simp
  have hrange : ∀ k (hk : k < ranges.length),
      (ranges.get ⟨k, hk⟩).start = k * cs ∧
      (ranges.get ⟨k, hk⟩).stop = min ((k + 1) * cs) L ∧
      (ranges.get ⟨k, hk⟩).start < (ranges.get ⟨k, hk⟩).stop := by
    intro k hk
    obtain ⟨a1, a2, a3⟩ := hexp k hk
    rw [zero_add] at a1 a2 a3
    refine ⟨a1, a2, ?_⟩
    rw [a1, a2]
    have : (k : Int) * cs + cs = ((k : Int) + 1) * cs := by ring
    omega
  refine ⟨ranges, hranges, hlen1, ?_, hcons, hrange, hflat, ?_⟩
  · obtain ⟨_, _, a3⟩ := hexp (ranges.length - 1) (by omega)
    rw [zero_add] at a3
    have h1 : ((ranges.length - 1 : Nat) : Int) * cs < w * cs := by omega
    have h2 := lt_of_mul_lt_mul_right h1 (by omega : (0 : Int) ≤ cs)
    omega
  · intro i hi
    have hmem : i ∈ (ranges.map chunkRange.indices).flatten := by
      rw [hflat]
      exact List.mem_range.mpr hi
    obtain ⟨l, hl, hil⟩ := List.mem_flatten.mp hmem
    obtain ⟨r, hr, rfl⟩ := List.mem_map.mp hl
    obtain ⟨k, hk⟩ := List.mem_iff_get.mp hr
    rw [indices_eq, List.mem_range'_1] at hil
    obtain ⟨b1, b2, b3⟩ := hrange k.val k.isLt
    have hk2 : ranges.get ⟨k.val, k.isLt⟩ = r := hk
    rw [hk2] at b1 b2 b3
    have hs0 : 0 ≤ r.start := by
      rw [b1]
      exact mul_nonneg (by omega) (by omega)
    refine ⟨k, ?_, ?_⟩
    · show (ranges.get k).start ≤ i ∧ (i : Int) < (ranges.get k).stop
      rw [hk]
      omega
    · intro k2 hk2b
      obtain ⟨c1, c2, c3⟩ := hrange k2.val k2.isLt
      have hk2e : ranges.get ⟨k2.val, k2.isLt⟩ = ranges.get k2 := rfl
      rw [hk2e] at c1 c2 c3
      obtain ⟨d1, d2⟩ := hk2b
      rw [c1] at d1
      rw [c2] at d2
      have e1 : (k.val : Int) * cs ≤ i := by omega
      have e2 : (i : Int) < ((k.val : Int) + 1) * cs := by omega
      have e3 : (i : Int) < ((k2.val : Int) + 1) * cs := by omega
      apply Fin.ext
      by_contra hne
      rcases Nat.lt_or_gt_of_ne hne with hlt | hgt
      · have : ((k2.val : Int) + 1) * cs ≤ (k.val : Int) * cs :=
          mul_le_mul_of_nonneg_right (by omega) (by omega)
        omega
      · have : ((k.val : Int) + 1) * cs ≤ (k2.val : Int) * cs :=
          mul_le_mul_of_nonneg_right (by omega) (by omega)
        omega


end pedersen

namespace pedersen

theorem tmod_neg_left (a b : Int) : (-a).tmod b = -(a.tmod b) := by
  rw [Int.tmod_def, Int.tmod_def, Int.neg_tdiv]
  ring

/-- The remainder that `Mod` returns is strictly between minus the modulus
and the modulus. -/
theorem tmod_bounds (a b : Int) (hb : 0 < b) : -b < a.tmod b ∧ a.tmod b < b := by
  have h1 := Int.tmod_lt_of_pos (-a) hb
  rw [tmod_neg_left] at h1
  exact ⟨by omega, Int.tmod_lt_of_pos a hb⟩

end pedersen

namespace pedersen

open big

/-! ## Shares and commitments as residues -/

/-- For a non-negative abscissa and non-negative coefficients, the first one
below the order, `evaluate` returns the residue of the sum. -/
theorem evalValue_eq_emod (cs : List Int) (Q x : Int) (hQ : 0 < Q) (hx : 0 ≤ x)
    (hcs : ∀ c ∈ cs, 0 ≤ c) (hne : cs ≠ []) (h0 : cs.headD 0 < Q) :
    evalValue cs Q x = hornerSum x cs % Q := by
  unfold evalValue
  have hsum := hornerSum_nonneg x hx cs hcs
  by_cases hx0 : x = 0
  · rw [if_pos hx0]
    cases cs with
    | nil => exact absurd rfl hne
    | cons c rest =>
      have hc0 : 0 ≤ c := hcs c (List.mem_cons_self _ _)
      subst hx0
      simp only [List.headD_cons, hornerSum, zero_mul, add_zero] at h0 ⊢
      rw [Int.emod_eq_of_lt hc0 h0]
  · rw [if_neg hx0, Int.tmod_eq_emod hsum (by omega)]

/-- For non-negative exponents, `commit` returns g^s * h^t mod p. -/
theorem commitValue_eq (G H P s t : Int) (hP : 0 < P) (hs : 0 ≤ s) (ht : 0 ≤ t) :
    commitValue G H P s t = (G ^ s.toNat * H ^ t.toNat) % P := by
  unfold commitValue
  rw [modExpValue_eq G s P hP, modExpValue_eq H t P hP]
  have e1 : s.natAbs = s.toNat := by omega
  have e2 : t.natAbs = t.toNat := by omega
  rw [e1, e2, ← Int.mul_emod]

theorem getD_mem_of_lt (l : List Int) (k : Nat) (hk : k < l.length) : l.getD k 0 ∈ l := by
  rw [List.getD_eq_getElem _ _ hk]
  exact List.getElem_mem hk

theorem mem_of_head_tail (F : List Int) (c0 : Int) (h0 : F.head? = some c0) (x : Int)
    (hx : x ∈ F) : x = c0 ∨ x ∈ F.tail := by
  cases F with
  | nil => simp at h0
  | cons a rest =>
    simp only [List.head?_cons, Option.some.injEq] at h0
    subst h0
    simp only [List.mem_cons] at hx
    exact hx

end pedersen

namespace pedersen

open big

/-! ## Splitting a chunk succeeds when the random generator does -/

theorem genRandNum_cons (min max : Int) (hmax : 0 < max) (r : Nat) (rest : Tape) :
    genRandNum min max (r :: rest) = .ok ((r : Int) % max + min, rest) := by
  unfold genRandNum RandRange
  rw [if_neg (by omega)]
  rfl

/-- Without the request of distinct values, `randInts` fills a slice of n
entries from n outcomes of the generator. -/
theorem randIntsLoop_total (min max : Int) (hmax : 0 < max) : ∀ (n : Nat) (checkMap : List Int)
    (tape : Tape), n ≤ tape.length →
    ∃ vals, randIntsLoop min max false n checkMap tape = .ok (vals, tape.drop n) ∧
      vals.length = n := by
  intro n
  induction n with
  | zero =>
    intro checkMap tape _
    exact ⟨[], rfl, rfl⟩
  | succ n ih =>
    intro checkMap tape h
    cases tape with
    | nil => simp at h
    | cons r rest =>
      obtain ⟨vals, hv, hl⟩ := ih checkMap rest (by simpa using h)
      refine ⟨((r : Int) % max + min) :: vals, ?_, by rw [List.length_cons, hl]⟩
      unfold randIntsLoop
      rw [genRandNum_cons min max hmax, ok_bind]
      simp only [Bool.false_eq_true, if_false, hv, ok_bind, List.drop_succ_cons]
      rfl

theorem newPolynomial_some_total (s degree order : Int) (hd : 0 ≤ degree) (ho : 0 < order)
    (tape : Tape) (h : degree.toNat ≤ tape.length) :
    ∃ rest : List Int, newPolynomial (some s) degree order tape =
        .ok ({ coefficients := (s :: rest).map some, order := order },
          tape.drop degree.toNat) ∧
      rest.length = degree.toNat := by
  obtain ⟨vals, hv, hl⟩ := randIntsLoop_total ((0 : Nat) : Int) order ho degree.toNat [] tape h
  refine ⟨vals, ?_, hl⟩
  unfold newPolynomial randInts
  simp only [SetUInt64]
  rw [if_neg (by omega), hv]
  rfl

theorem newPolynomial_none_total (degree order : Int) (hd : 0 ≤ degree) (ho : 0 < order)
    (tape : Tape) (h : degree.toNat + 1 ≤ tape.length) :
    ∃ cs : List Int, newPolynomial none degree order tape =
        .ok ({ coefficients := cs.map some, order := order },
          tape.drop (degree.toNat + 1)) ∧
      cs.length = degree.toNat + 1 := by
  cases tape with
  | nil => simp at h
  | cons r rest =>
    obtain ⟨vals, hv, hl⟩ := randIntsLoop_total ((0 : Nat) : Int) order ho degree.toNat [] rest
      (by simpa using h)
    refine ⟨((r : Int) % order + ((0 : Nat) : Int)) :: vals, ?_, by rw [List.length_cons, hl]⟩
    unfold newPolynomial randInts
    simp only [SetUInt64]
    rw [genRandNum_cons _ order ho]
    simp only []
    rw [if_neg (by omega), hv]
    rfl

/-- The function split returns a result, and consumes 2 t - 1 outcomes of the
random generator, whenever the abscissae of the shareholders are set and that
many outcomes are left. -/
theorem split_total (p : Pedersen) (P Q G H : Int)
    (hg : p.group = { P := some P, Q := some Q, G := some G, H := some H })
    (hodd : P % 2 ≠ 0) (hQ : 0 < Q) (ht : 2 ≤ p.threshold) (idx : Nat) (secret : Int)
    (abscissae : List (Option Int))
    (habs : ∀ i, i < p.parts.toNat → ∃ x, abscissae.get? i = some (some x)) (tape : Tape)
    (htape : 2 * p.threshold.toNat - 1 ≤ tape.length) :
    ∃ r, p.split idx secret abscissae tape =
      .ok (r, tape.drop (2 * p.threshold.toNat - 1)) := by
  have hQd : deref p.group.Q = .ok Q := by rw [hg]; rfl
  have hdeg : (p.threshold - 1).toNat = p.threshold.toNat - 1 := by omega
  obtain ⟨Frest, hF, hFl⟩ := newPolynomial_some_total secret (p.threshold - 1) Q (by omega) hQ
    tape (by omega)
  obtain ⟨Kcs, hK, hKl⟩ := newPolynomial_none_total (p.threshold - 1) Q (by omega) hQ
    (tape.drop (p.threshold - 1).toNat) (by rw [List.length_drop]; omega)
  have hdrop : (tape.drop (p.threshold - 1).toNat).drop ((p.threshold - 1).toNat + 1) =
      tape.drop (2 * p.threshold.toNat - 1) := by
    rw [List.drop_drop]
    congr 1
    omega
  rw [hdrop] at hK
  have hFne : (secret :: Frest) ≠ [] := by simp
  have hKne : Kcs ≠ [] := by
    intro e; rw [e] at hKl; simp at hKl
  have hQ0 : Q ≠ 0 := by omega
  have hparts := mapE_map_ok (fun i => do
      let xi ← goIndex abscissae i
      let xi ← deref xi
      let s ← ({ coefficients := (secret :: Frest).map some, order := Q } :
        polynomial).evaluate xi
      let t ← ({ coefficients := Kcs.map some, order := Q } : polynomial).evaluate xi
      pure ({ SShare := some s, TShare := some t } : SecretPart))
    (fun i => partOf (secret :: Frest) Kcs Q (abscissaAt abscissae i)) (List.range p.parts.toNat)
    (by
      intro i hi
      obtain ⟨x, hx⟩ := habs i (List.mem_range.mp hi)
      have hidx : goIndex abscissae i = .ok (some x) := (goIndex_ok _ _ _).2 hx
      have hxa : abscissaAt abscissae i = x := abscissaAt_of_get _ _ _ hx
      simp only [hidx, deref, bind, Except.bind, evaluate_eq _ _ _ hFne hQ0,
        evaluate_eq _ _ _ hKne hQ0, pure, Except.pure, partOf, hxa])
  have hcomm := mapE_map_ok (fun i => do
      let fi ← goIndex ((secret :: Frest).map some) i
      let fi ← deref fi
      let ki ← goIndex (Kcs.map some) i
      let ki ← deref ki
      let commitment ← p.commit fi ki
      pure (some commitment))
    (fun i => some (commitValue G H P ((secret :: Frest).getD i 0) (Kcs.getD i 0)))
    (List.range p.threshold.toNat)
    (by
      intro i hi
      have hi2 := List.mem_range.mp hi
      have hFi : i < (secret :: Frest).length := by rw [List.length_cons, hFl]; omega
      have hKi : i < Kcs.length := by rw [hKl]; omega
      have h1 : goIndex ((secret :: Frest).map some) i = .ok (some ((secret :: Frest).getD i 0)) := by
        rw [goIndex_ok, List.get?_eq_getElem?, List.getElem?_map,
          List.getElem?_eq_getElem hFi, List.getD_eq_getElem _ _ hFi]
        rfl
      have h2 : goIndex (Kcs.map some) i = .ok (some (Kcs.getD i 0)) := by
        rw [goIndex_ok, List.get?_eq_getElem?, List.getElem?_map,
          List.getElem?_eq_getElem hKi, List.getD_eq_getElem _ _ hKi]
        rfl
      simp only [h1, h2, deref, ok_bind, commit_eq p P Q G H hg hodd, pure, Except.pure])
  refine ⟨splitValueOf G H P Q abscissae p.parts.toNat p.threshold.toNat idx (secret :: Frest)
    Kcs, ?_⟩
  unfold Pedersen.split
  rw [hQd, ok_bind, hF]
  simp only [ok_bind, hK, hparts, hcomm]
  rfl

end pedersen

namespace pedersen

open big

/-! ## The check of the chunks against Q -/

theorem Cmp_pos_iff (a b : Int) : Cmp a b > 0 ↔ b < a := by
  unfold Cmp
  split
  · constructor
    · intro h; omega
    · intro h; omega
  · split
    · constructor
      · intro h; omega
      · intro h; omega
    · constructor
      · intro _; omega
      · intro _; decide

/-- Over a validated group the worker of `Split` is its loop over the chunks. -/
theorem splitWorker_eq (p : Pedersen) (P Q G H : Int)
    (hg : p.group = { P := some P, Q := some Q, G := some G, H := some H })
    (hodd : P % 2 ≠ 0) (abscissae : List (Option Int)) (start : Nat) (secrets : List Int)
    (tape : Tape) :
    p.splitWorker abscissae start secrets tape =
      mapTape (fun (e : Nat × Int) tape =>
        if Cmp e.2 Q > 0 then .error Err.ErrInvalidPrimeSize
        else p.split (start + e.1) e.2 abscissae tape) (secrets.enumFrom 0) tape := by
  unfold Pedersen.splitWorker
  simp only [hg, deref, ok_bind, montSet, hodd, if_false]
  rfl

/-- The loop over the chunks stops with ErrInvalidPrimeSize at the first chunk
above Q, when the abscissae are set and the random generator has outcomes for
the chunks before it. -/
theorem mapTape_chunk_error (p : Pedersen) (P Q G H : Int)
    (hg : p.group = { P := some P, Q := some Q, G := some G, H := some H })
    (hodd : P % 2 ≠ 0) (hQ : 0 < Q) (ht : 2 ≤ p.threshold) (abscissae : List (Option Int))
    (habs : ∀ i, i < p.parts.toNat → ∃ x, abscissae.get? i = some (some x)) (start : Nat) :
    ∀ (splitted : List Int) (k j : Nat) (v : Int) (tape : Tape),
    splitted.get? j = some v → Q < v → (2 * p.threshold.toNat - 1) * j ≤ tape.length →
    mapTape (fun (e : Nat × Int) tape =>
        if Cmp e.2 Q > 0 then .error Err.ErrInvalidPrimeSize
        else p.split (start + e.1) e.2 abscissae tape) (splitted.enumFrom k) tape =
      .error Err.ErrInvalidPrimeSize := by
  intro splitted
  induction splitted with
  | nil => intro k j v tape h; simp at h
  | cons c rest ih =>
    intro k j v tape hj hv htape
    rw [List.enumFrom_cons, mapTape_cons]
    simp only []
    by_cases hc : Cmp c Q > 0
    · rw [if_pos hc]
      rfl
    · rw [if_neg hc]
      cases j with
      | zero =>
        simp only [List.get?_cons_zero, Option.some.injEq] at hj
        subst hj
        exact absurd ((Cmp_pos_iff _ _).2 hv) hc
      | succ j =>
        simp only [List.get?_cons_succ] at hj
        have hmul : (2 * p.threshold.toNat - 1) * (j + 1) =
            (2 * p.threshold.toNat - 1) * j + (2 * p.threshold.toNat - 1) := by
          rw [Nat.mul_succ]
        obtain ⟨r, hr⟩ := split_total p P Q G H hg hodd hQ ht (start + k) c abscissae habs tape
          (by omega)
        rw [hr, ok_bind]
        simp only []
        rw [ih (k + 1) j v (tape.drop (2 * p.threshold.toNat - 1)) hj hv
          (by rw [List.length_drop]; omega)]
        rfl

/-- The loop over the chunks returns results or stops with
ErrInvalidPrimeSize, when the abscissae are set and the random generator has
outcomes for all its chunks: it does not panic. -/
theorem mapTape_chunk_cases (p : Pedersen) (P Q G H : Int)
    (hg : p.group = { P := some P, Q := some Q, G := some G, H := some H })
    (hodd : P % 2 ≠ 0) (hQ : 0 < Q) (ht : 2 ≤ p.threshold) (abscissae : List (Option Int))
    (habs : ∀ i, i < p.parts.toNat → ∃ x, abscissae.get? i = some (some x)) (start : Nat) :
    ∀ (l : List Int) (k : Nat) (tape : Tape),
    (2 * p.threshold.toNat - 1) * l.length ≤ tape.length →
    (∃ r, mapTape (fun (e : Nat × Int) tape =>
        if Cmp e.2 Q > 0 then .error Err.ErrInvalidPrimeSize
        else p.split (start + e.1) e.2 abscissae tape) (l.enumFrom k) tape = .ok r) ∨
    mapTape (fun (e : Nat × Int) tape =>
        if Cmp e.2 Q > 0 then .error Err.ErrInvalidPrimeSize
        else p.split (start + e.1) e.2 abscissae tape) (l.enumFrom k) tape =
      .error Err.ErrInvalidPrimeSize := by
  intro l
  induction l with
  | nil => intro k tape _; exact Or.inl ⟨_, rfl⟩
  | cons c rest ih =>
    intro k tape htape
    rw [List.enumFrom_cons, mapTape_cons]
    simp only []
    rw [List.length_cons, Nat.mul_succ] at htape
    by_cases hc : Cmp c Q > 0
    · rw [if_pos hc]
      exact Or.inr rfl
    · rw [if_neg hc]
      obtain ⟨r, hr⟩ := split_total p P Q G H hg hodd hQ ht (start + k) c abscissae habs tape
        (by omega)
      rw [hr, ok_bind]
      simp only []
      rcases ih (k + 1) (tape.drop (2 * p.threshold.toNat - 1))
        (by rw [List.length_drop]; omega) with ⟨r2, h2⟩ | h2
      · rw [h2]
        exact Or.inl ⟨_, rfl⟩
      · rw [h2]
        exact Or.inr rfl

theorem Consecutive.mem_bounds {L a : Int} {ranges : List chunkRange}
    (h : Consecutive L a ranges) (ha : 0 ≤ a) :
    ∀ r ∈ ranges, 0 ≤ r.start ∧ r.start < r.stop ∧ r.stop ≤ L := by
  induction h with
  | nil => intro r hr; cases hr
  | cons r rest h0 hlt hle _ ih =>
    intro r2 hr2
    rcases List.mem_cons.mp hr2 with e | e
    · subst e
      exact ⟨h0, hlt, hle⟩
    · exact ih (by omega) r2 e

/-- A worker of `Split` over a validated group returns results or
ErrInvalidPrimeSize, when the abscissae are set and the random generator has
outcomes for all the chunks: it does not panic. -/
theorem splitRange_cases (p : Pedersen) (P Q G H : Int)
    (hg : p.group = { P := some P, Q := some Q, G := some G, H := some H })
    (hodd : P % 2 ≠ 0) (hQ : 0 < Q) (ht : 2 ≤ p.threshold) (abscissae : List (Option Int))
    (habs : ∀ i, i < p.parts.toNat → ∃ x, abscissae.get? i = some (some x))
    (splitted : List Int) (tape : Tape)
    (htape : (2 * p.threshold.toNat - 1) * splitted.length ≤ tape.length) (chunk : chunkRange)
    (h0 : 0 ≤ chunk.start) (h1 : chunk.start < chunk.stop)
    (h2 : chunk.stop ≤ (splitted.length : Int)) :
    (∃ vals, p.splitRange abscissae splitted tape chunk = .ok vals) ∨
    p.splitRange abscissae splitted tape chunk = .error Err.ErrInvalidPrimeSize := by
  unfold Pedersen.splitRange goSlice Pedersen.drawsPerChunk
  rw [if_pos ⟨by omega, by omega⟩]
  simp only [ok_bind]
  rw [splitWorker_eq p P Q G H hg hodd]
  have hlen : ((splitted.take chunk.stop.toNat).drop chunk.start.toNat).length =
      chunk.stop.toNat - chunk.start.toNat := by
    rw [List.length_drop, List.length_take]
    omega
  have hle : (2 * p.threshold.toNat - 1) * chunk.stop.toNat ≤ tape.length :=
    le_trans (Nat.mul_le_mul_left _ (by omega)) htape
  have hsub : (2 * p.threshold.toNat - 1) * chunk.start.toNat +
      (2 * p.threshold.toNat - 1) * (chunk.stop.toNat - chunk.start.toNat) =
      (2 * p.threshold.toNat - 1) * chunk.stop.toNat := by
    rw [← Nat.mul_add]
    congr 1
    omega
  rcases mapTape_chunk_cases p P Q G H hg hodd hQ ht abscissae habs chunk.start.toNat
    ((splitted.take chunk.stop.toNat).drop chunk.start.toNat) 0
    (tape.drop ((2 * p.threshold.toNat - 1) * chunk.start.toNat))
    (by rw [hlen, List.length_drop]; omega) with ⟨r, hr⟩ | hr
  · rw [hr]
    exact Or.inl ⟨_, rfl⟩
  · rw [hr]
    exact Or.inr rfl

/-- Everything `Split` does after the abscissae are fixed fails with
ErrInvalidPrimeSize when a padded chunk is above Q, the abscissae are set and
the random generator has outcomes for all the chunks. -/
theorem splitCore_chunk_error (p : Pedersen) (P Q G H : Int)
    (hf : GroupFacts p.group P Q G H) (hv : p.validate = .ok ()) (hc : 1 ≤ p.concLimit)
    (secret : List Byte) (a : Option (List (Option Int))) (tape : Tape)
    (splitted : List Int) (hsp : splitSecret secret Q = .ok splitted) (j : Nat) (v : Int)
    (hj : splitted.get? j = some v) (hbig : Q < v)
    (xs : List (Option Int)) (tape1 : Tape) (hsa : p.splitAbscissae a tape = .ok (xs, tape1))
    (habs : ∀ i, i < p.parts.toNat → ∃ x, xs.get? i = some (some x))
    (htape : (2 * p.threshold.toNat - 1) * splitted.length ≤ tape1.length) :
    p.splitCore secret a tape = .error Err.ErrInvalidPrimeSize := by
  obtain ⟨ht, _⟩ := Pedersen.validate_bounds p hv
  have hg := hf.eq
  have hQ2 := hf.Q_pos
  have hodd := hf.P_odd
  have hQd : deref p.group.Q = .ok Q := by rw [hg]; rfl
  have hjlt : j < splitted.length := (List.get?_eq_some.mp hj).1
  have hlen : 1 ≤ splitted.length := by omega
  obtain ⟨ranges, hranges, hcons⟩ := balanceIndices_spec p splitted.length
    (p.adjustConcLimit splitted.length) (adjustConcLimit_pos p hc _ (by omega))
  have hnp : ∀ chunk ∈ ranges, ∀ e, p.splitRange xs splitted tape1 chunk = .error e →
      e.isPanic = false := by
    intro chunk hchunk e he
    obtain ⟨b0, b1, b2⟩ := Consecutive.mem_bounds hcons le_rfl chunk hchunk
    rcases splitRange_cases p P Q G H hg hodd (by omega) ht xs habs splitted tape1 htape chunk
      b0 b1 b2 with ⟨vals, hvals⟩ | herr
    · rw [hvals] at he
      cases he
    · rw [herr] at he
      simp only [Except.error.injEq] at he
      subst he
      rfl
  have hseq := splitRanges_seq p xs splitted hcons hlen tape1
  rw [splitWorker_eq p P Q G H hg hodd xs 0 splitted tape1,
    mapTape_chunk_error p P Q G H hg hodd (by omega) ht xs habs 0 splitted 0 j v tape1 hj hbig
      (le_trans (Nat.mul_le_mul_left _ (by omega)) htape)] at hseq
  unfold Pedersen.splitCore
  rw [hsa]
  simp only [ok_bind, hQd, hsp, hranges]
  unfold Pedersen.splitRanges
  rw [groupWait_eq_mapE _ _ hnp, hseq]
  rfl

set_option maxRecDepth 100000 in
theorem highLastSecret_chunks :
    splitSecret highLastSecret 17634709279010524619 =
      .ok [72623859706101760, 18446744069414584320] := by decide

set_option maxRecDepth 100000 in
theorem highLastSplit_panics :
    alignedPedersenOne.Split highLastSecret (some nilFirstAbscissae) [1, 2, 3, 4, 5, 6] =
      (none, some Err.panicNilDereference) := by decide

set_option maxRecDepth 100000 in
theorem highLastSplit_generator_fails :
    alignedPedersenOne.Split highLastSecret none [5, 6, 7] =
      (none, some Err.tapeExhausted) := by decide

set_option maxRecDepth 100000 in
theorem highFirstSplit_one :
    alignedPedersenOne.Split highFirstSecret (some nilFirstAbscissae) [1, 2, 3, 4, 5, 6] =
      (none, some Err.ErrInvalidPrimeSize) := by decide

set_option maxRecDepth 100000 in
theorem highFirstSplit_two :
    alignedPedersenTwo.Split highFirstSecret (some nilFirstAbscissae) [1, 2, 3, 4, 5, 6] =
      (none, some Err.panicNilDereference) := by decide

set_option maxRecDepth 100000 in
theorem alignedAbscissae_drawn :
    randInts 3 1 17634709279010524619 true [5, 6, 7, 1, 2, 3] = .ok ([6, 7, 8], [1, 2, 3]) := by
  decide

end pedersen

namespace pedersen

open big

/-! ## Claim C1: the round trip -/

/-- C1. Round trip: for every validated group, every scheme with n >= t >= 2,
every byte string s and every outcome of the random choices for which
`Split(s, nil)` returns Shares, `Combine` applied to those Shares, and to every
Shares obtained from them by emptying parts while keeping at least t non-empty
parts in every chunk, returns exactly s with no error. -/
theorem C1_round_trip (p : Pedersen) (Q : Int) (hg : p.group.validate = .ok ())
    (hQ : p.group.Q = some Q) (hbits : BitLen Q < 2 ^ 31) (hv : p.validate = .ok ())
    (hc : 1 ≤ p.concLimit) (s : List Byte) (tape : Tape) (sh : Shares)
    (h : p.Split s none tape = (some sh, none)) :
    p.Combine (some sh) = .ok s ∧
    ∀ sh2 : Shares, sh.emptiedFrom sh2 →
      (∀ j, j < sh.Commitments.length → p.threshold ≤ (sh2.nonEmptyCount j : Int)) →
      p.Combine (some sh2) = .ok s := by
  obtain ⟨P, G, H, hf⟩ := GroupFacts.of_validate p.group Q hg hQ
  obtain ⟨ht, htn⟩ := Pedersen.validate_bounds p hv
  obtain ⟨hne, hnone, _, habs, polys, hpl, hpolys, hparts, hcomm⟩ :=
    Split_spec p P Q G H hf hv hc hbits s none tape sh h
  obtain ⟨xs, hxs, hxl, hnd, hxr⟩ := hnone rfl
  have hQ2 := hf.Q_pos
  obtain ⟨q, rfl⟩ : ∃ q : Nat, Q = (q : Int) := ⟨Q.toNat, by omega⟩
  have hq : q.Prime := by simpa using hf.primeQ
  have hshape : sh.wellShaped p.parts.toNat p.threshold.toNat polys.length :=
    wellShaped_split _ _ (by omega) polys G H P q sh (by rw [hxs]; simpa using hxl) habs hparts
      hcomm
  have hcl : sh.Commitments.length = polys.length := by rw [hcomm]; simp
  have key : ∀ sh2 : Shares, sh.emptiedFrom sh2 →
      (∀ j, j < sh.Commitments.length → p.threshold ≤ (sh2.nonEmptyCount j : Int)) →
      p.Combine (some sh2) = .ok s := by
    intro sh2 he hcount
    have hshape2 : sh2.wellShaped p.parts.toNat p.threshold.toNat (chunksOf s q).length := by
      rw [← hpl]
      apply wellShaped_emptied sh sh2 _ _ _ hshape he
      intro j hj
      have := hcount j (by omega)
      omega
    obtain ⟨hl2, _, hpart2⟩ := he.partAt polys.length (fun row hrow => (hshape.2.2.2.1 row hrow).1)
    have hres := Combine_ok p q hq hQ hc p.parts.toNat p.threshold.toNat (by omega) (by omega)
      (by omega) xs hxl hnd hxr sh2 (by rw [he.1, hxs]) polys (chunksOf s q) hpl
      (chunksOf_length_pos s q hne)
      (by
        intro c hc2
        have h1 := mem_chunksOf_length s q c hc2
        have h2 := leadingZeros_le_length c
        have h3 := partLenOf_lt (q : Int) hbits
        omega)
      (by
        intro j c FK hc2 hFK
        obtain ⟨h1, _, h3, h4, h5, _⟩ := hpolys j c FK hc2 hFK
        refine ⟨h1, h3, ?_, h5⟩
        apply padValue_lt q hq hbits c
        · exact mem_chunksOf_length s q c (List.get?_mem hc2)
        · exact_mod_cast h4)
      hshape2
      (by
        intro i j FK hi hFK
        have hj : j < polys.length := by
          rw [List.get?_eq_getElem?] at hFK
          exact (List.getElem?_eq_some_iff.1 hFK).1
        have hpn : sh.Parts.length = p.parts.toNat := hshape.2.2.1
        have h1 := partAt_split p.parts.toNat polys q sh.Abscissae sh hparts i j hi FK hFK
        have e : abscissaAt sh.Abscissae i = xs.getD i 0 := by
          rw [hxs]; exact abscissaAt_map_some xs i (by omega)
        rw [e] at h1
        rcases hpart2 i j (by omega) hj with h2 | h2
        · left; rw [h2]; exact h1
        · right; exact h2)
    rw [hres, join_chunksOf]
  refine ⟨key sh ⟨rfl, rfl, ?_⟩ ?_, key⟩
  · apply List.forall₂_iff_get.2
    refine ⟨rfl, fun i h1 h2 => List.forall₂_iff_get.2 ⟨rfl, fun j h3 h4 => Or.inl rfl⟩⟩
  · intro j hj
    have := hshape.2.2.2.2.2.2 j (by omega)
    omega

/-- C1, witness: the shares of the examples, complete and with one part of
every chunk emptied, combine to the secret. -/
theorem C1_round_trip_witness :
    testPedersen.Combine (some testShares) = .ok testSecret ∧
    testPedersen.Combine (some testSharesEmptied) = .ok testSecret :=
  have h := C1_round_trip testPedersen 8817354639505262309 testGroup_validate rfl testGroup_bitsQ
    testPedersen_validate (by decide) testSecret testTape testShares testSplit_random
  ⟨h.1, h.2 testSharesEmptied
    ⟨rfl, rfl, by
      unfold testShares testSharesEmptied SecretPart.empty
      simp⟩
    (by decide)⟩

end pedersen

namespace pedersen

open big

/-! ## Claim C2: the commitments verify the parts -/

/-- C2, counterexample. With the abscissae -1, 2, 3 given by the caller,
which are three non-nil values for three shareholders, `Split` returns Shares
(the TShares at -1 are negative: the remainder of `evaluate` takes the sign
of the sum) on which `VerifyShares` returns ErrWrongSecretPart. -/
theorem C2_negative_abscissa_rejected :
    testPedersen.Split testSecret (some negativeAbscissae) [9, 10, 11, 12, 13, 14] =
      (some negativeShares, none) ∧
    (negativeAbscissae.length : Int) = testPedersen.parts ∧
    (∀ x ∈ negativeAbscissae, x ≠ none) ∧
    testPedersen.VerifyShares (some negativeShares) = .error Err.ErrWrongSecretPart :=
  ⟨testSplit_negative, by decide, by decide, negativeShares_rejected⟩

/-- C2, amended. For every validated group, every secret and abscissae either
nil or a list of exactly n non-nil, non-negative values, every Shares returned
by `Split` has, for every shareholder i and chunk j, a part with non-negative
SShare S and TShare T such that g^S * h^T is congruent modulo p to the product
of the commitments c_jk of the chunk raised to the powers x_i^k of the
abscissa, and `VerifyShares` on it returns nil. -/
theorem C2_commitments_verify (p : Pedersen) (P Q G H : Int)
    (hg : p.group.validate = .ok ())
    (hgrp : p.group = { P := some P, Q := some Q, G := some G, H := some H })
    (hbits : BitLen Q < 2 ^ 31) (hv : p.validate = .ok ()) (hc : 1 ≤ p.concLimit)
    (secret : List Byte) (a : Option (List (Option Int)))
    (ha : ∀ l : List (Option Int), a = some l →
      (l.length : Int) = p.parts ∧ ∀ x ∈ l, ∃ v : Int, x = some v ∧ 0 ≤ v)
    (tape : Tape) (sh : Shares) (h : p.Split secret a tape = (some sh, none)) :
    (∀ i j : Nat, (i : Int) < p.parts → j < sh.Commitments.length →
      ∃ S T x : Int, sh.partAt i j = { SShare := some S, TShare := some T } ∧
        sh.Abscissae.get? i = some (some x) ∧ 0 ≤ S ∧ 0 ≤ T ∧ 0 ≤ x ∧
        G ^ S.toNat * H ^ T.toNat ≡
          commitmentProduct (sh.Commitments.getD j []) x p.threshold.toNat [ZMOD P]) ∧
    p.VerifyShares (some sh) = .ok () := by
  obtain ⟨P2, Q2, G2, H2, hf⟩ := Group.validate_ok p.group hg
  have heq := hf.eq
  rw [hgrp] at heq
  simp only [Group.mk.injEq, Option.some.injEq] at heq
  obtain ⟨rfl, rfl, rfl, rfl⟩ := heq
  obtain ⟨ht, htn⟩ := Pedersen.validate_bounds p hv
  obtain ⟨hne, hnone, hsome, habs, polys, hpl, hpolys, hparts, hcomm⟩ :=
    Split_spec p P Q G H hf hv hc hbits secret a tape sh h
  obtain ⟨Pn, q, rfl, rfl, hPp, hqp, hG, hH, _, _⟩ := hf.casts
  haveI : Fact Pn.Prime := ⟨hPp⟩
  have hq0 : q ≠ 0 := hqp.pos.ne'
  -- the abscissae
  have hxs : sh.Abscissae.length = p.parts.toNat ∧
      ∀ i, i < p.parts.toNat → 0 ≤ abscissaAt sh.Abscissae i := by
    cases a with
    | none =>
      obtain ⟨xs, hxs, hl, _, hr⟩ := hnone rfl
      refine ⟨by rw [hxs]; simpa using hl, ?_⟩
      intro i hi
      rw [hxs, abscissaAt_map_some xs i (by omega), List.getD_eq_getElem xs 0 (by omega)]
      have := hr _ (List.getElem_mem (by omega : i < xs.length))
      omega
    | some l =>
      obtain ⟨h1, _⟩ := hsome l rfl
      obtain ⟨h2, h3⟩ := ha l rfl
      refine ⟨by rw [h1]; omega, ?_⟩
      intro i hi
      have hget := habs i hi
      have hmem : some (abscissaAt sh.Abscissae i) ∈ l := by
        rw [← h1]
        exact List.get?_mem hget
      obtain ⟨v, hv1, hv2⟩ := h3 _ hmem
      rw [Option.some.injEq] at hv1
      rw [hv1]
      exact hv2
  have hcl : sh.Commitments.length = polys.length := by rw [hcomm]; simp
  have hshape : sh.wellShaped p.parts.toNat p.threshold.toNat polys.length :=
    wellShaped_split _ _ (by omega) polys G H Pn q sh hxs.1 habs hparts hcomm
  have hm1 : 1 ≤ polys.length := by
    rw [hpl]
    exact chunksOf_length_pos secret q hne
  -- the parts
  have hkey : ∀ i j, i < p.parts.toNat → ∀ hj : j < polys.length,
      sh.partAt i j = partOf (polys.get ⟨j, hj⟩).1 (polys.get ⟨j, hj⟩).2 q
        (abscissaAt sh.Abscissae i) ∧
      (∀ c ∈ (polys.get ⟨j, hj⟩).1, 0 ≤ c) ∧ (∀ c ∈ (polys.get ⟨j, hj⟩).2, 0 ≤ c) ∧
      lhsValue Pn G H (sh.partAt i j) =
        ((List.range p.threshold.toNat).map (fun k =>
          ((commAt (sh.Commitments.getD j []) k : Int) : ZMod Pn) ^
            (abscissaAt sh.Abscissae i ^ k))).prod ∧
      ∀ k, k < p.threshold.toNat →
        ((commAt (sh.Commitments.getD j []) k : Int) : ZMod Pn) ^ q = 1 := by
    intro i j hi hj
    have hpart := partAt_split p.parts.toNat polys q sh.Abscissae sh hparts i j hi _
      (List.get?_eq_get hj)
    have hjc : j < (chunksOf secret q).length := by omega
    obtain ⟨h1, h2, h3, _, h5, h6⟩ := hpolys j _ _ (List.get?_eq_get hjc) (List.get?_eq_get hj)
    have hF : ∀ c ∈ (polys.get ⟨j, hj⟩).1, 0 ≤ c := by
      intro c hc2
      cases hFK : (polys.get ⟨j, hj⟩).1 with
      | nil => rw [hFK] at hc2; simp at hc2
      | cons c0 rest =>
        rw [hFK] at hc2 h3 h5
        simp only [List.head?_cons, Option.some.injEq] at h3
        rcases List.mem_cons.mp hc2 with e | e
        · rw [e, h3]; exact Int.natCast_nonneg _
        · exact (h5 c e).1
    have hK : ∀ c ∈ (polys.get ⟨j, hj⟩).2, 0 ≤ c := fun c hc2 => (h6 c hc2).1
    have hcd : sh.Commitments.getD j [] =
        commitmentsOf G H Pn (polys.get ⟨j, hj⟩).1 (polys.get ⟨j, hj⟩).2 p.threshold.toNat := by
      rw [List.getD_eq_getElem _ _ (by omega)]
      simp [hcomm]
    obtain ⟨e1, e2⟩ := verification_equation Pn q hq0 G H hG hH (polys.get ⟨j, hj⟩).1
      (polys.get ⟨j, hj⟩).2 p.threshold.toNat h1 h2 hF hK (abscissaAt sh.Abscissae i)
      (hxs.2 i hi)
    rw [hcd, hpart]
    exact ⟨rfl, hF, hK, e1, e2⟩
  constructor
  · intro i j hi hj
    have hi2 : i < p.parts.toNat := by omega
    have hj2 : j < polys.length := by omega
    obtain ⟨h1, hF, hK, h2, _⟩ := hkey i j hi2 hj2
    have hx := hxs.2 i hi2
    have hS := evalValue_nonneg (polys.get ⟨j, hj2⟩).1 q _ hx hF
    have hT := evalValue_nonneg (polys.get ⟨j, hj2⟩).2 q _ hx hK
    refine ⟨_, _, abscissaAt sh.Abscissae i, h1, habs i hi2, hS, hT, hx, ?_⟩
    apply (ZMod.intCast_eq_intCast_iff _ _ Pn).1
    rw [cast_commitmentProduct Pn _ _ hx, ← h2, h1]
    unfold lhsValue partOf
    simp only [Option.getD_some]
    push_cast
    have e1 : ∀ z : Int, 0 ≤ z → z.toNat = z.natAbs := by
      intro z hz; omega
    rw [e1 _ hS, e1 _ hT]
  · apply (VerifyShares_spec p Pn q G H hf hv hc sh polys.length hm1 hshape).1
    intro i j hi hj
    right
    obtain ⟨_, _, _, h2, h3⟩ := hkey i j hi hj
    simp only [Int.toNat_ofNat]
    rw [rhsValue_eq Pn q hq0 _ _ _ (by omega) h3]
    exact h2

/-- C2, witness: the shares of the examples, drawn with random abscissae. -/
theorem C2_commitments_verify_witness :
    (∀ i j : Nat, (i : Int) < testPedersen.parts → j < testShares.Commitments.length →
      ∃ S T x : Int, testShares.partAt i j = { SShare := some S, TShare := some T } ∧
        testShares.Abscissae.get? i = some (some x) ∧ 0 ≤ S ∧ 0 ≤ T ∧ 0 ≤ x ∧
        (8414335786771157015 : Int) ^ S.toNat * (15078279289296123424 : Int) ^ T.toNat ≡
          commitmentProduct (testShares.Commitments.getD j []) x testPedersen.threshold.toNat
            [ZMOD 17634709279010524619]) ∧
    testPedersen.VerifyShares (some testShares) = .ok () :=
  C2_commitments_verify testPedersen 17634709279010524619 8817354639505262309 8414335786771157015
    15078279289296123424 testGroup_validate rfl testGroup_bitsQ testPedersen_validate (by decide)
    testSecret none (fun l hl => by simp at hl) testTape testShares testSplit_random

end pedersen

namespace pedersen

open big

/-! ## Claim C3: tampered shares are detected -/

/-- C3, counterexample. On the shares of the examples, which `VerifyShares`
accepts, replacing the SShare 1108101562423 of shareholder 0 for chunk 0 by
-1108101562423, which differs from it by an amount that Q does not divide,
gives shares that `VerifyShares` still accepts: the exponentiation of `commit`
takes the magnitude of its exponent. -/
theorem C3_negated_share_accepted :
    testPedersen.VerifyShares (some testShares) = .ok () ∧
    testShares.partAt 0 0 = { SShare := some 1108101562423, TShare := some 76 } ∧
    ¬ (8817354639505262309 : Int) ∣ (-1108101562423 - 1108101562423) ∧
    testPedersen.VerifyShares (some (testShares.setPart 0 0
      { SShare := some (-1108101562423), TShare := some 76 })) = .ok () :=
  ⟨testShares_verified, by decide, by decide, negatedShares_verified⟩

/-- C3, amended. For every validated group and every Shares on which
`VerifyShares` returns nil, replacing the SShare (or the TShare) of any one
non-empty part by a value whose magnitude differs from the magnitude of the
share by an amount not divisible by Q (for example +1 on a non-negative share)
makes `VerifyShares` return ErrWrongSecretPart. -/
theorem C3_tamper_detected (p : Pedersen) (Q : Int) (hg : p.group.validate = .ok ())
    (hQ : p.group.Q = some Q) (hv : p.validate = .ok ()) (hc : 1 ≤ p.concLimit) (sh : Shares)
    (hok : p.VerifyShares (some sh) = .ok ()) (i j : Nat) (S T : Int)
    (hpart : sh.partAt i j = { SShare := some S, TShare := some T }) (v : Int) :
    (¬ Q ∣ (|v| - |S|) →
      p.VerifyShares (some (sh.setPart i j { SShare := some v, TShare := some T })) =
        .error Err.ErrWrongSecretPart) ∧
    (¬ Q ∣ (|v| - |T|) →
      p.VerifyShares (some (sh.setPart i j { SShare := some S, TShare := some v })) =
        .error Err.ErrWrongSecretPart) := by
  obtain ⟨P, G, H, hf⟩ := GroupFacts.of_validate p.group Q hg hQ
  obtain ⟨Pn, q, hP, hq, hPp, hqp, hG, hH, hG1, hH1⟩ := hf.casts
  subst hP
  subst hq
  haveI : Fact Pn.Prime := ⟨hPp⟩
  have hne : sh.partAt i j ≠ SecretPart.empty := by
    rw [hpart]
    intro e
    have := congrArg SecretPart.SShare e
    simp [SecretPart.empty] at this
  constructor
  · intro hdiff
    apply VerifyShares_setPart p Pn q G H hf hv hc sh hok i j hne _ (by simp) (by simp)
    rw [hpart]
    simp only [Int.toNat_ofNat]
    exact lhsValue_ne_SShare Pn q hqp G H hG hG1 hH S T v hdiff
  · intro hdiff
    apply VerifyShares_setPart p Pn q G H hf hv hc sh hok i j hne _ (by simp) (by simp)
    rw [hpart]
    simp only [Int.toNat_ofNat]
    exact lhsValue_ne_TShare Pn q hqp G H hG hH hH1 S T v hdiff

/-- C3, witness: adding 1 to the SShare, or to the TShare, of shareholder 0
for chunk 0 of the shares of the examples. -/
theorem C3_tamper_detected_witness :
    testPedersen.VerifyShares (some (testShares.setPart 0 0
      { SShare := some 1108101562424, TShare := some 76 })) = .error Err.ErrWrongSecretPart ∧
    testPedersen.VerifyShares (some (testShares.setPart 0 0
      { SShare := some 1108101562423, TShare := some 77 })) = .error Err.ErrWrongSecretPart :=
  ⟨(C3_tamper_detected testPedersen 8817354639505262309 testGroup_validate rfl
      testPedersen_validate (by decide) testShares testShares_verified 0 0 1108101562423 76
      (by decide) 1108101562424).1 (by decide),
    (C3_tamper_detected testPedersen 8817354639505262309 testGroup_validate rfl
      testPedersen_validate (by decide) testShares testShares_verified 0 0 1108101562423 76
      (by decide) 77).2 (by decide)⟩

end pedersen

namespace pedersen

open big

/-! ## Claims C4 and C5: padding and chunking round trips -/

/-- C4, counterexample. On the empty slice `bigIntPadding` does not return:
`SetBytes` takes the address of `buf[0]` and panics, so unpadding the padding
of the empty slice does not give back the empty slice. -/
theorem C4_empty_slice_panics :
    bigIntPadding ([] : List Byte) = .error Err.panicIndexOutOfRange ∧
      (bigIntPadding ([] : List Byte) >>= bigIntUnpadding) ≠ .ok [] := by
  constructor <;> decide

/-- C4, amended. For every non-empty byte slice c with fewer than 2^32 leading
zero bytes (so for every non-empty chunk of at most partLen bytes), slices that
begin with or consist only of zero bytes included,
`bigIntUnpadding(bigIntPadding(c))` returns exactly c. -/
theorem C4_unpadding_padding (c : List Byte) (hne : c ≠ []) (hz : leadingZeros c < 2 ^ 32) :
    (bigIntPadding c >>= bigIntUnpadding) = .ok c := by
  rw [bigIntPadding_eq c hne hz]
  exact unpad_padValue c hz

/-- C4, witness: a chunk with two leading zero bytes. -/
theorem C4_unpadding_padding_witness :
    (bigIntPadding [0, 0, 1, 2] >>= bigIntUnpadding) = .ok [0, 0, 1, 2] :=
  C4_unpadding_padding [0, 0, 1, 2] (by decide) (by decide)

/-- C5. Chunking is lossless: for every byte string v and every modulus max
(whose bit length fits the C int that `BN_num_bits` returns), `splitSecret`
returns integers, and unpadding each of them in order and concatenating the
results yields exactly v. -/
theorem C5_chunking_lossless (v : List Byte) (max : Int) (hmax : BitLen max < 2 ^ 31) :
    (splitSecret v max >>= fun ns => unpadLoop ns []) = .ok v := by
  rw [splitSecret_eq v max hmax]
  have h : ∀ c ∈ chunksOf v max, leadingZeros c < 2 ^ 32 := by
    intro c hc
    have h1 := mem_chunksFrom_length v _ _ _ c hc
    have h2 := leadingZeros_le_length c
    have h3 := partLenOf_lt max hmax
    omega
  show unpadLoop _ [] = _
  rw [unpadLoop_padValue _ _ h, join_chunksOf]
  rfl

set_option maxRecDepth 100000 in
/-- C5, witness: an eleven-byte secret chunked for the order of the test group. -/
theorem C5_chunking_lossless_witness :
    (splitSecret [0, 0, 1, 2, 3, 4, 5, 6, 7, 0, 8] 8817354639505262309 >>=
      fun ns => unpadLoop ns []) = .ok [0, 0, 1, 2, 3, 4, 5, 6, 7, 0, 8] :=
  C5_chunking_lossless [0, 0, 1, 2, 3, 4, 5, 6, 7, 0, 8] 8817354639505262309 (by decide)

end pedersen

namespace pedersen

open big

/-! ## Claim C6: the bound of the padded chunks -/

/-- C6, failing input. The group `alignedGroup`, whose Q has 64 bits, is
accepted by validation, and `splitSecret` cuts chunks of 64 / 8 - 4 = 4 bytes
for it: the secret of four bytes 255 pads to 0xFFFFFFFF00000000, which is not
smaller than Q, and `Split` fails with ErrInvalidPrimeSize. -/
theorem C6_chunk_not_below_Q :
    alignedGroup.validate = .ok () ∧ alignedPedersen.validate = .ok () ∧
    alignedSecret ≠ [] ∧
    splitSecret alignedSecret 17634709279010524619 = .ok [18446744069414584320] ∧
    ¬ ((18446744069414584320 : Int) < 17634709279010524619) ∧
    alignedPedersen.Split alignedSecret none [5, 6, 7] = (none, some Err.ErrInvalidPrimeSize) :=
  ⟨alignedGroup_validate, by decide, by decide, alignedSecret_chunks, by decide,
    alignedSplit_fails⟩

end pedersen

namespace pedersen

open big

/-! ## Claim C7: interpolation recovers the intercept -/

/-- C7. For every prime q, every polynomial F with t >= 1 coefficients in
`[0, q)` (degree at most t-1) and every t pairwise distinct points x_i in
`(0, q)`, `evaluate` returns a value at every point and
`interpolatePolynomial(xs, [F.evaluate(x_i)], 0, q)` returns coefficient 0 of F. -/
theorem C7_interpolation_recovers_intercept (q : Nat) (hq : q.Prime) (cs xs : List Int)
    (hne : cs ≠ []) (hcs : ∀ c ∈ cs, 0 ≤ c ∧ c < q) (hxs : ∀ x ∈ xs, 0 < x ∧ x < q)
    (hnd : xs.Nodup) (hlen : xs.length = cs.length) :
    ∃ ys, mapE (fun x => polynomial.evaluate { coefficients := cs.map some, order := q } x) xs
        = .ok ys ∧
      interpolatePolynomial xs ys 0 (q : Int) = .ok (cs.headD 0) := by
  haveI : Fact q.Prime := ⟨hq⟩
  have hq0 : (q : Int) ≠ 0 := by
    have := hq.two_le
    omega
  refine ⟨xs.map (evalValue cs q), ?_, ?_⟩
  · exact mapE_map_ok _ _ _ (fun x _ => evaluate_eq cs q x hne hq0)
  · obtain ⟨r, hr, hcast, hrange⟩ := interpolate_recovers q cs xs (xs.map (evalValue cs q))
      (by simp) (by omega)
      (by
        intro i j hi hj h
        have hi' := hxs _ (List.get_mem xs i hi)
        have hj' := hxs _ (List.get_mem xs j hj)
        have e := cast_inj_of_range q _ _ ⟨by omega, hi'.2⟩ ⟨by omega, hj'.2⟩ h
        have := (List.Nodup.get_inj_iff hnd).1 e
        simpa using this)
      (by
        intro i hi
        have hi2 : i < (xs.map (evalValue cs q)).length := by simpa using hi
        rw [List.getD_eq_getElem _ _ hi2]
        simp only [List.getElem_map]
        exact cast_evalValue q cs _)
    have hr2 := hrange (fun x hx => by have := hxs x hx; omega)
      (by
        intro y hy
        obtain ⟨x, hx, rfl⟩ := List.mem_map.mp hy
        exact evalValue_nonneg cs q x (by have := hxs x hx; omega) (fun c hc => (hcs c hc).1))
    have hc0 : 0 ≤ cs.headD 0 ∧ cs.headD 0 < q := by
      cases cs with
      | nil => exact absurd rfl hne
      | cons c cs => exact hcs c (List.mem_cons_self _ _)
    rw [hr, cast_inj_of_range q r _ hr2 hc0 hcast]

/-- C7, witness: the polynomial 3 + 5x modulo 7, sampled at 1 and 2. -/
theorem C7_interpolation_recovers_intercept_witness :
    ∃ ys, mapE (fun x => polynomial.evaluate
        { coefficients := ([3, 5] : List Int).map some, order := ((7 : Nat) : Int) } x) [1, 2]
        = .ok ys ∧
      interpolatePolynomial [1, 2] ys 0 ((7 : Nat) : Int) = .ok (([3, 5] : List Int).headD 0) :=
  C7_interpolation_recovers_intercept 7 (by norm_num) [3, 5] [1, 2] (by decide) (by decide)
    (by decide) (by decide) (by decide)

end pedersen

namespace pedersen

open big

/-! ## Claim C8: perfect hiding below the threshold -/

/-- C8. Perfect hiding below the threshold: for every prime Q, every t-1
pairwise distinct abscissae in [1, Q), every two chunk values s and s2 below Q
and every choice of the t-1 random coefficients of F used when splitting s,
there is exactly one choice of t-1 coefficients for s2 for which the
polynomial that `newPolynomial` builds evaluates to the same SShare values at
those t-1 abscissae (whatever the number of coefficients of F). -/
theorem C8_perfect_hiding (q : Nat) (hq : q.Prime) (xs : List Int) (hnd : xs.Nodup)
    (hx : ∀ x ∈ xs, 1 ≤ x ∧ x < q) (s s2 : Int) (hs : 0 ≤ s ∧ s < q) (hs2 : 0 ≤ s2 ∧ s2 < q)
    (cs : List Int) (hcs : ∀ c ∈ cs, 0 ≤ c ∧ c < q) :
    ∃! cs2 : List Int, cs2.length = xs.length ∧ (∀ c ∈ cs2, 0 ≤ c ∧ c < q) ∧
      ∃ F F2 : polynomial,
        newPolynomial (some s) (cs.length : Int) q (cs.map Int.toNat) = .ok (F, []) ∧
        newPolynomial (some s2) (cs2.length : Int) q (cs2.map Int.toNat) = .ok (F2, []) ∧
        ∀ x ∈ xs, F2.evaluate x = F.evaluate x := by
  haveI : Fact q.Prime := ⟨hq⟩
  have hq0 : (0 : Int) < q := by
    have := hq.pos
    omega
  -- the nodes
  have hv0 : ∀ x ∈ xs, ((x : Int) : ZMod q) ≠ 0 := by
    intro x hxm h0
    have h1 := hx x hxm
    have := cast_inj_of_range q x 0 ⟨by omega, h1.2⟩ ⟨le_refl _, hq0⟩ (by rw [h0]; simp)
    omega
  have hinj : Function.Injective (fun i : Fin xs.length => ((xs.get i : Int) : ZMod q)) := by
    intro i j hij
    have hi := hx _ (List.get_mem xs i.val i.isLt)
    have hj := hx _ (List.get_mem xs j.val j.isLt)
    have := cast_inj_of_range q _ _ ⟨by omega, hi.2⟩ ⟨by omega, hj.2⟩ hij
    exact (List.Nodup.get_inj_iff hnd).1 this
  -- what the condition on the shares says about the polynomial of the coefficients
  have hcond : ∀ cs3 : List Int, (∀ c ∈ cs3, 0 ≤ c ∧ c < q) → ∀ x ∈ xs,
      (polynomial.evaluate { coefficients := (s2 :: cs3).map some, order := q } x =
        polynomial.evaluate { coefficients := (s :: cs).map some, order := q } x ↔
      Polynomial.eval ((x : Int) : ZMod q)
        (cs3.foldr (fun c acc => Polynomial.C ((c : Int) : ZMod q) + Polynomial.X * acc) 0) =
        Polynomial.eval ((x : Int) : ZMod q)
          (cs.foldr (fun c acc => Polynomial.C ((c : Int) : ZMod q) + Polynomial.X * acc) 0) +
          (((s : Int) : ZMod q) - ((s2 : Int) : ZMod q)) * ((x : Int) : ZMod q)⁻¹) := by
    intro cs3 hcs3 x hxm
    have hnn3 : ∀ c ∈ s2 :: cs3, 0 ≤ c := by
      intro c hc
      rcases List.mem_cons.mp hc with e | e
      · rw [e]; exact hs2.1
      · exact (hcs3 c e).1
    have hnn1 : ∀ c ∈ s :: cs, 0 ≤ c := by
      intro c hc
      rcases List.mem_cons.mp hc with e | e
      · rw [e]; exact hs.1
      · exact (hcs c e).1
    rw [evaluate_eq_iff q hq.pos (s :: cs) (s2 :: cs3) (by simp) (by simp) hnn1 hnn3 x
      (hx x hxm).1]
    simp only [hornerSum]
    push_cast
    rw [← eval_foldr q x cs3, ← eval_foldr q x cs]
    have hne := hv0 x hxm
    generalize Polynomial.eval ((x : Int) : ZMod q)
      (cs3.foldr (fun c acc => Polynomial.C ((c : Int) : ZMod q) + Polynomial.X * acc) 0) = A
    generalize Polynomial.eval ((x : Int) : ZMod q)
      (cs.foldr (fun c acc => Polynomial.C ((c : Int) : ZMod q) + Polynomial.X * acc) 0) = B
    generalize ((x : Int) : ZMod q) = v at hne ⊢
    constructor
    · intro h
      field_simp
      linear_combination h
    · intro h
      rw [h]
      field_simp
      ring
  -- the interpolant
  obtain ⟨r, hr⟩ : ∃ r : Fin xs.length → ZMod q, r = fun i =>
      Polynomial.eval ((xs.get i : Int) : ZMod q)
          (cs.foldr (fun c acc => Polynomial.C ((c : Int) : ZMod q) + Polynomial.X * acc) 0) +
        (((s : Int) : ZMod q) - ((s2 : Int) : ZMod q)) * ((xs.get i : Int) : ZMod q)⁻¹ :=
    ⟨_, rfl⟩
  have hnode : ∀ i : Fin xs.length, Polynomial.eval ((xs.get i : Int) : ZMod q)
      ((Lagrange.interpolate Finset.univ (fun i : Fin xs.length => ((xs.get i : Int) : ZMod q)))
        r) = r i := fun i =>
    Lagrange.eval_interpolate_at_node (s := Finset.univ)
      (v := fun i : Fin xs.length => ((xs.get i : Int) : ZMod q)) r hinj.injOn
      (Finset.mem_univ i)
  obtain ⟨cs2, hl2, hr2, hp2⟩ := exists_list_of_polynomial q xs.length
    ((Lagrange.interpolate Finset.univ (fun i : Fin xs.length => ((xs.get i : Int) : ZMod q)))
      r)
    (by
      have := Lagrange.degree_interpolate_lt (s := Finset.univ)
        (v := fun i : Fin xs.length => ((xs.get i : Int) : ZMod q)) r hinj.injOn
      simpa using this)
  refine ⟨cs2, ⟨hl2, hr2, _, _, newPolynomial_of_tape s q hq0 cs hcs,
    newPolynomial_of_tape s2 q hq0 cs2 hr2, ?_⟩, ?_⟩
  · intro x hxm
    rw [hcond cs2 hr2 x hxm, hp2]
    obtain ⟨i, hi⟩ := List.mem_iff_get.mp hxm
    rw [← hi, hnode i, hr]
  · rintro cs3 ⟨hl3, hr3, F, F3, hF, hF3, hev⟩
    rw [newPolynomial_of_tape s q hq0 cs hcs] at hF
    rw [newPolynomial_of_tape s2 q hq0 cs3 hr3] at hF3
    simp only [Except.ok.injEq, Prod.mk.injEq, and_true] at hF hF3
    subst hF
    subst hF3
    apply list_eq_of_foldr_eq q cs3 cs2 (by omega) hr3 hr2
    apply Polynomial.eq_of_degrees_lt_of_eval_index_eq (Finset.univ : Finset (Fin xs.length))
      (v := fun i : Fin xs.length => ((xs.get i : Int) : ZMod q)) hinj.injOn
    · have := degree_foldr q cs3
      rw [hl3] at this
      simpa using this
    · have := degree_foldr q cs2
      rw [hl2] at this
      simpa using this
    · intro i _
      have hxm : xs.get i ∈ xs := List.get_mem xs i.val i.isLt
      have e3 := (hcond cs3 hr3 _ hxm).1 (hev _ hxm)
      rw [e3, hp2, hnode i, hr]

/-- C8, witness: threshold 3 modulo 7, the abscissae 1 and 2, the secrets 3
and 5, the coefficients 1 and 2. -/
theorem C8_perfect_hiding_witness :
    ∃! cs2 : List Int, cs2.length = [(1 : Int), 2].length ∧
      (∀ c ∈ cs2, 0 ≤ c ∧ c < ((7 : Nat) : Int)) ∧
      ∃ F F2 : polynomial,
        newPolynomial (some 3) (([(1 : Int), 2].length : Nat) : Int) ((7 : Nat) : Int)
          ([(1 : Int), 2].map Int.toNat) = .ok (F, []) ∧
        newPolynomial (some 5) (cs2.length : Int) ((7 : Nat) : Int) (cs2.map Int.toNat) =
          .ok (F2, []) ∧
        ∀ x ∈ [(1 : Int), 2], F2.evaluate x = F.evaluate x :=
  C8_perfect_hiding 7 (by norm_num) [1, 2] (by decide) (by decide) 3 5 (by decide) (by decide)
    [1, 2] (by decide)

end pedersen

namespace pedersen

open big

/-! ## Claims C9 and C10: the shape of the result of Split -/

/-- C9. Whenever `Split` returns Shares for a secret that chunks into m
integers, Parts has exactly n rows each of length m, every part has both SShare
and TShare set, Commitments has exactly m rows each of exactly t non-nil
entries; and whenever `Split` returns an error the returned Shares is nil. -/
theorem C9_split_shape (p : Pedersen) (Q : Int) (hg : p.group.validate = .ok ())
    (hQ : p.group.Q = some Q) (hbits : BitLen Q < 2 ^ 31) (hv : p.validate = .ok ())
    (hc : 1 ≤ p.concLimit) (secret : List Byte) (a : Option (List (Option Int))) (tape : Tape) :
    (∀ sh, p.Split secret a tape = (some sh, none) →
      ∃ splitted, splitSecret secret Q = .ok splitted ∧
        (sh.Parts.length : Int) = p.parts ∧
        (∀ row ∈ sh.Parts, row.length = splitted.length ∧
          ∀ part ∈ row, part.SShare ≠ none ∧ part.TShare ≠ none) ∧
        sh.Commitments.length = splitted.length ∧
        (∀ row ∈ sh.Commitments, (row.length : Int) = p.threshold ∧ ∀ c ∈ row, c ≠ none)) ∧
    (∀ e, (p.Split secret a tape).2 = some e → (p.Split secret a tape).1 = none) := by
  constructor
  · intro sh h
    obtain ⟨P, G, H, hf⟩ := GroupFacts.of_validate p.group Q hg hQ
    obtain ⟨ht, htn⟩ := Pedersen.validate_bounds p hv
    obtain ⟨_, _, _, _, polys, hpl, _, hparts, hcomm⟩ :=
      Split_spec p P Q G H hf hv hc hbits secret a tape sh h
    refine ⟨_, splitSecret_eq secret Q hbits, ?_, ?_, ?_, ?_⟩
    · rw [hparts]
      simp only [List.length_map, List.length_range]
      omega
    · intro row hrow
      rw [hparts] at hrow
      obtain ⟨i, _, rfl⟩ := List.mem_map.mp hrow
      refine ⟨by simp [hpl], ?_⟩
      intro part hpart
      obtain ⟨FK, _, rfl⟩ := List.mem_map.mp hpart
      simp [partOf]
    · rw [hcomm]
      simp [hpl]
    · intro row hrow
      rw [hcomm] at hrow
      obtain ⟨FK, _, rfl⟩ := List.mem_map.mp hrow
      refine ⟨?_, fun c hc => mem_commitmentsOf_ne_none _ _ _ _ _ _ c hc⟩
      rw [length_commitmentsOf]
      omega
  · intro e h
    unfold Pedersen.Split at h ⊢
    by_cases hs : secret.length = 0
    · simp [hs]
    · rw [if_neg hs] at h ⊢
      cases hcore : p.splitCore secret a tape with
      | error err => rfl
      | ok sh => rw [hcore] at h; simp at h

/-- C9, witness: the two-chunk secret of the examples split among three
shareholders with threshold two. -/
theorem C9_split_shape_witness :
    ∃ splitted, splitSecret testSecret 8817354639505262309 = .ok splitted ∧
      (testShares.Parts.length : Int) = testPedersen.parts ∧
      (∀ row ∈ testShares.Parts, row.length = splitted.length ∧
        ∀ part ∈ row, part.SShare ≠ none ∧ part.TShare ≠ none) ∧
      testShares.Commitments.length = splitted.length ∧
      (∀ row ∈ testShares.Commitments,
        (row.length : Int) = testPedersen.threshold ∧ ∀ c ∈ row, c ≠ none) :=
  (C9_split_shape testPedersen 8817354639505262309 testGroup_validate rfl testGroup_bitsQ
    testPedersen_validate (by decide) testSecret none testTape).1 testShares testSplit_random

/-- C10, counterexample. Abscissae taken from the caller are returned as they
are: with four abscissae 0, 0, 7, 7 for three shareholders `Split` returns
Shares whose Abscissae has four entries, not three, that repeat and include 0,
and `validateShares` rejects the result. -/
theorem C10_caller_abscissae_kept :
    testPedersen.Split testSecret (some repeatedAbscissae) [9, 10, 11, 12, 13, 14] =
      (some repeatedShares, none) ∧
    (repeatedShares.Abscissae.length : Int) ≠ testPedersen.parts ∧
    ¬ repeatedShares.Abscissae.Nodup ∧ some 0 ∈ repeatedShares.Abscissae ∧
    testPedersen.validateShares (some repeatedShares) = .error Err.ErrInsufficientAbscissae :=
  ⟨testSplit_repeated, by decide, by decide, by decide, repeatedShares_rejected⟩

/-- C10, amended. For every Shares returned by `Split`: when abscissae is nil,
Abscissae has exactly n entries, all non-nil, pairwise distinct and strictly
greater than 0; when the caller gives abscissae, Abscissae is the list of the
caller, unchanged, which has at least n entries, the first n of them non-nil;
and the result is accepted by `validateShares` when abscissae is nil or a list
of exactly n entries. -/
theorem C10_split_abscissae (p : Pedersen) (Q : Int) (hg : p.group.validate = .ok ())
    (hQ : p.group.Q = some Q) (hbits : BitLen Q < 2 ^ 31) (hv : p.validate = .ok ())
    (hc : 1 ≤ p.concLimit) (secret : List Byte) (a : Option (List (Option Int))) (tape : Tape)
    (sh : Shares) (h : p.Split secret a tape = (some sh, none)) :
    (a = none → (sh.Abscissae.length : Int) = p.parts ∧ sh.Abscissae.Nodup ∧
      ∀ x ∈ sh.Abscissae, ∃ v : Int, x = some v ∧ 0 < v) ∧
    (∀ l : List (Option Int), a = some l → sh.Abscissae = l ∧ p.parts ≤ (l.length : Int) ∧
      ∀ i : Nat, (i : Int) < p.parts → ∃ v : Int, l.get? i = some (some v)) ∧
    ((a = none ∨ ∃ l, a = some l ∧ (l.length : Int) = p.parts) →
      p.validateShares (some sh) = .ok ()) := by
  obtain ⟨P, G, H, hf⟩ := GroupFacts.of_validate p.group Q hg hQ
  obtain ⟨ht, htn⟩ := Pedersen.validate_bounds p hv
  obtain ⟨_, hnone, hsome, habs, polys, hpl, _, hparts, hcomm⟩ :=
    Split_spec p P Q G H hf hv hc hbits secret a tape sh h
  have hshape : sh.Abscissae.length = p.parts.toNat → p.validateShares (some sh) = .ok () := by
    intro hlen
    apply validateShares_of_wellShaped p sh p.parts.toNat p.threshold.toNat polys.length
      (by omega) (by omega) (by omega)
    exact wellShaped_split _ _ (by omega) polys G H P Q sh hlen habs hparts hcomm
  refine ⟨?_, ?_, ?_⟩
  · intro ha
    obtain ⟨xs, hxs, hl, hnd, hb⟩ := hnone ha
    refine ⟨by rw [hxs]; simp [hl]; omega, ?_, ?_⟩
    · rw [hxs]
      exact List.Nodup.map (fun _ _ e => Option.some.inj e) hnd
    · intro x hx
      rw [hxs] at hx
      obtain ⟨v, hv2, rfl⟩ := List.mem_map.mp hx
      exact ⟨v, rfl, by have := hb v hv2; omega⟩
  · intro l ha
    obtain ⟨h1, h2⟩ := hsome l ha
    refine ⟨h1, h2, ?_⟩
    intro i hi
    have := habs i (by omega)
    rw [h1] at this
    exact ⟨_, this⟩
  · intro hcase
    apply hshape
    rcases hcase with ha | ⟨l, ha, hl⟩
    · obtain ⟨xs, hxs, hl, _, _⟩ := hnone ha
      rw [hxs]; simp [hl]
    · obtain ⟨h1, _⟩ := hsome l ha
      rw [h1]; omega

/-- C10, witness: random abscissae drawn for the examples. -/
theorem C10_split_abscissae_witness :
    (none = (none : Option (List (Option Int))) →
      (testShares.Abscissae.length : Int) = testPedersen.parts ∧ testShares.Abscissae.Nodup ∧
      ∀ x ∈ testShares.Abscissae, ∃ v : Int, x = some v ∧ 0 < v) ∧
    (∀ l : List (Option Int), none = some l →
      testShares.Abscissae = l ∧ testPedersen.parts ≤ (l.length : Int) ∧
      ∀ i : Nat, (i : Int) < testPedersen.parts → ∃ v : Int, l.get? i = some (some v)) ∧
    ((none = (none : Option (List (Option Int))) ∨
        ∃ l : List (Option Int), none = some l ∧ (l.length : Int) = testPedersen.parts) →
      testPedersen.validateShares (some testShares) = .ok ()) :=
  C10_split_abscissae testPedersen 8817354639505262309 testGroup_validate rfl testGroup_bitsQ
    testPedersen_validate (by decide) testSecret none testTape testShares testSplit_random

end pedersen

namespace pedersen

open big

/-! ## Claim C11: the input errors of Split -/

/-- C11. Split input errors: `Split` returns ErrEmptySecret (and no Shares)
for every nil or empty secret whatever the abscissae, and returns
ErrInsufficientAbscissae (and no Shares) for every non-empty secret given a
non-nil abscissae list with fewer than n entries. -/
theorem C11_split_input_errors (p : Pedersen) :
    (∀ (a : Option (List (Option Int))) (tape : Tape),
      p.Split [] a tape = (none, some Err.ErrEmptySecret)) ∧
    (∀ (secret : List Byte) (l : List (Option Int)) (tape : Tape), secret ≠ [] →
      (l.length : Int) < p.parts →
      p.Split secret (some l) tape = (none, some Err.ErrInsufficientAbscissae)) := by
  constructor
  · intro a tape
    rfl
  · intro secret l tape hne hlt
    have hlen : secret.length ≠ 0 := fun h => hne (List.length_eq_zero.mp h)
    unfold Pedersen.Split
    rw [if_neg hlen]
    have : p.splitCore secret (some l) tape = .error Err.ErrInsufficientAbscissae := by
      unfold Pedersen.splitCore Pedersen.splitAbscissae
      simp only [hlt, if_true]
      rfl
    rw [this]

/-- C11, witness: two abscissae for the three shareholders of the examples. -/
theorem C11_split_input_errors_witness :
    testPedersen.Split testSecret (some [some 1, some 2]) testTape =
      (none, some Err.ErrInsufficientAbscissae) :=
  (C11_split_input_errors testPedersen).2 testSecret [some 1, some 2] testTape (by decide)
    (by decide)

end pedersen

namespace pedersen

open big

/-! ## Claim C12: the parameters of NewPedersen -/

/-- C12. NewPedersen parameter validation: given options that provide a group
that passes validation, `NewPedersen(parts, threshold)` fails with
ErrInvalidThreshold iff threshold < 2, fails with ErrInsufficientSharesParts
iff threshold >= 2 and parts < threshold, and otherwise succeeds with
GetParts() = parts and GetThreshold() = threshold (and that group). -/
theorem C12_new_pedersen_parameters (defaultConcLimit : Int)
    (GeneratePrime : Int → Bool → Except Err Int) (parts threshold : Int) (options : List Opt)
    (tape : Tape) (g : Group)
    (hsel : (configure defaultConcLimit parts threshold options).group = some g)
    (hg : g.validate = .ok ()) :
    (NewPedersen defaultConcLimit GeneratePrime parts threshold options tape =
        .error Err.ErrInvalidThreshold ↔ threshold < 2) ∧
    (NewPedersen defaultConcLimit GeneratePrime parts threshold options tape =
        .error Err.ErrInsufficientSharesParts ↔ 2 ≤ threshold ∧ parts < threshold) ∧
    (2 ≤ threshold → threshold ≤ parts →
      ∃ p : Pedersen, NewPedersen defaultConcLimit GeneratePrime parts threshold options tape =
          .ok (p, tape) ∧
        p.GetParts = parts ∧ p.GetThreshold = threshold ∧ p.GetGroup = g) := by
  have hfold : ∀ (l : List Opt) (d : pedersenDraft),
      (l.foldl (fun p o => o.apply defaultConcLimit p) d).threshold = d.threshold ∧
      (l.foldl (fun p o => o.apply defaultConcLimit p) d).parts = d.parts := by
    intro l
    induction l with
    | nil => intro d; exact ⟨rfl, rfl⟩
    | cons o l ih =>
      intro d
      rw [List.foldl_cons]
      obtain ⟨h1, h2⟩ := ih (o.apply defaultConcLimit d)
      rw [h1, h2]
      cases o <;> exact ⟨rfl, rfl⟩
  have hthr : (configure defaultConcLimit parts threshold options).threshold = threshold := by
    unfold configure
    simp only []
    rw [(hfold options _).1, (hfold _ _).1]
  have hpar : (configure defaultConcLimit parts threshold options).parts = parts := by
    unfold configure
    simp only []
    rw [(hfold options _).2, (hfold _ _).2]
  have hcomp : NewPedersen defaultConcLimit GeneratePrime parts threshold options tape =
      (if threshold < 2 then .error Err.ErrInvalidThreshold
        else if parts < threshold then .error Err.ErrInsufficientSharesParts
        else .ok ((⟨g, threshold, parts,
          (configure defaultConcLimit parts threshold options).concLimit⟩ : Pedersen), tape)) := by
    unfold NewPedersen resolveGroup
    simp only [hsel, hg, ok_bind, hthr, hpar, Pedersen.validate, minThreshold]
    by_cases h1 : threshold < 2
    · simp only [h1, if_true]
      rfl
    · by_cases h2 : parts < threshold
      · simp only [h1, h2, if_true, if_false]
        rfl
      · simp only [h1, h2, if_false]
        rfl
  rw [hcomp]
  refine ⟨?_, ?_, ?_⟩
  · constructor
    · intro h
      by_contra h1
      rw [if_neg h1] at h
      by_cases h2 : parts < threshold
      · rw [if_pos h2] at h; cases h
      · rw [if_neg h2] at h; cases h
    · intro h
      rw [if_pos h]
  · constructor
    · intro h
      by_cases h1 : threshold < 2
      · rw [if_pos h1] at h; cases h
      · rw [if_neg h1] at h
        by_cases h2 : parts < threshold
        · exact ⟨by omega, h2⟩
        · rw [if_neg h2] at h; cases h
    · intro h
      rw [if_neg (by omega), if_pos h.2]
  · intro h1 h2
    rw [if_neg (by omega), if_neg (by omega)]
    exact ⟨_, rfl, rfl, rfl, rfl⟩

/-- C12, witness: three parts with threshold two, and three parts with
threshold five, over the group of the test-suite. -/
theorem C12_new_pedersen_parameters_witness :
    (∃ p : Pedersen, NewPedersen 4 (fun _ _ => .error Err.ErrInvalidOptions) 3 2
        [Opt.CyclicGroup (some testGroup)] [] = .ok (p, []) ∧
      p.GetParts = 3 ∧ p.GetThreshold = 2 ∧ p.GetGroup = testGroup) ∧
    NewPedersen 4 (fun _ _ => .error Err.ErrInvalidOptions) 3 5
        [Opt.CyclicGroup (some testGroup)] [] = .error Err.ErrInsufficientSharesParts :=
  ⟨(C12_new_pedersen_parameters 4 (fun _ _ => .error Err.ErrInvalidOptions) 3 2
      [Opt.CyclicGroup (some testGroup)] [] testGroup rfl testGroup_validate).2.2
      (by decide) (by decide),
    (C12_new_pedersen_parameters 4 (fun _ _ => .error Err.ErrInvalidOptions) 3 5
      [Opt.CyclicGroup (some testGroup)] [] testGroup rfl testGroup_validate).2.1.2
      ⟨by decide, by decide⟩⟩

end pedersen

namespace pedersen

open big

/-! ## Claims C13 to C16: the shape validation and its use -/

/-- C13, failing input. For three shareholders and threshold two,
`validateShares` returns nil on the Shares `raggedShares`, which have no
commitments and a first row of parts of length 0, so no chunk, while the row
of shareholder 1 has length 1: the lengths of the rows are only compared inside
the loop over the chunks. -/
theorem C13_rows_unchecked_without_chunks :
    testPedersen.validateShares (some raggedShares) = .ok () ∧
    raggedShares.Commitments.length = 0 ∧
    ∃ row ∈ raggedShares.Parts, row.length ≠ raggedShares.Commitments.length :=
  ⟨raggedShares_accepted, rfl, [⟨some 1, some 1⟩], by decide, by decide⟩

/-- C14. Threshold enforcement: for every Shares that satisfies all other
shape rules (lengths, non-nil abscissae and commitments, complete non-empty
parts), if some chunk has fewer than t non-empty parts then both `Combine` and
`VerifyShares` return ErrInsufficientSharesParts, and `Combine` returns no
bytes. -/
theorem C14_threshold_enforced (p : Pedersen) (hv : p.validate = .ok ()) (s : Shares) (m : Nat)
    (hshape : s.shaped p.parts.toNat p.threshold.toNat m)
    (hthin : ∃ j, j < m ∧ s.nonEmptyCount j < p.threshold.toNat) :
    p.VerifyShares (some s) = .error Err.ErrInsufficientSharesParts ∧
    p.Combine (some s) = .error Err.ErrInsufficientSharesParts := by
  obtain ⟨ht, htn⟩ := Pedersen.validate_bounds p hv
  have h := validateShares_thin p s p.parts.toNat p.threshold.toNat m (by omega) (by omega)
    (by omega) hshape hthin
  exact ⟨VerifyShares_of_validateShares_error p _ _ h, Combine_of_validateShares_error p _ _ h⟩

/-- C14, witness: the shares of the examples with two of the three parts of
chunk 1 emptied, for threshold two. -/
theorem C14_threshold_enforced_witness :
    testPedersen.VerifyShares (some thinShares) = .error Err.ErrInsufficientSharesParts ∧
    testPedersen.Combine (some thinShares) = .error Err.ErrInsufficientSharesParts :=
  C14_threshold_enforced testPedersen testPedersen_validate thinShares 2
    (by unfold Shares.shaped; decide) ⟨1, by decide, by decide⟩

/-- C15. Nil abscissa rejection: for every non-nil Shares with |Abscissae| = n
and |Parts| = n in which at least one abscissa is nil, `VerifyShares` and
`Combine` return ErrNilAbscissa, whatever the parts and commitments contain. -/
theorem C15_nil_abscissa_rejected (p : Pedersen) (s : Shares)
    (ha : (s.Abscissae.length : Int) = p.parts) (hp : (s.Parts.length : Int) = p.parts)
    (hnil : none ∈ s.Abscissae) :
    p.VerifyShares (some s) = .error Err.ErrNilAbscissa ∧
    p.Combine (some s) = .error Err.ErrNilAbscissa := by
  have h := validateShares_nilAbscissa p s ha hp hnil
  exact ⟨VerifyShares_of_validateShares_error p _ _ h, Combine_of_validateShares_error p _ _ h⟩

/-- C15, witness: the shares of the examples with the abscissa of shareholder
1 nil. -/
theorem C15_nil_abscissa_rejected_witness :
    testPedersen.VerifyShares (some nilAbscissaShares) = .error Err.ErrNilAbscissa ∧
    testPedersen.Combine (some nilAbscissaShares) = .error Err.ErrNilAbscissa :=
  C15_nil_abscissa_rejected testPedersen nilAbscissaShares (by decide) (by decide) (by decide)

/-- C16. Emptying parts preserves verification: for every Shares on which
`VerifyShares` returns nil, every Shares obtained by replacing some parts with
the empty SecretPart while keeping at least t non-empty parts in every chunk
also makes `VerifyShares` return nil. -/
theorem C16_emptying_preserves_verification (p : Pedersen) (hg : p.group.validate = .ok ())
    (hv : p.validate = .ok ()) (hc : 1 ≤ p.concLimit) (sh sh2 : Shares)
    (hok : p.VerifyShares (some sh) = .ok ()) (he : sh.emptiedFrom sh2)
    (hcount : ∀ j, j < sh.Commitments.length → p.threshold ≤ (sh2.nonEmptyCount j : Int)) :
    p.VerifyShares (some sh2) = .ok () := by
  obtain ⟨P, Q, G, H, hf⟩ := Group.validate_ok p.group hg
  obtain ⟨m, hm, hshape, hall⟩ := VerifyShares_ok p P Q G H hf hv hc sh hok
  have hcl : sh.Commitments.length = m := hshape.2.2.2.2.1
  have hshape2 := wellShaped_emptied sh sh2 _ _ m hshape he
    (by
      intro j hj
      have := hcount j (by omega)
      omega)
  obtain ⟨_, _, hpart2⟩ := he.partAt m (fun row hrow => (hshape.2.2.2.1 row hrow).1)
  apply (VerifyShares_spec p P Q G H hf hv hc sh2 m hm hshape2).1
  intro i j hi hj
  have hpl : sh.Parts.length = p.parts.toNat := hshape.2.2.1
  unfold Shares.partVerifies
  rcases hpart2 i j (by omega) hj with h | h
  · rw [h, he.1, he.2.1]
    exact hall i j hi hj
  · exact Or.inl h

/-- C16, witness: the shares of the examples with one part of every chunk
emptied. -/
theorem C16_emptying_preserves_verification_witness :
    testPedersen.VerifyShares (some testSharesEmptied) = .ok () :=
  C16_emptying_preserves_verification testPedersen testGroup_validate testPedersen_validate
    (by decide) testShares testSharesEmptied testShares_verified
    ⟨rfl, rfl, by
      unfold testShares testSharesEmptied SecretPart.empty
      simp⟩
    (by decide)

end pedersen

namespace pedersen

open big

/-! ## Claim C17: the verification equation -/

/-- C17, counterexample. For threshold three over the group of the
test-suite, the abscissa 3000000000, the part (1, 0) and the three non-nil
commitments G, 1, P - 1, the equation g^s * h^t = prod_k c_k^(x^k) (mod p)
holds, and `Verify` returns ErrWrongSecretPart: it raises P - 1 to the square
of the abscissa reduced modulo Q, which is odd, while the square is even. -/
theorem C17_equation_holds_verify_fails :
    threePedersen.group.validate = .ok () ∧ threePedersen.validate = .ok () ∧
    (looseCommitments.length : Int) = threePedersen.threshold ∧
    (∀ c ∈ looseCommitments, c ≠ none) ∧
    ((8414335786771157015 : Int) ^ (1 : Int).toNat *
        (15078279289296123424 : Int) ^ (0 : Int).toNat ≡
      commitmentProduct looseCommitments 3000000000 3 [ZMOD 17634709279010524619]) ∧
    threePedersen.Verify (some 3000000000) { SShare := some 1, TShare := some 0 }
      looseCommitments = .error Err.ErrWrongSecretPart :=
  ⟨testGroup_validate, by decide, by decide, by decide, looseCommitments_equation,
    looseCommitments_rejected⟩

/-- C17, amended. For every validated group and scheme, every non-nil abscissa
x, every part (s, t) with both fields set and every list of exactly
`threshold` non-nil commitments c_0..c_{t-1}, `Verify` returns nil iff
g^|s| * h^|t| = prod_k c_k^(x^k mod Q) (mod p), and returns ErrWrongSecretPart
otherwise; for non-negative s, t and x and commitments c_1..c_{t-1} whose
Q-th power is 1 modulo p, this is the equation
g^s * h^t = prod_k c_k^(x^k) (mod p). -/
theorem C17_verification_equation (p : Pedersen) (P Q G H : Int)
    (hg : p.group.validate = .ok ())
    (hgrp : p.group = { P := some P, Q := some Q, G := some G, H := some H })
    (hv : p.validate = .ok ()) (x s t : Int) (comms : List (Option Int))
    (hcl : (comms.length : Int) = p.threshold) (hnn : ∀ c ∈ comms, c ≠ none) :
    (p.Verify (some x) { SShare := some s, TShare := some t } comms = .ok () ↔
      verifyLhs G H s t ≡ verifyRhs comms x Q p.threshold.toNat [ZMOD P]) ∧
    (¬ (verifyLhs G H s t ≡ verifyRhs comms x Q p.threshold.toNat [ZMOD P]) →
      p.Verify (some x) { SShare := some s, TShare := some t } comms =
        .error Err.ErrWrongSecretPart) ∧
    (0 ≤ s → 0 ≤ t → 0 ≤ x →
      (∀ k, 1 ≤ k → k < p.threshold.toNat → commAt comms k ^ Q.toNat ≡ 1 [ZMOD P]) →
      (verifyLhs G H s t ≡ verifyRhs comms x Q p.threshold.toNat [ZMOD P] ↔
        G ^ s.toNat * H ^ t.toNat ≡ commitmentProduct comms x p.threshold.toNat [ZMOD P])) := by
  obtain ⟨P2, Q2, G2, H2, hf⟩ := Group.validate_ok p.group hg
  have heq := hf.eq
  rw [hgrp] at heq
  simp only [Group.mk.injEq, Option.some.injEq] at heq
  obtain ⟨rfl, rfl, rfl, rfl⟩ := heq
  obtain ⟨ht, _⟩ := Pedersen.validate_bounds p hv
  have hodd := hf.P_odd
  obtain ⟨Pn, q, rfl, rfl, hPp, hqp, _, _, _, _⟩ := hf.casts
  haveI : Fact Pn.Prime := ⟨hPp⟩
  have hq2 := hqp.two_le
  have hspec := verifyWithContext_spec p Pn q G H hPp hodd hgrp ht
    (vandermondeOf x q p.threshold.toNat) (length_vandermondeOf _ _ _ (by omega))
    { SShare := some s, TShare := some t } (by simp) (by simp) comms (by omega) hnn
  rw [Verify_eq p Pn q G H hf hv]
  have hiff : verifyLhs G H s t ≡ verifyRhs comms x q p.threshold.toNat [ZMOD (Pn : Int)] ↔
      lhsValue Pn G H { SShare := some s, TShare := some t } =
        rhsValue Pn comms (vandermondeOf x q p.threshold.toNat) p.threshold.toNat := by
    rw [← ZMod.intCast_eq_intCast_iff, cast_verifyLhs, cast_verifyRhs Pn q hq2 _ _ _ (by omega)]
  refine ⟨?_, ?_, ?_⟩
  · rw [hiff]
    constructor
    · intro hok
      by_contra hne
      rw [hspec.2 hne] at hok
      cases hok
    · exact hspec.1
  · intro hne
    apply hspec.2
    intro h
    exact hne (hiff.2 h)
  · intro hs ht2 hx hck
    rw [hiff, ← ZMod.intCast_eq_intCast_iff, cast_commitmentProduct Pn _ _ hx,
      rhsValue_eq_of_tail Pn q hqp.pos.ne' comms x _ (by omega)
        (by
          intro k hk1 hk2
          have := (ZMod.intCast_eq_intCast_iff _ _ Pn).2 (hck k hk1 hk2)
          rw [Int.toNat_ofNat] at this
          simpa using this)]
    unfold lhsValue
    simp only [Option.getD_some]
    push_cast
    have e1 : ∀ z : Int, 0 ≤ z → z.toNat = z.natAbs := by
      intro z hz; omega
    rw [e1 _ hs, e1 _ ht2]

/-- C17, witness: the part of shareholder 0 for chunk 0 of the shares of the
examples, with the commitments of that chunk. -/
theorem C17_verification_equation_witness :
    (testPedersen.Verify (some 6) { SShare := some 1108101562423, TShare := some 76 }
        [some 16042819420122053143, some 13770292334187234029] = .ok () ↔
      verifyLhs 8414335786771157015 15078279289296123424 1108101562423 76 ≡
        verifyRhs [some 16042819420122053143, some 13770292334187234029] 6
          8817354639505262309 testPedersen.threshold.toNat [ZMOD 17634709279010524619]) :=
  (C17_verification_equation testPedersen 17634709279010524619 8817354639505262309
    8414335786771157015 15078279289296123424 testGroup_validate rfl testPedersen_validate 6
    1108101562423 76 [some 16042819420122053143, some 13770292334187234029] (by decide)
    (by decide)).1

end pedersen

namespace pedersen

open big

/-! ## Claim C18: tampered commitments -/

/-- C18, counterexample. The Shares that `Split` returns for the secret of
the examples when the caller gives the abscissa 0 for every shareholder are
accepted by `VerifyShares`, and they still are after flipping bit 0 of the
second commitment of chunk 0: `verifyWithContext` raises that commitment to
the power 0, the abscissa reduced modulo Q. -/
theorem C18_flipped_commitment_accepted :
    testPedersen.Split testSecret (some [some 0, some 0, some 0]) [9, 10, 11, 12, 13, 14] =
      (some zeroAbscissaShares, none) ∧
    testPedersen.VerifyShares (some zeroAbscissaShares) = .ok () ∧
    (zeroAbscissaShares.Commitments.getD 0 []).get? 1 = some (some 13770292334187234029) ∧
    flipBit 13770292334187234029 0 = 13770292334187234028 ∧
    testPedersen.VerifyShares (some (zeroAbscissaShares.setCommitment 0 1
      (some (flipBit 13770292334187234029 0)))) = .ok () :=
  ⟨testSplit_zero, zeroAbscissaShares_verified, by decide, by decide,
    zeroAbscissaShares_flipped_verified⟩

/-- C18, amended. For every validated group and every Shares on which
`VerifyShares` returns nil, replacing the commitment c_jk of chunk j by a
value c2 makes `VerifyShares` return ErrWrongSecretPart when some shareholder
i with a non-empty part for chunk j has c2^e different from c_jk^e modulo p,
where e is 1 for k = 0 and the power x_i^k reduced modulo Q otherwise, and
leaves the result nil when there is no such shareholder; in particular
flipping one bit of the first commitment c_j0 of any chunk makes
`VerifyShares` return ErrWrongSecretPart. -/
theorem C18_commitment_tamper (p : Pedersen) (P Q G H : Int) (hg : p.group.validate = .ok ())
    (hgrp : p.group = { P := some P, Q := some Q, G := some G, H := some H })
    (hv : p.validate = .ok ()) (hc : 1 ≤ p.concLimit) (sh : Shares)
    (hok : p.VerifyShares (some sh) = .ok ()) (j k : Nat) (c : Int)
    (hcomm : (sh.Commitments.getD j []).get? k = some (some c)) :
    (∀ c2 : Int,
      ((∃ i : Nat, (i : Int) < p.parts ∧ sh.partAt i j ≠ SecretPart.empty ∧
          ¬ (c2 ^ verifyExponent (abscissaAt sh.Abscissae i) Q k ≡
            c ^ verifyExponent (abscissaAt sh.Abscissae i) Q k [ZMOD P])) →
        p.VerifyShares (some (sh.setCommitment j k (some c2))) =
          .error Err.ErrWrongSecretPart) ∧
      ((∀ i : Nat, (i : Int) < p.parts → sh.partAt i j = SecretPart.empty ∨
          c2 ^ verifyExponent (abscissaAt sh.Abscissae i) Q k ≡
            c ^ verifyExponent (abscissaAt sh.Abscissae i) Q k [ZMOD P]) →
        p.VerifyShares (some (sh.setCommitment j k (some c2))) = .ok ())) ∧
    (k = 0 → ∀ b : Nat,
      p.VerifyShares (some (sh.setCommitment j k (some (flipBit c b)))) =
        .error Err.ErrWrongSecretPart) := by
  obtain ⟨P2, Q2, G2, H2, hf⟩ := Group.validate_ok p.group hg
  have heq := hf.eq
  rw [hgrp] at heq
  simp only [Group.mk.injEq, Option.some.injEq] at heq
  obtain ⟨rfl, rfl, rfl, rfl⟩ := heq
  have hodd := hf.P_odd
  have hPbig := hf.P_big
  obtain ⟨Pn, rfl⟩ : ∃ Pn : Nat, P = (Pn : Int) := ⟨P.toNat, by omega⟩
  have hPp : Pn.Prime := by simpa using hf.primeP
  have hcast : ∀ (a b : Int) (e : Nat),
      (a ^ e ≡ b ^ e [ZMOD (Pn : Int)]) ↔
        ((a : Int) : ZMod Pn) ^ e = ((b : Int) : ZMod Pn) ^ e := by
    intro a b e
    rw [← ZMod.intCast_eq_intCast_iff, Int.cast_pow, Int.cast_pow]
  have hmain : ∀ c2 : Int,
      ((∃ i : Nat, (i : Int) < p.parts ∧ sh.partAt i j ≠ SecretPart.empty ∧
          ¬ (c2 ^ verifyExponent (abscissaAt sh.Abscissae i) Q k ≡
            c ^ verifyExponent (abscissaAt sh.Abscissae i) Q k [ZMOD (Pn : Int)])) →
        p.VerifyShares (some (sh.setCommitment j k (some c2))) =
          .error Err.ErrWrongSecretPart) ∧
      ((∀ i : Nat, (i : Int) < p.parts → sh.partAt i j = SecretPart.empty ∨
          c2 ^ verifyExponent (abscissaAt sh.Abscissae i) Q k ≡
            c ^ verifyExponent (abscissaAt sh.Abscissae i) Q k [ZMOD (Pn : Int)]) →
        p.VerifyShares (some (sh.setCommitment j k (some c2))) = .ok ()) := by
    intro c2
    obtain ⟨h1, h2, _⟩ := VerifyShares_setCommitment p Pn Q G H hf hv hc sh hok j k c c2 hcomm
    simp only [Int.toNat_ofNat] at h1 h2
    constructor
    · rintro ⟨i, hi, hne, hdiff⟩
      apply h2
      intro hall
      rcases hall i (by omega) with h | h
      · exact hne h
      · exact hdiff ((hcast _ _ _).2 h)
    · intro hall
      apply h1
      intro i hi
      rcases hall i (by omega) with h | h
      · exact Or.inl h
      · exact Or.inr ((hcast _ _ _).1 h)
  refine ⟨hmain, ?_⟩
  intro hk b
  obtain ⟨_, _, i, hi, hne⟩ :=
    VerifyShares_setCommitment p Pn Q G H hf hv hc sh hok j k c c hcomm
  apply (hmain (flipBit c b)).1
  refine ⟨i, by omega, hne, ?_⟩
  subst hk
  have h1 : ∀ x : Int, verifyExponent x Q 0 = 1 := fun _ => rfl
  rw [h1, pow_one, pow_one]
  exact flipBit_not_modEq Pn hPp hodd c b

/-- C18, witness: on the shares of the examples, drawn with the abscissae 6,
8 and 9, flipping bit 0 of the second commitment of chunk 0, and of the first
one. -/
theorem C18_commitment_tamper_witness :
    testPedersen.VerifyShares (some (testShares.setCommitment 0 1
      (some 13770292334187234028))) = .error Err.ErrWrongSecretPart ∧
    testPedersen.VerifyShares (some (testShares.setCommitment 0 0
      (some (flipBit 16042819420122053143 0)))) = .error Err.ErrWrongSecretPart :=
  ⟨((C18_commitment_tamper testPedersen 17634709279010524619 8817354639505262309
      8414335786771157015 15078279289296123424 testGroup_validate rfl testPedersen_validate
      (by decide) testShares testShares_verified 0 1 13770292334187234029 (by decide)).1
      13770292334187234028).1 ⟨0, by decide, by decide, by decide⟩,
    (C18_commitment_tamper testPedersen 17634709279010524619 8817354639505262309
      8414335786771157015 15078279289296123424 testGroup_validate rfl testPedersen_validate
      (by decide) testShares testShares_verified 0 0 16042819420122053143 (by decide)).2
      rfl 0⟩

end pedersen

namespace pedersen

open big

/-! ## Claims C19 and C20: the validation of a group -/

/-- C19. Generator validation: for a group whose primes passed validation, a
non-nil generator x is accepted iff x^((p-1)/q) mod p != 1 and x^q mod p = 1;
every other non-nil x is rejected with ErrInvalidGenerator and a nil generator
with ErrNilGenerator. -/
theorem C19_generator_validation (g : Group) (hp : g.validatePrimes = .ok ()) :
    ∃ P Q : Int, g.P = some P ∧ g.Q = some Q ∧
      (∀ x : Int,
        (g.validateGenerator (some x) = .ok () ↔
          x ^ ((P - 1) / Q).toNat % P ≠ 1 ∧ x ^ Q.toNat % P = 1) ∧
        (¬ (x ^ ((P - 1) / Q).toNat % P ≠ 1 ∧ x ^ Q.toNat % P = 1) →
          g.validateGenerator (some x) = .error Err.ErrInvalidGenerator)) ∧
      g.validateGenerator none = .error Err.ErrNilGenerator := by
  obtain ⟨P, Q, hP, hQ, hpP, hpQ, _, _⟩ := Group.validatePrimes_ok g hp
  have hP0 : 0 < P := by
    have := hpP.pos
    omega
  have hQ0 : 0 < Q := by
    have := hpQ.pos
    omega
  refine ⟨P, Q, hP, hQ, ?_, rfl⟩
  intro x
  rw [Group.validateGenerator_eq g P Q hP hQ hP0 hQ0 x]
  constructor
  · constructor
    · intro h
      by_contra hc
      rw [if_neg hc] at h
      cases h
    · intro h
      rw [if_pos h]
  · intro h
    rw [if_neg h]

/-- C19, witness: the primes of the group of the test-suite. -/
theorem C19_generator_validation_witness :
    ∃ P Q : Int, testGroup.P = some P ∧ testGroup.Q = some Q ∧
      (∀ x : Int,
        (testGroup.validateGenerator (some x) = .ok () ↔
          x ^ ((P - 1) / Q).toNat % P ≠ 1 ∧ x ^ Q.toNat % P = 1) ∧
        (¬ (x ^ ((P - 1) / Q).toNat % P ≠ 1 ∧ x ^ Q.toNat % P = 1) →
          testGroup.validateGenerator (some x) = .error Err.ErrInvalidGenerator)) ∧
      testGroup.validateGenerator none = .error Err.ErrNilGenerator :=
  C19_generator_validation testGroup testGroup_validatePrimes

/-- C20, counterexample. The group of the test-suite is accepted by the
validation although its Q has bit length 63. -/
theorem C20_short_Q_accepted :
    testGroup.validate = .ok () ∧ testGroup.Q = some 8817354639505262309 ∧
    BitLen 8817354639505262309 = 63 :=
  ⟨testGroup_validate, rfl, by decide⟩

/-- C20, amended. Group validation rejects with ErrInvalidPrimeSize every
group with non-nil P and Q in which P has bit length below 64, and accepts only
groups in which P is a probable prime of bit length at least 64 and Q is a
probable prime, of any bit length, that divides P - 1. -/
theorem C20_prime_validation (g : Group) :
    (∀ P Q : Int, g.P = some P → g.Q = some Q → BitLen P < 64 →
      g.validate = .error Err.ErrInvalidPrimeSize) ∧
    (g.validate = .ok () → ∃ P Q : Int, g.P = some P ∧ g.Q = some Q ∧
      ProbablyPrime P = true ∧ ProbablyPrime Q = true ∧ 64 ≤ BitLen P ∧ Q ∣ P - 1) := by
  constructor
  · intro P Q hP hQ hb
    unfold Group.validate Group.validatePrimes
    simp only [hP, hQ]
    rw [if_pos (by unfold minPrimeBitLen; exact hb)]
    rfl
  · intro h
    obtain ⟨P, Q, G, H, hf⟩ := Group.validate_ok g h
    refine ⟨P, Q, by rw [hf.eq], by rw [hf.eq], ?_, ?_, hf.bits, Int.dvd_of_tmod_eq_zero hf.dvd⟩
    · unfold ProbablyPrime
      exact decide_eq_true hf.primeP
    · unfold ProbablyPrime
      exact decide_eq_true hf.primeQ

/-- C20, witness: a group with a P of 63 bits, and the group of the
test-suite. -/
theorem C20_prime_validation_witness :
    ({ P := some 8817354639505262309, Q := some 2, G := none, H := none } : Group).validate =
      .error Err.ErrInvalidPrimeSize ∧
    ∃ P Q : Int, testGroup.P = some P ∧ testGroup.Q = some Q ∧
      ProbablyPrime P = true ∧ ProbablyPrime Q = true ∧ 64 ≤ BitLen P ∧ Q ∣ P - 1 :=
  ⟨(C20_prime_validation _).1 8817354639505262309 2 rfl rfl (by decide),
    (C20_prime_validation testGroup).2 testGroup_validate⟩

end pedersen

namespace pedersen

open big

/-! ## Claims C21 and C22: the primes of a validated group -/

/-- C21, counterexample. The group of the test-suite passes the validation,
and with bit 63, the top bit, of its P flipped the validation fails with
ErrInvalidPrimeSize, not with ErrInvalidPrime: the changed P has 63 bits and
its size is tested first. -/
theorem C21_top_bit_flip_size_error :
    testGroup.validate = .ok () ∧ testGroup.P = some 17634709279010524619 ∧
    flipBit 17634709279010524619 63 = 8411337242155748811 ∧
    ({ testGroup with P := some (flipBit 17634709279010524619 63) } : Group).validate =
      .error Err.ErrInvalidPrimeSize :=
  ⟨testGroup_validate, rfl, by decide, by decide⟩

/-- C21, amended. For every group accepted by validation, with primes P and
Q, changing any one bit of P makes validation fail: with ErrInvalidPrimeSize
when the changed P has fewer than 64 bits, and with ErrInvalidPrime when it
has at least 64 bits and Q is not 2. -/
theorem C21_tampered_prime (g : Group) (P Q : Int) (hg : g.validate = .ok ())
    (hP : g.P = some P) (hQ : g.Q = some Q) (b : Nat) :
    (BitLen (flipBit P b) < 64 →
      ({ g with P := some (flipBit P b) } : Group).validate = .error Err.ErrInvalidPrimeSize) ∧
    (64 ≤ BitLen (flipBit P b) → Q ≠ 2 →
      ({ g with P := some (flipBit P b) } : Group).validate = .error Err.ErrInvalidPrime) := by
  obtain ⟨P2, Q2, G, H, hf⟩ := Group.validate_ok g hg
  have heq := hf.eq
  rw [heq] at hP hQ
  simp only [Option.some.injEq] at hP hQ
  subst hP hQ
  have hQp := hf.primeQ
  have hQpp : ProbablyPrime Q2 = true := by
    unfold ProbablyPrime
    exact decide_eq_true hQp
  have hQ0 : Q2 ≠ 0 := by
    have := hf.Q_pos
    omega
  constructor
  · intro hb
    unfold Group.validate Group.validatePrimes
    simp only [heq]
    rw [if_pos (by unfold minPrimeBitLen; exact hb)]
    rfl
  · intro hb hQ2
    have hnd := flipBit_not_dvd P2 Q2 hQp hQ2 (Int.dvd_of_tmod_eq_zero hf.dvd) b
    have hmod : (flipBit P2 b - 1).tmod Q2 ≠ 0 := fun h => hnd (Int.dvd_of_tmod_eq_zero h)
    have hvp : ({ P := some (flipBit P2 b), Q := some Q2, G := some G, H := some H } :
        Group).validatePrimes = .error Err.ErrInvalidPrime := by
      unfold Group.validatePrimes
      simp only []
      rw [if_neg (by unfold minPrimeBitLen; omega)]
      by_cases hpp : ProbablyPrime (flipBit P2 b) = true
      · have hc : Cmp ((flipBit P2 b - 1).tmod Q2) 0 ≠ 0 := by
          rw [ne_eq, Cmp_eq_zero_iff]
          exact hmod
        simp only [hpp, hQpp, Bool.not_true, Bool.false_eq_true, if_false, big.Mod, hQ0,
          ok_bind, SetUInt64, Nat.cast_zero]
        rw [if_pos hc]
      · rw [Bool.not_eq_true] at hpp
        simp only [hpp, Bool.not_false, if_true]
    unfold Group.validate
    simp only [heq]
    rw [hvp]
    rfl

/-- C21, witness: the group of the test-suite with bit 0 of its P flipped. -/
theorem C21_tampered_prime_witness :
    ({ testGroup with P := some (flipBit 17634709279010524619 0) } : Group).validate =
      .error Err.ErrInvalidPrime :=
  (C21_tampered_prime testGroup 17634709279010524619 8817354639505262309 testGroup_validate
    rfl rfl 0).2 (by decide) (by decide)

/-- C22, counterexample. The group `alignedGroup` is accepted by the
validation, and by `NewPedersen` with the CyclicGroup option, and its P is
44 Q + 1, not 2 Q + 1. -/
theorem C22_validated_group_not_safe :
    alignedGroup.validate = .ok () ∧
    alignedGroup.P = some 775927208276463083237 ∧ alignedGroup.Q = some 17634709279010524619 ∧
    (775927208276463083237 : Int) = 44 * 17634709279010524619 + 1 ∧
    (775927208276463083237 : Int) ≠ 2 * 17634709279010524619 + 1 ∧
    NewPedersen 4 (fun _ _ => .error Err.ErrInvalidOptions) 3 2
      [Opt.CyclicGroup (some alignedGroup)] [] = .ok (alignedPedersen, []) ∧
    alignedPedersen.GetGroup = alignedGroup := by
  refine ⟨alignedGroup_validate, rfl, rfl, by decide, by decide, ?_, rfl⟩
  unfold NewPedersen resolveGroup
  have hc : configure 4 3 2 [Opt.CyclicGroup (some alignedGroup)] =
      { group := some alignedGroup, threshold := 2, parts := 3, concLimit := 4 } := by decide
  rw [hc]
  simp only [alignedGroup_validate, ok_bind]
  rfl

/-- C22, amended. Every Group accepted by validation, and hence every group
held by a Pedersen that `NewPedersen` built with the CyclicGroup option, has
primes P and Q with P = m Q + 1 for an integer m >= 1. -/
theorem C22_group_invariant (g : Group) :
    (g.validate = .ok () →
      ∃ P Q m : Int, g.P = some P ∧ g.Q = some Q ∧ Nat.Prime P.toNat ∧ Nat.Prime Q.toNat ∧
        1 ≤ m ∧ P = m * Q + 1) ∧
    (∀ (defaultConcLimit : Int) (GeneratePrime : Int → Bool → Except Err Int)
      (parts threshold : Int) (options : List Opt) (tape tape2 : Tape) (p : Pedersen),
      (configure defaultConcLimit parts threshold options).group = some g →
      NewPedersen defaultConcLimit GeneratePrime parts threshold options tape =
        .ok (p, tape2) →
      p.GetGroup = g ∧ g.validate = .ok ()) := by
  constructor
  · intro h
    obtain ⟨P, Q, G, H, hf⟩ := Group.validate_ok g h
    obtain ⟨m, hm1, hm⟩ := hf.cofactor
    exact ⟨P, Q, m, by rw [hf.eq], by rw [hf.eq], hf.primeP, hf.primeQ, hm1, hm⟩
  · intro d GP parts threshold options tape tape2 p hsel h
    obtain ⟨h1, h2, _⟩ := NewPedersen_of_group d GP parts threshold options tape tape2 g p hsel h
    exact ⟨h1, h2⟩

/-- C22, witness: the group of the test-suite. -/
theorem C22_group_invariant_witness :
    ∃ P Q m : Int, testGroup.P = some P ∧ testGroup.Q = some Q ∧ Nat.Prime P.toNat ∧
      Nat.Prime Q.toNat ∧ 1 ≤ m ∧ P = m * Q + 1 :=
  (C22_group_invariant testGroup).1 testGroup_validate

end pedersen

namespace pedersen

open big

/-! ## Claim C23: generated groups -/

/-- C23, failing input. For bits = 64, when the prime generator returns the
safe prime P of the test-suite and both draws of `getGenerator` give P - 2,
the largest outcome of RandRange(P - 1), `genRandNum(2, P - 1)` returns P,
`NewSchnorrGroup` returns the group with G = H = P^2 mod P = 0, and the
validation rejects that group with ErrInvalidGenerator. -/
theorem C23_generated_group_rejected :
    Nat.Prime 17634709279010524619 ∧ Nat.Prime 8817354639505262309 ∧
    BitLen 17634709279010524619 = 64 ∧
    genRandNum 2 (17634709279010524619 - 1) [17634709279010524617] =
      .ok (17634709279010524619, []) ∧
    NewSchnorrGroup (fun _ _ => .ok 17634709279010524619) 64
      [17634709279010524617, 17634709279010524617] = .ok (zeroGeneratorGroup, []) ∧
    zeroGeneratorGroup.Q = some (Rsh (17634709279010524619 - 1) 1) ∧
    zeroGeneratorGroup.G = some 0 ∧ zeroGeneratorGroup.H = some 0 ∧
    zeroGeneratorGroup.validate = .error Err.ErrInvalidGenerator :=
  ⟨prime_testP, prime_testQ, testGroup_safe.2, genRandNum_reaches_modulus,
    zeroGenerator_generated, by rw [← testGroup_safe.1]; rfl, rfl, rfl,
    zeroGeneratorGroup_rejected⟩

end pedersen

namespace pedersen

open big

/-! ## Claim C24: the concurrency limit -/

/-- C24, counterexample. Over the validated group `alignedGroup`, for the
secret `highFirstSecret`, whose first padded chunk is above Q, the abscissae
`nilFirstAbscissae` of the caller and the same outcomes of the generator,
`Split` returns ErrInvalidPrimeSize under the concurrency limit 1 and panics
under the limit 2: the single worker stops at the first chunk, while the
second of two workers reaches the nil abscissa on the second chunk. -/
theorem C24_split_outcome_depends_on_limit :
    alignedGroup.validate = .ok () ∧
    alignedPedersenOne =
      { group := alignedGroup, threshold := 2, parts := 3, concLimit := 1 } ∧
    alignedPedersenTwo =
      { group := alignedGroup, threshold := 2, parts := 3, concLimit := 2 } ∧
    alignedPedersenOne.Split highFirstSecret (some nilFirstAbscissae) [1, 2, 3, 4, 5, 6] =
      (none, some Err.ErrInvalidPrimeSize) ∧
    alignedPedersenTwo.Split highFirstSecret (some nilFirstAbscissae) [1, 2, 3, 4, 5, 6] =
      (none, some Err.panicNilDereference) :=
  ⟨alignedGroup_validate, rfl, rfl, highFirstSplit_one, highFirstSplit_two⟩

/-- C24, amended. For every scheme and every two concurrency limits
c1, c2 >= 1: `Combine` returns bytes under one limit exactly when it returns
them under the other, the same bytes; `VerifyShares` accepts under one limit
exactly when it accepts under the other; and for the same secret, abscissae
and outcomes of the random generator for every chunk, `Split` returns Shares
under one limit exactly when it returns them under the other, the same
Shares, so that it fails under both limits or under none. Over a validated
group `Combine` returns the same result, error included, under both limits,
and over a validated group and scheme so does `VerifyShares`. -/
theorem C24_concurrency_invariance (group : Group) (threshold parts c1 c2 : Int)
    (h1 : 1 ≤ c1) (h2 : 1 ≤ c2) :
    (∀ (s : Option Shares) (b : List Byte),
      ({ group := group, threshold := threshold, parts := parts, concLimit := c1 } :
        Pedersen).Combine s = .ok b ↔
      ({ group := group, threshold := threshold, parts := parts, concLimit := c2 } :
        Pedersen).Combine s = .ok b) ∧
    (∀ s : Option Shares,
      ({ group := group, threshold := threshold, parts := parts, concLimit := c1 } :
        Pedersen).VerifyShares s = .ok () ↔
      ({ group := group, threshold := threshold, parts := parts, concLimit := c2 } :
        Pedersen).VerifyShares s = .ok ()) ∧
    (∀ (secret : List Byte) (a : Option (List (Option Int))) (tape : Tape),
      (∀ sh : Shares,
        ({ group := group, threshold := threshold, parts := parts, concLimit := c1 } :
          Pedersen).Split secret a tape = (some sh, none) ↔
        ({ group := group, threshold := threshold, parts := parts, concLimit := c2 } :
          Pedersen).Split secret a tape = (some sh, none)) ∧
      ((({ group := group, threshold := threshold, parts := parts, concLimit := c1 } :
          Pedersen).Split secret a tape).1 = none ↔
        (({ group := group, threshold := threshold, parts := parts, concLimit := c2 } :
          Pedersen).Split secret a tape).1 = none)) ∧
    (group.validate = .ok () → ∀ s : Option Shares,
      ({ group := group, threshold := threshold, parts := parts, concLimit := c1 } :
        Pedersen).Combine s =
      ({ group := group, threshold := threshold, parts := parts, concLimit := c2 } :
        Pedersen).Combine s) ∧
    (group.validate = .ok () →
      ({ group := group, threshold := threshold, parts := parts, concLimit := c1 } :
        Pedersen).validate = .ok () → ∀ s : Option Shares,
      ({ group := group, threshold := threshold, parts := parts, concLimit := c1 } :
        Pedersen).VerifyShares s =
      ({ group := group, threshold := threshold, parts := parts, concLimit := c2 } :
        Pedersen).VerifyShares s) := by
  have hshape : ∀ (p : Pedersen) (secret : List Byte) (a : Option (List (Option Int)))
      (tape : Tape), (p.Split secret a tape).1 = none ↔
        ¬ ∃ sh, p.Split secret a tape = (some sh, none) := by
    intro p secret a tape
    unfold Pedersen.Split
    by_cases hs : secret.length = 0
    · rw [if_pos hs]
      simp
    · rw [if_neg hs]
      cases p.splitCore secret a tape with
      | error e => simp
      | ok sh => simp
  refine ⟨?_, ?_, ?_, ?_, ?_⟩
  · intro s b
    exact Combine_limit_ok group threshold parts c1 c2 h1 h2 s b
  · intro s
    exact VerifyShares_limit_ok group threshold parts c1 c2 h1 h2 s
  · intro secret a tape
    have hiff := fun sh => Split_limit_ok group threshold parts c1 c2 h1 h2 secret a tape sh
    refine ⟨hiff, ?_⟩
    rw [hshape, hshape]
    constructor
    · rintro h ⟨sh, hsh⟩
      exact h ⟨sh, (hiff sh).2 hsh⟩
    · rintro h ⟨sh, hsh⟩
      exact h ⟨sh, (hiff sh).1 hsh⟩
  · intro hg s
    exact Combine_limit group threshold parts c1 c2 h1 h2 hg s
  · intro hg hv s
    exact VerifyShares_limit group threshold parts c1 c2 h1 h2 hg hv s

/-- C24, witness: the scheme of the examples, whose limit is 4, and the same
scheme with the limit 1, on the shares and the secret of the examples. -/
theorem C24_concurrency_invariance_witness :
    (({ group := testGroup, threshold := 2, parts := 3, concLimit := 1 } :
        Pedersen).Combine (some testShares) = .ok testSecret ↔
      testPedersen.Combine (some testShares) = .ok testSecret) ∧
    (({ group := testGroup, threshold := 2, parts := 3, concLimit := 1 } :
        Pedersen).Split testSecret none testTape = (some testShares, none) ↔
      testPedersen.Split testSecret none testTape = (some testShares, none)) ∧
    ({ group := testGroup, threshold := 2, parts := 3, concLimit := 1 } :
        Pedersen).Combine (some testShares) = testPedersen.Combine (some testShares) ∧
    ({ group := testGroup, threshold := 2, parts := 3, concLimit := 1 } :
        Pedersen).VerifyShares (some testShares) = testPedersen.VerifyShares (some testShares) :=
  ⟨(C24_concurrency_invariance testGroup 2 3 1 4 (by decide) (by decide)).1 (some testShares)
      testSecret,
    ((C24_concurrency_invariance testGroup 2 3 1 4 (by decide) (by decide)).2.2.1 testSecret none
      testTape).1 testShares,
    (C24_concurrency_invariance testGroup 2 3 1 4 (by decide) (by decide)).2.2.2.1
      testGroup_validate (some testShares),
    (C24_concurrency_invariance testGroup 2 3 1 4 (by decide) (by decide)).2.2.2.2
      testGroup_validate (by decide) (some testShares)⟩

end pedersen

namespace pedersen

open big

/-! ## Claim C25: Combine ignores the blinding data -/

/-- C25. Combine ignores blinding data: for every two Shares accepted by
`validateShares` that have the same abscissae, the same pattern of empty parts
and the same SShare values, `Combine` returns the same result, bytes or error,
even if their TShare values and commitment values differ. -/
theorem C25_combine_ignores_blinding (p : Pedersen) (s1 s2 : Shares)
    (h1 : p.validateShares (some s1) = .ok ()) (h2 : p.validateShares (some s2) = .ok ())
    (habs : s1.Abscissae = s2.Abscissae)
    (hview : s1.Parts.map (List.map SecretPart.combineView) =
      s2.Parts.map (List.map SecretPart.combineView)) :
    p.Combine (some s1) = p.Combine (some s2) := by
  unfold Pedersen.Combine
  rw [h1, h2]
  simp only [ok_bind, deref]
  have hrow := congrArg (fun M => M[0]?) hview
  simp only [List.getElem?_map] at hrow
  unfold goIndex
  simp only [List.get?_eq_getElem?]
  cases e1 : s1.Parts[0]? with
  | none =>
    rw [e1] at hrow
    cases e2 : s2.Parts[0]? with
    | none => rfl
    | some r2 => rw [e2] at hrow; simp at hrow
  | some r1 =>
    rw [e1] at hrow
    cases e2 : s2.Parts[0]? with
    | none => rw [e2] at hrow; simp at hrow
    | some r2 =>
      rw [e2] at hrow
      simp only [Option.map_some', Option.some.injEq] at hrow
      have hlen : r1.length = r2.length := by
        have := congrArg List.length hrow
        simpa using this
      simp only [ok_bind, hlen]
      have hw : (fun chunk => p.combineWorker s1 chunk) = fun chunk => p.combineWorker s2 chunk :=
        funext (combineWorker_congr p s1 s2 habs hview)
      rw [hw]

/-- C25, witness: the shares of the examples and the same shares with other
TShare values and other commitments. -/
theorem C25_combine_ignores_blinding_witness :
    testShares.Parts ≠ reblindedShares.Parts ∧
    testShares.Commitments ≠ reblindedShares.Commitments ∧
    testPedersen.Combine (some testShares) = testPedersen.Combine (some reblindedShares) :=
  ⟨by decide, by decide,
    C25_combine_ignores_blinding testPedersen testShares reblindedShares (by decide) (by decide)
      rfl (by decide)⟩

end pedersen

namespace pedersen

open big

/-! ## Claim C26: the number of chunks -/

/-- C26, counterexample. Over the group of the test-suite, whose Q has 63 bits
and so a byte length of 8, the secret of four bytes 1, 2, 3, 4 is split into
two chunks, while the length 4 divided by 8 - 4, rounded up, is 1:
`splitSecret` takes the whole bytes of the bit length, 7, so chunks of 3
bytes. -/
theorem C26_four_bytes_two_chunks :
    testPedersen.Split [1, 2, 3, 4] none testTape = (some fourByteShares, none) ∧
    fourByteShares.Commitments.length = 2 ∧
    (∀ row ∈ fourByteShares.Parts, row.length = 2) ∧
    testPedersen.group.Q = some 8817354639505262309 ∧
    BytesLen 8817354639505262309 = 8 ∧ BitLen 8817354639505262309 = 63 ∧
    ([1, 2, 3, 4] : List Byte).length = 4 ∧ (4 + (8 - 4) - 1) / (8 - 4) = 1 :=
  ⟨testSplit_fourBytes, by decide, by decide, rfl, by decide, by decide, by decide, by decide⟩

/-- C26, amended. For every secret of length L and every group order Q,
with partLen = floor(BitLen(Q) / 8) - 4, or 1 when that difference is <= 0,
`splitSecret` returns exactly m = ceil(L / partLen) chunks, and whenever `Split`
returns Shares, Commitments has m rows and every row of Parts has m columns. -/
theorem C26_chunk_count (p : Pedersen) (Q : Int) (hg : p.group.validate = .ok ())
    (hQ : p.group.Q = some Q) (hbits : BitLen Q < 2 ^ 31) (hv : p.validate = .ok ())
    (hc : 1 ≤ p.concLimit) (secret : List Byte) (a : Option (List (Option Int))) (tape : Tape) :
    partLenOf Q = (if BitLen Q / 8 ≤ 4 then 1 else BitLen Q / 8 - 4) ∧
    (∃ splitted, splitSecret secret Q = .ok splitted ∧
      splitted.length = (secret.length + partLenOf Q - 1) / partLenOf Q) ∧
    (∀ sh, p.Split secret a tape = (some sh, none) →
      sh.Commitments.length = (secret.length + partLenOf Q - 1) / partLenOf Q ∧
      ∀ row ∈ sh.Parts, row.length = (secret.length + partLenOf Q - 1) / partLenOf Q) := by
  refine ⟨partLenOf_eq Q, ⟨_, splitSecret_eq secret Q hbits, ?_⟩, ?_⟩
  · rw [List.length_map, length_chunksOf]
  · intro sh h
    obtain ⟨P, G, H, hf⟩ := GroupFacts.of_validate p.group Q hg hQ
    obtain ⟨_, _, _, _, polys, hpl, _, hparts, hcomm⟩ :=
      Split_spec p P Q G H hf hv hc hbits secret a tape sh h
    rw [length_chunksOf] at hpl
    constructor
    · rw [hcomm, List.length_map, hpl]
    · intro row hrow
      rw [hparts] at hrow
      obtain ⟨i, _, rfl⟩ := List.mem_map.mp hrow
      rw [List.length_map, hpl]

/-- C26, witness: the secret of five bytes of the examples, over a Q of 63
bits: two chunks. -/
theorem C26_chunk_count_witness :
    testShares.Commitments.length =
      (testSecret.length + partLenOf 8817354639505262309 - 1) / partLenOf 8817354639505262309 ∧
    ∀ row ∈ testShares.Parts, row.length =
      (testSecret.length + partLenOf 8817354639505262309 - 1) / partLenOf 8817354639505262309 :=
  (C26_chunk_count testPedersen 8817354639505262309 testGroup_validate rfl testGroup_bitsQ
    testPedersen_validate (by decide) testSecret none testTape).2.2 testShares testSplit_random

end pedersen

namespace pedersen

open big

/-! ## Claims C27 to C30: the operations of the package big and the sampling -/

/-- C27, failing input. On the opposite numbers -1 and 1 `ConstantTimeEq`
returns true although `Cmp` returns -1: `Bytes` gives the big-endian form of
the absolute value, the same one byte for both. -/
theorem C27_opposite_numbers_equal :
    ConstantTimeEq (-1) 1 = true ∧ Cmp (-1) 1 = -1 ∧ Bytes (-1) = Bytes 1 ∧ (-1 : Int) ≠ 1 :=
  ⟨by decide, by decide, by decide, by decide⟩

/-- C28, failing input. `And` on the operands 0 and 0 does not return: both
have zero bytes, the result buffer is empty and `SetBytes` takes the address
of its first byte, which panics. -/
theorem C28_and_of_zeros_panics :
    And 0 0 = .error Err.panicIndexOutOfRange ∧ BytesLen 0 = 0 ∧
    SetBytes [] = .error Err.panicIndexOutOfRange :=
  ⟨by decide, by decide, rfl⟩

/-- C29, failing input. `Or` on the operands 0 and 0 does not return: both
have zero bytes, the result buffer is empty and `SetBytes` takes the address
of its first byte, which panics. -/
theorem C29_or_of_zeros_panics :
    Or 0 0 = .error Err.panicIndexOutOfRange ∧ Bytes 0 = [] :=
  ⟨by decide, by decide⟩

/-- C30, failing input. For min = 1 and max = 3, when the backend's RandRange
draws 2, `genRandNum` returns 3, which is not below max, and `randInts` writes
it into the slice: the draw is made below max, not below max - min, before min
is added. -/
theorem C30_sample_reaches_max :
    genRandNum 1 3 [2] = .ok (3, []) ∧ randInts 1 1 3 false [2] = .ok ([3], []) ∧
    randInts 1 1 3 true [2] = .ok ([3], []) ∧ RandRange 3 [2] = .ok (2, []) :=
  ⟨by decide, by decide, by decide, by decide⟩

end pedersen

namespace pedersen

open big

/-! ## Claim C31: the evaluation of a polynomial -/

/-- C31, counterexample. For the coefficients 5, 1 and the order 3, `evaluate`
at x = 0 returns 5, the coefficient c_0 as it is, which is not in [0, 3) and
is not (5 + 1 * 0) mod 3 = 2; and for the coefficients -1, 0 it returns -1 at
x = 1, the remainder taking the sign of the sum. -/
theorem C31_intercept_not_reduced :
    polynomial.evaluate { coefficients := [some 5, some 1], order := 3 } 0 = .ok 5 ∧
    ¬ ((5 : Int) < 3) ∧ ((5 + 1 * 0 ^ 1 : Int) % 3 = 2) ∧
    polynomial.evaluate { coefficients := [some (-1), some 0], order := 3 } 1 = .ok (-1) :=
  ⟨by decide, by decide, by decide, by decide⟩

/-- C31, amended. For every non-empty list of coefficients c_0..c_d and every
order other than 0, `evaluate` returns c_0 itself at x = 0, and at any other x
the remainder of the sum of the c_i * x^i by the order, with the sign of the
sum; for order > 0, x >= 0 and coefficients >= 0 (with c_0 < order when
x = 0) this is (sum_i c_i * x^i) mod order, and it lies in [0, order). -/
theorem C31_evaluate (cs : List Int) (hcs : cs ≠ []) (order : Int) (ho : order ≠ 0) (x : Int) :
    (x = 0 → polynomial.evaluate { coefficients := cs.map some, order := order } x =
      .ok (cs.headD 0)) ∧
    (x ≠ 0 → polynomial.evaluate { coefficients := cs.map some, order := order } x =
      .ok (((List.range cs.length).map (fun i => cs.getD i 0 * x ^ i)).sum.tmod order)) ∧
    (0 < order → 0 ≤ x → (∀ c ∈ cs, 0 ≤ c) → (x = 0 → cs.headD 0 < order) →
      polynomial.evaluate { coefficients := cs.map some, order := order } x =
        .ok (((List.range cs.length).map (fun i => cs.getD i 0 * x ^ i)).sum % order) ∧
      0 ≤ ((List.range cs.length).map (fun i => cs.getD i 0 * x ^ i)).sum % order ∧
      ((List.range cs.length).map (fun i => cs.getD i 0 * x ^ i)).sum % order < order) := by
  have hev := evaluate_eq cs order x hcs ho
  rw [← hornerSum_eq_sum]
  refine ⟨?_, ?_, ?_⟩
  · intro hx
    rw [hev]
    unfold evalValue
    rw [if_pos hx]
  · intro hx
    rw [hev]
    unfold evalValue
    rw [if_neg hx]
  · intro hpos hx hnn h0
    refine ⟨?_, Int.emod_nonneg _ ho, Int.emod_lt_of_pos _ hpos⟩
    rw [hev]
    unfold evalValue
    have hsum := hornerSum_nonneg x hx cs hnn
    by_cases hx0 : x = 0
    · rw [if_pos hx0]
      cases cs with
      | nil => exact absurd rfl hcs
      | cons c rest =>
        have hc0 : 0 ≤ c := hnn c (List.mem_cons_self _ _)
        have hlt : c < order := h0 hx0
        subst hx0
        simp only [List.headD_cons, hornerSum, zero_mul, add_zero]
        rw [Int.emod_eq_of_lt hc0 hlt]
    · rw [if_neg hx0, Int.tmod_eq_emod hsum (by omega)]

/-- C31, witness: the polynomial 5 + x modulo 7 at x = 3 and at x = 0. -/
theorem C31_evaluate_witness :
    polynomial.evaluate { coefficients := ([5, 1] : List Int).map some, order := 7 } 0 =
      .ok (([5, 1] : List Int).headD 0) ∧
    polynomial.evaluate { coefficients := ([5, 1] : List Int).map some, order := 7 } 3 =
      .ok (((List.range ([5, 1] : List Int).length).map
        (fun i => ([5, 1] : List Int).getD i 0 * 3 ^ i)).sum % 7) :=
  ⟨(C31_evaluate [5, 1] (by decide) 7 (by decide) 0).1 rfl,
    ((C31_evaluate [5, 1] (by decide) 7 (by decide) 3).2.2 (by decide) (by decide) (by decide)
      (by decide)).1⟩

end pedersen

namespace pedersen

open big

/-! ## Claim C32: the ranges of the workers -/

/-- C32, counterexample. For the length 2^63 - 1 and two workers, which is
within 1 <= w <= length, the sum `length + numChunks - 1` wraps around to
-2^63 in the 64-bit `int`, the stride is -2^62 and the loop of
`balanceIndices` does not end, however many iterations it gets:
`balanceIndices64` returns no ranges. -/
theorem C32_stride_overflow :
    (1 : Int) ≤ 2 ∧ (2 : Int) ≤ 9223372036854775807 ∧
    (9223372036854775807 : Int) = 2 ^ 63 - 1 ∧
    wrapInt (wrapInt (9223372036854775807 + 2) - 1) = -9223372036854775808 ∧
    wrapInt ((wrapInt (wrapInt (9223372036854775807 + 2) - 1)).tdiv 2) =
      -4611686018427387904 ∧
    (∀ fuel : Nat,
      balanceLoop64 9223372036854775807 (-4611686018427387904) fuel 0 =
        .error Err.fuelExhausted) ∧
    testPedersen.balanceIndices64 9223372036854775807 2 = .error Err.fuelExhausted := by
  refine ⟨by decide, by decide, by decide, by decide, by decide, ?_, ?_⟩
  · intro fuel
    exact balanceLoop64_cycle fuel 0 (Or.inl rfl)
  · unfold Pedersen.balanceIndices64
    rw [if_neg (by decide)]
    have hcs : wrapInt ((wrapInt (wrapInt (9223372036854775807 + 2) - 1)).tdiv 2) =
        -4611686018427387904 := by decide
    simp only [hcs]
    exact balanceLoop64_cycle _ 0 (Or.inl rfl)

/-- C32, amended. Range balancing: for every length >= 1 and every worker
count w >= 1 (w <= length or not) such that `length + w - 1` does not
overflow the 64-bit `int`, that is length + w <= 2^63, `balanceIndices`
returns at least one and at most w ranges, each non-empty, range k going from
k * ceil(length/w) to that plus ceil(length/w), or to length for the last one
if that is less: the first starts at 0, each starts where the previous one
ends and the last ends at length, and every index in [0, length) lies in
exactly one range. -/
theorem C32_range_balancing (p : Pedersen) (L : Nat) (w : Int) (hL : 1 ≤ L) (hw : 1 ≤ w)
    (hsum : (L : Int) + w ≤ 2 ^ 63) :
    ∃ ranges, p.balanceIndices64 L w = .ok ranges ∧
      1 ≤ ranges.length ∧ (ranges.length : Int) ≤ w ∧
      Consecutive (L : Int) 0 ranges ∧
      (∀ k (hk : k < ranges.length),
        (ranges.get ⟨k, hk⟩).start = k * (((L : Int) + w - 1) / w) ∧
        (ranges.get ⟨k, hk⟩).stop = min ((k + 1) * (((L : Int) + w - 1) / w)) L ∧
        (ranges.get ⟨k, hk⟩).start < (ranges.get ⟨k, hk⟩).stop) ∧
      (ranges.map chunkRange.indices).flatten = List.range L ∧
      (∀ i : Nat, i < L → ∃! k : Fin ranges.length,
        (ranges.get k).start ≤ i ∧ (i : Int) < (ranges.get k).stop) := by
  rw [balanceIndices64_eq p L w hL hw hsum]
  exact balanceIndices_ranges p L w hL hw

/-- C32, witness: ten indices for four workers, in ranges of three. -/
theorem C32_range_balancing_witness :
    ∃ ranges, testPedersen.balanceIndices64 (10 : Nat) 4 = .ok ranges ∧
      1 ≤ ranges.length ∧ (ranges.length : Int) ≤ 4 ∧
      Consecutive ((10 : Nat) : Int) 0 ranges ∧
      (∀ k (hk : k < ranges.length),
        (ranges.get ⟨k, hk⟩).start = k * ((((10 : Nat) : Int) + 4 - 1) / 4) ∧
        (ranges.get ⟨k, hk⟩).stop = min ((k + 1) * ((((10 : Nat) : Int) + 4 - 1) / 4))
          (10 : Nat) ∧
        (ranges.get ⟨k, hk⟩).start < (ranges.get ⟨k, hk⟩).stop) ∧
      (ranges.map chunkRange.indices).flatten = List.range 10 ∧
      (∀ i : Nat, i < 10 → ∃! k : Fin ranges.length,
        (ranges.get k).start ≤ i ∧ (i : Int) < (ranges.get k).stop) :=
  C32_range_balancing testPedersen 10 4 (by decide) (by decide) (by decide)

end pedersen

namespace pedersen

open big

/-! ## Claim C33: the commitments and the parts of a chunk -/

/-- C33, counterexample. With the abscissae -1, 2, 3 of the caller, `Split`
returns for chunk 0 and shareholder 0 the TShare -1: the blinding polynomial
of that chunk is 10 + 11 x, whose value at -1 is -1, and the reduction keeps
the sign of the sum, while -1 mod Q is Q - 1. -/
theorem C33_negative_share :
    testPedersen.Split testSecret (some negativeAbscissae) [9, 10, 11, 12, 13, 14] =
      (some negativeShares, none) ∧
    negativeShares.partAt 0 0 = { SShare := some 1108101562360, TShare := some (-1) } ∧
    evalValue [10, 11] 8817354639505262309 (-1) = -1 ∧
    hornerSum (-1) [10, 11] % 8817354639505262309 = 8817354639505262308 :=
  ⟨testSplit_negative, by decide, by decide, by decide⟩

/-- C33, amended. For every validated group and scheme, whenever `Split`
returns Shares, every chunk j has a secret polynomial F_j and a blinding
polynomial K_j of t coefficients each, none negative, coefficient 0 of F_j
being the padded chunk, with commitments[j][k] = G^(coefficient k of F_j) * H^(coefficient k
of K_j) mod P for every k in [0, t), and parts[i][j] the pair of the values
that `evaluate` returns for F_j and K_j at x_i, which are F_j(x_i) mod Q and
K_j(x_i) mod Q whenever x_i >= 0. -/
theorem C33_commitment_construction (p : Pedersen) (P Q G H : Int)
    (hg : p.group.validate = .ok ())
    (hgrp : p.group = { P := some P, Q := some Q, G := some G, H := some H })
    (hbits : BitLen Q < 2 ^ 31) (hv : p.validate = .ok ()) (hc : 1 ≤ p.concLimit)
    (secret : List Byte) (a : Option (List (Option Int))) (tape : Tape) (sh : Shares)
    (h : p.Split secret a tape = (some sh, none)) :
    ∃ polys : List (List Int × List Int),
      polys.length = (chunksOf secret Q).length ∧ sh.Commitments.length = polys.length ∧
      ∀ j F K, polys.get? j = some (F, K) →
        F.length = p.threshold.toNat ∧ K.length = p.threshold.toNat ∧
        (∀ f ∈ F, 0 ≤ f) ∧ (∀ k ∈ K, 0 ≤ k) ∧
        (∃ c, (chunksOf secret Q).get? j = some c ∧ F.head? = some ((padValue c : Nat) : Int)) ∧
        (∀ k, k < p.threshold.toNat →
          (sh.Commitments.getD j []).get? k =
            some (some ((G ^ (F.getD k 0).toNat * H ^ (K.getD k 0).toNat) % P))) ∧
        (∀ i, i < p.parts.toNat →
          sh.partAt i j =
            { SShare := some (evalValue F Q (abscissaAt sh.Abscissae i)),
              TShare := some (evalValue K Q (abscissaAt sh.Abscissae i)) } ∧
          (0 ≤ abscissaAt sh.Abscissae i →
            evalValue F Q (abscissaAt sh.Abscissae i) =
              hornerSum (abscissaAt sh.Abscissae i) F % Q ∧
            evalValue K Q (abscissaAt sh.Abscissae i) =
              hornerSum (abscissaAt sh.Abscissae i) K % Q)) := by
  obtain ⟨P2, Q2, G2, H2, hf⟩ := Group.validate_ok p.group hg
  have heq := hf.eq
  rw [hgrp] at heq
  simp only [Group.mk.injEq, Option.some.injEq] at heq
  obtain ⟨rfl, rfl, rfl, rfl⟩ := heq
  obtain ⟨ht, htn⟩ := Pedersen.validate_bounds p hv
  have hQ2 := hf.Q_pos
  have hP0 : 0 < P := by
    have := hf.P_big
    omega
  obtain ⟨_, _, _, _, polys, hpl, hpolys, hparts, hcomm⟩ :=
    Split_spec p P Q G H hf hv hc hbits secret a tape sh h
  refine ⟨polys, hpl, by rw [hcomm, List.length_map], ?_⟩
  intro j F K hj
  have hjlt : j < polys.length := by
    by_contra hge
    rw [List.get?_eq_none.mpr (by omega)] at hj
    cases hj
  have hjc : j < (chunksOf secret Q).length := by omega
  obtain ⟨c, hcj, hcmem⟩ : ∃ c, (chunksOf secret Q).get? j = some c ∧ c ∈ chunksOf secret Q :=
    ⟨_, List.get?_eq_get hjc, List.get_mem (chunksOf secret Q) j hjc⟩
  obtain ⟨hFl, hKl, hF0, hle, hFt, hKall⟩ := hpolys j c (F, K) hcj hj
  simp only at hFl hKl hF0 hFt hKall
  have hclen := mem_chunksOf_length secret Q c hcmem
  have hlt : ((padValue c : Nat) : Int) < Q := by
    obtain ⟨qn, hqn⟩ : ∃ qn : Nat, Q = (qn : Int) := ⟨Q.toNat, by omega⟩
    have hqp : qn.Prime := by
      have := hf.primeQ
      rw [hqn] at this
      simpa using this
    rw [hqn] at hle hbits hclen ⊢
    exact_mod_cast padValue_lt qn hqp hbits c hclen (by exact_mod_cast hle)
  have hFnn : ∀ c ∈ F, 0 ≤ c := by
    intro c hc
    rcases mem_of_head_tail F _ hF0 c hc with e | e
    · rw [e]; omega
    · exact (hFt c e).1
  have hKnn : ∀ c ∈ K, 0 ≤ c := fun c hc => (hKall c hc).1
  have hFne : F ≠ [] := by
    intro e
    rw [e] at hF0
    cases hF0
  have hKne : K ≠ [] := by
    intro e
    rw [e] at hKl
    simp only [List.length_nil] at hKl
    omega
  have hFhd : F.headD 0 < Q := by
    cases F with
    | nil => exact absurd rfl hFne
    | cons c rest =>
      simp only [List.head?_cons, Option.some.injEq] at hF0
      simp only [List.headD_cons]
      rw [hF0]
      exact hlt
  have hKhd : K.headD 0 < Q := by
    cases K with
    | nil => exact absurd rfl hKne
    | cons c rest =>
      simp only [List.headD_cons]
      exact (hKall c (List.mem_cons_self _ _)).2
  refine ⟨hFl, hKl, hFnn, hKnn, ⟨c, hcj, hF0⟩, ?_, ?_⟩
  · intro k hk
    have hrow : sh.Commitments.getD j [] = commitmentsOf G H P F K p.threshold.toNat := by
      rw [hcomm, List.getD_eq_getElem?_getD, List.getElem?_map]
      have : polys[j]? = some (F, K) := by
        rw [← List.get?_eq_getElem?]
        exact hj
      rw [this]
      rfl
    rw [hrow]
    unfold commitmentsOf
    rw [List.get?_eq_getElem?, List.getElem?_map, List.getElem?_range hk]
    simp only [Option.map_some', Option.some.injEq]
    exact commitValue_eq G H P _ _ hP0 (hFnn _ (getD_mem_of_lt F k (by omega)))
      (hKnn _ (getD_mem_of_lt K k (by omega)))
  · intro i hi
    refine ⟨?_, ?_⟩
    · rw [partAt_split p.parts.toNat polys Q sh.Abscissae sh hparts i j hi (F, K) hj]
      rfl
    · intro hx
      exact ⟨evalValue_eq_emod F Q _ (by omega) hx hFnn hFne hFhd,
        evalValue_eq_emod K Q _ (by omega) hx hKnn hKne hKhd⟩

/-- C33, witness: the shares of the examples. -/
theorem C33_commitment_construction_witness :
    ∃ polys : List (List Int × List Int),
      polys.length = (chunksOf testSecret 8817354639505262309).length ∧
      testShares.Commitments.length = polys.length ∧
      ∀ j F K, polys.get? j = some (F, K) →
        F.length = testPedersen.threshold.toNat ∧ K.length = testPedersen.threshold.toNat ∧
        (∀ f ∈ F, 0 ≤ f) ∧ (∀ k ∈ K, 0 ≤ k) ∧
        (∃ c, (chunksOf testSecret 8817354639505262309).get? j = some c ∧
          F.head? = some ((padValue c : Nat) : Int)) ∧
        (∀ k, k < testPedersen.threshold.toNat →
          (testShares.Commitments.getD j []).get? k =
            some (some (((8414335786771157015 : Int) ^ (F.getD k 0).toNat *
              (15078279289296123424 : Int) ^ (K.getD k 0).toNat) % 17634709279010524619))) ∧
        (∀ i, i < testPedersen.parts.toNat →
          testShares.partAt i j =
            { SShare := some (evalValue F 8817354639505262309
                (abscissaAt testShares.Abscissae i)),
              TShare := some (evalValue K 8817354639505262309
                (abscissaAt testShares.Abscissae i)) } ∧
          (0 ≤ abscissaAt testShares.Abscissae i →
            evalValue F 8817354639505262309 (abscissaAt testShares.Abscissae i) =
              hornerSum (abscissaAt testShares.Abscissae i) F % 8817354639505262309 ∧
            evalValue K 8817354639505262309 (abscissaAt testShares.Abscissae i) =
              hornerSum (abscissaAt testShares.Abscissae i) K % 8817354639505262309)) :=
  C33_commitment_construction testPedersen 17634709279010524619 8817354639505262309
    8414335786771157015 15078279289296123424 testGroup_validate rfl testGroup_bitsQ
    testPedersen_validate (by decide) testSecret none testTape testShares testSplit_random

end pedersen

namespace pedersen

open big

/-! ## Claim C34: the check of the chunks against Q -/

/-- C34, counterexample. Over the validated group `alignedGroup`, with one
worker, the second padded chunk of `highLastSecret` is above Q, and `Split`
does not return ErrInvalidPrimeSize: the chunks are worked on in order, and
with a nil abscissa of the caller `Split` panics on the first chunk; and when
the random generator fails on the first chunk, `Split` returns that failure. -/
theorem C34_earlier_chunk_fails_first :
    alignedPedersenOne.group.validate = .ok () ∧ alignedPedersenOne.validate = .ok () ∧
    splitSecret highLastSecret 17634709279010524619 =
      .ok [72623859706101760, 18446744069414584320] ∧
    (17634709279010524619 : Int) ≤ 18446744069414584320 ∧
    alignedPedersenOne.Split highLastSecret (some nilFirstAbscissae) [1, 2, 3, 4, 5, 6] =
      (none, some Err.panicNilDereference) ∧
    alignedPedersenOne.Split highLastSecret none [5, 6, 7] = (none, some Err.tapeExhausted) :=
  ⟨alignedGroup_validate, by decide, highLastSecret_chunks, by decide, highLastSplit_panics,
    highLastSplit_generator_fails⟩

/-- C34, amended. For every validated group and scheme and every secret that
has a padded chunk greater than or equal to Q, a chunk equal to Q included
(which for the prime Q does not occur: the chunk is greater than Q), `Split`
returns no Shares; and it returns ErrInvalidPrimeSize when the abscissae are
those of the caller, at least n of which the first n are not nil, or are drawn
at random, and the random generator has outcomes for the 2 t - 1 coefficients
of every chunk. -/
theorem C34_chunk_check (p : Pedersen) (Q : Int) (hg : p.group.validate = .ok ())
    (hQ : p.group.Q = some Q) (hbits : BitLen Q < 2 ^ 31) (hv : p.validate = .ok ())
    (hc : 1 ≤ p.concLimit) (secret : List Byte) (a : Option (List (Option Int))) (tape : Tape)
    (splitted : List Int) (hsp : splitSecret secret Q = .ok splitted) (j : Nat) (v : Int)
    (hj : splitted.get? j = some v) (hbig : Q ≤ v) :
    Q < v ∧ (p.Split secret a tape).1 = none ∧
    (∀ l : List (Option Int), a = some l → p.parts ≤ (l.length : Int) →
      (∀ i, i < p.parts.toNat → ∃ x, l.get? i = some (some x)) →
      (2 * p.threshold.toNat - 1) * splitted.length ≤ tape.length →
      p.Split secret a tape = (none, some Err.ErrInvalidPrimeSize)) ∧
    (a = none → ∀ (xs : List Int) (tape1 : Tape),
      randInts p.parts.toNat 1 Q true tape = .ok (xs, tape1) →
      (2 * p.threshold.toNat - 1) * splitted.length ≤ tape1.length →
      p.Split secret a tape = (none, some Err.ErrInvalidPrimeSize)) := by
  obtain ⟨P, G, H, hf⟩ := GroupFacts.of_validate p.group Q hg hQ
  have hQ2 := hf.Q_pos
  have hQd : deref p.group.Q = .ok Q := by rw [hQ]; rfl
  rw [splitSecret_eq secret Q hbits] at hsp
  simp only [Except.ok.injEq] at hsp
  subst hsp
  rw [List.get?_eq_getElem?, List.getElem?_map] at hj
  cases hcj : (chunksOf secret Q)[j]? with
  | none => rw [hcj] at hj; cases hj
  | some c =>
    rw [hcj] at hj
    simp only [Option.map_some', Option.some.injEq] at hj
    subst hj
    have hcmem : c ∈ chunksOf secret Q := List.mem_iff_getElem?.2 ⟨j, hcj⟩
    have hclen := mem_chunksOf_length secret Q c hcmem
    have hlt : Q < ((padValue c : Nat) : Int) := by
      rcases lt_or_eq_of_le hbig with h | h
      · exact h
      · exfalso
        obtain ⟨qn, hqn⟩ : ∃ qn : Nat, Q = (qn : Int) := ⟨Q.toNat, by omega⟩
        have hqp : qn.Prime := by
          have := hf.primeQ
          rw [hqn] at this
          simpa using this
        rw [hqn] at h hbits hclen
        have := padValue_lt qn hqp hbits c hclen (by exact_mod_cast (le_of_eq h.symm))
        have h2 : (qn : Int) = ((padValue c : Nat) : Int) := h
        omega
    have hne : secret.length ≠ 0 := by
      intro h0
      have : secret = [] := List.length_eq_zero.mp h0
      rw [this] at hcmem
      revert hcmem
      unfold chunksOf partCountOf
      simp [chunksFrom]
    have herr : ∀ (xs : List (Option Int)) (tape1 : Tape),
        p.splitAbscissae a tape = .ok (xs, tape1) →
        (∀ i, i < p.parts.toNat → ∃ x, xs.get? i = some (some x)) →
        (2 * p.threshold.toNat - 1) * ((chunksOf secret Q).map
          (fun c => ((padValue c : Nat) : Int))).length ≤ tape1.length →
        p.Split secret a tape = (none, some Err.ErrInvalidPrimeSize) := by
      intro xs tape1 hsa habs htape
      have hcore := splitCore_chunk_error p P Q G H hf hv hc secret a tape _
        (splitSecret_eq secret Q hbits) j _
        (by
          rw [List.get?_eq_getElem?, List.getElem?_map, hcj]
          rfl) hlt xs tape1 hsa habs htape
      unfold Pedersen.Split
      rw [if_neg hne, hcore]
    refine ⟨hlt, ?_, ?_, ?_⟩
    · cases hres : p.Split secret a tape with
      | mk s e =>
        cases s with
        | none => rfl
        | some sh =>
          exfalso
          have he : e = none := by
            unfold Pedersen.Split at hres
            rw [if_neg hne] at hres
            cases hcore : p.splitCore secret a tape with
            | error err => rw [hcore] at hres; cases hres
            | ok sh2 =>
              rw [hcore] at hres
              simp only [Prod.mk.injEq] at hres
              exact hres.2.symm
          subst he
          obtain ⟨_, _, _, _, polys, hpl, hpolys, _, _⟩ :=
            Split_spec p P Q G H hf hv hc hbits secret a tape sh hres
          have hjc : j < (chunksOf secret Q).length := by
            by_contra hge
            rw [List.getElem?_eq_none (by omega)] at hcj
            cases hcj
          have hjp : j < polys.length := by omega
          obtain ⟨_, _, _, hle, _, _⟩ := hpolys j c (polys.get ⟨j, hjp⟩)
            (by rw [List.get?_eq_getElem?]; exact hcj) (List.get?_eq_get hjp)
          omega
    · intro l ha hlen habs htape
      apply herr l tape _ habs htape
      rw [ha]
      unfold Pedersen.splitAbscissae
      simp only []
      rw [if_neg (by omega)]
    · intro ha xs tape1 hr htape
      obtain ⟨hxl, _, _⟩ := randInts_ok _ _ _ _ _ _ _ hr
      apply herr (xs.map some) tape1 _ _ htape
      · rw [ha]
        unfold Pedersen.splitAbscissae
        simp only [hQd, ok_bind, hr]
        rfl
      · intro i hi
        have hi2 : i < xs.length := by omega
        refine ⟨xs.get ⟨i, hi2⟩, ?_⟩
        rw [List.get?_eq_getElem?, List.getElem?_map, List.getElem?_eq_getElem hi2]
        rfl

/-- C34, witness: over a group whose Q has 64 bits, a secret of four bytes
0xFF, whose only padded chunk is above Q, with abscissae drawn at random and
outcomes of the generator for the coefficients of the chunk. -/
theorem C34_chunk_check_witness :
    alignedPedersen.Split alignedSecret none [5, 6, 7, 1, 2, 3] =
      (none, some Err.ErrInvalidPrimeSize) :=
  (C34_chunk_check alignedPedersen 17634709279010524619 alignedGroup_validate rfl (by decide)
    (by decide) (by decide) alignedSecret none [5, 6, 7, 1, 2, 3] [18446744069414584320]
    alignedSecret_chunks 0 18446744069414584320 rfl (by decide)).2.2.2 rfl [6, 7, 8] [1, 2, 3]
    alignedAbscissae_drawn (by decide)

end pedersen

namespace pedersen

open big

/-! ## Claim C35: interpolation on distinct points -/

/-- C35, counterexample. For the prime order 3, the single abscissa 1 and the
ordinate -1, `interpolatePolynomial` at x = 0 returns -1, which is not in
[0, 3): the final reduction gives the remainder the sign of the sum. -/
theorem C35_negative_ordinate :
    Nat.Prime 3 ∧ interpolatePolynomial [1] [-1] 0 3 = .ok (-1) ∧ ¬ (0 ≤ (-1 : Int)) :=
  ⟨Nat.prime_three, by decide, by decide⟩

/-- C35, amended. For every prime order, every list of abscissae pairwise
distinct modulo order, every ordinates list of the same length and every x,
`interpolatePolynomial` returns a value and no error, and the value lies
strictly between -order and order; it lies in [0, order) when x = 0 and the
abscissae and ordinates are non-negative. -/
theorem C35_interpolation_total (q : Nat) (hq : q.Prime) (xs ys : List Int) (x : Int)
    (hlen : ys.length = xs.length) (hdist : (xs.map (fun a => a % (q : Int))).Nodup) :
    ∃ r, interpolatePolynomial xs ys x (q : Int) = .ok r ∧ -(q : Int) < r ∧ r < q ∧
      (x = 0 → (∀ a ∈ xs, 0 ≤ a) → (∀ y ∈ ys, 0 ≤ y) → 0 ≤ r) := by
  haveI : Fact q.Prime := ⟨hq⟩
  have hq0 : (0 : Int) < q := by
    have := hq.pos
    omega
  have hinj : ∀ i j (hi : i < xs.length) (hj : j < xs.length),
      ((xs.get ⟨i, hi⟩ : Int) : ZMod q) = ((xs.get ⟨j, hj⟩ : Int) : ZMod q) → i = j := by
    intro i j hi hj h
    have hmod : xs.get ⟨i, hi⟩ % (q : Int) = xs.get ⟨j, hj⟩ % (q : Int) :=
      (ZMod.intCast_eq_intCast_iff _ _ q).1 h
    have hi2 : i < (xs.map (fun a => a % (q : Int))).length := by simpa using hi
    have hj2 : j < (xs.map (fun a => a % (q : Int))).length := by simpa using hj
    have heq : (xs.map (fun a => a % (q : Int))).get ⟨i, hi2⟩ =
        (xs.map (fun a => a % (q : Int))).get ⟨j, hj2⟩ := by
      simpa using hmod
    have := (List.Nodup.get_inj_iff hdist).1 heq
    exact Fin.mk.inj_iff.mp this
  have hall : ∀ e ∈ xs.enum, e.1 < ys.length ∧
      ∀ e2 ∈ xs.enum, e2.1 ≠ e.1 → (((e2.2 - e.2 : Int)) : ZMod q) ≠ 0 := by
    intro e he
    obtain ⟨h1, h2⟩ := (mem_enum_iff xs e).1 he
    refine ⟨by omega, ?_⟩
    intro e2 he2 hne hc
    obtain ⟨h3, h4⟩ := (mem_enum_iff xs e2).1 he2
    apply hne
    apply hinj e2.1 e.1 h3 h1
    rw [h2, h4]
    push_cast at hc
    exact sub_eq_zero.mp hc
  obtain ⟨S, hS, _, hnn⟩ := interpolateLoop_spec q xs ys x xs.enum 0 hall
  refine ⟨S.tmod (q : Int), ?_, ?_, Int.tmod_lt_of_pos _ hq0, ?_⟩
  · simp only [interpolatePolynomial, hS, bind, Except.bind, Mod_prime]
  · exact (tmod_bounds S (q : Int) hq0).1
  · intro hx hxs hys
    have h0 : 0 ≤ S := hnn hx le_rfl (by
      intro e he
      obtain ⟨h1, h2⟩ := (mem_enum_iff xs e).1 he
      rw [← h2]
      exact hxs _ (List.get_mem _ _ _)) hys
    exact Int.tmod_nonneg _ h0

/-- C35, witness: the points (6, 1) and (8, 2) modulo 7. -/
theorem C35_interpolation_total_witness :
    ∃ r, interpolatePolynomial [6, 8] [1, 2] 0 ((7 : Nat) : Int) = .ok r ∧
      -((7 : Nat) : Int) < r ∧ r < (7 : Nat) ∧
      ((0 : Int) = 0 → (∀ a ∈ ([6, 8] : List Int), 0 ≤ a) →
        (∀ y ∈ ([1, 2] : List Int), 0 ≤ y) → 0 ≤ r) :=
  C35_interpolation_total 7 (by norm_num) [6, 8] [1, 2] 0 rfl (by decide)

end pedersen

namespace pedersen

open big

/-! ## Claims C36, C37, C38 and C40 -/

/-- C36. Distinct sampling: for every slice length and range, whenever
`randInts(slice, min, max, true)` returns without error, it has written a
value to every entry of the slice and the values are pairwise distinct. -/
theorem C36_distinct_sampling (n : Nat) (min max : Int) (tape tape2 : Tape) (vals : List Int)
    (h : randInts n min max true tape = .ok (vals, tape2)) :
    vals.length = n ∧ vals.Nodup ∧
    ∀ (i j : Nat) (hi : i < vals.length) (hj : j < vals.length),
      i ≠ j → vals.get ⟨i, hi⟩ ≠ vals.get ⟨j, hj⟩ := by
  obtain ⟨h1, _, h3⟩ := randInts_ok n min max true tape tape2 vals h
  have hnd := h3 rfl
  refine ⟨h1, hnd, ?_⟩
  intro i j hi hj hij heq
  apply hij
  have := (List.Nodup.get_inj_iff hnd).1 heq
  exact Fin.mk.inj_iff.mp this

/-- C36, witness: three abscissae below the Q of the test-suite, the second
draw colliding with the first one. -/
theorem C36_distinct_sampling_witness :
    randInts 3 1 8817354639505262309 true [5, 5, 7, 8] = .ok ([6, 8, 9], []) ∧
    ([6, 8, 9] : List Int).length = 3 ∧ ([6, 8, 9] : List Int).Nodup ∧
    ∀ (i j : Nat) (hi : i < ([6, 8, 9] : List Int).length)
      (hj : j < ([6, 8, 9] : List Int).length),
      i ≠ j → ([6, 8, 9] : List Int).get ⟨i, hi⟩ ≠ ([6, 8, 9] : List Int).get ⟨j, hj⟩ :=
  ⟨testAbscissae_drawn,
    C36_distinct_sampling 3 1 8817354639505262309 [5, 5, 7, 8] [] [6, 8, 9] testAbscissae_drawn⟩

/-- C37. Validated generators have order exactly Q: for every Group accepted
by validation, G and H are different from 1 modulo P and each has
multiplicative order exactly Q in the integers modulo P, so the modular
exponentiation of G and of H gives the same result for a non-negative exponent
and for that exponent reduced modulo Q. -/
theorem C37_generators_order (g : Group) (hg : g.validate = .ok ()) :
    ∃ P Q G H : Int, g = { P := some P, Q := some Q, G := some G, H := some H } ∧
      G % P ≠ 1 ∧ H % P ≠ 1 ∧
      orderOf ((G : Int) : ZMod P.toNat) = Q.toNat ∧
      orderOf ((H : Int) : ZMod P.toNat) = Q.toNat ∧
      ∀ e : Int, 0 ≤ e →
        modExpValue G e P = modExpValue G (e % Q) P ∧
        modExpValue H e P = modExpValue H (e % Q) P := by
  obtain ⟨P, Q, G, H, hf⟩ := Group.validate_ok g hg
  obtain ⟨Pn, q, rfl, rfl, hPp, hqp, hG, hH, hG1, hH1⟩ := hf.casts
  haveI : Fact Pn.Prime := ⟨hPp⟩
  have hP0 : (0 : Int) < Pn := by
    have := hPp.pos
    omega
  have hq0 : (0 : Int) < q := by
    have := hqp.pos
    omega
  refine ⟨Pn, q, G, H, hf.eq, ?_, ?_, ?_, ?_, ?_⟩
  · intro h
    apply hG1
    rw [← cast_emod, h]
    exact Int.cast_one
  · intro h
    apply hH1
    rw [← cast_emod, h]
    exact Int.cast_one
  · rw [Int.toNat_ofNat, Int.toNat_ofNat]
    exact orderOf_generator Pn q hqp _ hG hG1
  · rw [Int.toNat_ofNat, Int.toNat_ofNat]
    exact orderOf_generator Pn q hqp _ hH hH1
  · intro e he
    have hred : ∀ x : Int, ((x : Int) : ZMod Pn) ^ q = 1 →
        modExpValue x e Pn = modExpValue x (e % q) Pn := by
      intro x hx
      have hr1 : 0 ≤ modExpValue x e Pn ∧ modExpValue x e Pn < Pn := by
        rw [modExpValue_eq x e Pn hP0]
        exact ⟨Int.emod_nonneg _ (by omega), Int.emod_lt_of_pos _ hP0⟩
      have hr2 : 0 ≤ modExpValue x (e % q) Pn ∧ modExpValue x (e % q) Pn < Pn := by
        rw [modExpValue_eq x (e % q) Pn hP0]
        exact ⟨Int.emod_nonneg _ (by omega), Int.emod_lt_of_pos _ hP0⟩
      apply cast_inj_of_range Pn _ _ hr1 hr2
      rw [cast_modExpValue Pn hPp.pos, cast_modExpValue Pn hPp.pos]
      have hnn : 0 ≤ e % (q : Int) := Int.emod_nonneg _ (by omega)
      have e1 : (e % (q : Int)).natAbs = e.natAbs % q := by
        have h1 : ((e.natAbs % q : Nat) : Int) = e % (q : Int) := by
          rw [Int.natCast_mod, Int.natCast_natAbs, abs_of_nonneg he]
        omega
      rw [e1, pow_mod_of_pow_eq_one _ q hx]
    exact ⟨hred G hG, hred H hH⟩

/-- C37, witness: the group of the test-suite. -/
theorem C37_generators_order_witness :
    ∃ P Q G H : Int, testGroup = { P := some P, Q := some Q, G := some G, H := some H } ∧
      G % P ≠ 1 ∧ H % P ≠ 1 ∧
      orderOf ((G : Int) : ZMod P.toNat) = Q.toNat ∧
      orderOf ((H : Int) : ZMod P.toNat) = Q.toNat ∧
      ∀ e : Int, 0 ≤ e →
        modExpValue G e P = modExpValue G (e % Q) P ∧
        modExpValue H e P = modExpValue H (e % Q) P :=
  C37_generators_order testGroup testGroup_validate

/-- C38, failing input. The Shares `emptyRowsShares`, whose rows of Parts and
whose Commitments are empty, are accepted by `validateShares`, and on them
`Combine` and `VerifyShares` do not return: the number of chunks 0 caps the
worker count to 0 and `balanceIndices` divides by it. -/
theorem C38_zero_chunks_divide_by_zero :
    testPedersen.validateShares (some emptyRowsShares) = .ok () ∧
    testPedersen.adjustConcLimit 0 = 0 ∧
    testPedersen.balanceIndices 0 0 = .error Err.panicDivideByZero ∧
    testPedersen.balanceIndices testPedersen.parts 0 = .error Err.panicDivideByZero ∧
    testPedersen.Combine (some emptyRowsShares) = .error Err.panicDivideByZero ∧
    testPedersen.VerifyShares (some emptyRowsShares) = .error Err.panicDivideByZero :=
  ⟨emptyRowsShares_accepted, by decide, by decide, by decide, emptyRowsShares_combine,
    emptyRowsShares_verify⟩

/-- C40. Constructor invariant: every Pedersen returned by `NewPedersen`, for
every parts, threshold and every list of CyclicGroup and ConcLimit options with
any argument, the number of CPUs being at least 1, has the threshold and the
parts of the call with threshold >= 2 and parts >= threshold, has
GetConcLimit() >= 1, and holds a supplied group only if the group passed
validation. -/
theorem C40_constructor_invariant (defaultConcLimit : Int) (hd : 1 ≤ defaultConcLimit)
    (GeneratePrime : Int → Bool → Except Err Int) (parts threshold : Int) (options : List Opt)
    (tape tape2 : Tape) (p : Pedersen)
    (h : NewPedersen defaultConcLimit GeneratePrime parts threshold options tape =
      .ok (p, tape2)) :
    p.GetThreshold = threshold ∧ p.GetParts = parts ∧
    2 ≤ p.GetThreshold ∧ p.GetThreshold ≤ p.GetParts ∧ 1 ≤ p.GetConcLimit ∧
    (∀ g : Group, (configure defaultConcLimit parts threshold options).group = some g →
      p.GetGroup = g ∧ g.validate = .ok ()) := by
  obtain ⟨h1, h2, h3, hv, _⟩ :=
    NewPedersen_ok defaultConcLimit GeneratePrime parts threshold options tape tape2 p h
  obtain ⟨c1, c2, c3⟩ := configure_fields defaultConcLimit hd parts threshold options
  obtain ⟨b1, b2⟩ := Pedersen.validate_bounds p hv
  unfold Pedersen.GetThreshold Pedersen.GetParts Pedersen.GetConcLimit
  refine ⟨by rw [h1, c1], by rw [h2, c2], b1, b2, by rw [h3]; exact c3, ?_⟩
  intro g hsel
  obtain ⟨g1, g2, _⟩ := NewPedersen_of_group defaultConcLimit GeneratePrime parts threshold
    options tape tape2 g p hsel h
  exact ⟨g1, g2⟩

/-- C40, witness: three parts with threshold two over the group of the
test-suite, with the option ConcLimit(-5) on a machine of four CPUs. -/
theorem C40_constructor_invariant_witness :
    testPedersen.GetThreshold = 2 ∧ testPedersen.GetParts = 3 ∧
    2 ≤ testPedersen.GetThreshold ∧ testPedersen.GetThreshold ≤ testPedersen.GetParts ∧
    1 ≤ testPedersen.GetConcLimit ∧
    (∀ g : Group,
      (configure 4 3 2 [Opt.CyclicGroup (some testGroup), Opt.ConcLimit (-5)]).group = some g →
      testPedersen.GetGroup = g ∧ g.validate = .ok ()) :=
  C40_constructor_invariant 4 (by decide) (fun _ _ => .error Err.ErrInvalidOptions) 3 2
    [Opt.CyclicGroup (some testGroup), Opt.ConcLimit (-5)] [] [] testPedersen testNewPedersen

end pedersen

namespace pedersen

open big

/-! ## Claim C39: the chunks are never empty -/

/-- C39. Chunks are never empty: for every non-empty byte string and every
modulus, `splitSecret` returns at least one integer, one for every slice, and
every byte slice it passes to `bigIntPadding` (and so to `SetBytes`) is cut
with bounds within the input, is non-empty and at most partLen bytes long, and
is padded without error. -/
theorem C39_chunks_nonempty (value : List Byte) (hv : value ≠ []) (max : Int) :
    ∃ splitted, splitSecret value max = .ok splitted ∧ 1 ≤ splitted.length ∧
      splitted.length = partCountOf value.length (partLenOf max) ∧
      ∀ i, i < splitted.length →
        i * partLenOf max < value.length ∧
        ∃ c n, goSlice value (i * partLenOf max)
            (min ((i + 1) * partLenOf max) value.length) = .ok c ∧
          c ≠ [] ∧ c.length ≤ partLenOf max ∧ SetBytes c = .ok ((bytesToNat c : Nat) : Int) ∧
          bigIntPadding c = .ok n ∧ splitted.get? i = some n := by
  have hpl := partLenOf_pos max
  have hL : 1 ≤ value.length := List.length_pos.mpr hv
  obtain ⟨h1, h2⟩ := partCountOf_spec value.length (partLenOf max) hpl
  obtain ⟨l, hl, hlen, hall⟩ := splitSecretLoop_total value (partLenOf max) hpl
    (partCountOf value.length (partLenOf max)) 0 (by
      intro h
      have := h1 h
      simpa using this)
  refine ⟨l, ?_, ?_, hlen, ?_⟩
  · unfold splitSecret
    exact hl
  · rw [hlen]
    by_contra hc
    have : partCountOf value.length (partLenOf max) = 0 := by omega
    rw [this] at h2
    omega
  · intro i hi
    rw [hlen] at hi
    obtain ⟨a1, c, n, a2, a3, a4, a5, a6⟩ := hall i hi
    simp only [Nat.zero_add] at a1 a2
    exact ⟨a1, c, n, a2, a3, a4, SetBytes_of_ne_nil c a3, a5, a6⟩

/-- C39, witness: the secret of five bytes of the examples under the Q of the
test-suite: two slices. -/
theorem C39_chunks_nonempty_witness :
    ∃ splitted, splitSecret testSecret 8817354639505262309 = .ok splitted ∧
      1 ≤ splitted.length ∧
      splitted.length = partCountOf testSecret.length (partLenOf 8817354639505262309) ∧
      ∀ i, i < splitted.length →
        i * partLenOf 8817354639505262309 < testSecret.length ∧
        ∃ c n, goSlice testSecret (i * partLenOf 8817354639505262309)
            (min ((i + 1) * partLenOf 8817354639505262309) testSecret.length) = .ok c ∧
          c ≠ [] ∧ c.length ≤ partLenOf 8817354639505262309 ∧
          SetBytes c = .ok ((bytesToNat c : Nat) : Int) ∧
          bigIntPadding c = .ok n ∧ splitted.get? i = some n :=
  C39_chunks_nonempty testSecret (by decide) 8817354639505262309

end pedersen
